import Mathlib

/-!
Grace-hash merging aggregation: embedding and verified properties.

Shallow embedding of `GraceMergingAggregatedTransform`
(`cpp-ch/local-engine/Operator/GraceMergingAggregatedStep.cpp`).

* A `Block` is a list of rows plus `info.bucket_num` (an `Int32`, `-1` by default).
* The collaborators the operator borrows (the aggregator, the key hash used by
  `scatterBlockByHash`, block byte sizes, the memory tracker and the two settings)
  are the fields of `Env`; the operator never looks inside them.
* The member variables of the transform are the fields of `Transform`.  `buckets`
  maps the keys `0 .. B-1` to their entries; entry `i` is stored at position `i`, and
  `getBucketsNum` is the number of entries.
* A member function that can throw returns `Except (Err × Transform) _`; the state
  carried by an error is the state of the object when the exception left the function.
* `per_key_memory_usage` is a `double` in the source.  The doubles that occur are finite
  and not negative; such a value is kept as the rational it stands for (`Fraction`).
  A conversion from an unsigned integer, a product, a sum and a quotient of doubles are
  the exact results rounded to the nearest double, a tie to the even significand
  (`roundDouble`), every operation rounded on its own; a comparison of doubles is the
  comparison of the rationals.
* Stopwatch readings are not modelled.
-/

namespace GraceMerging

/-- A block (batch): its rows and `info.bucket_num`. -/
structure Block (ρ : Type) where
  rows : List ρ
  bucket_num : Int := -1
deriving DecidableEq

/-- A finite `double` that is not negative, as the quotient `num / den` it stands for. -/
structure Fraction where
  num : Nat
  den : Nat
deriving DecidableEq

/-- The rational number a quotient stands for. -/
def Fraction.toRat (q : Fraction) : ℚ := (q.num : ℚ) / (q.den : ℚ)

/-- Number of binary digits of `n`, by at most `fuel` halvings. -/
def bitLengthAux : Nat → Nat → Nat
  | 0, _ => 0
  | fuel + 1, n => if n = 0 then 0 else bitLengthAux fuel (n / 2) + 1

/-- Number of binary digits of `n`: 0 for 0, else the `k` with `2 ^ (k - 1) ≤ n < 2 ^ k`. -/
def bitLength (n : Nat) : Nat := bitLengthAux n n

/-- The quotient `n / d` rounded to the nearest integer, a tie to the even one. -/
def roundHalfEven (n d : Nat) : Nat :=
  if 2 * (n % d) > d ∨ (2 * (n % d) = d ∧ n / d % 2 = 1) then n / d + 1 else n / d

/-- The `double` nearest to `num / den` (IEEE 754 binary64, round to nearest, ties to
even), in lowest terms.  The quotient is scaled by a power of two so that its integer
part has at least 54 binary digits; the digits beyond the 53 of the significand are
rounded away.  Exponents are not bounded: the values that occur, made of 64-bit
integers by one quotient, one product and one sum, are far inside the range of normal
doubles. -/
def roundDouble (num den : Nat) : Fraction :=
  if num = 0 ∨ den = 0 then { num := 0, den := 1 }
  else
    let shift := 53 + bitLength den
    let scaled := num * 2 ^ shift
    let extra := bitLength (scaled / den) - 53
    let mant := roundHalfEven scaled (den * 2 ^ extra)
    let g := Nat.gcd (mant * 2 ^ extra) (2 ^ shift)
    { num := mant * 2 ^ extra / g, den := 2 ^ shift / g }

/-- The `double` 1.0. -/
def Fraction.one : Fraction := { num := 1, den := 1 }

/-- Conversion of an unsigned integer to `double`. -/
def Fraction.ofNat (n : Nat) : Fraction := roundDouble n 1

/-- Product of two doubles. -/
def Fraction.mul (a b : Fraction) : Fraction := roundDouble (a.num * b.num) (a.den * b.den)

/-- Sum of two doubles. -/
def Fraction.add (a b : Fraction) : Fraction :=
  roundDouble (a.num * b.den + b.num * a.den) (a.den * b.den)

/-- Quotient of two doubles, the divisor not zero. -/
def Fraction.div (a b : Fraction) : Fraction := roundDouble (a.num * b.den) (a.den * b.num)

/-- The comparison `a >= b` of two doubles. -/
def Fraction.ge (a b : Fraction) : Bool := decide (b.num * a.den ≤ a.num * b.den)

/-- Entries of the log written through `LOG_INFO` and `LOG_TRACE`. -/
inductive LogEvent where
  | extendBuckets (current_size next_size : Nat)
  | flush (flush_bytes before_mem after_mem : Nat)
  | prepareOutput (bucket read_bytes read_rows : Nat)
  | mergeOnBlock (rows bytes : Nat) (bucket : Int) (current_bucket total_bucket mem_used : Nat)
  | memoryOverflow (current_mem_used max_mem_used result_rows buckets : Nat)
  | memoryOverflowHalf (current_mem_used max_mem_used buckets : Nat)
deriving DecidableEq

/-- What can end a member function abnormally: the exception of `extendBuckets`, an
index past the end of a `Blocks` vector, a dereferenced null `current_data_variants`,
a failed `assert`. -/
inductive Err where
  | tooManyBuckets
  | outOfBounds
  | nullPointer
  | assertion
deriving DecidableEq

/-- The collaborators and settings of one operator instance. -/
structure Env (ρ σ : Type) where
  /-- hash of the key columns of a row, as used by `JoinCommon::scatterBlockByHash` -/
  hash : ρ → Nat
  /-- a freshly made `AggregatedDataVariants` -/
  emptyVariants : σ
  /-- `Aggregator::mergeOnBlock(block, variants, no_more_keys)`; the last two are updated -/
  mergeOnBlock : Block ρ → σ → Bool → σ × Bool
  /-- `Aggregator::convertToBlocks(variants, final, 1)` -/
  convertToBlocks : σ → Bool → List (Block ρ)
  /-- `AggregatedDataVariants::size()` -/
  variantsSize : σ → Nat
  /-- `Block::bytes()` -/
  bytes : Block ρ → Nat
  /-- `Block::allocatedBytes()` -/
  allocatedBytes : Block ρ → Nat
  /-- value of the parent memory tracker at the n-th time it is read -/
  memory : Nat → Int
  /-- setting `max_memory_usage` (UInt64) -/
  max_memory_usage : Nat
  /-- member `max_buckets` -/
  max_buckets : Nat
  /-- whether `assert` is compiled in -/
  assertions : Bool

/-- One entry of `buckets`: the queued blocks and the temporary stream (the blocks
written to it so far), `none` for a null pointer. -/
structure BufferFileStream (ρ : Type) where
  blocks : List (Block ρ) := []
  file_stream : Option (List (Block ρ)) := none
deriving DecidableEq

/-- Member variables of `GraceMergingAggregatedTransform`. -/
structure Transform (ρ σ : Type) where
  buckets : List (BufferFileStream ρ)
  current_bucket_index : Nat
  current_data_variants : Option σ
  no_more_keys : Bool
  per_key_memory_usage : Fraction
  current_final_blocks : List (Block ρ)
  has_input : Bool
  has_output : Bool
  input_finished : Bool
  input_chunk : List ρ
  output_chunk : List ρ
  total_input_blocks : Nat
  total_input_rows : Nat
  total_output_blocks : Nat
  total_output_rows : Nat
  total_spill_disk_bytes : Nat
  /-- how many times the memory tracker has been read -/
  mem_queries : Nat
  log : List LogEvent
deriving DecidableEq

deriving instance DecidableEq for Except

/-- Result of a member function that may throw. -/
abbrev Result (ρ σ α : Type) := Except (Err × Transform ρ σ) α

section Operator

variable {ρ σ : Type}

/-- Value of `static_cast<Int32>(n)` for a `size_t` n. -/
def toInt32 (n : Nat) : Int :=
  if n % 2 ^ 32 < 2 ^ 31 then ((n % 2 ^ 32 : Nat) : Int) else ((n % 2 ^ 32 : Nat) : Int) - 2 ^ 32

/-- Value of `static_cast<size_t>(i)` for an `Int32` i. -/
def toSizeT (i : Int) : Nat := (i % 2 ^ 64).toNat

/-- The state built by the constructor: one bucket, a fresh aggregation state. -/
def Transform.init (env : Env ρ σ) : Transform ρ σ where
  buckets := [{}]
  current_bucket_index := 0
  current_data_variants := some env.emptyVariants
  no_more_keys := false
  per_key_memory_usage := { num := 0, den := 1 }
  current_final_blocks := []
  has_input := false
  has_output := false
  input_finished := false
  input_chunk := []
  output_chunk := []
  total_input_blocks := 0
  total_input_rows := 0
  total_output_blocks := 0
  total_output_rows := 0
  total_spill_disk_bytes := 0
  mem_queries := 0
  log := []

/-- Number of entries of `buckets`. -/
def getBucketsNum (t : Transform ρ σ) : Nat := t.buckets.length

/-- The entry `buckets[i]`. -/
def bucketAt (t : Transform ρ σ) (i : Nat) : BufferFileStream ρ := t.buckets.getD i {}

/-- Store an entry back at `buckets[i]`. -/
def setBucket (t : Transform ρ σ) (i : Nat) (b : BufferFileStream ρ) : Transform ρ σ :=
  { t with buckets := t.buckets.set i b }

/-- Reads the memory tracker once; a negative reading counts as 0. -/
def getMemoryUsage (env : Env ρ σ) (t : Transform ρ σ) : Nat × Transform ρ σ :=
  let current_memory_usage := env.memory t.mem_queries
  ((if current_memory_usage < 0 then 0 else current_memory_usage.toNat),
    { t with mem_queries := t.mem_queries + 1 })

/-- The memory predicate.  With `q = per_key_memory_usage`, the test `q > 0` is
`0 < num ∧ 0 < den`.  In `current_mem_used + q * current_result_rows >= max_mem_used` the
three unsigned integers are converted to `double`, and the product and the sum are those
of doubles, each rounded on its own (the product is not fused with the sum). -/
def isMemoryOverflow (env : Env ρ σ) (t : Transform ρ σ) : Result ρ σ (Bool × Transform ρ σ) :=
  if env.max_memory_usage = 0 then .ok (false, t)
  else
    let max_mem_used : Nat := env.max_memory_usage * 8 % 2 ^ 64 / 10
    match t.current_data_variants with
    | none => .error (.nullPointer, t)
    | some variants =>
      let current_result_rows := env.variantsSize variants
      let (current_mem_used, t) := getMemoryUsage env t
      if 0 < t.per_key_memory_usage.num ∧ 0 < t.per_key_memory_usage.den then
        if Fraction.ge
            (Fraction.add (Fraction.ofNat current_mem_used)
              (Fraction.mul t.per_key_memory_usage (Fraction.ofNat current_result_rows)))
            (Fraction.ofNat max_mem_used) then
          .ok (true, { t with log := t.log ++
            [.memoryOverflow current_mem_used max_mem_used current_result_rows (getBucketsNum t)] })
        else .ok (false, t)
      else
        if current_mem_used * 2 % 2 ^ 64 ≥ env.max_memory_usage then
          .ok (true, { t with log := t.log ++
            [.memoryOverflowHalf current_mem_used env.max_memory_usage (getBucketsNum t)] })
        else .ok (false, t)

/-- Doubles the number of buckets, or throws when the limit would be passed. -/
def extendBuckets (env : Env ρ σ) (t : Transform ρ σ) : Result ρ σ (Transform ρ σ) :=
  let current_size := getBucketsNum t
  let next_size := current_size * 2
  if next_size > env.max_buckets then .error (.tooManyBuckets, t)
  else
    .ok { t with
      log := t.log ++ [.extendBuckets current_size next_size]
      buckets := t.buckets ++ (List.range' current_size (next_size - current_size)).map fun _ => {} }

/-- Rows of a block whose key hash falls in shard `i` of `n`: one output of
`JoinCommon::scatterBlockByHash`. -/
def scatterBlockByHash (env : Env ρ σ) (block : Block ρ) (num_shards : Nat) : List (Block ρ) :=
  (List.range num_shards).map fun i =>
    { block with rows := block.rows.filter fun r => env.hash r % num_shards == i }

/-- Splits a block by key hash over the current buckets. -/
def scatterBlock (env : Env ρ σ) (t : Transform ρ σ) (block : Block ρ) : List (Block ρ) :=
  if block.rows.length = 0 then []
  else
    let bucket_num := getBucketsNum t
    if toSizeT block.bucket_num = bucket_num then [block]
    else
      (scatterBlockByHash env block bucket_num).map fun new_block =>
        { new_block with bucket_num := toInt32 bucket_num }

/-- Queues a block for a bucket; a block without rows is ignored. -/
def addBlockIntoFileBucket (t : Transform ρ σ) (bucket_index : Nat) (block : Block ρ) :
    Transform ρ σ :=
  if block.rows.length = 0 then t
  else
    let file_stream := bucketAt t bucket_index
    setBucket t bucket_index { file_stream with blocks := file_stream.blocks ++ [block] }

/-- The inner loop of `flushBucket`: moves blocks from the front of the queue to the
back of `blocks` until the queue is empty or the tag changes. -/
def takeRun : List (Block ρ) → List (Block ρ) → List (Block ρ) × List (Block ρ)
  | blocks, [] => (blocks, [])
  | blocks, front :: queue =>
    match blocks.getLast? with
    | some back =>
      if back.bucket_num ≠ front.bucket_num then (blocks, front :: queue)
      else takeRun (blocks ++ [front]) queue
    | none => takeRun (blocks ++ [front]) queue

/-- Result of `DB::concatenateBlocks`: the rows of the blocks, in order. -/
def concatenateBlocks (blocks : List (Block ρ)) : Block ρ :=
  { rows := (blocks.map Block.rows).flatten }

/-- The outer loop of `flushBucket`; every round takes at least one block off the
queue, so `queue.length` rounds are enough.  Returns the queue left, the stream and
the bytes counted. -/
def flushRuns (env : Env ρ σ) :
    Nat → List (Block ρ) → List (Block ρ) → Nat → List (Block ρ) × List (Block ρ) × Nat
  | 0, queue, stream, flush_bytes => (queue, stream, flush_bytes)
  | rounds + 1, queue, stream, flush_bytes =>
    if queue.isEmpty then (queue, stream, flush_bytes)
    else
      let (blocks, queue) := takeRun [] queue
      let bucket := (blocks.head?.map Block.bucket_num).getD (-1)
      let merged_block := { concatenateBlocks blocks with bucket_num := bucket }
      let flush_bytes := flush_bytes + env.bytes merged_block
      let stream := if merged_block.rows.length ≠ 0 then stream ++ [merged_block] else stream
      flushRuns env rounds queue stream flush_bytes

/-- Writes the queue of one bucket to its temporary stream; returns the bytes flushed. -/
def flushBucket (env : Env ρ σ) (t : Transform ρ σ) (bucket_index : Nat) : Nat × Transform ρ σ :=
  let file_stream := bucketAt t bucket_index
  if file_stream.blocks.isEmpty then (0, t)
  else
    let stream := file_stream.file_stream.getD []
    let (queue, stream, flush_bytes) :=
      flushRuns env file_stream.blocks.length file_stream.blocks stream 0
    (flush_bytes, setBucket t bucket_index { blocks := queue, file_stream := some stream })

/-- The loop of `flushBuckets` over the bucket indices given. -/
def flushEach (env : Env ρ σ) : List Nat → Transform ρ σ → Nat → Nat × Transform ρ σ
  | [], t, flush_bytes => (flush_bytes, t)
  | i :: is, t, flush_bytes =>
    let (n, t) := flushBucket env t i
    flushEach env is t (flush_bytes + n)

/-- Bucket indices `current_bucket_index + 1 .. getBucketsNum - 1`. -/
def laterBuckets (t : Transform ρ σ) : List Nat :=
  List.range' (t.current_bucket_index + 1) (getBucketsNum t - (t.current_bucket_index + 1))

/-- Flushes every bucket after the current one. -/
def flushBuckets (env : Env ρ σ) (t : Transform ρ σ) : Transform ρ σ :=
  let (before_mem, t) := getMemoryUsage env t
  let (flush_bytes, t) := flushEach env (laterBuckets t) t 0
  let t := { t with total_spill_disk_bytes := t.total_spill_disk_bytes + flush_bytes }
  let (after_mem, t) := getMemoryUsage env t
  { t with log := t.log ++ [.flush flush_bytes before_mem after_mem] }

/-- The loop `for i ...: addBlockIntoFileBucket(i, scattered_blocks[i])`. -/
def addScattered (scattered_blocks : List (Block ρ)) :
    List Nat → Transform ρ σ → Result ρ σ (Transform ρ σ)
  | [], t => .ok t
  | i :: is, t =>
    match scattered_blocks[i]? with
    | none => .error (.outOfBounds, t)
    | some block => addScattered scattered_blocks is (addBlockIntoFileBucket t i block)

/-- Feeds one block into `*current_data_variants` through the aggregator. -/
def mergeIntoVariants (env : Env ρ σ) (t : Transform ρ σ) (block : Block ρ) :
    Result ρ σ (Transform ρ σ) :=
  match t.current_data_variants with
  | none => .error (.nullPointer, t)
  | some variants =>
    let (variants, no_more_keys) := env.mergeOnBlock block variants t.no_more_keys
    .ok { t with current_data_variants := some variants, no_more_keys := no_more_keys }

/-- Body of the second loop of `rehashDataVariants` for one converted block. -/
def rehashBlock (env : Env ρ σ) (t : Transform ρ σ) (block : Block ρ) :
    Result ρ σ (Transform ρ σ) :=
  let scattered_blocks := scatterBlock env t block
  match addScattered scattered_blocks (laterBuckets t) t with
  | .error e => .error e
  | .ok t =>
    match scattered_blocks[t.current_bucket_index]? with
    | none => .error (.outOfBounds, t)
    | some current => mergeIntoVariants env t current

/-- Runs a throwing step over a list of blocks, in order. -/
def forBlocks (step : Transform ρ σ → Block ρ → Result ρ σ (Transform ρ σ)) :
    List (Block ρ) → Transform ρ σ → Result ρ σ (Transform ρ σ)
  | [], t => .ok t
  | block :: blocks, t =>
    match step t block with
    | .error e => .error e
    | .ok t => forBlocks step blocks t

/-- Converts the aggregation state back to blocks and redistributes them over the
buckets; refreshes `per_key_memory_usage`. -/
def rehashDataVariants (env : Env ρ σ) (t : Transform ρ σ) : Result ρ σ (Transform ρ σ) :=
  match t.current_data_variants with
  | none => .error (.nullPointer, t)
  | some variants =>
    let blocks := env.convertToBlocks variants false
    let block_rows : Nat := (blocks.map fun block => block.rows.length).sum
    let block_memory_usage : Nat := (blocks.map env.allocatedBytes).sum
    let t := if block_rows ≠ 0 then
        { t with
          per_key_memory_usage :=
            Fraction.div (Fraction.mul (Fraction.ofNat block_memory_usage) Fraction.one)
              (Fraction.ofNat block_rows) }
      else t
    let t := { t with current_data_variants := some env.emptyVariants, no_more_keys := false }
    forBlocks (rehashBlock env) blocks t

/-- The escalation step of `mergeOneBlock` taken when memory still overflows after the
flush: `extendBuckets(); rehashDataVariants();`. -/
def extendAndRehash (env : Env ρ σ) (t : Transform ρ σ) : Result ρ σ (Transform ρ σ) :=
  match extendBuckets env t with
  | .error e => .error e
  | .ok t => rehashDataVariants env t

/-- The last statement of `mergeOneBlock`: merge the block as it is when it carries the
current bucket count or there is one bucket, else scatter it, queue the parts of the
later buckets and merge the part of the current bucket. -/
def routeBlock (env : Env ρ σ) (t : Transform ρ σ) (block : Block ρ) :
    Result ρ σ (Transform ρ σ) :=
  if block.bucket_num = toInt32 (getBucketsNum t) ∨ getBucketsNum t = 1 then
    mergeIntoVariants env t block
  else
    let scattered_blocks := scatterBlock env t block
    match addScattered scattered_blocks (laterBuckets t) t with
    | .error e => .error e
    | .ok t =>
      match scattered_blocks[t.current_bucket_index]? with
      | none => .error (.outOfBounds, t)
      | some current => mergeIntoVariants env t current

/-- Merges one block into the current bucket, spilling and rehashing under memory pressure. -/
def mergeOneBlock (env : Env ρ σ) (t : Transform ρ σ) (block : Block ρ) :
    Result ρ σ (Transform ρ σ) :=
  if block.rows.length = 0 then .ok t
  else
    match isMemoryOverflow env t with
    | .error e => .error e
    | .ok (overflow, t) =>
      let t := if overflow then flushBuckets env t else t
      match isMemoryOverflow env t with
      | .error e => .error e
      | .ok (overflow, t) =>
        match (if overflow then extendAndRehash env t else .ok t : Result ρ σ (Transform ρ σ)) with
        | .error e => .error e
        | .ok t =>
          let (mem_used, t) := getMemoryUsage env t
          let t := { t with log := t.log ++ [.mergeOnBlock block.rows.length (env.bytes block)
            block.bucket_num t.current_bucket_index (getBucketsNum t) mem_used] }
          routeBlock env t block

/-- Blocks returned by successive `read()` calls on a stream until the first block
without rows (an empty block also marks the end of the stream). -/
def readStream (written : List (Block ρ)) : List (Block ρ) :=
  written.takeWhile fun block => block.rows.length ≠ 0

/-- First part of `prepareBucketOutputBlocks`: when the current bucket has a stream,
every block read from it is merged and the stream is released.  Also returns
`read_bytes` and `read_rows`. -/
def replayStream (env : Env ρ σ) (t : Transform ρ σ) : Result ρ σ (Transform ρ σ × Nat × Nat) :=
  let index := t.current_bucket_index
  match (bucketAt t index).file_stream with
  | none => .ok (t, 0, 0)
  | some written =>
    let blocks := readStream written
    match forBlocks (mergeOneBlock env) blocks t with
    | .error e => .error e
    | .ok t =>
      .ok (setBucket t index { bucketAt t index with file_stream := none },
        (blocks.map env.bytes).sum, (blocks.map fun block => block.rows.length).sum)

/-- The statement `block = {}` for the block at position `i` of the queue of bucket
`index`: the block is replaced in place by a default-constructed one. -/
def blankBlock (t : Transform ρ σ) (index i : Nat) : Transform ρ σ :=
  setBucket t index
    { bucketAt t index with blocks := (bucketAt t index).blocks.set i { rows := [] } }

/-- The loop `for (auto & block : blocks) { mergeOneBlock(block); block = {}; }` over the
queue of bucket `index`, from position `i` on, `blocks` being the blocks at these
positions: each block is merged and, when the merge has returned, reset in place. -/
def replayBlocks (env : Env ρ σ) (index : Nat) :
    Nat → List (Block ρ) → Transform ρ σ → Result ρ σ (Transform ρ σ)
  | _, [], t => .ok t
  | i, block :: blocks, t =>
    match mergeOneBlock env t block with
    | .error e => .error e
    | .ok t => replayBlocks env index (i + 1) blocks (blankBlock t index i)

/-- Second part of `prepareBucketOutputBlocks`: every block still queued in the current
bucket is merged and then reset to an empty block, one after the other. -/
def replayQueue (env : Env ρ σ) (t : Transform ρ σ) : Result ρ σ (Transform ρ σ) :=
  let index := t.current_bucket_index
  replayBlocks env index 0 (bucketAt t index).blocks t

/-- Replays the spilled and queued blocks of the current bucket and converts the
aggregation state into final blocks. -/
def prepareBucketOutputBlocks (env : Env ρ σ) (t : Transform ρ σ) : Result ρ σ (Transform ρ σ) :=
  let t := if t.current_data_variants.isNone then
      { t with current_data_variants := some env.emptyVariants, no_more_keys := false }
    else t
  match replayStream env t with
  | .error e => .error e
  | .ok (t, read_bytes, read_rows) =>
    match replayQueue env t with
    | .error e => .error e
    | .ok t =>
      match t.current_data_variants with
      | none => .error (.nullPointer, t)
      | some variants =>
        .ok { t with
          current_final_blocks := env.convertToBlocks variants true
          log := t.log ++ [.prepareOutput t.current_bucket_index read_bytes read_rows] }

/-- The loop of the lambda `pop_one_chunk` over `current_final_blocks`. -/
def popFrom (t : Transform ρ σ) : List (Block ρ) → Transform ρ σ
  | [] => { t with current_final_blocks := [] }
  | block :: rest =>
    if block.rows.length = 0 then popFrom t rest
    else { t with output_chunk := block.rows, current_final_blocks := rest, has_output := true }

/-- The lambda `pop_one_chunk` of `work`: drops leading blocks without rows and moves
the first block with rows to `output_chunk`. -/
def popOneChunk (t : Transform ρ σ) : Transform ρ σ := popFrom t t.current_final_blocks

/-- One call of `work()`. -/
def work (env : Env ρ σ) (t : Transform ρ σ) : Result ρ σ (Transform ρ σ) :=
  if t.has_input then
    if env.assertions ∧ t.input_finished then .error (.assertion, t)
    else
      let block : Block ρ := { rows := t.input_chunk }
      match mergeOneBlock env { t with input_chunk := [] } block with
      | .error e => .error e
      | .ok t => .ok { t with has_input := false }
  else
    if env.assertions ∧ ¬ t.input_finished then .error (.assertion, t)
    else
      if t.current_final_blocks.isEmpty then
        if t.current_bucket_index ≥ getBucketsNum t then .ok t
        else
          match prepareBucketOutputBlocks env t with
          | .error e => .error e
          | .ok t =>
            .ok (popOneChunk { t with
              current_bucket_index := t.current_bucket_index + 1
              current_data_variants := none })
      else .ok (popOneChunk t)

/-- Status returned by `prepare()`. -/
inductive Status where
  | NeedData
  | PortFull
  | Ready
  | Finished
deriving DecidableEq

/-- The input port as the operator sees it. -/
structure InputPort (ρ : Type) where
  /-- `isFinished()`: upstream is done and nothing is left to pull -/
  finished : Bool
  /-- the chunk waiting in the port; `hasData()` is `data.isSome` -/
  data : Option (List ρ)
  /-- set by `setNeeded()` -/
  needed : Bool
  /-- set by `close()` -/
  closed : Bool
deriving DecidableEq

/-- The output port as the operator sees it. -/
structure OutputPort (ρ : Type) where
  /-- `isFinished()` -/
  finished : Bool
  /-- `canPush()` -/
  can_push : Bool
  /-- every chunk pushed so far, oldest first -/
  pushed : List (List ρ)
deriving DecidableEq

/-- One call of `prepare()`. -/
def prepare (t : Transform ρ σ) (input : InputPort ρ) (output : OutputPort ρ) :
    Status × Transform ρ σ × InputPort ρ × OutputPort ρ :=
  if output.finished then
    (.Finished, t, { input with closed := true }, output)
  else if t.has_output then
    if output.can_push then
      (.PortFull,
        { t with
          total_output_rows := t.total_output_rows + t.output_chunk.length
          total_output_blocks := t.total_output_blocks + 1
          output_chunk := []
          has_output := false },
        input,
        { output with pushed := output.pushed ++ [t.output_chunk], can_push := false })
    else (.PortFull, t, input, output)
  else if t.has_input then
    (.Ready, t, input, output)
  else if ¬ t.input_finished then
    if input.finished then
      (.Ready, { t with input_finished := true }, input, output)
    else
      match input.data with
      | none => (.NeedData, t, { input with needed := true }, output)
      | some chunk =>
        (.Ready,
          { t with
            input_chunk := chunk
            total_input_rows := t.total_input_rows + chunk.length
            total_input_blocks := t.total_input_blocks + 1
            has_input := true },
          { input with needed := false, data := none },
          output)
  else if t.current_bucket_index ≥ getBucketsNum t ∧ t.current_final_blocks.isEmpty then
    (.Finished, t, input, { output with finished := true })
  else
    (.Ready, t, input, output)

/-- Outcome of driving the operator: the chunks pushed downstream once `prepare()`
has returned `Finished`, or `none` when the rounds allowed were used up first. -/
abbrev RunResult (ρ σ : Type) := Result ρ σ (Option (List (List ρ)))

/-- The executor loop around one operator.  Before each `prepare()` upstream puts
the next pending chunk into an empty input port (or finishes the port when nothing
is pending) and downstream takes what was pushed, so the output port can be pushed
to; `work()` is called exactly when `prepare()` returned `Ready`. -/
def run (env : Env ρ σ) : Nat → List (List ρ) → Transform ρ σ → InputPort ρ → OutputPort ρ →
    RunResult ρ σ
  | 0, _, _, _, _ => .ok none
  | rounds + 1, pending, t, input, output =>
    let fed : List (List ρ) × InputPort ρ :=
      match input.data, pending with
      | some _, _ => (pending, input)
      | none, chunk :: rest => (rest, { input with data := some chunk })
      | none, [] => ([], { input with finished := true })
    let (status, t, input, output) := prepare t fed.2 { output with can_push := true }
    match status with
    | .Finished => .ok (some output.pushed)
    | .Ready =>
      match work env t with
      | .error e => .error e
      | .ok t => run env rounds fed.1 t input output
    | _ => run env rounds fed.1 t input output

/-- Ports at the start: nothing delivered, nothing pushed. -/
def InputPort.start : InputPort ρ := { finished := false, data := none, needed := false, closed := false }

/-- Output port at the start. -/
def OutputPort.start : OutputPort ρ := { finished := false, can_push := false, pushed := [] }

/-- Drives a freshly constructed operator over the given input chunks. -/
def runOperator (env : Env ρ σ) (rounds : Nat) (inputs : List (List ρ)) : RunResult ρ σ :=
  run env rounds inputs (Transform.init env) InputPort.start OutputPort.start

end Operator

/-! ## A concrete set of collaborators, for evaluating the operator on examples -/

/-- Rows are bare keys hashed by their value; the aggregator keeps the distinct keys in
arrival order (GROUP BY without aggregate functions), converts a state without keys to
no block and any other state to one unpartitioned block; a row counts 8 bytes. -/
def distinctEnv (memory : Nat → Int) (max_memory_usage max_buckets : Nat) :
    Env Nat (List Nat) where
  hash := id
  emptyVariants := []
  mergeOnBlock := fun block variants no_more_keys =>
    (block.rows.foldl (fun keys r => if r ∈ keys then keys else keys ++ [r]) variants,
      no_more_keys)
  convertToBlocks := fun variants _ => if variants.isEmpty then [] else [{ rows := variants }]
  variantsSize := List.length
  bytes := fun block => 8 * block.rows.length
  allocatedBytes := fun block => 8 * block.rows.length
  memory := memory
  max_memory_usage := max_memory_usage
  max_buckets := max_buckets
  assertions := true

/-- An operator with `max_memory_usage = 1` whose tracker always reads 0. -/
def capExampleEnv : Env Nat (List Nat) := distinctEnv (fun _ => 0) 1 1

/-- Its state with no group yet and an estimate of one byte per key. -/
def capExampleState : Transform Nat (List Nat) :=
  { Transform.init capExampleEnv with per_key_memory_usage := { num := 1, den := 1 } }

/-- An operator with `max_memory_usage = 10` (so the cap is 8) whose tracker always
reads 7. -/
def thirdExampleEnv : Env Nat (List Nat) := distinctEnv (fun _ => 7) 10 1

/-- Its state with three groups and the estimate that `rehashDataVariants` stores for one
byte in three rows: the double nearest to `1 / 3`, which is below `1 / 3`. -/
def thirdExampleState : Transform Nat (List Nat) :=
  { Transform.init thirdExampleEnv with
    current_data_variants := some [1, 2, 3]
    per_key_memory_usage :=
      Fraction.div (Fraction.mul (Fraction.ofNat 1) Fraction.one) (Fraction.ofNat 3) }

/-- An operator under constant memory pressure (limit 1 byte, tracker reading 1) with
up to 8 buckets. -/
def pressedEnv : Env Nat (List Nat) := distinctEnv (fun _ => 1) 1 8

/-- Two ingests into a fresh operator under pressure: the keys 1 and 3, then the key 5.
The first call extends to 2 buckets and queues `[1, 3]` for bucket 1 with tag 2; the
second flushes that block to the stream of bucket 1 and extends to 4 buckets. -/
def staleTagExample : Result Nat (List Nat) (Transform Nat (List Nat)) :=
  match mergeOneBlock pressedEnv (Transform.init pressedEnv) { rows := [1, 3] } with
  | .error e => .error e
  | .ok t => mergeOneBlock pressedEnv t { rows := [5] }

/-- An operator under constant memory pressure that may not have more than 2 buckets. -/
def tightEnv : Env Nat (List Nat) := distinctEnv (fun _ => 1) 1 2

/-- A state of `tightEnv` with two empty buckets, working on bucket 0. -/
def tightState : Transform Nat (List Nat) :=
  { Transform.init tightEnv with buckets := [{}, {}] }

/-- An operator with a limit of 100 bytes whose tracker reads 100 bytes for the first
six readings and 0 afterwards, with up to 8 buckets: it spills and extends while the
first chunks arrive. -/
def spillingEnv : Env Nat (List Nat) := distinctEnv (fun n => if n < 6 then 100 else 0) 100 8

/-- An operator without memory limit, with up to 8 buckets. -/
def calmEnv : Env Nat (List Nat) := distinctEnv (fun _ => 0) 0 8

/-- A state of `calmEnv` with two empty buckets, working on bucket 0. -/
def twoBucketState : Transform Nat (List Nat) :=
  { Transform.init calmEnv with buckets := [{}, {}] }

/-- A two-bucket state of `calmEnv` whose bucket 1 has three blocks queued: two tagged 2,
then one tagged 1. -/
def queuedState : Transform Nat (List Nat) :=
  { Transform.init calmEnv with
    buckets := [{}, { blocks := [{ rows := [1], bucket_num := 2 }, { rows := [3], bucket_num := 2 },
      { rows := [5], bucket_num := 1 }] }] }

/-- A two-bucket state of `calmEnv` whose bucket 1 has one block without rows queued. -/
def zeroRowQueued : Transform Nat (List Nat) :=
  { Transform.init calmEnv with buckets := [{}, { blocks := [{ rows := [], bucket_num := 2 }] }] }

/-- An operator with a limit of 100 bytes whose tracker reads 0 the first time and 100
afterwards, with up to 8 buckets. -/
def risingEnv : Env Nat (List Nat) := distinctEnv (fun n => if n = 0 then 0 else 100) 100 8

/-- The distinct-keys aggregator in a two-level mode: a conversion returns one block per
key, tagged with the number of the key's bucket among the aggregator's own 256 buckets.
Limit 100 bytes; the tracker reads 0 three times and 100 afterwards. -/
def twoLevelEnv : Env Nat (List Nat) :=
  { distinctEnv (fun n => if n < 3 then 0 else 100) 100 8 with
    convertToBlocks := fun variants _ =>
      variants.map fun k => { rows := [k], bucket_num := ((k % 256 : Nat) : Int) } }

/-- The distinct-keys aggregator with a conversion that returns a block without rows
before the block of keys.  Limit and tracker as for `twoLevelEnv`. -/
def hollowEnv : Env Nat (List Nat) :=
  { distinctEnv (fun n => if n < 3 then 0 else 100) 100 8 with
    convertToBlocks := fun variants _ => [{ rows := [] }, { rows := variants }] }

/-- A state of `twoLevelEnv` right after `extendBuckets()` made two buckets, with the
keys 2 and 4 in the aggregation state. -/
def rehashState : Transform Nat (List Nat) :=
  { Transform.init twoLevelEnv with buckets := [{}, {}], current_data_variants := some [2, 4] }

/-- An input port whose upstream finished without delivering anything. -/
def finishedInput : InputPort Nat := { finished := true, data := none, needed := false, closed := false }

/-! ## The decision table of `prepare()` as the specification words it -/

section DecisionTable

variable {ρ σ : Type}

/-- One row of the decision table: when it applies and what it does. -/
structure Rule (ρ σ : Type) where
  applies : Transform ρ σ → InputPort ρ → OutputPort ρ → Bool
  action : Transform ρ σ → InputPort ρ → OutputPort ρ →
    Status × Transform ρ σ × InputPort ρ × OutputPort ρ

/-- Row 1: output port closed: close the input, `Finished`. -/
def ruleOutputClosed : Rule ρ σ where
  applies := fun _ _ output => output.finished
  action := fun t input output => (.Finished, t, { input with closed := true }, output)

/-- Row 2: a buffered output batch: push it and clear the flag if downstream can take
it (counting the block and its rows); `PortFull` either way. -/
def ruleHasOutput : Rule ρ σ where
  applies := fun t _ _ => t.has_output
  action := fun t input output =>
    match output.can_push with
    | true =>
      (.PortFull,
        { t with
          has_output := false
          output_chunk := []
          total_output_blocks := t.total_output_blocks + 1
          total_output_rows := t.total_output_rows + t.output_chunk.length },
        input,
        { output with can_push := false, pushed := output.pushed ++ [t.output_chunk] })
    | false => (.PortFull, t, input, output)

/-- Row 3: a pulled batch waits for `work()`: `Ready`. -/
def ruleHasInput : Rule ρ σ where
  applies := fun t _ _ => t.has_input
  action := fun t input output => (.Ready, t, input, output)

/-- Row 4: input not finished: try to pull.  Upstream finished: mark `input_finished`,
`Ready`.  No data yet: ask for data, `NeedData`.  Otherwise store the pulled batch
(counting the block and its rows), set `has_input`, `Ready`. -/
def ruleInputOpen : Rule ρ σ where
  applies := fun t _ _ => !t.input_finished
  action := fun t input output =>
    match input.finished, input.data with
    | true, _ => (.Ready, { t with input_finished := true }, input, output)
    | false, none => (.NeedData, t, { input with needed := true }, output)
    | false, some batch =>
      (.Ready,
        { t with
          has_input := true
          input_chunk := batch
          total_input_blocks := t.total_input_blocks + 1
          total_input_rows := t.total_input_rows + batch.length },
        { input with data := none, needed := false },
        output)

/-- Row 5: all buckets processed and no finalized block buffered: finish the output,
`Finished`. -/
def ruleAllDone : Rule ρ σ where
  applies := fun t _ _ =>
    decide (getBucketsNum t ≤ t.current_bucket_index) && t.current_final_blocks.isEmpty
  action := fun t input output => (.Finished, t, input, { output with finished := true })

/-- Row 6: otherwise `Ready`. -/
def ruleOtherwise : Rule ρ σ where
  applies := fun _ _ _ => true
  action := fun t input output => (.Ready, t, input, output)

/-- The table, top to bottom. -/
def decisionTable : List (Rule ρ σ) :=
  [ruleOutputClosed, ruleHasOutput, ruleHasInput, ruleInputOpen, ruleAllDone, ruleOtherwise]

/-- First match wins; with no matching row nothing happens and the status is `Ready`. -/
def firstMatch : List (Rule ρ σ) → Transform ρ σ → InputPort ρ → OutputPort ρ →
    Status × Transform ρ σ × InputPort ρ × OutputPort ρ
  | [], t, input, output => (.Ready, t, input, output)
  | rule :: rules, t, input, output =>
    if rule.applies t input output then rule.action t input output
    else firstMatch rules t input output

/-- The port driver of the specification. -/
def prepareSpec (t : Transform ρ σ) (input : InputPort ρ) (output : OutputPort ρ) :
    Status × Transform ρ σ × InputPort ρ × OutputPort ρ :=
  firstMatch decisionTable t input output

end DecisionTable

/-! ## Primitive state changes inside `mergeOneBlock` -/

section Steps

variable {ρ σ : Type}

/-- Log entries that only report: the two overflow messages and the trace line. -/
def LogEvent.isNote : LogEvent → Bool
  | .memoryOverflow _ _ _ _ => true
  | .memoryOverflowHalf _ _ _ => true
  | .mergeOnBlock _ _ _ _ _ _ => true
  | _ => false

/-- The state a call leaves behind, whether it returned or threw. -/
def outcome : Result ρ σ (Transform ρ σ) → Transform ρ σ
  | .ok t => t
  | .error (_, t) => t

/-- One primitive state change that `mergeOneBlock` can make, with the facts that hold
where the source makes it: spilling and rehashing only happen after the memory
predicate has answered true (so `max_memory_usage` is not 0), a flush or a queued
block only touches a bucket after the current one, and a queued block is a part
produced by `scatterBlockByHash` for that bucket and tagged with the bucket count. -/
inductive MStep (env : Env ρ σ) : Transform ρ σ → Transform ρ σ → Prop
  | readMemory (t : Transform ρ σ) : MStep env t { t with mem_queries := t.mem_queries + 1 }
  | note (t : Transform ρ σ) (e : LogEvent) (h : e.isNote = true) :
      MStep env t { t with log := t.log ++ [e] }
  | flushBucket (t : Transform ρ σ) (i : Nat) (hmem : env.max_memory_usage ≠ 0)
      (hlo : t.current_bucket_index < i) (hhi : i < getBucketsNum t) :
      MStep env t (flushBucket env t i).2
  | spilled (t : Transform ρ σ) (n : Nat) (hmem : env.max_memory_usage ≠ 0) :
      MStep env t { t with total_spill_disk_bytes := n }
  | flushLogged (t : Transform ρ σ) (a b c : Nat) (hmem : env.max_memory_usage ≠ 0) :
      MStep env t { t with log := t.log ++ [.flush a b c] }
  | extend (t : Transform ρ σ) (hmem : env.max_memory_usage ≠ 0)
      (hle : getBucketsNum t * 2 ≤ env.max_buckets) :
      MStep env t { t with
        log := t.log ++ [.extendBuckets (getBucketsNum t) (getBucketsNum t * 2)]
        buckets := t.buckets ++
          (List.range' (getBucketsNum t) (getBucketsNum t * 2 - getBucketsNum t)).map fun _ => {} }
  | perKey (t : Transform ρ σ) (q : Fraction) (hmem : env.max_memory_usage ≠ 0) :
      MStep env t { t with per_key_memory_usage := q }
  | variants (t : Transform ρ σ) (v : σ) (k : Bool) :
      MStep env t { t with current_data_variants := some v, no_more_keys := k }
  | addBlock (t : Transform ρ σ) (i : Nat) (block : Block ρ)
      (hlo : t.current_bucket_index < i) (hhi : i < getBucketsNum t) :
      MStep env t (addBlockIntoFileBucket t i
        { rows := block.rows.filter fun r => env.hash r % getBucketsNum t == i
          bucket_num := toInt32 (getBucketsNum t) })

/-- The queue and the stream that `flushBucket` leaves in a bucket entry. -/
def flushedEntry (env : Env ρ σ) (b : BufferFileStream ρ) : BufferFileStream ρ :=
  if b.blocks.isEmpty then b
  else
    { blocks := (flushRuns env b.blocks.length b.blocks (b.file_stream.getD []) 0).1
      file_stream := some (flushRuns env b.blocks.length b.blocks (b.file_stream.getD []) 0).2.1 }

/-- Any number of primitive state changes in a row. -/
abbrev MSteps (env : Env ρ σ) : Transform ρ σ → Transform ρ σ → Prop :=
  Relation.ReflTransGen (MStep env)

/-- One state change inside `prepareBucketOutputBlocks` before the final conversion: a
primitive change made by `mergeOneBlock`, the release of the stream of the current
bucket after it has been read, or the blanking of one block of its queue after the block has been replayed. -/
inductive DStep (env : Env ρ σ) : Transform ρ σ → Transform ρ σ → Prop
  | inner (t t2 : Transform ρ σ) (h : MStep env t t2) : DStep env t t2
  | releaseStream (t : Transform ρ σ) :
      DStep env t (setBucket t t.current_bucket_index
        { bucketAt t t.current_bucket_index with file_stream := none })
  | blankBlock (t : Transform ρ σ) (i : Nat) :
      DStep env t (blankBlock t t.current_bucket_index i)

/-- Any number of such state changes in a row. -/
abbrev DSteps (env : Env ρ σ) : Transform ρ σ → Transform ρ σ → Prop :=
  Relation.ReflTransGen (DStep env)

/-- One state change at the level of `prepare()` and `work()`: a primitive change of the
merge and replay code, `work()` taking the input chunk or clearing `has_input`, the end
of a bucket (final blocks stored, the bucket logged, `current_bucket_index` advanced,
the aggregation state dropped), `pop_one_chunk`, or a whole `prepare()` call. -/
inductive TStep (env : Env ρ σ) : Transform ρ σ → Transform ρ σ → Prop
  | inner (t t2 : Transform ρ σ) (h : DStep env t t2) : TStep env t t2
  | takeInput (t : Transform ρ σ) : TStep env t { t with input_chunk := [] }
  | doneInput (t : Transform ρ σ) : TStep env t { t with has_input := false }
  | finalize (t : Transform ρ σ) (v : σ) (read_bytes read_rows : Nat)
      (h : t.current_bucket_index < getBucketsNum t) :
      TStep env t { t with
        current_final_blocks := env.convertToBlocks v true
        log := t.log ++ [.prepareOutput t.current_bucket_index read_bytes read_rows]
        current_bucket_index := t.current_bucket_index + 1
        current_data_variants := none }
  | pop (t : Transform ρ σ) : TStep env t (popOneChunk t)
  | prepare (t : Transform ρ σ) (input : InputPort ρ) (output : OutputPort ρ) :
      TStep env t (prepare t input output).2.1

/-- Any number of such state changes in a row. -/
abbrev TSteps (env : Env ρ σ) : Transform ρ σ → Transform ρ σ → Prop :=
  Relation.ReflTransGen (TStep env)

/-- States of the operator reachable from construction by calls of `prepare()` (with
any port states) and `work()`; a `work()` that throws leaves the state it threw in. -/
inductive Reachable (env : Env ρ σ) : Transform ρ σ → Prop
  | init : Reachable env (Transform.init env)
  | prepare (t : Transform ρ σ) (input : InputPort ρ) (output : OutputPort ρ)
      (h : Reachable env t) : Reachable env (prepare t input output).2.1
  | work (t : Transform ρ σ) (h : Reachable env t) : Reachable env (outcome (work env t))

/-- Bucket indices logged by `prepareBucketOutputBlocks`, oldest first. -/
def finalizedBuckets (log : List LogEvent) : List Nat :=
  log.filterMap fun e =>
    match e with
    | .prepareOutput bucket _ _ => some bucket
    | _ => none

/-- Number of `extendBuckets` calls in the log. -/
def extendCount (log : List LogEvent) : Nat :=
  log.countP fun e =>
    match e with
    | .extendBuckets _ _ => true
    | _ => false

/-- Number of `flushBuckets` calls in the log. -/
def flushCount (log : List LogEvent) : Nat :=
  log.countP fun e =>
    match e with
    | .flush _ _ _ => true
    | _ => false

/-- What the merge and replay code never changes between two states: the current
bucket index, the port flags and chunks, the final blocks and the buckets logged as
finalized; and the bucket count does not go down. -/
def SameControl (t t2 : Transform ρ σ) : Prop :=
  t2.current_bucket_index = t.current_bucket_index ∧
  t2.has_input = t.has_input ∧
  t2.has_output = t.has_output ∧
  t2.input_finished = t.input_finished ∧
  t2.input_chunk = t.input_chunk ∧
  t2.output_chunk = t.output_chunk ∧
  t2.current_final_blocks = t.current_final_blocks ∧
  finalizedBuckets t2.log = finalizedBuckets t.log ∧
  getBucketsNum t ≤ getBucketsNum t2

/-- The bucket count is two to the number of logged `extendBuckets` calls, and it is 1
or within `max_buckets`. -/
def BucketCountOk (env : Env ρ σ) (t : Transform ρ σ) : Prop :=
  getBucketsNum t = 2 ^ extendCount t.log ∧
  (getBucketsNum t = 1 ∨ getBucketsNum t ≤ env.max_buckets)

/-- Nothing was ever spilled or extended: one bucket, no stream, no flush and no
extension in the log. -/
def NeverSpilled (t : Transform ρ σ) : Prop :=
  getBucketsNum t = 1 ∧ (∀ b ∈ t.buckets, b.file_stream = none) ∧
  flushCount t.log = 0 ∧ extendCount t.log = 0

/-- The buckets logged as finalized are exactly `0, 1, .., current_bucket_index - 1`, in
this order, and the index is at most the bucket count. -/
def FinalizedInOrder (t : Transform ρ σ) : Prop :=
  finalizedBuckets t.log = List.range t.current_bucket_index ∧
  t.current_bucket_index ≤ getBucketsNum t

/-- The condition under which `work()` calls `prepareBucketOutputBlocks`. -/
def startsNextBucket (t : Transform ρ σ) : Prop :=
  t.has_input = false ∧ t.current_final_blocks.isEmpty = true ∧
  t.current_bucket_index < getBucketsNum t

/-- Every block a bucket entry holds: the blocks written to its stream, then the blocks
still queued. -/
def storedBlocks (entry : BufferFileStream ρ) : List (Block ρ) :=
  entry.file_stream.getD [] ++ entry.blocks

/-- A block is sound for bucket `bucket` when its tag is a bucket count `n` dividing the
present bucket count and every one of its rows hashes to `bucket` modulo `n`. -/
def SoundBlock (env : Env ρ σ) (numBuckets bucket : Nat) (block : Block ρ) : Prop :=
  ∃ n : Nat, block.bucket_num = (n : Int) ∧ n ∣ numBuckets ∧
    ∀ r ∈ block.rows, env.hash r % n = bucket

/-- Every block stored for a bucket after the current one is sound for that bucket. -/
def PartitionSound (env : Env ρ σ) (t : Transform ρ σ) : Prop :=
  ∀ b entry, t.current_bucket_index < b → t.buckets[b]? = some entry →
    ∀ block ∈ storedBlocks entry, SoundBlock env (getBucketsNum t) b block

/-- All rows of a list of blocks, in order. -/
def rowsOf (blocks : List (Block ρ)) : List ρ := (blocks.map Block.rows).flatten

/-- An operation of the spill manager on one bucket: queue a block, or flush the queue
to the stream. -/
inductive SpillOp (ρ : Type) where
  | append (block : Block ρ)
  | flush

/-- Performs one spill operation on bucket `b`. -/
def applySpillOp (env : Env ρ σ) (b : Nat) (t : Transform ρ σ) : SpillOp ρ → Transform ρ σ
  | .append block => addBlockIntoFileBucket t b block
  | .flush => (flushBucket env t b).2

/-- Rows of all the blocks a sequence of spill operations appends, in order. -/
def appendedRows : List (SpillOp ρ) → List ρ
  | [] => []
  | .append block :: ops => block.rows ++ appendedRows ops
  | .flush :: ops => appendedRows ops

/-- The blocks that the two replay loops of `prepareBucketOutputBlocks` take from a
bucket entry: the stream read until the first block without rows, then the queue. -/
def drainedBlocks (entry : BufferFileStream ρ) : List (Block ρ) :=
  (match entry.file_stream with
    | none => []
    | some written => readStream written) ++ entry.blocks

/-- No block without rows was written to the stream of the entry. -/
def CleanStream (entry : BufferFileStream ρ) : Prop :=
  ∀ block ∈ entry.file_stream.getD [], block.rows ≠ []

/-! ### The aggregator contract used for conservation -/

/-- The state after merging the given rows, as one block, into `v`. -/
def mergedRows (env : Env ρ σ) (rows : List ρ) (v : σ) : σ :=
  (env.mergeOnBlock { rows := rows } v false).1

/-- Rows of the final conversion of a state. -/
def finalRows (env : Env ρ σ) (v : σ) : List ρ := rowsOf (env.convertToBlocks v true)

/-- Rows of the non-final conversion of a state (partial aggregates). -/
def partialRows (env : Env ρ σ) (v : σ) : List ρ := rowsOf (env.convertToBlocks v false)

/-- What the aggregator produces in one pass: the rows merged into one fresh state,
converted with `final = true`. -/
def aggregated (env : Env ρ σ) (rows : List ρ) : List ρ :=
  finalRows env (mergedRows env rows env.emptyVariants)

/-- The contract of the aggregator.  No group limit is configured (`no_more_keys` stays
false); merging ignores the tag of a block, merging no rows changes nothing, merging a
concatenation is merging one part after the other; the final result does not depend on
the order of the rows (commutativity), partial aggregates converted from a state stand
for the rows merged into it (associativity), rows with different key hashes are
aggregated independently (aggregation is per key); the non-final conversion returns
only keys that were merged. -/
structure LawfulAggregator (env : Env ρ σ) : Prop where
  keeps_keys : ∀ block v, (env.mergeOnBlock block v false).2 = false
  merge_tag : ∀ block v, (env.mergeOnBlock block v false).1 = mergedRows env block.rows v
  merge_nil : ∀ v, mergedRows env [] v = v
  merge_append : ∀ X Y v,
    mergedRows env (X ++ Y) v = mergedRows env Y (mergedRows env X v)
  aggregated_perm : ∀ X Y, X.Perm Y → (aggregated env X).Perm (aggregated env Y)
  partial_equiv : ∀ X Y,
    (aggregated env (partialRows env (mergedRows env X env.emptyVariants) ++ Y)).Perm
      (aggregated env (X ++ Y))
  aggregated_disjoint : ∀ X Y, (∀ x ∈ X, ∀ y ∈ Y, env.hash x ≠ env.hash y) →
    (aggregated env (X ++ Y)).Perm (aggregated env X ++ aggregated env Y)
  partial_hash : ∀ X, ∀ r ∈ partialRows env (mergedRows env X env.emptyVariants),
    ∃ x ∈ X, env.hash r = env.hash x

/-- The non-final conversion returns only blocks that `rehashDataVariants` can scatter:
every block has rows, and no block carries as `bucket_num` a bucket count that the
operator can have when it rehashes (2, 4, 8, .. up to `max_buckets`). -/
def ScatterableConversion (env : Env ρ σ) : Prop :=
  ∀ v, ∀ block ∈ env.convertToBlocks v false,
    block.rows ≠ [] ∧
    ∀ k, 1 ≤ k → 2 ^ k ≤ env.max_buckets → toSizeT block.bucket_num ≠ 2 ^ k

/-- An aggregator that keeps its contract and whose non-final conversion can be
scattered. -/
structure SoundAggregator (env : Env ρ σ) extends LawfulAggregator env : Prop where
  partial_blocks : ScatterableConversion env

/-- Two lists of rows are interchangeable for the aggregator: whatever else is merged
with them, the final result is the same multiset. -/
def AggEquiv (env : Env ρ σ) (A B : List ρ) : Prop :=
  ∀ W, (aggregated env (A ++ W)).Perm (aggregated env (B ++ W))

/-- Rows stored for one bucket (stream, then queue). -/
def bucketRows (t : Transform ρ σ) (j : Nat) : List ρ := rowsOf (storedBlocks (bucketAt t j))

/-- Rows stored for the buckets after the current one. -/
def laterRows (t : Transform ρ σ) : List ρ :=
  ((laterBuckets t).map (bucketRows t)).flatten

/-- The aggregation state holds exactly the rows `X` merged into a fresh state, and
`no_more_keys` is false. -/
def Holds (env : Env ρ σ) (t : Transform ρ σ) (X : List ρ) : Prop :=
  t.current_data_variants = some (mergedRows env X env.emptyVariants) ∧
  t.no_more_keys = false

/-- A block fits the current bucket: for some bucket count `n` dividing the present
one every row hashes to the current bucket modulo `n`, and the block is untagged or
tagged `n`. -/
def Fits (env : Env ρ σ) (t : Transform ρ σ) (block : Block ρ) : Prop :=
  ∃ n : Nat, n ∣ getBucketsNum t ∧
    (block.bucket_num = -1 ∨ block.bucket_num = (n : Int)) ∧
    ∀ r ∈ block.rows, env.hash r % n = t.current_bucket_index

/-- No stream of any bucket holds a block without rows. -/
def AllClean (t : Transform ρ σ) : Prop := ∀ entry ∈ t.buckets, CleanStream entry

/-- What the merge code relies on while it works on the current bucket with the rows
`X` in the aggregation state: the state holds `X`, the current index is a bucket, the
bucket count fits an `Int32` and is a power of two, and every row of `X` hashes to the
current bucket. -/
structure BucketInv (env : Env ρ σ) (t : Transform ρ σ) (X : List ρ) : Prop where
  holds : Holds env t X
  index : t.current_bucket_index < getBucketsNum t
  small : getBucketsNum t < 2 ^ 31
  home : ∀ x ∈ X, env.hash x % getBucketsNum t = t.current_bucket_index
  pow : ∃ k, getBucketsNum t = 2 ^ k

/-! ### Accounting for a whole run -/

/-- Rows that have left the aggregation: the chunks pushed downstream, the chunk waiting
in `output_chunk`, and the final blocks not yet popped. -/
def emitted (t : Transform ρ σ) (output : OutputPort ρ) : List ρ :=
  output.pushed.flatten ++ (if t.has_output then t.output_chunk else []) ++
    rowsOf t.current_final_blocks

/-- Rows still stored in the buckets from the current one on. -/
def rowsLeft (t : Transform ρ σ) : List ρ :=
  bucketRows t t.current_bucket_index ++ laterRows t

/-- Every block stored for the current bucket or a later one is sound for its bucket. -/
def SoundFrom (env : Env ρ σ) (t : Transform ρ σ) : Prop :=
  ∀ b entry, t.current_bucket_index ≤ b → t.buckets[b]? = some entry →
    ∀ block ∈ storedBlocks entry, SoundBlock env (getBucketsNum t) b block

/-- What holds between two rounds of the executor while input is still arriving: the
operator works on bucket 0 with the rows `X` in the aggregation state, nothing is stored
for bucket 0, nothing has been produced, and the ports are idle. -/
structure IngestInv (env : Env ρ σ) (t : Transform ρ σ) (input : InputPort ρ)
    (output : OutputPort ρ) (X : List ρ) : Prop where
  count : BucketCountOk env t
  clean : AllClean t
  sound : PartitionSound env t
  inv : BucketInv env t X
  first : t.current_bucket_index = 0
  empty : storedBlocks (bucketAt t 0) = []
  flags : t.has_input = false ∧ t.has_output = false ∧ t.input_finished = false ∧
    t.current_final_blocks = []
  port : input.data = none ∧ input.finished = false ∧ output.finished = false ∧
    output.pushed = []

/-- What holds between two rounds of the executor once no input is pending: the stored
blocks from the current bucket on are sound, the aggregation state is absent or holds
rows `X` of the current bucket, and either the end of the input has been seen or the
operator is about to see it with nothing produced yet. -/
structure DrainInv (env : Env ρ σ) (t : Transform ρ σ) (input : InputPort ρ)
    (output : OutputPort ρ) (X : List ρ) : Prop where
  count : BucketCountOk env t
  clean : AllClean t
  sound : SoundFrom env t
  state : (t.current_data_variants = none ∧ X = []) ∨ BucketInv env t X
  idle : t.has_input = false
  phase : t.input_finished = true ∨
    (t.has_output = false ∧ t.current_final_blocks = [] ∧
      t.current_bucket_index < getBucketsNum t)
  port : input.data = none ∧ output.finished = false

/-- Progress measure of the drain inside one bucket: final blocks still to pop, and the
chunk still to push. -/
def drainSteps (t : Transform ρ σ) : Nat :=
  2 * t.current_final_blocks.length + (if t.has_output then 1 else 0)

/-- The state in which `work()` calls `mergeOneBlock` for an input chunk: `prepare()`
has counted the chunk and set `has_input`, `work()` has moved the chunk out of
`input_chunk`. -/
def takeChunk (t : Transform ρ σ) (chunk : List ρ) : Transform ρ σ :=
  { t with
    input_chunk := []
    total_input_rows := t.total_input_rows + chunk.length
    total_input_blocks := t.total_input_blocks + 1
    has_input := true }

/-- Sub-batch `b` of a batch scattered by key hash over `n` buckets, tagged `n`. -/
def subBatch (env : Env ρ σ) (block : Block ρ) (n b : Nat) : Block ρ :=
  { rows := block.rows.filter fun r => env.hash r % n == b, bucket_num := (n : Int) }

/-! ### The runs that `flushBucket` writes, as the specification words them -/

/-- The maximal runs of consecutive blocks with equal `bucket_num`, in order. -/
def tagRuns : List (Block ρ) → List (List (Block ρ))
  | [] => []
  | block :: rest =>
    match tagRuns rest with
    | [] => [[block]]
    | run :: runs =>
      if (run.head?.map Block.bucket_num) = some block.bucket_num then (block :: run) :: runs
      else [block] :: run :: runs

/-- The block made of one run: the rows of the run in order, tagged like its first block. -/
def mergedRun (run : List (Block ρ)) : Block ρ :=
  { rows := rowsOf run, bucket_num := (run.head?.map Block.bucket_num).getD (-1) }

/-! ### Parts of `mergeOneBlock` and states up to the log -/

/-- What `mergeOneBlock` does to the state between the row check and the trace line: the
two evaluations of the memory predicate with the flush and the extension they trigger,
and the memory reading for the trace line.  It does not look at the block. -/
def beforeRoute (env : Env ρ σ) (t : Transform ρ σ) : Result ρ σ (Nat × Transform ρ σ) :=
  match isMemoryOverflow env t with
  | .error e => .error e
  | .ok (overflow, t) =>
    let t := if overflow then flushBuckets env t else t
    match isMemoryOverflow env t with
    | .error e => .error e
    | .ok (overflow, t) =>
      match (if overflow then extendAndRehash env t else .ok t : Result ρ σ (Transform ρ σ)) with
      | .error e => .error e
      | .ok t => .ok (getMemoryUsage env t)

/-- The state with its log replaced. -/
def withLog (log : List LogEvent) (t : Transform ρ σ) : Transform ρ σ := { t with log := log }

/-- Applies a change of state to the state a call returned or threw in. -/
def onState (f : Transform ρ σ → Transform ρ σ) :
    Result ρ σ (Transform ρ σ) → Result ρ σ (Transform ρ σ)
  | .ok t => .ok (f t)
  | .error (e, t) => .error (e, f t)

/-- The result of a call with the log left out of the state. -/
def withoutLog (r : Result ρ σ (Transform ρ σ)) : Result ρ σ (Transform ρ σ) :=
  onState (withLog []) r

/-- The state after the trace line of `mergeOneBlock`: memory is read once more and the
line is logged. -/
def traceLine (env : Env ρ σ) (t : Transform ρ σ) (block : Block ρ) : Transform ρ σ :=
  { (getMemoryUsage env t).2 with
    log := t.log ++ [.mergeOnBlock block.rows.length (env.bytes block) block.bucket_num
      t.current_bucket_index (getBucketsNum t) (getMemoryUsage env t).1] }

/-- Two states have the same log and the same number of buckets. -/
def SameLog (t t2 : Transform ρ σ) : Prop :=
  t2.log = t.log ∧ getBucketsNum t2 = getBucketsNum t

/-! ### States of an operator that has not thrown -/

/-- States reachable from construction by `prepare()` calls with any port states and
`work()` calls that return. -/
inductive Live (env : Env ρ σ) : Transform ρ σ → Prop
  | init : Live env (Transform.init env)
  | prepare (t : Transform ρ σ) (input : InputPort ρ) (output : OutputPort ρ)
      (h : Live env t) : Live env (prepare t input output).2.1
  | work (t t2 : Transform ρ σ) (h : Live env t) (hw : work env t = .ok t2) : Live env t2

/-- Every block queued for a bucket after the current one has rows. -/
def QueueClean (t : Transform ρ σ) : Prop :=
  ∀ b, t.current_bucket_index < b → ∀ block ∈ (bucketAt t b).blocks, block.rows ≠ []

/-- Every bucket before the current one has been drained: its stream is released and
its queue holds only the emptied blocks that the replay loop leaves behind. -/
def Drained (t : Transform ρ σ) : Prop :=
  ∀ b, b < t.current_bucket_index → (bucketAt t b).file_stream = none ∧
    ∀ block ∈ (bucketAt t b).blocks, block.rows = [] ∧ block.bucket_num = -1

/-- What holds for the stored blocks between two calls: the index is at most the bucket
count, no stream holds a block without rows, every block queued for the current bucket
or a later one has rows, and the earlier buckets are drained. -/
structure RowsInv (t : Transform ρ σ) : Prop where
  index : t.current_bucket_index ≤ getBucketsNum t
  clean : AllClean t
  queues : ∀ b, t.current_bucket_index ≤ b → ∀ block ∈ (bucketAt t b).blocks, block.rows ≠ []
  drained : Drained t

/-! ### A run that leaves an emptied block in a drained bucket -/

/-- A run of `risingEnv`, call by call: `prepare()` takes the chunk `[1, 2]`. -/
def risingTaken : Transform Nat (List Nat) :=
  (prepare (Transform.init risingEnv)
    { finished := false, data := some [1, 2], needed := false, closed := false }
    OutputPort.start).2.1

/-- Then `work()` merges it: the buckets are extended to two, key 1 is queued for
bucket 1. -/
def risingMerged : Transform Nat (List Nat) := outcome (work risingEnv risingTaken)

/-- Then `prepare()` sees the end of the input. -/
def risingEnded : Transform Nat (List Nat) :=
  (prepare risingMerged finishedInput OutputPort.start).2.1

/-- Then `work()` finishes bucket 0. -/
def risingFirstDone : Transform Nat (List Nat) := outcome (work risingEnv risingEnded)

/-- Then `prepare()` pushes the chunk of bucket 0. -/
def risingPushed : Transform Nat (List Nat) :=
  (prepare risingFirstDone finishedInput { OutputPort.start with can_push := true }).2.1

/-- Then `work()` finishes bucket 1, whose queue held one block. -/
def drainedExample : Transform Nat (List Nat) := outcome (work risingEnv risingPushed)

/-- What holds for the tags of the stored blocks between two calls: the bucket count is
in order, and every block stored for the current bucket or a later one is sound for
its bucket. -/
structure TagInv (env : Env ρ σ) (t : Transform ρ σ) : Prop where
  count : BucketCountOk env t
  sound : ∀ b, t.current_bucket_index ≤ b → ∀ block ∈ storedBlocks (bucketAt t b),
    SoundBlock env (getBucketsNum t) b block

/-! ### The calls of `scatterBlock` -/

/-- The state in which `rehashDataVariants` enters its second loop, `variants` being the
aggregation state it has converted: `per_key_memory_usage` refreshed, the aggregation
state fresh. -/
def rehashStart (env : Env ρ σ) (t : Transform ρ σ) (variants : σ) : Transform ρ σ :=
  let blocks := env.convertToBlocks variants false
  let block_rows : Nat := (blocks.map fun block => block.rows.length).sum
  let block_memory_usage : Nat := (blocks.map env.allocatedBytes).sum
  let t := if block_rows ≠ 0 then
      { t with
        per_key_memory_usage :=
          Fraction.div (Fraction.mul (Fraction.ofNat block_memory_usage) Fraction.one)
            (Fraction.ofNat block_rows) }
    else t
  { t with current_data_variants := some env.emptyVariants, no_more_keys := false }

/-- The first statement of `prepareBucketOutputBlocks`: a null `current_data_variants`
is replaced by a fresh aggregation state. -/
def ensureVariants (env : Env ρ σ) (t : Transform ρ σ) : Transform ρ σ :=
  if t.current_data_variants.isNone then
    { t with current_data_variants := some env.emptyVariants, no_more_keys := false }
  else t

/-- The call `rehashDataVariants()` made in state `t` calls `scatterBlock(blk)` in state
`s`: `blk` is one of the converted blocks and `s` is the state the second loop has
reached after the blocks before it. -/
def RehashScatters (env : Env ρ σ) (t s : Transform ρ σ) (blk : Block ρ) : Prop :=
  ∃ variants pre post, t.current_data_variants = some variants ∧
    env.convertToBlocks variants false = pre ++ blk :: post ∧
    forBlocks (rehashBlock env) pre (rehashStart env t variants) = .ok s

/-- The call `mergeOneBlock(block)` made in state `t` calls `scatterBlock(blk)` in state
`s`: inside `rehashDataVariants` when the second memory check asks for an extension and
`extendBuckets` returns, or in its last statement for the block itself when the block
does not carry the bucket count and there is more than one bucket. -/
inductive MergeScatters (env : Env ρ σ) (t : Transform ρ σ) (block : Block ρ) :
    Transform ρ σ → Block ρ → Prop
  | rehash (o1 : Bool) (t1 t2 t3 s : Transform ρ σ) (blk : Block ρ)
      (hrows : block.rows.length ≠ 0)
      (h1 : isMemoryOverflow env t = .ok (o1, t1))
      (h2 : isMemoryOverflow env (if o1 then flushBuckets env t1 else t1) = .ok (true, t2))
      (h3 : extendBuckets env t2 = .ok t3)
      (h4 : RehashScatters env t3 s blk) : MergeScatters env t block s blk
  | route (mem_used : Nat) (t1 s : Transform ρ σ)
      (hrows : block.rows.length ≠ 0)
      (h1 : beforeRoute env t = .ok (mem_used, t1))
      (h2 : s = { t1 with log := t1.log ++ [.mergeOnBlock block.rows.length (env.bytes block)
        block.bucket_num t1.current_bucket_index (getBucketsNum t1) mem_used] })
      (h3 : ¬ (block.bucket_num = toInt32 (getBucketsNum s) ∨ getBucketsNum s = 1)) :
      MergeScatters env t block s block

/-- The call `prepareBucketOutputBlocks()` made in state `t` calls `scatterBlock(blk)` in
state `s`: through `mergeOneBlock` for a block read from the stream of the current
bucket, or for a block of its queue, in the state that the replay loop has reached after
the blocks before it. -/
inductive PrepareScatters (env : Env ρ σ) (t : Transform ρ σ) :
    Transform ρ σ → Block ρ → Prop
  | stream (written pre post : List (Block ρ)) (block : Block ρ) (tk s : Transform ρ σ)
      (blk : Block ρ)
      (h1 : (bucketAt (ensureVariants env t)
        (ensureVariants env t).current_bucket_index).file_stream = some written)
      (h2 : readStream written = pre ++ block :: post)
      (h3 : forBlocks (mergeOneBlock env) pre (ensureVariants env t) = .ok tk)
      (h4 : MergeScatters env tk block s blk) : PrepareScatters env t s blk
  | queue (t1 : Transform ρ σ) (read_bytes read_rows : Nat) (pre post : List (Block ρ))
      (block : Block ρ) (tk s : Transform ρ σ) (blk : Block ρ)
      (h1 : replayStream env (ensureVariants env t) = .ok (t1, read_bytes, read_rows))
      (h2 : (bucketAt t1 t1.current_bucket_index).blocks = pre ++ block :: post)
      (h3 : replayBlocks env t1.current_bucket_index 0 pre t1 = .ok tk)
      (h4 : MergeScatters env tk block s blk) : PrepareScatters env t s blk

/-- The call `work()` made in state `t` calls `scatterBlock(blk)` in state `s`: through
`mergeOneBlock` for the input chunk, or through `prepareBucketOutputBlocks` when the
next bucket is started. -/
inductive WorkScatters (env : Env ρ σ) (t : Transform ρ σ) : Transform ρ σ → Block ρ → Prop
  | ingest (s : Transform ρ σ) (blk : Block ρ)
      (h1 : t.has_input = true)
      (h2 : ¬ (env.assertions ∧ t.input_finished))
      (h3 : MergeScatters env { t with input_chunk := [] } { rows := t.input_chunk } s blk) :
      WorkScatters env t s blk
  | drain (s : Transform ρ σ) (blk : Block ρ)
      (h1 : t.has_input = false)
      (h2 : ¬ (env.assertions ∧ ¬ t.input_finished))
      (h3 : t.current_final_blocks.isEmpty = true)
      (h4 : ¬ t.current_bucket_index ≥ getBucketsNum t)
      (h5 : PrepareScatters env t s blk) : WorkScatters env t s blk

/-- States of an operator driven by the protocol of the executor framework: `work()` is
called exactly after a `prepare()` that returned `Ready`, and the operator goes on only
when `work()` has returned. -/
inductive Running (env : Env ρ σ) : Transform ρ σ → Prop
  | init : Running env (Transform.init env)
  | idle (t : Transform ρ σ) (input : InputPort ρ) (output : OutputPort ρ)
      (h : Running env t) (hs : (prepare t input output).1 ≠ .Ready) :
      Running env (prepare t input output).2.1
  | round (t t2 : Transform ρ σ) (input : InputPort ρ) (output : OutputPort ρ)
      (h : Running env t) (hs : (prepare t input output).1 = .Ready)
      (hw : work env (prepare t input output).2.1 = .ok t2) : Running env t2

/-- Every sub-batch that `scatterBlock(blk)` returns in state `s` for a bucket before
the current one is without rows. -/
def NoBackwardRows (env : Env ρ σ) (s : Transform ρ σ) (blk : Block ρ) : Prop :=
  ∀ b sub, b < s.current_bucket_index → (scatterBlock env s blk)[b]? = some sub → sub.rows = []

/-- What holds between two rounds of an operator driven by the protocol: no input chunk
is held; there is no aggregation state, or it holds rows of the current bucket only; and
until the end of the input the operator works on bucket 0. -/
structure RunInv (env : Env ρ σ) (t : Transform ρ σ) : Prop where
  idle : t.has_input = false
  state : t.current_data_variants = none ∨ ∃ X, BucketInv env t X
  phase : t.input_finished = true ∨ (t.current_bucket_index = 0 ∧ ∃ X, BucketInv env t X)

/-- The state in which `prepareBucketOutputBlocks` starts to replay bucket 1 in the
example run. -/
def risingReplay : Transform Nat (List Nat) := ensureVariants risingEnv risingPushed

/-- The memory reading and the state with which `mergeOneBlock` reaches its last
statement for the block queued in bucket 1 of the example run. -/
def risingRouted : Nat × Transform Nat (List Nat) :=
  match beforeRoute risingEnv risingReplay with
  | .ok r => r
  | .error e => (0, e.2)

/-- The state in which that `mergeOneBlock` call scatters the block: the trace line has
been logged. -/
def risingScatter : Transform Nat (List Nat) :=
  { risingRouted.2 with log := risingRouted.2.log ++ [.mergeOnBlock 1
    (risingEnv.bytes { rows := [1], bucket_num := 2 }) 2 risingRouted.2.current_bucket_index
    (getBucketsNum risingRouted.2) risingRouted.1] }

/-! ### A run in which the non-final conversion tags its block with the bucket count -/

/-- The distinct-keys aggregator with a conversion that tags its block with the number 4.
Limit 100 bytes, up to 8 buckets; the tracker reads 100 the second time and from the
eleventh time on, and 0 otherwise. -/
def taggingEnv : Env Nat (List Nat) :=
  { distinctEnv (fun n => if n = 1 ∨ 10 ≤ n then 100 else 0) 100 8 with
    convertToBlocks := fun variants _ =>
      if variants.isEmpty then [] else [{ rows := variants, bucket_num := 4 }] }

/-- A run of `taggingEnv`, round by round: the chunk `[1, 2]` is taken and merged; the
buckets are extended to two and key 1 is queued for bucket 1. -/
def taggedMerged : Transform Nat (List Nat) :=
  outcome (work taggingEnv (prepare (Transform.init taggingEnv)
    { finished := false, data := some [1, 2], needed := false, closed := false }
    OutputPort.start).2.1)

/-- Then the chunk `[3]` is taken and merged: key 3 is queued for bucket 1. -/
def taggedSecond : Transform Nat (List Nat) :=
  outcome (work taggingEnv (prepare taggedMerged
    { finished := false, data := some [3], needed := false, closed := false }
    OutputPort.start).2.1)

/-- Then the input ends and `work()` finishes bucket 0. -/
def taggedFirstDone : Transform Nat (List Nat) :=
  outcome (work taggingEnv (prepare taggedSecond finishedInput OutputPort.start).2.1)

/-- Then `prepare()` pushes the chunk of bucket 0; the current bucket is bucket 1. -/
def taggedPushed : Transform Nat (List Nat) :=
  (prepare taggedFirstDone finishedInput { OutputPort.start with can_push := true }).2.1

/-- The state in which `prepareBucketOutputBlocks` reaches the second block queued for
bucket 1, the first one merged and emptied. -/
def taggedReplayed : Transform Nat (List Nat) :=
  outcome (replayBlocks taggingEnv 1 0 [{ rows := [1], bucket_num := 2 }]
    (ensureVariants taggingEnv taggedPushed))

/-- The state after the first memory check of `mergeOneBlock` for that block. -/
def taggedChecked : Transform Nat (List Nat) :=
  match isMemoryOverflow taggingEnv taggedReplayed with
  | .ok r => r.2
  | .error e => e.2

/-- The state after its second memory check, which reports an overflow. -/
def taggedOverflow : Transform Nat (List Nat) :=
  match isMemoryOverflow taggingEnv taggedChecked with
  | .ok r => r.2
  | .error e => e.2

/-- The state in which `rehashDataVariants` scatters the block converted from the
aggregation state: there are four buckets, the current one is bucket 1. -/
def taggedRehash : Transform Nat (List Nat) :=
  rehashStart taggingEnv (outcome (extendBuckets taggingEnv taggedOverflow)) [1]

end Steps

/-! ## Theorems -/

section Theorems

variable {ρ σ : Type}

/-- C6. `extendBuckets` throws exactly when twice the bucket count exceeds `max_buckets`;
the exception is the too-many-buckets one and the object is as before the call.
Otherwise the call succeeds, the bucket count is exactly doubled, every new bucket
`b` with `B ≤ b < 2B` has an empty queue and no stream, and every bucket that existed
before is unchanged. -/
theorem extendBuckets_doubles_or_throws (env : Env ρ σ) (t : Transform ρ σ) :
    ((∃ e, extendBuckets env t = .error e) ↔ 2 * getBucketsNum t > env.max_buckets) ∧
    (2 * getBucketsNum t > env.max_buckets →
      extendBuckets env t = .error (.tooManyBuckets, t)) ∧
    (¬ 2 * getBucketsNum t > env.max_buckets →
      ∃ t2, extendBuckets env t = .ok t2 ∧
        getBucketsNum t2 = 2 * getBucketsNum t ∧
        (∀ b, getBucketsNum t ≤ b → b < 2 * getBucketsNum t →
          t2.buckets[b]? = some { blocks := [], file_stream := none }) ∧
        (∀ b, b < getBucketsNum t → t2.buckets[b]? = t.buckets[b]?)) := by
  have key : getBucketsNum t * 2 = 2 * getBucketsNum t := Nat.mul_comm _ _
  refine ⟨?_, ?_, ?_⟩
  · constructor
    · rintro ⟨e, he⟩
      by_contra hle
      simp only [extendBuckets, key, if_neg hle] at he
      cases he
    · intro h
      exact ⟨(.tooManyBuckets, t), by simp only [extendBuckets, key, if_pos h]⟩
  · intro h
    simp only [extendBuckets, key, if_pos h]
  · intro h
    refine ⟨_, by simp only [extendBuckets, key, if_neg h]; rfl, ?_, ?_, ?_⟩
    · simp [getBucketsNum]; omega
    · intro b hb1 hb2
      simp only [getBucketsNum] at hb1 hb2 h ⊢
      rw [List.getElem?_append_right hb1]
      have hlt : b - t.buckets.length < 2 * t.buckets.length - t.buckets.length := by omega
      simp [List.getElem?_map, getBucketsNum, List.getElem?_replicate, hlt]
    · intro b hb
      simp only [getBucketsNum] at hb
      simp [List.getElem?_append_left hb]

/-- C8. `prepare()` is the first-match decision table of the specification, for every
operator state and every state of the two ports: same status, same operator state
afterwards, same effect on the ports. -/
theorem prepare_eq_decision_table (t : Transform ρ σ) (input : InputPort ρ)
    (output : OutputPort ρ) :
    prepare t input output = prepareSpec t input output := by
  unfold prepare prepareSpec decisionTable
  simp only [firstMatch, ruleOutputClosed, ruleHasOutput, ruleHasInput, ruleInputOpen,
    ruleAllDone, ruleOtherwise]
  cases h1 : output.finished <;> cases h2 : t.has_output <;> cases h3 : output.can_push <;>
    cases h4 : t.has_input <;> cases h5 : t.input_finished <;> cases h6 : input.finished <;>
    cases h7 : input.data <;>
    simp [h1, h2, h3, h4, h5, h6, h7] <;> split_ifs <;> simp_all

/-- Dropping leading blocks without rows: when no block has rows nothing is output. -/
theorem popFrom_no_rows (t : Transform ρ σ) (blocks : List (Block ρ))
    (h : ∀ block ∈ blocks, block.rows = []) :
    popFrom t blocks = { t with current_final_blocks := [] } := by
  induction blocks with
  | nil => rfl
  | cons block rest ih =>
    have hb : block.rows = [] := h block (List.mem_cons_self _ _)
    simp only [popFrom, hb, List.length_nil, if_true]
    exact ih (fun b hb2 => h b (List.mem_cons_of_mem _ hb2))

/-- C9, as the code has it. Upstream finishes without delivering a batch and the
aggregator converts an empty state to blocks without rows. The first `prepare()` after
the input port is finished returns `Ready` (it records `input_finished`) and pushes
nothing; the `work()` call that follows finalizes bucket 0 and buffers no output; every
later `prepare()` on an open output port returns `Finished` and pushes nothing. -/
theorem empty_input_finishes_on_second_prepare (env : Env ρ σ)
    (hempty : ∀ block ∈ env.convertToBlocks env.emptyVariants true, block.rows = [])
    (input : InputPort ρ) (output : OutputPort ρ)
    (hin : input.finished = true) (hout : output.finished = false) :
    (prepare (Transform.init env) input output).1 = Status.Ready ∧
    (prepare (Transform.init env) input output).2.2.2 = output ∧
    ∃ t2, work env (prepare (Transform.init env) input output).2.1 = .ok t2 ∧
      t2.has_output = false ∧
      ∀ (input2 : InputPort ρ) (output2 : OutputPort ρ), output2.finished = false →
        (prepare t2 input2 output2).1 = Status.Finished ∧
        (prepare t2 input2 output2).2.2.2.pushed = output2.pushed := by
  have hprep : prepare (Transform.init env) input output =
      (Status.Ready, { Transform.init env with input_finished := true }, input, output) := by
    simp [prepare, Transform.init, hin, hout]
  rw [hprep]
  refine ⟨rfl, rfl, ?_⟩
  have hwork : work env { Transform.init env with input_finished := true } =
      .ok ({ Transform.init env with
        input_finished := true
        buckets := [{ blocks := [], file_stream := none }]
        current_final_blocks := []
        log := [LogEvent.prepareOutput 0 0 0]
        current_bucket_index := 1
        current_data_variants := none } : Transform ρ σ) := by
    simp only [work, Transform.init, prepareBucketOutputBlocks, replayStream, replayQueue,
      replayBlocks, bucketAt, setBucket, getBucketsNum, forBlocks, popOneChunk]
    simp [forBlocks, replayBlocks, popFrom_no_rows _ _ hempty]
  refine ⟨_, hwork, rfl, ?_⟩
  intro input2 output2 hout2
  simp [prepare, hout2, Transform.init, getBucketsNum]

/-- C9, counterexample to the claim as worded: on a fresh operator whose input port is
already finished, the first `prepare()` returns `Ready`, not `Finished`. -/
theorem empty_input_first_prepare_is_ready :
    (prepare (Transform.init (distinctEnv (fun _ => 0) 0 1)) finishedInput
      OutputPort.start).1 = Status.Ready ∧
    (prepare (Transform.init (distinctEnv (fun _ => 0) 0 1)) finishedInput
      OutputPort.start).1 ≠ Status.Finished := by
  decide

/-- Witness for `empty_input_finishes_on_second_prepare`: the distinct-keys aggregator
with a finished, empty input port. -/
theorem empty_input_finishes_on_second_prepare_witness :
    (prepare (Transform.init (distinctEnv (fun _ => 0) 0 1)) finishedInput
      OutputPort.start).1 = Status.Ready :=
  (empty_input_finishes_on_second_prepare (distinctEnv (fun _ => 0) 0 1)
    (by intro block hb; simp [distinctEnv] at hb) finishedInput OutputPort.start rfl rfl).1

theorem bitLengthAux_spec : ∀ (fuel n : Nat), n ≤ fuel →
    n < 2 ^ bitLengthAux fuel n ∧ (n ≠ 0 → 2 ^ (bitLengthAux fuel n - 1) ≤ n) := by
  intro fuel
  induction fuel with
  | zero =>
    intro n hn
    have : n = 0 := by omega
    subst this
    exact ⟨by simp [bitLengthAux], fun h => absurd rfl h⟩
  | succ fuel ih =>
    intro n hn
    by_cases h0 : n = 0
    · subst h0
      exact ⟨by simp [bitLengthAux], fun h => absurd rfl h⟩
    · simp only [bitLengthAux, if_neg h0]
      obtain ⟨h1, h2⟩ := ih (n / 2) (by omega)
      refine ⟨?_, fun _ => ?_⟩
      · rw [pow_succ]
        omega
      · simp only [Nat.add_sub_cancel]
        by_cases h3 : n / 2 = 0
        · have : bitLengthAux fuel (n / 2) = 0 := by
            rw [h3]
            cases fuel <;> simp [bitLengthAux]
          rw [this]
          simp
          omega
        · have h4 := h2 h3
          have hpos : 0 < bitLengthAux fuel (n / 2) := by
            by_contra hc
            have hz : bitLengthAux fuel (n / 2) = 0 := by omega
            rw [hz] at h1
            simp at h1
            exact h3 h1
          have : bitLengthAux fuel (n / 2) = (bitLengthAux fuel (n / 2) - 1) + 1 := by omega
          rw [this, pow_succ]
          omega

theorem lt_pow_bitLength (n : Nat) : n < 2 ^ bitLength n :=
  (bitLengthAux_spec n n (Nat.le_refl _)).1

theorem pow_bitLength_le (n : Nat) (h : n ≠ 0) : 2 ^ (bitLength n - 1) ≤ n :=
  (bitLengthAux_spec n n (Nat.le_refl _)).2 h

theorem roundHalfEven_close (n d : Nat) (hd : 0 < d) :
    2 * (roundHalfEven n d * d) ≤ 2 * n + d ∧ 2 * n ≤ 2 * (roundHalfEven n d * d) + d := by
  have h1 := Nat.div_add_mod n d
  have h2 := Nat.mod_lt n hd
  have h3 : n / d * d = d * (n / d) := Nat.mul_comm _ _
  unfold roundHalfEven
  split_ifs with h
  · rw [Nat.add_mul, h3]
    rcases h with h | h <;> omega
  · rw [h3]
    have : ¬ 2 * (n % d) > d := fun hc => h (Or.inl hc)
    omega


theorem roundDouble_den_pos (num den : Nat) : 0 < (roundDouble num den).den := by
  unfold roundDouble
  split_ifs
  · exact Nat.one_pos
  · simp only []
    have hp : 0 < 2 ^ (53 + bitLength den) := Nat.pow_pos (by decide)
    exact Nat.div_pos (Nat.le_of_dvd hp (Nat.gcd_dvd_right _ _))
      (Nat.gcd_pos_of_pos_right _ hp)

theorem cast_div_gcd (n d : Nat) (hd : 0 < d) :
    ((n / Nat.gcd n d : Nat) : ℚ) / ((d / Nat.gcd n d : Nat) : ℚ) = (n : ℚ) / (d : ℚ) := by
  have hg : 0 < Nat.gcd n d := Nat.gcd_pos_of_pos_right _ hd
  have hgq : ((Nat.gcd n d : Nat) : ℚ) ≠ 0 := by exact_mod_cast Nat.pos_iff_ne_zero.1 hg
  rw [Nat.cast_div (Nat.gcd_dvd_left n d) hgq, Nat.cast_div (Nat.gcd_dvd_right n d) hgq]
  have hdq : (d : ℚ) ≠ 0 := by exact_mod_cast Nat.pos_iff_ne_zero.1 hd
  field_simp

/-- The shape of a rounded quotient: a significand `mant` that is the scaled quotient
rounded to the nearest integer, the scaled quotient being at least `2 ^ 52`. -/
theorem roundDouble_shape (num den : Nat) (h1 : num ≠ 0) (h2 : den ≠ 0) :
    ∃ mant ex sh : Nat,
      (roundDouble num den).toRat = ((mant : ℚ) * 2 ^ ex) / 2 ^ sh ∧
      2 * (mant * (den * 2 ^ ex)) ≤ 2 * (num * 2 ^ sh) + den * 2 ^ ex ∧
      2 * (num * 2 ^ sh) ≤ 2 * (mant * (den * 2 ^ ex)) + den * 2 ^ ex ∧
      2 ^ 52 * (den * 2 ^ ex) ≤ num * 2 ^ sh := by
  have hden : 0 < den := Nat.pos_of_ne_zero h2
  have hnum : 0 < num := Nat.pos_of_ne_zero h1
  refine ⟨roundHalfEven (num * 2 ^ (53 + bitLength den))
      (den * 2 ^ (bitLength (num * 2 ^ (53 + bitLength den) / den) - 53)),
    bitLength (num * 2 ^ (53 + bitLength den) / den) - 53, 53 + bitLength den, ?_, ?_, ?_, ?_⟩
  · have hno : ¬ (num = 0 ∨ den = 0) := by
      rintro (h | h)
      · exact h1 h
      · exact h2 h
    simp only [roundDouble, if_neg hno, Fraction.toRat]
    rw [cast_div_gcd _ _ (Nat.pow_pos (by decide))]
    push_cast
    rfl
  · exact (roundHalfEven_close _ _ (Nat.mul_pos hden (Nat.pow_pos (by decide)))).1
  · exact (roundHalfEven_close _ _ (Nat.mul_pos hden (Nat.pow_pos (by decide)))).2
  · -- the quotient has at least 54 binary digits
    have hlt := lt_pow_bitLength den
    have hQ : 2 ^ 53 ≤ num * 2 ^ (53 + bitLength den) / den := by
      rw [Nat.le_div_iff_mul_le hden, pow_add]
      calc 2 ^ 53 * den ≤ 2 ^ 53 * 2 ^ bitLength den :=
            Nat.mul_le_mul_left _ (Nat.le_of_lt hlt)
        _ ≤ num * (2 ^ 53 * 2 ^ bitLength den) := Nat.le_mul_of_pos_left _ hnum
    have hQ0 : num * 2 ^ (53 + bitLength den) / den ≠ 0 := by
      have : 0 < 2 ^ 53 := Nat.pow_pos (by decide)
      omega
    have hL : 54 ≤ bitLength (num * 2 ^ (53 + bitLength den) / den) := by
      by_contra hc
      have hle : bitLength (num * 2 ^ (53 + bitLength den) / den) ≤ 53 := by omega
      have h3 := lt_pow_bitLength (num * 2 ^ (53 + bitLength den) / den)
      have h4 : 2 ^ bitLength (num * 2 ^ (53 + bitLength den) / den) ≤ 2 ^ 53 :=
        Nat.pow_le_pow_right (by decide) hle
      omega
    have h5 := pow_bitLength_le _ hQ0
    have h6 : bitLength (num * 2 ^ (53 + bitLength den) / den) - 1
        = 52 + (bitLength (num * 2 ^ (53 + bitLength den) / den) - 53) := by omega
    rw [h6] at h5
    have h7 := Nat.div_mul_le_self (num * 2 ^ (53 + bitLength den)) den
    calc 2 ^ 52 * (den * 2 ^ (bitLength (num * 2 ^ (53 + bitLength den) / den) - 53))
        = 2 ^ (52 + (bitLength (num * 2 ^ (53 + bitLength den) / den) - 53)) * den := by
          rw [pow_add]
          ring
      _ ≤ num * 2 ^ (53 + bitLength den) / den * den := Nat.mul_le_mul_right _ h5
      _ ≤ num * 2 ^ (53 + bitLength den) := h7

/-- The significand of a rounded quotient has 53 binary digits: the value is
`mant * 2 ^ ex / 2 ^ sh` with `2 ^ 52 ≤ mant ≤ 2 ^ 53`, and `mant` is the quotient scaled
by `2 ^ sh / 2 ^ ex` rounded to the nearest integer. -/
theorem roundDouble_significand (num den : Nat) (h1 : num ≠ 0) (h2 : den ≠ 0) :
    ∃ mant ex sh : Nat,
      (roundDouble num den).toRat = ((mant : ℚ) * 2 ^ ex) / 2 ^ sh ∧
      2 ^ 52 ≤ mant ∧ mant ≤ 2 ^ 53 ∧
      2 * (mant * (den * 2 ^ ex)) ≤ 2 * (num * 2 ^ sh) + den * 2 ^ ex ∧
      2 * (num * 2 ^ sh) ≤ 2 * (mant * (den * 2 ^ ex)) + den * 2 ^ ex := by
  have hden : 0 < den := Nat.pos_of_ne_zero h2
  have hnum : 0 < num := Nat.pos_of_ne_zero h1
  have hno : ¬ (num = 0 ∨ den = 0) := by
    rintro (h | h)
    · exact h1 h
    · exact h2 h
  have hlt := lt_pow_bitLength den
  have hQ : 2 ^ 53 ≤ num * 2 ^ (53 + bitLength den) / den := by
    rw [Nat.le_div_iff_mul_le hden, pow_add]
    calc 2 ^ 53 * den ≤ 2 ^ 53 * 2 ^ bitLength den :=
          Nat.mul_le_mul_left _ (Nat.le_of_lt hlt)
      _ ≤ num * (2 ^ 53 * 2 ^ bitLength den) := Nat.le_mul_of_pos_left _ hnum
  have hQ0 : num * 2 ^ (53 + bitLength den) / den ≠ 0 := by
    have : 0 < 2 ^ 53 := Nat.pow_pos (by decide)
    omega
  have hL : 54 ≤ bitLength (num * 2 ^ (53 + bitLength den) / den) := by
    by_contra hc
    have hle : bitLength (num * 2 ^ (53 + bitLength den) / den) ≤ 53 := by omega
    have h3 := lt_pow_bitLength (num * 2 ^ (53 + bitLength den) / den)
    have h4 : 2 ^ bitLength (num * 2 ^ (53 + bitLength den) / den) ≤ 2 ^ 53 :=
      Nat.pow_le_pow_right (by decide) hle
    omega
  generalize hS : num * 2 ^ (53 + bitLength den) = scaled at hQ hQ0 hL
  generalize hLL : bitLength (scaled / den) = L at hL
  have hD : 0 < den * 2 ^ (L - 53) := Nat.mul_pos hden (Nat.pow_pos (by decide))
  have hlow : 2 ^ 52 * (den * 2 ^ (L - 53)) ≤ scaled := by
    have h5 := pow_bitLength_le _ hQ0
    rw [hLL] at h5
    have h6 : L - 1 = 52 + (L - 53) := by omega
    rw [h6] at h5
    have h7 := Nat.div_mul_le_self scaled den
    calc 2 ^ 52 * (den * 2 ^ (L - 53)) = 2 ^ (52 + (L - 53)) * den := by
          rw [pow_add]
          ring
      _ ≤ scaled / den * den := Nat.mul_le_mul_right _ h5
      _ ≤ scaled := h7
  have hhigh : scaled < 2 ^ 53 * (den * 2 ^ (L - 53)) := by
    have h5 := lt_pow_bitLength (scaled / den)
    rw [hLL] at h5
    have h6 : L = 53 + (L - 53) := by omega
    have h7 : scaled < (scaled / den + 1) * den := by
      have := Nat.div_add_mod scaled den
      have := Nat.mod_lt scaled hden
      rw [Nat.add_mul, Nat.mul_comm (scaled / den) den]
      omega
    calc scaled < (scaled / den + 1) * den := h7
      _ ≤ 2 ^ L * den := Nat.mul_le_mul_right _ h5
      _ = 2 ^ 53 * (den * 2 ^ (L - 53)) := by
        nth_rewrite 1 [h6]
        rw [pow_add]
        ring
  have hq1 : 2 ^ 52 ≤ scaled / (den * 2 ^ (L - 53)) :=
    (Nat.le_div_iff_mul_le hD).2 hlow
  have hq2 : scaled / (den * 2 ^ (L - 53)) < 2 ^ 53 :=
    (Nat.div_lt_iff_lt_mul hD).2 hhigh
  have hr : roundHalfEven scaled (den * 2 ^ (L - 53)) = scaled / (den * 2 ^ (L - 53)) ∨
      roundHalfEven scaled (den * 2 ^ (L - 53)) = scaled / (den * 2 ^ (L - 53)) + 1 := by
    unfold roundHalfEven
    split_ifs
    · exact Or.inr rfl
    · exact Or.inl rfl
  refine ⟨roundHalfEven scaled (den * 2 ^ (L - 53)), L - 53, 53 + bitLength den, ?_, ?_, ?_,
    ?_, ?_⟩
  · simp only [roundDouble, if_neg hno, Fraction.toRat, hS, hLL]
    rw [cast_div_gcd _ _ (Nat.pow_pos (by decide))]
    push_cast
    rfl
  · rcases hr with h | h <;> omega
  · rcases hr with h | h <;> omega
  · rw [hS]
    exact (roundHalfEven_close _ _ hD).1
  · rw [hS]
    exact (roundHalfEven_close _ _ hD).2

/-- Rounding to `double` changes a quotient by at most the relative amount `2 ^ -53`. -/
theorem roundDouble_close (num den : Nat) (hden : 0 < den) :
    |(roundDouble num den).toRat - (num : ℚ) / (den : ℚ)| * 2 ^ 53 ≤ (num : ℚ) / (den : ℚ) := by
  by_cases h1 : num = 0
  · subst h1
    simp [roundDouble, Fraction.toRat]
  · obtain ⟨mant, ex, sh, hv, ha, hb, hc⟩ :=
      roundDouble_shape num den h1 (Nat.pos_iff_ne_zero.1 hden)
    rw [hv]
    have hdq : (0 : ℚ) < (den : ℚ) := by exact_mod_cast hden
    have hex : (0 : ℚ) < 2 ^ ex := by positivity
    have hsh : (0 : ℚ) < 2 ^ sh := by positivity
    have ha2 : 2 * ((mant : ℚ) * ((den : ℚ) * 2 ^ ex)) ≤ 2 * ((num : ℚ) * 2 ^ sh) + den * 2 ^ ex := by
      exact_mod_cast ha
    have hb2 : 2 * ((num : ℚ) * 2 ^ sh) ≤ 2 * ((mant : ℚ) * ((den : ℚ) * 2 ^ ex)) + den * 2 ^ ex := by
      exact_mod_cast hb
    have hc2 : (2 : ℚ) ^ 52 * ((den : ℚ) * 2 ^ ex) ≤ (num : ℚ) * 2 ^ sh := by
      exact_mod_cast hc
    have hdiff : (mant : ℚ) * 2 ^ ex / 2 ^ sh - (num : ℚ) / den
        = ((mant : ℚ) * ((den : ℚ) * 2 ^ ex) - (num : ℚ) * 2 ^ sh) / (den * 2 ^ sh) := by
      field_simp
      ring
    have hx : (num : ℚ) / den = ((num : ℚ) * 2 ^ sh) / (den * 2 ^ sh) := by
      field_simp
      ring
    rw [hdiff, hx, abs_div, abs_of_pos (mul_pos hdq hsh), div_mul_eq_mul_div,
      div_le_div_iff_of_pos_right (mul_pos hdq hsh)]
    have habs : |(mant : ℚ) * ((den : ℚ) * 2 ^ ex) - (num : ℚ) * 2 ^ sh| ≤ (den : ℚ) * 2 ^ ex / 2 := by
      rw [abs_le]
      constructor <;> linarith
    have h53 : (2 : ℚ) ^ 53 = 2 * 2 ^ 52 := by norm_num
    calc |(mant : ℚ) * ((den : ℚ) * 2 ^ ex) - (num : ℚ) * 2 ^ sh| * 2 ^ 53
        ≤ (den : ℚ) * 2 ^ ex / 2 * 2 ^ 53 := by
          apply mul_le_mul_of_nonneg_right habs (by positivity)
      _ = 2 ^ 52 * ((den : ℚ) * 2 ^ ex) := by rw [h53]; ring
      _ ≤ (num : ℚ) * 2 ^ sh := hc2

/-- A quotient is positive exactly when numerator and denominator are. -/
theorem fraction_toRat_pos (q : Fraction) : 0 < q.toRat ↔ 0 < q.num ∧ 0 < q.den := by
  unfold Fraction.toRat
  constructor
  · intro h
    rcases Nat.eq_zero_or_pos q.den with hd | hd
    · simp [hd] at h
    · rcases Nat.eq_zero_or_pos q.num with hn | hn
      · simp [hn] at h
      · exact ⟨hn, hd⟩
  · rintro ⟨hn, hd⟩
    have h1 : (0 : ℚ) < (q.num : ℚ) := by exact_mod_cast hn
    have h2 : (0 : ℚ) < (q.den : ℚ) := by exact_mod_cast hd
    exact div_pos h1 h2

theorem fraction_toRat_nonneg (q : Fraction) : 0 ≤ q.toRat := by
  unfold Fraction.toRat
  positivity

/-- The comparison of two doubles is the comparison of the rationals. -/
theorem fraction_ge_iff (a b : Fraction) (ha : 0 < a.den) (hb : 0 < b.den) :
    a.ge b = true ↔ a.toRat ≥ b.toRat := by
  have ha2 : (0 : ℚ) < (a.den : ℚ) := by exact_mod_cast ha
  have hb2 : (0 : ℚ) < (b.den : ℚ) := by exact_mod_cast hb
  simp only [Fraction.ge, decide_eq_true_eq, Fraction.toRat, ge_iff_le]
  rw [div_le_div_iff₀ hb2 ha2]
  exact_mod_cast Iff.rfl

/-- Conversion to `double` changes an unsigned integer by at most the relative amount
`2 ^ -53`. -/
theorem ofNat_close (n : Nat) : |(Fraction.ofNat n).toRat - (n : ℚ)| * 2 ^ 53 ≤ (n : ℚ) := by
  have := roundDouble_close n 1 Nat.one_pos
  simpa [Fraction.ofNat] using this

/-- The product of two doubles is their exact product changed by at most the relative
amount `2 ^ -53`. -/
theorem mul_close (a b : Fraction) (ha : 0 < a.den) (hb : 0 < b.den) :
    |(Fraction.mul a b).toRat - a.toRat * b.toRat| * 2 ^ 53 ≤ a.toRat * b.toRat := by
  have := roundDouble_close (a.num * b.num) (a.den * b.den) (Nat.mul_pos ha hb)
  have hx : ((a.num * b.num : Nat) : ℚ) / ((a.den * b.den : Nat) : ℚ) = a.toRat * b.toRat := by
    simp only [Fraction.toRat]
    push_cast
    rw [mul_div_mul_comm]
  rw [hx] at this
  exact this

/-- The sum of two doubles is their exact sum changed by at most the relative amount
`2 ^ -53`. -/
theorem add_close (a b : Fraction) (ha : 0 < a.den) (hb : 0 < b.den) :
    |(Fraction.add a b).toRat - (a.toRat + b.toRat)| * 2 ^ 53 ≤ a.toRat + b.toRat := by
  have := roundDouble_close (a.num * b.den + b.num * a.den) (a.den * b.den) (Nat.mul_pos ha hb)
  have ha2 : (a.den : ℚ) ≠ 0 := by exact_mod_cast Nat.pos_iff_ne_zero.1 ha
  have hb2 : (b.den : ℚ) ≠ 0 := by exact_mod_cast Nat.pos_iff_ne_zero.1 hb
  have hx : ((a.num * b.den + b.num * a.den : Nat) : ℚ) / ((a.den * b.den : Nat) : ℚ)
      = a.toRat + b.toRat := by
    simp only [Fraction.toRat]
    push_cast
    field_simp
  rw [hx] at this
  exact this

/-- Error analysis of `fl(M) + fl(e * fl(G))` in double precision, all operands not
negative: the result is the exact `M + e * G` changed by at most the relative amount
`4 * 2 ^ -53`. -/
theorem estimate_sum_close {M G e a g p s : ℚ} (hM : 0 ≤ M) (hG : 0 ≤ G) (he : 0 ≤ e)
    (ha : |a - M| * 2 ^ 53 ≤ M) (hg : |g - G| * 2 ^ 53 ≤ G)
    (hp : |p - e * g| * 2 ^ 53 ≤ e * g) (hs : |s - (a + p)| * 2 ^ 53 ≤ a + p) :
    (M + e * G) * (1 - 3 / 2 ^ 53) ≤ s ∧ s ≤ (M + e * G) * (1 + 4 / 2 ^ 53) := by
  have h53 : (0 : ℚ) < 2 ^ 53 := by positivity
  have ha1 := abs_le.1 (le_trans (le_div_iff₀ h53 |>.2 ha) (le_refl _))
  have hg1 := abs_le.1 (le_trans (le_div_iff₀ h53 |>.2 hg) (le_refl _))
  have hp1 := abs_le.1 (le_trans (le_div_iff₀ h53 |>.2 hp) (le_refl _))
  have hs1 := abs_le.1 (le_trans (le_div_iff₀ h53 |>.2 hs) (le_refl _))
  obtain ⟨ha_lo, ha_hi⟩ := ha1
  obtain ⟨hg_lo, hg_hi⟩ := hg1
  obtain ⟨hp_lo, hp_hi⟩ := hp1
  obtain ⟨hs_lo, hs_hi⟩ := hs1
  -- bounds on the factors
  have hg_lo2 : G * (1 - 1 / 2 ^ 53) ≤ g := by linarith
  have hg_hi2 : g ≤ G * (1 + 1 / 2 ^ 53) := by linarith
  have heg_lo : e * (G * (1 - 1 / 2 ^ 53)) ≤ e * g := mul_le_mul_of_nonneg_left hg_lo2 he
  have heg_hi : e * g ≤ e * (G * (1 + 1 / 2 ^ 53)) := mul_le_mul_of_nonneg_left hg_hi2 he
  have hEG : 0 ≤ e * G := mul_nonneg he hG
  have hp_lo2 : e * G * (1 - 1 / 2 ^ 53) * (1 - 1 / 2 ^ 53) ≤ p := by
    have h1 : e * g * (1 - 1 / 2 ^ 53) ≤ p := by linarith
    have h2 : e * (G * (1 - 1 / 2 ^ 53)) * (1 - 1 / 2 ^ 53) ≤ e * g * (1 - 1 / 2 ^ 53) :=
      mul_le_mul_of_nonneg_right heg_lo (by norm_num)
    calc e * G * (1 - 1 / 2 ^ 53) * (1 - 1 / 2 ^ 53)
        = e * (G * (1 - 1 / 2 ^ 53)) * (1 - 1 / 2 ^ 53) := by ring
      _ ≤ e * g * (1 - 1 / 2 ^ 53) := h2
      _ ≤ p := h1
  have hp_hi2 : p ≤ e * G * (1 + 1 / 2 ^ 53) * (1 + 1 / 2 ^ 53) := by
    have h1 : p ≤ e * g * (1 + 1 / 2 ^ 53) := by linarith
    have h2 : e * g * (1 + 1 / 2 ^ 53) ≤ e * (G * (1 + 1 / 2 ^ 53)) * (1 + 1 / 2 ^ 53) :=
      mul_le_mul_of_nonneg_right heg_hi (by norm_num)
    calc p ≤ e * g * (1 + 1 / 2 ^ 53) := h1
      _ ≤ e * (G * (1 + 1 / 2 ^ 53)) * (1 + 1 / 2 ^ 53) := h2
      _ = e * G * (1 + 1 / 2 ^ 53) * (1 + 1 / 2 ^ 53) := by ring
  have ha_lo2 : M * (1 - 1 / 2 ^ 53) ≤ a := by linarith
  have ha_hi2 : a ≤ M * (1 + 1 / 2 ^ 53) := by linarith
  have hs_lo2 : (a + p) * (1 - 1 / 2 ^ 53) ≤ s := by linarith
  have hs_hi2 : s ≤ (a + p) * (1 + 1 / 2 ^ 53) := by linarith
  constructor
  · have h1 : (M * (1 - 1 / 2 ^ 53) + e * G * (1 - 1 / 2 ^ 53) * (1 - 1 / 2 ^ 53))
        * (1 - 1 / 2 ^ 53) ≤ (a + p) * (1 - 1 / 2 ^ 53) :=
      mul_le_mul_of_nonneg_right (by linarith) (by norm_num)
    have h2 : (M + e * G) * (1 - 3 / 2 ^ 53)
        ≤ (M * (1 - 1 / 2 ^ 53) + e * G * (1 - 1 / 2 ^ 53) * (1 - 1 / 2 ^ 53))
          * (1 - 1 / 2 ^ 53) := by
      have e1 : (M * (1 - 1 / 2 ^ 53) + e * G * (1 - 1 / 2 ^ 53) * (1 - 1 / 2 ^ 53))
          * (1 - 1 / 2 ^ 53) - (M + e * G) * (1 - 3 / 2 ^ 53)
          = M * ((1 - 1 / 2 ^ 53) * (1 - 1 / 2 ^ 53) - (1 - 3 / 2 ^ 53))
            + e * G * ((1 - 1 / 2 ^ 53) * (1 - 1 / 2 ^ 53) * (1 - 1 / 2 ^ 53)
              - (1 - 3 / 2 ^ 53)) := by ring
      have e2 : (0 : ℚ) ≤ (1 - 1 / 2 ^ 53) * (1 - 1 / 2 ^ 53) - (1 - 3 / 2 ^ 53) := by norm_num
      have e3 : (0 : ℚ) ≤ (1 - 1 / 2 ^ 53) * (1 - 1 / 2 ^ 53) * (1 - 1 / 2 ^ 53)
          - (1 - 3 / 2 ^ 53) := by norm_num
      have := add_nonneg (mul_nonneg hM e2) (mul_nonneg hEG e3)
      linarith
    linarith
  · have hap : 0 ≤ a + p := by
      have : 0 ≤ M * (1 - 1 / 2 ^ 53) := mul_nonneg hM (by norm_num)
      have : 0 ≤ e * G * (1 - 1 / 2 ^ 53) * (1 - 1 / 2 ^ 53) :=
        mul_nonneg (mul_nonneg hEG (by norm_num)) (by norm_num)
      linarith
    have h1 : (a + p) * (1 + 1 / 2 ^ 53)
        ≤ (M * (1 + 1 / 2 ^ 53) + e * G * (1 + 1 / 2 ^ 53) * (1 + 1 / 2 ^ 53))
          * (1 + 1 / 2 ^ 53) :=
      mul_le_mul_of_nonneg_right (by linarith) (by norm_num)
    have h2 : (M * (1 + 1 / 2 ^ 53) + e * G * (1 + 1 / 2 ^ 53) * (1 + 1 / 2 ^ 53))
          * (1 + 1 / 2 ^ 53) ≤ (M + e * G) * (1 + 4 / 2 ^ 53) := by
      have e1 : (M + e * G) * (1 + 4 / 2 ^ 53)
          - (M * (1 + 1 / 2 ^ 53) + e * G * (1 + 1 / 2 ^ 53) * (1 + 1 / 2 ^ 53))
            * (1 + 1 / 2 ^ 53)
          = M * ((1 + 4 / 2 ^ 53) - (1 + 1 / 2 ^ 53) * (1 + 1 / 2 ^ 53))
            + e * G * ((1 + 4 / 2 ^ 53)
              - (1 + 1 / 2 ^ 53) * (1 + 1 / 2 ^ 53) * (1 + 1 / 2 ^ 53)) := by ring
      have e2 : (0 : ℚ) ≤ (1 + 4 / 2 ^ 53) - (1 + 1 / 2 ^ 53) * (1 + 1 / 2 ^ 53) := by norm_num
      have e3 : (0 : ℚ) ≤ (1 + 4 / 2 ^ 53)
          - (1 + 1 / 2 ^ 53) * (1 + 1 / 2 ^ 53) * (1 + 1 / 2 ^ 53) := by norm_num
      have := add_nonneg (mul_nonneg hM e2) (mul_nonneg hEG e3)
      linarith
    linarith

/-- C10, as the code has it.  With `max_memory_usage > 0`, a live aggregation state of
`G` groups, a tracker reading clamped to `M ≥ 0` and an estimate `e > 0`,
`isMemoryOverflow` returns a value, and it returns true exactly when the double
`fl(M) + e * fl(G)`, the product and the sum rounded to the nearest double, is at least
the double nearest to `cap`, the integer `max_memory_usage * 8 / 10` of 64-bit unsigned
arithmetic.  A conversion, a product and a sum each change the exact result by at most
the relative amount `2 ^ -53`; so the answer is true when the exact `M + e * G` is at
least `cap * (1 + 2 ^ -50)` and false when it is below `cap * (1 - 2 ^ -50)`.  Below
`2^61` the cap is the floor of `0.8 * max_memory_usage`. -/
theorem isMemoryOverflow_with_estimate (env : Env ρ σ) (t : Transform ρ σ) (variants : σ)
    (hmax : 0 < env.max_memory_usage)
    (hv : t.current_data_variants = some variants)
    (hpos : 0 < t.per_key_memory_usage.toRat) :
    (∃ b t2, isMemoryOverflow env t = .ok (b, t2)) ∧
    ((∃ t2, isMemoryOverflow env t = .ok (true, t2)) ↔
      (Fraction.add (Fraction.ofNat (getMemoryUsage env t).1)
          (Fraction.mul t.per_key_memory_usage
            (Fraction.ofNat (env.variantsSize variants)))).toRat
        ≥ (Fraction.ofNat (env.max_memory_usage * 8 % 2 ^ 64 / 10)).toRat) ∧
    ((∀ n : Nat, |(Fraction.ofNat n).toRat - (n : ℚ)| * 2 ^ 53 ≤ (n : ℚ)) ∧
      (∀ a b : Fraction, 0 < a.den → 0 < b.den →
        |(Fraction.mul a b).toRat - a.toRat * b.toRat| * 2 ^ 53 ≤ a.toRat * b.toRat) ∧
      (∀ a b : Fraction, 0 < a.den → 0 < b.den →
        |(Fraction.add a b).toRat - (a.toRat + b.toRat)| * 2 ^ 53 ≤ a.toRat + b.toRat)) ∧
    (((getMemoryUsage env t).1 : ℚ)
          + t.per_key_memory_usage.toRat * (env.variantsSize variants : ℚ)
        ≥ ((env.max_memory_usage * 8 % 2 ^ 64 / 10 : Nat) : ℚ) * (1 + 1 / 2 ^ 50) →
      ∃ t2, isMemoryOverflow env t = .ok (true, t2)) ∧
    (((getMemoryUsage env t).1 : ℚ)
          + t.per_key_memory_usage.toRat * (env.variantsSize variants : ℚ)
        < ((env.max_memory_usage * 8 % 2 ^ 64 / 10 : Nat) : ℚ) * (1 - 1 / 2 ^ 50) →
      ∃ t2, isMemoryOverflow env t = .ok (false, t2)) ∧
    (env.max_memory_usage < 2 ^ 61 →
      env.max_memory_usage * 8 % 2 ^ 64 / 10 = ⌊(8 / 10 : ℚ) * (env.max_memory_usage : ℚ)⌋₊) := by
  have hq := (fraction_toRat_pos _).1 hpos
  have hne : env.max_memory_usage ≠ 0 := Nat.pos_iff_ne_zero.1 hmax
  have hsplit : getMemoryUsage env t =
      ((getMemoryUsage env t).1, { t with mem_queries := t.mem_queries + 1 }) := rfl
  have hdS : 0 < (Fraction.add (Fraction.ofNat (getMemoryUsage env t).1)
      (Fraction.mul t.per_key_memory_usage
        (Fraction.ofNat (env.variantsSize variants)))).den := roundDouble_den_pos _ _
  have hdC : 0 < (Fraction.ofNat (env.max_memory_usage * 8 % 2 ^ 64 / 10)).den :=
    roundDouble_den_pos _ _
  have hge := fraction_ge_iff _ _ hdS hdC
  have hret : ∃ b t2, isMemoryOverflow env t = .ok (b, t2) := by
    simp only [isMemoryOverflow, if_neg hne, hv]
    rw [hsplit]
    simp only [hq, and_self, if_true]
    split_ifs <;> exact ⟨_, _, rfl⟩
  have hiff : (∃ t2, isMemoryOverflow env t = .ok (true, t2)) ↔
      (Fraction.add (Fraction.ofNat (getMemoryUsage env t).1)
          (Fraction.mul t.per_key_memory_usage
            (Fraction.ofNat (env.variantsSize variants)))).toRat
        ≥ (Fraction.ofNat (env.max_memory_usage * 8 % 2 ^ 64 / 10)).toRat := by
    rw [← hge]
    simp only [isMemoryOverflow, if_neg hne, hv]
    rw [hsplit]
    simp only [hq, and_self, if_true]
    split_ifs with h
    · exact ⟨fun _ => h, fun _ => ⟨_, rfl⟩⟩
    · constructor
      · rintro ⟨t2, ht2⟩
        simp at ht2
      · intro h2
        exact absurd h2 h
  -- error analysis
  have hM : (0 : ℚ) ≤ ((getMemoryUsage env t).1 : ℚ) := Nat.cast_nonneg _
  have hG : (0 : ℚ) ≤ (env.variantsSize variants : ℚ) := Nat.cast_nonneg _
  have hC : (0 : ℚ) ≤ ((env.max_memory_usage * 8 % 2 ^ 64 / 10 : Nat) : ℚ) := Nat.cast_nonneg _
  have hsum := estimate_sum_close hM hG (le_of_lt hpos) (ofNat_close _) (ofNat_close _)
    (mul_close t.per_key_memory_usage (Fraction.ofNat (env.variantsSize variants)) hq.2
      (roundDouble_den_pos _ _))
    (add_close (Fraction.ofNat (getMemoryUsage env t).1)
      (Fraction.mul t.per_key_memory_usage (Fraction.ofNat (env.variantsSize variants)))
      (roundDouble_den_pos _ _) (roundDouble_den_pos _ _))
  have h53 : (0 : ℚ) < 2 ^ 53 := by positivity
  have hcap := abs_le.1 (le_trans (le_div_iff₀ h53 |>.2
    (ofNat_close (env.max_memory_usage * 8 % 2 ^ 64 / 10))) (le_refl _))
  refine ⟨hret, hiff, ⟨ofNat_close, mul_close, add_close⟩, ?_, ?_, ?_⟩
  · intro hT
    apply hiff.2
    have h1 := mul_le_mul_of_nonneg_right hT (show (0 : ℚ) ≤ 1 - 3 / 2 ^ 53 by norm_num)
    have h2 : ((env.max_memory_usage * 8 % 2 ^ 64 / 10 : Nat) : ℚ) * (1 + 1 / 2 ^ 53)
        ≤ ((env.max_memory_usage * 8 % 2 ^ 64 / 10 : Nat) : ℚ) * (1 + 1 / 2 ^ 50)
          * (1 - 3 / 2 ^ 53) := by
      rw [mul_assoc]
      exact mul_le_mul_of_nonneg_left (by norm_num) hC
    have h3 := hsum.1
    have h4 := hcap.2
    show _ ≤ _
    linarith
  · intro hT
    obtain ⟨b, t2, hb⟩ := hret
    cases b with
    | false => exact ⟨t2, hb⟩
    | true =>
      exfalso
      have hs := hiff.1 ⟨t2, hb⟩
      have h1 := mul_lt_mul_of_pos_right hT (show (0 : ℚ) < 1 + 4 / 2 ^ 53 by norm_num)
      have h2 : ((env.max_memory_usage * 8 % 2 ^ 64 / 10 : Nat) : ℚ) * (1 - 1 / 2 ^ 50)
          * (1 + 4 / 2 ^ 53)
          ≤ ((env.max_memory_usage * 8 % 2 ^ 64 / 10 : Nat) : ℚ) * (1 - 1 / 2 ^ 53) := by
        rw [mul_assoc]
        exact mul_le_mul_of_nonneg_left (by norm_num) hC
      have h3 := hsum.2
      have h4 := hcap.1
      have hs2 : _ ≤ _ := hs
      linarith
  · intro hlt
    have h1 : env.max_memory_usage * 8 % 2 ^ 64 = env.max_memory_usage * 8 :=
      Nat.mod_eq_of_lt (by omega)
    rw [h1]
    have h2 : (8 / 10 : ℚ) * (env.max_memory_usage : ℚ)
        = ((env.max_memory_usage * 8 : Nat) : ℚ) / ((10 : Nat) : ℚ) := by
      push_cast
      ring
    rw [h2, Nat.floor_div_eq_div]

set_option maxRecDepth 100000 in
/-- C10, counterexamples to the claim as worded.  With `max_memory_usage = 1`, reading
0, no group and an estimate of 1 the code reports overflow (its cap is `1 * 8 / 10 = 0`),
while `M + e * G = 0` is below the exact cap `0.8`.  With `max_memory_usage = 10`,
reading 7, three groups and the estimate stored for one byte in three rows, the code
reports overflow (in double precision `e * 3` is 1), while the exact `M + e * G` is
below the cap 8, which here is also the exact `0.8 * max_memory_usage`. -/
theorem isMemoryOverflow_exact_counterexample :
    ((∃ t2, isMemoryOverflow capExampleEnv capExampleState = .ok (true, t2)) ∧
      ¬ (((getMemoryUsage capExampleEnv capExampleState).1 : ℚ)
            + capExampleState.per_key_memory_usage.toRat
              * (capExampleEnv.variantsSize capExampleEnv.emptyVariants : ℚ)
          ≥ (8 / 10 : ℚ) * (capExampleEnv.max_memory_usage : ℚ))) ∧
    ((∃ t2, isMemoryOverflow thirdExampleEnv thirdExampleState = .ok (true, t2)) ∧
      0 < thirdExampleState.per_key_memory_usage.toRat ∧
      ¬ (((getMemoryUsage thirdExampleEnv thirdExampleState).1 : ℚ)
            + thirdExampleState.per_key_memory_usage.toRat
              * (thirdExampleEnv.variantsSize [1, 2, 3] : ℚ)
          ≥ ((thirdExampleEnv.max_memory_usage * 8 % 2 ^ 64 / 10 : Nat) : ℚ)) ∧
      ((thirdExampleEnv.max_memory_usage * 8 % 2 ^ 64 / 10 : Nat) : ℚ)
        = (8 / 10 : ℚ) * (thirdExampleEnv.max_memory_usage : ℚ)) := by
  have he : thirdExampleState.per_key_memory_usage
      = { num := 6004799503160661, den := 18014398509481984 } := by decide
  refine ⟨⟨⟨_, rfl⟩, ?_⟩, ⟨_, rfl⟩, ?_, ?_, ?_⟩
  · norm_num [getMemoryUsage, capExampleEnv, capExampleState, distinctEnv, Fraction.toRat,
      Transform.init]
  · rw [he]
    norm_num [Fraction.toRat]
  · have hM : (getMemoryUsage thirdExampleEnv thirdExampleState).1 = 7 := rfl
    have hG : thirdExampleEnv.variantsSize [1, 2, 3] = 3 := rfl
    have hC : thirdExampleEnv.max_memory_usage * 8 % 2 ^ 64 / 10 = 8 := rfl
    rw [he, hM, hG, hC]
    norm_num [Fraction.toRat]
  · norm_num [thirdExampleEnv, distinctEnv]

/-- Witness for `isMemoryOverflow_with_estimate`: `max_memory_usage = 1`, estimate 1. -/
theorem isMemoryOverflow_with_estimate_witness :
    ∃ b t2, isMemoryOverflow capExampleEnv capExampleState = .ok (b, t2) :=
  (isMemoryOverflow_with_estimate capExampleEnv capExampleState []
    (by decide) rfl (by norm_num [capExampleState, Fraction.toRat])).1

/-! ### Basic facts about the bucket map -/

@[simp] theorem getBucketsNum_setBucket (t : Transform ρ σ) (i : Nat) (b : BufferFileStream ρ) :
    getBucketsNum (setBucket t i b) = getBucketsNum t := by
  simp [getBucketsNum, setBucket]

theorem flushBucket_state (env : Env ρ σ) (t : Transform ρ σ) (i : Nat) :
    (flushBucket env t i).2 =
      if (bucketAt t i).blocks.isEmpty then t
      else setBucket t i (flushedEntry env (bucketAt t i)) := by
  simp only [flushBucket, flushedEntry]
  split_ifs <;> rfl

@[simp] theorem getBucketsNum_flushBucket (env : Env ρ σ) (t : Transform ρ σ) (i : Nat) :
    getBucketsNum (flushBucket env t i).2 = getBucketsNum t := by
  rw [flushBucket_state]
  split_ifs <;> simp

@[simp] theorem index_flushBucket (env : Env ρ σ) (t : Transform ρ σ) (i : Nat) :
    (flushBucket env t i).2.current_bucket_index = t.current_bucket_index := by
  rw [flushBucket_state]
  split_ifs <;> simp [setBucket]

@[simp] theorem getBucketsNum_addBlock (t : Transform ρ σ) (i : Nat) (block : Block ρ) :
    getBucketsNum (addBlockIntoFileBucket t i block) = getBucketsNum t := by
  unfold addBlockIntoFileBucket
  split_ifs <;> simp

@[simp] theorem index_addBlock (t : Transform ρ σ) (i : Nat) (block : Block ρ) :
    (addBlockIntoFileBucket t i block).current_bucket_index = t.current_bucket_index := by
  unfold addBlockIntoFileBucket
  split_ifs <;> simp [setBucket]

theorem mem_laterBuckets (t : Transform ρ σ) (i : Nat) :
    i ∈ laterBuckets t ↔ t.current_bucket_index < i ∧ i < getBucketsNum t := by
  simp only [laterBuckets, List.mem_range']
  constructor
  · rintro ⟨k, hk, rfl⟩
    omega
  · rintro ⟨h1, h2⟩
    exact ⟨i - (t.current_bucket_index + 1), by omega, by omega⟩

/-! ### Every call is a sequence of primitive state changes -/

theorem msteps_step {env : Env ρ σ} {a b c : Transform ρ σ}
    (h1 : MSteps env a b) (h2 : MStep env b c) : MSteps env a c :=
  Relation.ReflTransGen.tail h1 h2

theorem isMemoryOverflow_steps (env : Env ρ σ) (t : Transform ρ σ) :
    (∀ b t2, isMemoryOverflow env t = .ok (b, t2) →
      MSteps env t t2 ∧ (b = true → env.max_memory_usage ≠ 0)) ∧
    (∀ e t2, isMemoryOverflow env t = .error (e, t2) → t2 = t) := by
  unfold isMemoryOverflow
  by_cases hmax : env.max_memory_usage = 0
  · simp only [if_pos hmax]
    constructor
    · intro b t2 h
      simp only [Except.ok.injEq, Prod.mk.injEq] at h
      obtain ⟨rfl, rfl⟩ := h
      exact ⟨Relation.ReflTransGen.refl, by simp⟩
    · intro e t2 h
      cases h
  · simp only [if_neg hmax]
    cases hv : t.current_data_variants with
    | none =>
      constructor
      · intro b t2 h
        cases h
      · intro e t2 h
        simp only [Except.error.injEq, Prod.mk.injEq] at h
        exact h.2.symm
    | some variants =>
      have hread : MSteps env t (getMemoryUsage env t).2 :=
        Relation.ReflTransGen.single (MStep.readMemory t)
      constructor
      · intro b t2 h
        refine ⟨?_, fun _ => hmax⟩
        simp only [] at h
        split_ifs at h <;> simp only [Except.ok.injEq, Prod.mk.injEq] at h <;>
          obtain ⟨-, rfl⟩ := h
        · exact msteps_step hread (MStep.note _ _ rfl)
        · exact hread
        · exact msteps_step hread (MStep.note _ _ rfl)
        · exact hread
      · intro e t2 h
        simp only [] at h
        split_ifs at h

theorem flushEach_steps (env : Env ρ σ) (hmem : env.max_memory_usage ≠ 0) :
    ∀ (is : List Nat) (t : Transform ρ σ) (n : Nat),
      (∀ i ∈ is, t.current_bucket_index < i ∧ i < getBucketsNum t) →
      MSteps env t (flushEach env is t n).2 ∧
      getBucketsNum (flushEach env is t n).2 = getBucketsNum t ∧
      (flushEach env is t n).2.current_bucket_index = t.current_bucket_index := by
  intro is
  induction is with
  | nil =>
    intro t n _
    exact ⟨Relation.ReflTransGen.refl, rfl, rfl⟩
  | cons i is ih =>
    intro t n h
    have hi := h i (List.mem_cons_self _ _)
    have hrest : ∀ j ∈ is, (flushBucket env t i).2.current_bucket_index < j ∧
        j < getBucketsNum (flushBucket env t i).2 := by
      intro j hj
      simpa using h j (List.mem_cons_of_mem _ hj)
    obtain ⟨h1, h2, h3⟩ := ih (flushBucket env t i).2 (n + (flushBucket env t i).1) hrest
    have hunf : flushEach env (i :: is) t n
        = flushEach env is (flushBucket env t i).2 (n + (flushBucket env t i).1) := rfl
    rw [hunf]
    refine ⟨Relation.ReflTransGen.head (MStep.flushBucket t i hmem hi.1 hi.2) h1, ?_, ?_⟩
    · rw [h2]; simp
    · rw [h3]; simp

theorem flushBuckets_steps (env : Env ρ σ) (hmem : env.max_memory_usage ≠ 0)
    (t : Transform ρ σ) : MSteps env t (flushBuckets env t) := by
  have h0 : MSteps env t (getMemoryUsage env t).2 :=
    Relation.ReflTransGen.single (MStep.readMemory t)
  have h1 := (flushEach_steps env hmem (laterBuckets (getMemoryUsage env t).2)
    (getMemoryUsage env t).2 0 (fun i hi => (mem_laterBuckets _ i).1 hi)).1
  exact msteps_step (msteps_step (msteps_step (h0.trans h1) (MStep.spilled _ _ hmem))
    (MStep.readMemory _)) (MStep.flushLogged _ _ _ _ hmem)

theorem extendBuckets_steps (env : Env ρ σ) (hmem : env.max_memory_usage ≠ 0)
    (t : Transform ρ σ) : MSteps env t (outcome (extendBuckets env t)) := by
  unfold extendBuckets
  by_cases h : getBucketsNum t * 2 > env.max_buckets
  · simp only [if_pos h, outcome]
    exact Relation.ReflTransGen.refl
  · simp only [if_neg h, outcome]
    exact Relation.ReflTransGen.single (MStep.extend t hmem (Nat.le_of_not_lt h))

/-- A part with a positive index returned by `scatterBlock` is the part that
`scatterBlockByHash` made for that index, tagged with the bucket count. -/
theorem scatterBlock_getElem (env : Env ρ σ) (t : Transform ρ σ) (block part : Block ρ)
    (i : Nat) (hi : 0 < i) (h : (scatterBlock env t block)[i]? = some part) :
    i < getBucketsNum t ∧
    part = { rows := block.rows.filter fun r => env.hash r % getBucketsNum t == i
             bucket_num := toInt32 (getBucketsNum t) } := by
  unfold scatterBlock at h
  by_cases h1 : block.rows.length = 0
  · simp [h1] at h
  · by_cases h2 : toSizeT block.bucket_num = getBucketsNum t
    · simp only [if_neg h1, if_pos h2] at h
      rw [List.getElem?_eq_none (by simpa using hi)] at h
      cases h
    · simp only [if_neg h1, if_neg h2, scatterBlockByHash, List.map_map, List.getElem?_map,
        Option.map_eq_some'] at h
      obtain ⟨j, hj, rfl⟩ := h
      have hlt : i < getBucketsNum t := by
        by_contra hge
        rw [List.getElem?_eq_none (by simpa using Nat.le_of_not_lt hge)] at hj
        cases hj
      rw [List.getElem?_range hlt] at hj
      cases hj
      exact ⟨hlt, rfl⟩

theorem addScattered_steps (env : Env ρ σ) (t0 : Transform ρ σ) (block : Block ρ) :
    ∀ (is : List Nat) (t : Transform ρ σ),
      getBucketsNum t = getBucketsNum t0 →
      (∀ i ∈ is, t.current_bucket_index < i ∧ i < getBucketsNum t) →
      MSteps env t (outcome (addScattered (scatterBlock env t0 block) is t)) ∧
      getBucketsNum (outcome (addScattered (scatterBlock env t0 block) is t))
        = getBucketsNum t ∧
      (outcome (addScattered (scatterBlock env t0 block) is t)).current_bucket_index
        = t.current_bucket_index := by
  intro is
  induction is with
  | nil =>
    intro t _ _
    exact ⟨Relation.ReflTransGen.refl, rfl, rfl⟩
  | cons i is ih =>
    intro t hB h
    have hi := h i (List.mem_cons_self _ _)
    cases hget : (scatterBlock env t0 block)[i]? with
    | none =>
      have hunf : addScattered (scatterBlock env t0 block) (i :: is) t
          = .error (.outOfBounds, t) := by simp only [addScattered, hget]
      rw [hunf]
      exact ⟨Relation.ReflTransGen.refl, rfl, rfl⟩
    | some part =>
      have hunf : addScattered (scatterBlock env t0 block) (i :: is) t
          = addScattered (scatterBlock env t0 block) is (addBlockIntoFileBucket t i part) := by
        simp only [addScattered, hget]
      rw [hunf]
      obtain ⟨-, hpart⟩ := scatterBlock_getElem env t0 block part i (by omega) hget
      have hrest : ∀ j ∈ is, (addBlockIntoFileBucket t i part).current_bucket_index < j ∧
          j < getBucketsNum (addBlockIntoFileBucket t i part) := by
        intro j hj
        simpa using h j (List.mem_cons_of_mem _ hj)
      obtain ⟨h1, h2, h3⟩ := ih (addBlockIntoFileBucket t i part) (by simpa using hB) hrest
      refine ⟨Relation.ReflTransGen.head ?_ h1, by rw [h2]; simp, by rw [h3]; simp⟩
      rw [hpart, ← hB]
      exact MStep.addBlock t i block hi.1 hi.2

theorem mergeIntoVariants_steps (env : Env ρ σ) (t : Transform ρ σ) (block : Block ρ) :
    MSteps env t (outcome (mergeIntoVariants env t block)) := by
  unfold mergeIntoVariants
  cases hv : t.current_data_variants with
  | none => exact Relation.ReflTransGen.refl
  | some v => exact Relation.ReflTransGen.single (MStep.variants t _ _)

theorem scatteredPart_steps (env : Env ρ σ) (t : Transform ρ σ) (block : Block ρ) :
    MSteps env t (outcome (
      match addScattered (scatterBlock env t block) (laterBuckets t) t with
      | .error e => .error e
      | .ok t2 =>
        match (scatterBlock env t block)[t2.current_bucket_index]? with
        | none => .error (.outOfBounds, t2)
        | some current => mergeIntoVariants env t2 current)) := by
  have h := (addScattered_steps env t block (laterBuckets t) t rfl
    (fun i hi => (mem_laterBuckets _ i).1 hi)).1
  cases hadd : addScattered (scatterBlock env t block) (laterBuckets t) t with
  | error e =>
    rw [hadd] at h
    exact h
  | ok t2 =>
    rw [hadd] at h
    simp only [outcome] at h
    simp only []
    cases hcur : (scatterBlock env t block)[t2.current_bucket_index]? with
    | none => exact h
    | some current => exact h.trans (mergeIntoVariants_steps env t2 current)

theorem rehashBlock_steps (env : Env ρ σ) (t : Transform ρ σ) (block : Block ρ) :
    MSteps env t (outcome (rehashBlock env t block)) :=
  scatteredPart_steps env t block

theorem forBlocks_steps (env : Env ρ σ)
    (step : Transform ρ σ → Block ρ → Result ρ σ (Transform ρ σ))
    (hstep : ∀ t block, MSteps env t (outcome (step t block))) :
    ∀ (blocks : List (Block ρ)) (t : Transform ρ σ),
      MSteps env t (outcome (forBlocks step blocks t)) := by
  intro blocks
  induction blocks with
  | nil => intro t; exact Relation.ReflTransGen.refl
  | cons block blocks ih =>
    intro t
    have h := hstep t block
    simp only [forBlocks]
    cases hs : step t block with
    | error e =>
      rw [hs] at h
      exact h
    | ok t2 =>
      rw [hs] at h
      exact h.trans (ih t2)

theorem rehashDataVariants_steps (env : Env ρ σ) (hmem : env.max_memory_usage ≠ 0)
    (t : Transform ρ σ) : MSteps env t (outcome (rehashDataVariants env t)) := by
  unfold rehashDataVariants
  cases hv : t.current_data_variants with
  | none => exact Relation.ReflTransGen.refl
  | some v =>
    simp only []
    refine Relation.ReflTransGen.trans ?_
      (forBlocks_steps env (rehashBlock env) (rehashBlock_steps env) _ _)
    split_ifs
    · exact msteps_step (Relation.ReflTransGen.single (MStep.perKey t _ hmem))
        (MStep.variants _ _ _)
    · exact Relation.ReflTransGen.single (MStep.variants t _ _)

theorem extendAndRehash_steps (env : Env ρ σ) (hmem : env.max_memory_usage ≠ 0)
    (t : Transform ρ σ) : MSteps env t (outcome (extendAndRehash env t)) := by
  have h := extendBuckets_steps env hmem t
  unfold extendAndRehash
  cases he : extendBuckets env t with
  | error e =>
    rw [he] at h
    exact h
  | ok t2 =>
    rw [he] at h
    exact h.trans (rehashDataVariants_steps env hmem t2)

theorem routeBlock_steps (env : Env ρ σ) (t : Transform ρ σ) (block : Block ρ) :
    MSteps env t (outcome (routeBlock env t block)) := by
  unfold routeBlock
  split_ifs
  · exact mergeIntoVariants_steps env t block
  · exact scatteredPart_steps env t block

theorem mergeOneBlock_steps (env : Env ρ σ) (t : Transform ρ σ) (block : Block ρ) :
    MSteps env t (outcome (mergeOneBlock env t block)) := by
  unfold mergeOneBlock
  split_ifs
  · exact Relation.ReflTransGen.refl
  · cases h1 : isMemoryOverflow env t with
    | error e =>
      obtain ⟨e, t2⟩ := e
      rw [(isMemoryOverflow_steps env t).2 e t2 h1]
      exact Relation.ReflTransGen.refl
    | ok r =>
      obtain ⟨overflow, t1⟩ := r
      obtain ⟨hs1, hm1⟩ := (isMemoryOverflow_steps env t).1 overflow t1 h1
      simp only []
      have hs2 : MSteps env t (if overflow = true then flushBuckets env t1 else t1) := by
        split_ifs with ho
        · exact hs1.trans (flushBuckets_steps env (hm1 ho) t1)
        · exact hs1
      generalize (if overflow = true then flushBuckets env t1 else t1) = t2 at hs2
      cases h2 : isMemoryOverflow env t2 with
      | error e =>
        obtain ⟨e, t3⟩ := e
        rw [(isMemoryOverflow_steps env t2).2 e t3 h2]
        exact hs2
      | ok r =>
        obtain ⟨overflow2, t3⟩ := r
        obtain ⟨hs3, hm3⟩ := (isMemoryOverflow_steps env t2).1 overflow2 t3 h2
        simp only []
        have hs4 : MSteps env t3 (outcome (if overflow2 = true then extendAndRehash env t3
            else (.ok t3 : Result ρ σ (Transform ρ σ)))) := by
          split_ifs with ho
          · exact extendAndRehash_steps env (hm3 ho) t3
          · exact Relation.ReflTransGen.refl
        cases h4 : (if overflow2 = true then extendAndRehash env t3
            else (.ok t3 : Result ρ σ (Transform ρ σ))) with
        | error e =>
          rw [h4] at hs4
          exact (hs2.trans hs3).trans hs4
        | ok t4 =>
          rw [h4] at hs4
          simp only [outcome] at hs4
          refine (((hs2.trans hs3).trans hs4).trans ?_).trans (routeBlock_steps env _ block)
          exact msteps_step (Relation.ReflTransGen.single (MStep.readMemory t4))
            (MStep.note _ _ rfl)

/-! ### What the merge and replay code leaves alone -/

theorem flushBucket_buckets (env : Env ρ σ) (t : Transform ρ σ) (i : Nat) :
    ∃ bs, (flushBucket env t i).2 = { t with buckets := bs } ∧ bs.length = t.buckets.length := by
  rw [flushBucket_state]
  split_ifs
  · exact ⟨t.buckets, rfl, rfl⟩
  · exact ⟨_, rfl, by simp⟩

theorem addBlock_buckets (t : Transform ρ σ) (i : Nat) (block : Block ρ) :
    ∃ bs, addBlockIntoFileBucket t i block = { t with buckets := bs } ∧
      bs.length = t.buckets.length := by
  unfold addBlockIntoFileBucket
  split_ifs
  · exact ⟨t.buckets, rfl, rfl⟩
  · exact ⟨_, rfl, by simp⟩

theorem sameControl_refl (t : Transform ρ σ) : SameControl t t :=
  ⟨rfl, rfl, rfl, rfl, rfl, rfl, rfl, rfl, Nat.le_refl _⟩

theorem sameControl_trans {a b c : Transform ρ σ} (h1 : SameControl a b)
    (h2 : SameControl b c) : SameControl a c := by
  obtain ⟨a1, a2, a3, a4, a5, a6, a7, a8, a9⟩ := h1
  obtain ⟨b1, b2, b3, b4, b5, b6, b7, b8, b9⟩ := h2
  exact ⟨b1.trans a1, b2.trans a2, b3.trans a3, b4.trans a4, b5.trans a5, b6.trans a6,
    b7.trans a7, b8.trans a8, Nat.le_trans a9 b9⟩

theorem mstep_sameControl {env : Env ρ σ} {t t2 : Transform ρ σ} (h : MStep env t t2) :
    SameControl t t2 := by
  cases h with
  | readMemory => exact sameControl_refl t
  | note e he =>
    refine ⟨rfl, rfl, rfl, rfl, rfl, rfl, rfl, ?_, Nat.le_refl _⟩
    cases e <;> simp [LogEvent.isNote] at he <;> simp [finalizedBuckets, List.filterMap_append]
  | flushBucket i hmem hlo hhi =>
    obtain ⟨bs, hbs, hlen⟩ := flushBucket_buckets env t i
    rw [hbs]
    exact ⟨rfl, rfl, rfl, rfl, rfl, rfl, rfl, rfl, by simp [getBucketsNum, hlen]⟩
  | spilled n hmem => exact sameControl_refl t
  | flushLogged a b c hmem =>
    refine ⟨rfl, rfl, rfl, rfl, rfl, rfl, rfl, ?_, Nat.le_refl _⟩
    simp [finalizedBuckets, List.filterMap_append]
  | extend hmem hle =>
    refine ⟨rfl, rfl, rfl, rfl, rfl, rfl, rfl, ?_, ?_⟩
    · simp [finalizedBuckets, List.filterMap_append]
    · simp [getBucketsNum]
  | perKey q hmem => exact sameControl_refl t
  | variants v k => exact sameControl_refl t
  | addBlock i block hlo hhi =>
    obtain ⟨bs, hbs, hlen⟩ := addBlock_buckets t i
      { rows := block.rows.filter fun r => env.hash r % getBucketsNum t == i
        bucket_num := toInt32 (getBucketsNum t) }
    rw [hbs]
    exact ⟨rfl, rfl, rfl, rfl, rfl, rfl, rfl, rfl, by simp [getBucketsNum, hlen]⟩

theorem msteps_sameControl {env : Env ρ σ} {t t2 : Transform ρ σ} (h : MSteps env t t2) :
    SameControl t t2 := by
  induction h with
  | refl => exact sameControl_refl t
  | tail _ hstep ih => exact sameControl_trans ih (mstep_sameControl hstep)

theorem dstep_sameControl {env : Env ρ σ} {t t2 : Transform ρ σ} (h : DStep env t t2) :
    SameControl t t2 := by
  cases h
  case inner hm => exact mstep_sameControl hm
  case releaseStream => exact ⟨rfl, rfl, rfl, rfl, rfl, rfl, rfl, rfl, by simp⟩
  case blankBlock => exact ⟨rfl, rfl, rfl, rfl, rfl, rfl, rfl, rfl, by simp [blankBlock]⟩

theorem dsteps_sameControl {env : Env ρ σ} {t t2 : Transform ρ σ} (h : DSteps env t t2) :
    SameControl t t2 := by
  induction h with
  | refl => exact sameControl_refl t
  | tail _ hstep ih => exact sameControl_trans ih (dstep_sameControl hstep)

theorem msteps_toDSteps {env : Env ρ σ} {t t2 : Transform ρ σ} (h : MSteps env t t2) :
    DSteps env t t2 :=
  Relation.ReflTransGen.lift id (fun a b hab => DStep.inner a b hab) h

theorem dsteps_toTSteps {env : Env ρ σ} {t t2 : Transform ρ σ} (h : DSteps env t t2) :
    TSteps env t t2 :=
  Relation.ReflTransGen.lift id (fun a b hab => TStep.inner a b hab) h

/-! ### The replay loops and `work()` as sequences of state changes -/

theorem replayStream_steps (env : Env ρ σ) (t : Transform ρ σ) :
    ∃ t2, DSteps env t t2 ∧
      ((∃ e, replayStream env t = .error (e, t2)) ∨
        (∃ read_bytes read_rows, replayStream env t = .ok (t2, read_bytes, read_rows))) := by
  unfold replayStream
  simp only []
  cases hs : (bucketAt t t.current_bucket_index).file_stream with
  | none => exact ⟨t, Relation.ReflTransGen.refl, Or.inr ⟨0, 0, rfl⟩⟩
  | some written =>
    simp only []
    have h := msteps_toDSteps (forBlocks_steps env (mergeOneBlock env)
      (mergeOneBlock_steps env) (readStream written) t)
    cases hf : forBlocks (mergeOneBlock env) (readStream written) t with
    | error e =>
      obtain ⟨e, t2⟩ := e
      rw [hf] at h
      exact ⟨t2, h, Or.inl ⟨e, rfl⟩⟩
    | ok t2 =>
      rw [hf] at h
      simp only [outcome] at h
      have hc : t2.current_bucket_index = t.current_bucket_index := (dsteps_sameControl h).1
      refine ⟨_, Relation.ReflTransGen.tail h (DStep.releaseStream t2), Or.inr
        ⟨(List.map env.bytes (readStream written)).sum,
          (List.map (fun block => block.rows.length) (readStream written)).sum, ?_⟩⟩
      simp only [hc]

theorem replayBlocks_steps (env : Env ρ σ) (index : Nat) :
    ∀ (blocks : List (Block ρ)) (i : Nat) (t : Transform ρ σ),
      t.current_bucket_index = index →
      DSteps env t (outcome (replayBlocks env index i blocks t)) := by
  intro blocks
  induction blocks with
  | nil =>
    intro i t _
    exact Relation.ReflTransGen.refl
  | cons block blocks ih =>
    intro i t hc
    have h := msteps_toDSteps (mergeOneBlock_steps env t block)
    simp only [replayBlocks]
    cases hm : mergeOneBlock env t block with
    | error e =>
      rw [hm] at h
      exact h
    | ok t2 =>
      rw [hm] at h
      simp only [outcome] at h
      simp only []
      have hc2 : t2.current_bucket_index = index := (dsteps_sameControl h).1.trans hc
      have hstep : DStep env t2 (blankBlock t2 index i) := by
        rw [← hc2]
        exact DStep.blankBlock t2 i
      exact (h.tail hstep).trans (ih (i + 1) (blankBlock t2 index i) hc2)

theorem replayQueue_steps (env : Env ρ σ) (t : Transform ρ σ) :
    DSteps env t (outcome (replayQueue env t)) :=
  replayBlocks_steps env t.current_bucket_index _ 0 t rfl

theorem prepareBucketOutputBlocks_steps (env : Env ρ σ) (t : Transform ρ σ) :
    ∃ t2, DSteps env t t2 ∧
      ((∃ e, prepareBucketOutputBlocks env t = .error (e, t2)) ∨
        (∃ v read_bytes read_rows, prepareBucketOutputBlocks env t = .ok { t2 with
          current_final_blocks := env.convertToBlocks v true
          log := t2.log ++ [.prepareOutput t2.current_bucket_index read_bytes read_rows] })) := by
  unfold prepareBucketOutputBlocks
  have h0 : DSteps env t (if t.current_data_variants.isNone = true then
      { t with current_data_variants := some env.emptyVariants, no_more_keys := false }
      else t) := by
    split_ifs
    · exact Relation.ReflTransGen.single (DStep.inner _ _ (MStep.variants t _ _))
    · exact Relation.ReflTransGen.refl
  generalize (if t.current_data_variants.isNone = true then
      { t with current_data_variants := some env.emptyVariants, no_more_keys := false }
      else t) = t0 at h0
  simp only []
  obtain ⟨t1, h1, hr1⟩ := replayStream_steps env t0
  rcases hr1 with ⟨e, he⟩ | ⟨rb, rr, hok⟩
  · exact ⟨t1, h0.trans h1, Or.inl ⟨e, by rw [he]⟩⟩
  · rw [hok]
    simp only []
    have h2 := replayQueue_steps env t1
    cases hq : replayQueue env t1 with
    | error e =>
      obtain ⟨e, t2⟩ := e
      rw [hq] at h2
      exact ⟨t2, (h0.trans h1).trans h2, Or.inl ⟨e, rfl⟩⟩
    | ok t2 =>
      rw [hq] at h2
      simp only [outcome] at h2
      simp only []
      split
      · exact ⟨t2, (h0.trans h1).trans h2, Or.inl ⟨_, rfl⟩⟩
      · next v _ => exact ⟨t2, (h0.trans h1).trans h2, Or.inr ⟨v, rb, rr, rfl⟩⟩

theorem work_steps (env : Env ρ σ) (t : Transform ρ σ) :
    TSteps env t (outcome (work env t)) := by
  unfold work
  by_cases hin : t.has_input = true
  · simp only [if_pos hin]
    split_ifs
    · exact Relation.ReflTransGen.refl
    · have h0 : TSteps env t { t with input_chunk := [] } :=
        Relation.ReflTransGen.single (TStep.takeInput t)
      have h1 := dsteps_toTSteps (msteps_toDSteps (mergeOneBlock_steps env
        { t with input_chunk := [] } { rows := t.input_chunk }))
      cases hm : mergeOneBlock env { t with input_chunk := [] } { rows := t.input_chunk } with
      | error e =>
        rw [hm] at h1
        exact h0.trans h1
      | ok t2 =>
        rw [hm] at h1
        exact (h0.trans h1).tail (TStep.doneInput t2)
  · simp only [if_neg hin]
    split_ifs with h1 h2 h3
    · exact Relation.ReflTransGen.refl
    · exact Relation.ReflTransGen.refl
    · obtain ⟨t2, hs, hr⟩ := prepareBucketOutputBlocks_steps env t
      have hc := dsteps_sameControl hs
      rcases hr with ⟨e, he⟩ | ⟨v, rb, rr, hok⟩
      · rw [he]
        exact dsteps_toTSteps hs
      · rw [hok]
        simp only [outcome]
        have hlt : t2.current_bucket_index < getBucketsNum t2 := by
          have := hc.2.2.2.2.2.2.2.2
          rw [hc.1]
          omega
        exact ((dsteps_toTSteps hs).tail (TStep.finalize t2 v rb rr hlt)).tail (TStep.pop _)
    · exact Relation.ReflTransGen.single (TStep.pop t)

theorem reachable_steps {env : Env ρ σ} {t : Transform ρ σ} (h : Reachable env t) :
    TSteps env (Transform.init env) t := by
  induction h with
  | init => exact Relation.ReflTransGen.refl
  | prepare t input output _ ih => exact ih.tail (TStep.prepare t input output)
  | work t _ ih => exact ih.trans (work_steps env t)

/-! ### `pop_one_chunk` and `prepare()` leave buckets, log and index alone -/

theorem popFrom_frame (t : Transform ρ σ) (blocks : List (Block ρ)) :
    (popFrom t blocks).buckets = t.buckets ∧ (popFrom t blocks).log = t.log ∧
    (popFrom t blocks).current_bucket_index = t.current_bucket_index := by
  induction blocks with
  | nil => exact ⟨rfl, rfl, rfl⟩
  | cons block rest ih =>
    simp only [popFrom]
    split_ifs
    · exact ih
    · exact ⟨rfl, rfl, rfl⟩

theorem prepare_frame (t : Transform ρ σ) (input : InputPort ρ) (output : OutputPort ρ) :
    (prepare t input output).2.1.buckets = t.buckets ∧
    (prepare t input output).2.1.log = t.log ∧
    (prepare t input output).2.1.current_bucket_index = t.current_bucket_index := by
  unfold prepare
  split_ifs <;> first | exact ⟨rfl, rfl, rfl⟩ | (split <;> exact ⟨rfl, rfl, rfl⟩)

/-- `prepare()` returns `Finished` exactly by its first rule (output port finished) or by
its fifth (nothing buffered, input finished, all buckets processed). -/
theorem prepare_finished_iff (t : Transform ρ σ) (input : InputPort ρ)
    (output : OutputPort ρ) :
    (prepare t input output).1 = Status.Finished ↔
      output.finished = true ∨
      (t.has_output = false ∧ t.has_input = false ∧ t.input_finished = true ∧
        getBucketsNum t ≤ t.current_bucket_index ∧ t.current_final_blocks.isEmpty = true) := by
  cases h1 : output.finished <;> cases h2 : t.has_output <;> cases h3 : output.can_push <;>
    cases h4 : t.has_input <;> cases h5 : t.input_finished <;> cases h6 : input.finished <;>
    cases h7 : input.data <;>
    simp [prepare, h1, h2, h3, h4, h5, h6, h7] <;> split_ifs <;> simp_all

/-! ### The bucket count -/

theorem extendCount_append (l1 l2 : List LogEvent) :
    extendCount (l1 ++ l2) = extendCount l1 + extendCount l2 := by
  simp [extendCount, List.countP_append]

theorem flushCount_append (l1 l2 : List LogEvent) :
    flushCount (l1 ++ l2) = flushCount l1 + flushCount l2 := by
  simp [flushCount, List.countP_append]

theorem finalizedBuckets_append (l1 l2 : List LogEvent) :
    finalizedBuckets (l1 ++ l2) = finalizedBuckets l1 ++ finalizedBuckets l2 := by
  simp [finalizedBuckets, List.filterMap_append]

theorem bucketCountOk_of_same {env : Env ρ σ} {t t2 : Transform ρ σ}
    (h : BucketCountOk env t) (hb : t2.buckets.length = t.buckets.length)
    (hl : extendCount t2.log = extendCount t.log) :
    BucketCountOk env t2 := by
  unfold BucketCountOk getBucketsNum at *
  rw [hb, hl]
  exact h

theorem mstep_bucketCountOk {env : Env ρ σ} {t t2 : Transform ρ σ} (h : MStep env t t2)
    (hI : BucketCountOk env t) : BucketCountOk env t2 := by
  cases h
  case readMemory => exact hI
  case note e he =>
    refine bucketCountOk_of_same hI rfl ?_
    cases e <;> simp [LogEvent.isNote] at he <;> simp [extendCount]
  case flushBucket i hmem hlo hhi =>
    obtain ⟨bs, hbs, hlen⟩ := flushBucket_buckets env t i
    rw [hbs]
    exact bucketCountOk_of_same hI hlen rfl
  case spilled n hmem => exact hI
  case flushLogged a b c hmem =>
    exact bucketCountOk_of_same hI rfl (by simp [extendCount])
  case extend hmem hle =>
    obtain ⟨h1, _⟩ := hI
    refine ⟨?_, Or.inr ?_⟩
    · simp only [getBucketsNum] at h1 ⊢
      simp only [List.length_append, List.length_map, List.length_range', extendCount_append]
      rw [show extendCount [LogEvent.extendBuckets t.buckets.length (t.buckets.length * 2)] = 1
        from rfl, pow_succ, ← h1]
      omega
    · simp only [getBucketsNum] at hle ⊢
      simp only [List.length_append, List.length_map, List.length_range']
      omega
  case perKey q hmem => exact hI
  case variants v k => exact hI
  case addBlock i block hlo hhi =>
    obtain ⟨bs, hbs, hlen⟩ := addBlock_buckets t i
      { rows := block.rows.filter fun r => env.hash r % getBucketsNum t == i
        bucket_num := toInt32 (getBucketsNum t) }
    rw [hbs]
    exact bucketCountOk_of_same hI hlen rfl

theorem dstep_bucketCountOk {env : Env ρ σ} {t t2 : Transform ρ σ} (h : DStep env t t2)
    (hI : BucketCountOk env t) : BucketCountOk env t2 := by
  cases h
  case inner hm => exact mstep_bucketCountOk hm hI
  case releaseStream => exact bucketCountOk_of_same hI (by simp [setBucket]) rfl
  case blankBlock => exact bucketCountOk_of_same hI (by simp [blankBlock, setBucket]) rfl

theorem tstep_bucketCountOk {env : Env ρ σ} {t t2 : Transform ρ σ} (h : TStep env t t2)
    (hI : BucketCountOk env t) : BucketCountOk env t2 := by
  cases h
  case inner hd => exact dstep_bucketCountOk hd hI
  case takeInput => exact hI
  case doneInput => exact hI
  case finalize v rb rr hlt =>
    exact bucketCountOk_of_same hI rfl (by simp [extendCount])
  case pop =>
    obtain ⟨h1, h2, _⟩ := popFrom_frame t t.current_final_blocks
    exact bucketCountOk_of_same hI (by rw [popOneChunk, h1]) (by rw [popOneChunk, h2])
  case prepare input output =>
    obtain ⟨h1, h2, _⟩ := prepare_frame t input output
    exact bucketCountOk_of_same hI (by rw [h1]) (by rw [h2])

theorem tsteps_bucketCountOk {env : Env ρ σ} {t t2 : Transform ρ σ} (h : TSteps env t t2)
    (hI : BucketCountOk env t) : BucketCountOk env t2 := by
  induction h with
  | refl => exact hI
  | tail _ hstep ih => exact tstep_bucketCountOk hstep ih

/-- Along any state change the bucket count stays or doubles, and it doubles exactly
when an `extendBuckets` call is added to the log. -/
theorem tstep_bucketsNum {env : Env ρ σ} {t t2 : Transform ρ σ} (h : TStep env t t2) :
    (getBucketsNum t2 = getBucketsNum t ∧ extendCount t2.log = extendCount t.log) ∨
    (getBucketsNum t2 = 2 * getBucketsNum t ∧
      extendCount t2.log = extendCount t.log + 1) := by
  cases h
  case inner hd =>
    cases hd
    case inner hm =>
      cases hm
      case readMemory => exact Or.inl ⟨rfl, rfl⟩
      case note e he =>
        refine Or.inl ⟨rfl, ?_⟩
        cases e <;> simp [LogEvent.isNote] at he <;> simp [extendCount]
      case flushBucket i hmem hlo hhi =>
        obtain ⟨bs, hbs, hlen⟩ := flushBucket_buckets env t i
        rw [hbs]
        exact Or.inl ⟨by simp [getBucketsNum, hlen], rfl⟩
      case spilled n hmem => exact Or.inl ⟨rfl, rfl⟩
      case flushLogged a b c hmem => exact Or.inl ⟨rfl, by simp [extendCount]⟩
      case extend hmem hle =>
        refine Or.inr ⟨?_, ?_⟩
        · simp only [getBucketsNum, List.length_append, List.length_map, List.length_range']
          omega
        · rw [extendCount_append]
          rfl
      case perKey q hmem => exact Or.inl ⟨rfl, rfl⟩
      case variants v k => exact Or.inl ⟨rfl, rfl⟩
      case addBlock i block hlo hhi =>
        obtain ⟨bs, hbs, hlen⟩ := addBlock_buckets t i
          { rows := block.rows.filter fun r => env.hash r % getBucketsNum t == i
            bucket_num := toInt32 (getBucketsNum t) }
        rw [hbs]
        exact Or.inl ⟨by simp [getBucketsNum, hlen], rfl⟩
    case releaseStream => exact Or.inl ⟨by simp, rfl⟩
    case blankBlock => exact Or.inl ⟨by simp [blankBlock], rfl⟩
  case takeInput => exact Or.inl ⟨rfl, rfl⟩
  case doneInput => exact Or.inl ⟨rfl, rfl⟩
  case finalize v rb rr hlt => exact Or.inl ⟨rfl, by simp [extendCount]⟩
  case pop =>
    obtain ⟨h1, h2, _⟩ := popFrom_frame t t.current_final_blocks
    exact Or.inl ⟨by simp only [getBucketsNum, popOneChunk, h1], by rw [popOneChunk, h2]⟩
  case prepare input output =>
    obtain ⟨h1, h2, _⟩ := prepare_frame t input output
    exact Or.inl ⟨by simp only [getBucketsNum, h1], by rw [h2]⟩

theorem tsteps_bucketsNum_le {env : Env ρ σ} {t t2 : Transform ρ σ} (h : TSteps env t t2) :
    getBucketsNum t ≤ getBucketsNum t2 := by
  induction h with
  | refl => exact Nat.le_refl _
  | tail _ hstep ih =>
    rcases tstep_bucketsNum hstep with ⟨h1, _⟩ | ⟨h1, _⟩ <;> omega

theorem init_bucketCountOk (env : Env ρ σ) : BucketCountOk env (Transform.init env) :=
  ⟨rfl, Or.inl rfl⟩

/-- C4. The bucket count is 1 right after construction. In every state reachable by
`prepare()` and `work()` calls it is two to the number of `extendBuckets` calls logged
so far (so a power of two, changed only by `extendBuckets`), at least 1, and at most
`max_buckets` when `max_buckets ≥ 1`. Every state change, at the level of whole calls
and of the operations inside them, keeps the count or exactly doubles it, the latter
together with one more logged `extendBuckets`; so the count never goes down, and a
successful `extendBuckets` doubles it. -/
theorem bucket_count_monotonic (env : Env ρ σ) :
    getBucketsNum (Transform.init env) = 1 ∧
    (∀ t, Reachable env t →
      getBucketsNum t = 2 ^ extendCount t.log ∧ 1 ≤ getBucketsNum t ∧
      (1 ≤ env.max_buckets → getBucketsNum t ≤ env.max_buckets)) ∧
    (∀ t t2, TStep env t t2 →
      (getBucketsNum t2 = getBucketsNum t ∧ extendCount t2.log = extendCount t.log) ∨
      (getBucketsNum t2 = 2 * getBucketsNum t ∧
        extendCount t2.log = extendCount t.log + 1)) ∧
    (∀ t t2, TSteps env t t2 → getBucketsNum t ≤ getBucketsNum t2) ∧
    (∀ t input output,
      getBucketsNum t ≤ getBucketsNum (prepare t input output).2.1 ∧
      getBucketsNum t ≤ getBucketsNum (outcome (work env t))) ∧
    (∀ t t2, extendBuckets env t = .ok t2 → getBucketsNum t2 = 2 * getBucketsNum t) := by
  refine ⟨rfl, ?_, fun t t2 h => tstep_bucketsNum h, fun t t2 h => tsteps_bucketsNum_le h, ?_, ?_⟩
  · intro t ht
    obtain ⟨h1, h2⟩ := tsteps_bucketCountOk (reachable_steps ht) (init_bucketCountOk env)
    refine ⟨h1, ?_, ?_⟩
    · rw [h1]
      exact Nat.one_le_two_pow
    · intro hmax
      rcases h2 with h2 | h2 <;> omega
  · intro t input output
    have hp : TSteps env t (prepare t input output).2.1 :=
      Relation.ReflTransGen.single (TStep.prepare t input output)
    exact ⟨tsteps_bucketsNum_le hp, tsteps_bucketsNum_le (work_steps env t)⟩
  · intro t t2 h
    simp only [extendBuckets] at h
    split_ifs at h
    simp only [Except.ok.injEq] at h
    subst h
    simp only [getBucketsNum, List.length_append, List.length_map, List.length_range']
    omega

/-! ### No memory limit, no spill -/

theorem neverSpilled_of_same {t t2 : Transform ρ σ} (h : NeverSpilled t)
    (hb : t2.buckets = t.buckets) (hf : flushCount t2.log = flushCount t.log)
    (he : extendCount t2.log = extendCount t.log) : NeverSpilled t2 := by
  unfold NeverSpilled getBucketsNum at *
  rw [hb, hf, he]
  exact h

theorem mstep_neverSpilled {env : Env ρ σ} (h0 : env.max_memory_usage = 0)
    {t t2 : Transform ρ σ} (h : MStep env t t2) (hI : NeverSpilled t) : NeverSpilled t2 := by
  cases h
  case readMemory => exact hI
  case note e he =>
    refine neverSpilled_of_same hI rfl ?_ ?_ <;>
      cases e <;> simp [LogEvent.isNote] at he <;> simp [flushCount, extendCount]
  case flushBucket i hmem hlo hhi => exact absurd h0 hmem
  case spilled n hmem => exact absurd h0 hmem
  case flushLogged a b c hmem => exact absurd h0 hmem
  case extend hmem hle => exact absurd h0 hmem
  case perKey q hmem => exact absurd h0 hmem
  case variants v k => exact hI
  case addBlock i block hlo hhi =>
    have := hI.1
    omega

theorem dstep_neverSpilled {env : Env ρ σ} (h0 : env.max_memory_usage = 0)
    {t t2 : Transform ρ σ} (h : DStep env t t2) (hI : NeverSpilled t) : NeverSpilled t2 := by
  cases h
  case inner hm => exact mstep_neverSpilled h0 hm hI
  case releaseStream =>
    obtain ⟨h1, h2, h3, h4⟩ := hI
    refine ⟨by simpa using h1, ?_, h3, h4⟩
    intro b hb
    rcases List.mem_or_eq_of_mem_set hb with hb | hb
    · exact h2 b hb
    · rw [hb]
  case blankBlock =>
    obtain ⟨h1, h2, h3, h4⟩ := hI
    refine ⟨by simpa [blankBlock] using h1, ?_, h3, h4⟩
    intro b hb
    rcases List.mem_or_eq_of_mem_set hb with hb | hb
    · exact h2 b hb
    · rw [hb]
      simp only [bucketAt, List.getD_eq_getElem?_getD]
      cases hget : t.buckets[t.current_bucket_index]? with
      | none => rfl
      | some entry => exact h2 entry (List.getElem?_mem hget)

theorem tstep_neverSpilled {env : Env ρ σ} (h0 : env.max_memory_usage = 0)
    {t t2 : Transform ρ σ} (h : TStep env t t2) (hI : NeverSpilled t) : NeverSpilled t2 := by
  cases h
  case inner hd => exact dstep_neverSpilled h0 hd hI
  case takeInput => exact hI
  case doneInput => exact hI
  case finalize v rb rr hlt =>
    exact neverSpilled_of_same hI rfl (by simp [flushCount]) (by simp [extendCount])
  case pop =>
    obtain ⟨h1, h2, _⟩ := popFrom_frame t t.current_final_blocks
    exact neverSpilled_of_same hI (by rw [popOneChunk, h1]) (by rw [popOneChunk, h2])
      (by rw [popOneChunk, h2])
  case prepare input output =>
    obtain ⟨h1, h2, _⟩ := prepare_frame t input output
    exact neverSpilled_of_same hI h1 (by rw [h2]) (by rw [h2])

theorem tsteps_neverSpilled {env : Env ρ σ} (h0 : env.max_memory_usage = 0)
    {t t2 : Transform ρ σ} (h : TSteps env t t2) (hI : NeverSpilled t) : NeverSpilled t2 := by
  induction h with
  | refl => exact hI
  | tail _ hstep ih => exact tstep_neverSpilled h0 hstep ih

theorem init_neverSpilled (env : Env ρ σ) : NeverSpilled (Transform.init env) := by
  refine ⟨rfl, ?_, rfl, rfl⟩
  intro b hb
  simp only [Transform.init, List.mem_singleton] at hb
  rw [hb]

/-- C7. With `max_memory_usage = 0` the memory predicate answers false in every state,
whatever the tracker reads, however many groups the state holds and whatever the
per-key estimate is, and it changes nothing. So in every state reachable by `prepare()`
and `work()` calls there is one bucket, no bucket has a stream, and the log holds no
flush and no `extendBuckets`. -/
theorem no_spill_without_memory_limit (env : Env ρ σ) (h0 : env.max_memory_usage = 0) :
    (∀ t, isMemoryOverflow env t = .ok (false, t)) ∧
    (∀ t, Reachable env t →
      getBucketsNum t = 1 ∧ (∀ b ∈ t.buckets, b.file_stream = none) ∧
      flushCount t.log = 0 ∧ extendCount t.log = 0) := by
  refine ⟨fun t => by simp only [isMemoryOverflow, if_pos h0], fun t ht => ?_⟩
  exact tsteps_neverSpilled h0 (reachable_steps ht) (init_neverSpilled env)

/-- Witness for `no_spill_without_memory_limit`: an operator without memory limit whose
tracker always reads 1000 bytes, in the state after its first `work()` on a chunk. -/
theorem no_spill_without_memory_limit_witness :
    getBucketsNum (outcome (work (distinctEnv (fun _ => 1000) 0 8)
      (prepare (Transform.init (distinctEnv (fun _ => 1000) 0 8))
        { finished := false, data := some [1, 2, 3], needed := false, closed := false }
        OutputPort.start).2.1)) = 1 :=
  ((no_spill_without_memory_limit (distinctEnv (fun _ => 1000) 0 8) rfl).2 _
    (Reachable.work _ (Reachable.prepare _ _ _ Reachable.init))).1

/-! ### Finalization order -/

theorem finalizedInOrder_of_sameControl {t t2 : Transform ρ σ} (h : FinalizedInOrder t)
    (hc : SameControl t t2) : FinalizedInOrder t2 := by
  obtain ⟨h1, h2⟩ := h
  obtain ⟨c1, _, _, _, _, _, _, c8, c9⟩ := hc
  exact ⟨by rw [c8, c1, h1], by rw [c1]; omega⟩

theorem tstep_finalizedInOrder {env : Env ρ σ} {t t2 : Transform ρ σ} (h : TStep env t t2)
    (hI : FinalizedInOrder t) : FinalizedInOrder t2 := by
  cases h
  case inner hd => exact finalizedInOrder_of_sameControl hI (dstep_sameControl hd)
  case takeInput => exact hI
  case doneInput => exact hI
  case finalize v rb rr hlt =>
    obtain ⟨h1, _⟩ := hI
    refine ⟨?_, hlt⟩
    simp only [finalizedBuckets_append, h1, List.range_succ]
    rfl
  case pop =>
    obtain ⟨h1, h2, h3⟩ := popFrom_frame t t.current_final_blocks
    unfold FinalizedInOrder getBucketsNum popOneChunk at *
    rw [h1, h2, h3]
    exact hI
  case prepare input output =>
    obtain ⟨h1, h2, h3⟩ := prepare_frame t input output
    unfold FinalizedInOrder getBucketsNum at *
    rw [h1, h2, h3]
    exact hI

theorem tsteps_finalizedInOrder {env : Env ρ σ} {t t2 : Transform ρ σ} (h : TSteps env t t2)
    (hI : FinalizedInOrder t) : FinalizedInOrder t2 := by
  induction h with
  | refl => exact hI
  | tail _ hstep ih => exact tstep_finalizedInOrder hstep ih

/-- What one `work()` call does to the bucket index and to the list of finalized
buckets: it starts the next bucket exactly when it has no input, no final block is
buffered and the index is below the bucket count; then, if it returns, the index grows
by one and the old index is logged as finalized; in every other case, and when it
throws, both stay as they were. -/
theorem work_index (env : Env ρ σ) (t : Transform ρ σ) :
    (∀ t2, work env t = .ok t2 →
      (startsNextBucket t ∧ t2.current_bucket_index = t.current_bucket_index + 1 ∧
        finalizedBuckets t2.log = finalizedBuckets t.log ++ [t.current_bucket_index]) ∨
      (¬ startsNextBucket t ∧ t2.current_bucket_index = t.current_bucket_index ∧
        finalizedBuckets t2.log = finalizedBuckets t.log)) ∧
    (∀ e t2, work env t = .error (e, t2) →
      t2.current_bucket_index = t.current_bucket_index ∧
      finalizedBuckets t2.log = finalizedBuckets t.log) := by
  unfold work
  by_cases hin : t.has_input = true
  · have hns : ¬ startsNextBucket t := fun h => by simp [h.1] at hin
    simp only [if_pos hin]
    split_ifs
    · refine ⟨(fun t2 h => nomatch h), fun e t2 h => ?_⟩
      simp only [Except.error.injEq, Prod.mk.injEq] at h
      rw [← h.2]
      exact ⟨rfl, rfl⟩
    · have h1 := msteps_sameControl (mergeOneBlock_steps env { t with input_chunk := [] }
        { rows := t.input_chunk })
      cases hm : mergeOneBlock env { t with input_chunk := [] } { rows := t.input_chunk } with
      | error e =>
        rw [hm] at h1
        refine ⟨(fun t2 h => nomatch h), fun e2 t2 h => ?_⟩
        simp only [Except.error.injEq] at h
        subst h
        exact ⟨h1.1, h1.2.2.2.2.2.2.2.1⟩
      | ok tm =>
        rw [hm] at h1
        refine ⟨fun t2 h => ?_, fun e2 t2 h => nomatch h⟩
        simp only [Except.ok.injEq] at h
        subst h
        exact Or.inr ⟨hns, h1.1, h1.2.2.2.2.2.2.2.1⟩
  · simp only [if_neg hin]
    have hin2 : t.has_input = false := by simpa using hin
    split_ifs with h1 h2 h3
    · refine ⟨(fun t2 h => nomatch h), fun e t2 h => ?_⟩
      simp only [Except.error.injEq, Prod.mk.injEq] at h
      rw [← h.2]
      exact ⟨rfl, rfl⟩
    · refine ⟨fun t2 h => ?_, fun e t2 h => nomatch h⟩
      simp only [Except.ok.injEq] at h
      subst h
      exact Or.inr ⟨fun hs => by have := hs.2.2; omega, rfl, rfl⟩
    · obtain ⟨tm, hs, hr⟩ := prepareBucketOutputBlocks_steps env t
      have hc := dsteps_sameControl hs
      rcases hr with ⟨e, he⟩ | ⟨v, rb, rr, hok⟩
      · rw [he]
        refine ⟨(fun t2 h => nomatch h), fun e2 t2 h => ?_⟩
        simp only [Except.error.injEq, Prod.mk.injEq] at h
        rw [← h.2]
        exact ⟨hc.1, hc.2.2.2.2.2.2.2.1⟩
      · rw [hok]
        refine ⟨fun t2 h => ?_, fun e2 t2 h => nomatch h⟩
        simp only [Except.ok.injEq] at h
        subst h
        obtain ⟨_, p2, p3⟩ := popFrom_frame
          ({ tm with
            current_final_blocks := env.convertToBlocks v true
            log := tm.log ++ [.prepareOutput tm.current_bucket_index rb rr]
            current_bucket_index := tm.current_bucket_index + 1
            current_data_variants := none } : Transform ρ σ) (env.convertToBlocks v true)
        refine Or.inl ⟨⟨hin2, h2, Nat.lt_of_not_le h3⟩, ?_, ?_⟩
        · simp only [popOneChunk]
          rw [p3]
          simp only [hc.1]
        · simp only [popOneChunk]
          rw [p2]
          simp only [finalizedBuckets_append, hc.2.2.2.2.2.2.2.1, hc.1]
          rfl
    · refine ⟨fun t2 h => ?_, fun e t2 h => nomatch h⟩
      simp only [Except.ok.injEq] at h
      subst h
      obtain ⟨_, p2, p3⟩ := popFrom_frame t t.current_final_blocks
      refine Or.inr ⟨fun hs => h2 hs.2.1, ?_, ?_⟩
      · rw [popOneChunk, p3]
      · rw [popOneChunk, p2]

theorem init_finalizedInOrder (env : Env ρ σ) : FinalizedInOrder (Transform.init env) :=
  ⟨rfl, Nat.zero_le _⟩

/-- C5. `prepare()` never changes `current_bucket_index`. A `work()` call that returns
either leaves the index and the list of finalized buckets alone, or adds one to the
index and appends the old index to the finalized buckets; it does the latter exactly
when it calls `prepareBucketOutputBlocks` (no input, no buffered final block, index
below the bucket count). A `work()` call that throws changes neither. Hence in every
reachable state the finalized buckets are `0, .., current_bucket_index - 1`, each once
and in order, no bucket is finalized twice, the index never exceeds the bucket count,
and when `prepare()` returns `Finished` with the output port still open every bucket
in `[0, B)` has been finalized exactly once. -/
theorem no_duplicate_finalization (env : Env ρ σ) :
    (∀ (t : Transform ρ σ) input output,
      (prepare t input output).2.1.current_bucket_index = t.current_bucket_index) ∧
    (∀ t t2, work env t = .ok t2 →
      (startsNextBucket t ∧ t2.current_bucket_index = t.current_bucket_index + 1 ∧
        finalizedBuckets t2.log = finalizedBuckets t.log ++ [t.current_bucket_index]) ∨
      (¬ startsNextBucket t ∧ t2.current_bucket_index = t.current_bucket_index ∧
        finalizedBuckets t2.log = finalizedBuckets t.log)) ∧
    (∀ t e t2, work env t = .error (e, t2) →
      t2.current_bucket_index = t.current_bucket_index ∧
      finalizedBuckets t2.log = finalizedBuckets t.log) ∧
    (∀ t, Reachable env t →
      finalizedBuckets t.log = List.range t.current_bucket_index ∧
      (finalizedBuckets t.log).Nodup ∧
      t.current_bucket_index ≤ getBucketsNum t) ∧
    (∀ t input output, Reachable env t → output.finished = false →
      (prepare t input output).1 = Status.Finished →
      t.current_bucket_index = getBucketsNum t ∧
      ∀ b, b < getBucketsNum t → (finalizedBuckets t.log).count b = 1) := by
  refine ⟨fun t input output => (prepare_frame t input output).2.2,
    fun t => (work_index env t).1, fun t => (work_index env t).2, ?_, ?_⟩
  · intro t ht
    obtain ⟨h1, h2⟩ := tsteps_finalizedInOrder (reachable_steps ht) (init_finalizedInOrder env)
    exact ⟨h1, by rw [h1]; exact List.nodup_range _, h2⟩
  · intro t input output ht hout hfin
    obtain ⟨h1, h2⟩ := tsteps_finalizedInOrder (reachable_steps ht) (init_finalizedInOrder env)
    have hge : getBucketsNum t ≤ t.current_bucket_index := by
      exact ((prepare_finished_iff t input output).1 hfin).resolve_left
        (by simp [hout]) |>.2.2.2.1
    have heq : t.current_bucket_index = getBucketsNum t := Nat.le_antisymm h2 hge
    refine ⟨heq, fun b hb => ?_⟩
    rw [h1, heq]
    exact List.count_eq_one_of_mem (List.nodup_range _) (List.mem_range.2 hb)

/-! ### What `flushBucket` writes -/

theorem takeRun_split (acc queue : List (Block ρ)) :
    ∃ run, (takeRun acc queue).1 = acc ++ run ∧ queue = run ++ (takeRun acc queue).2 := by
  induction queue generalizing acc with
  | nil => exact ⟨[], by simp [takeRun], by simp [takeRun]⟩
  | cons front rest ih =>
    unfold takeRun
    cases hlast : acc.getLast? with
    | none =>
      obtain ⟨run, h1, h2⟩ := ih (acc ++ [front])
      refine ⟨front :: run, ?_, ?_⟩
      · simp only [h1, List.append_assoc, List.singleton_append]
      · simp only [List.cons_append]
        rw [← h2]
    | some back =>
      simp only []
      split_ifs with hne
      · exact ⟨[], by simp, by simp⟩
      · obtain ⟨run, h1, h2⟩ := ih (acc ++ [front])
        refine ⟨front :: run, ?_, ?_⟩
        · simp only [h1, List.append_assoc, List.singleton_append]
        · simp only [List.cons_append]
          rw [← h2]

theorem takeRun_sameTag (tag : Int) (acc queue : List (Block ρ)) (hne : acc ≠ [])
    (h : ∀ x ∈ acc, x.bucket_num = tag) : ∀ x ∈ (takeRun acc queue).1, x.bucket_num = tag := by
  induction queue generalizing acc with
  | nil => simpa [takeRun] using h
  | cons front rest ih =>
    unfold takeRun
    cases hlast : acc.getLast? with
    | none =>
      rw [List.getLast?_eq_none_iff] at hlast
      exact absurd hlast hne
    | some back =>
      simp only []
      have hback : back.bucket_num = tag := h back (List.mem_of_getLast?_eq_some hlast)
      split_ifs with hdiff
      · exact h
      · have hfront : front.bucket_num = tag := by
          rw [← hback]
          exact (not_not.1 hdiff).symm
        apply ih (acc ++ [front]) (by simp)
        intro x hx
        rcases List.mem_append.1 hx with hx | hx
        · exact h x hx
        · rw [List.mem_singleton.1 hx]
          exact hfront

/-- The first run taken off a non-empty queue starts with the front block, is made of
blocks of the queue, and all its blocks carry the tag of the front block. -/
theorem takeRun_first (front : Block ρ) (rest : List (Block ρ)) :
    ∃ run, (takeRun [] (front :: rest)).1 = front :: run ∧
      front :: rest = (front :: run) ++ (takeRun [] (front :: rest)).2 ∧
      ∀ x ∈ front :: run, x.bucket_num = front.bucket_num := by
  have hstart : takeRun [] (front :: rest) = takeRun [front] rest := by
    simp [takeRun]
  rw [hstart]
  obtain ⟨run, h1, h2⟩ := takeRun_split [front] rest
  refine ⟨run, by simpa using h1, ?_, ?_⟩
  · simp only [List.cons_append]
    rw [← h2]
  · have := takeRun_sameTag front.bucket_num [front] rest (by simp) (by simp)
    rw [h1] at this
    simpa using this

/-- What the outer loop of `flushBucket` does, given enough rounds: the queue ends
empty; the stream gains blocks `ms` whose rows, in order, are the rows of the queue;
every written block has rows, and is the concatenation of a non-empty run of queued
blocks that all carry its tag. -/
theorem flushRuns_spec (env : Env ρ σ) :
    ∀ (rounds : Nat) (queue stream : List (Block ρ)) (flush_bytes : Nat),
      queue.length ≤ rounds →
      (flushRuns env rounds queue stream flush_bytes).1 = [] ∧
      ∃ ms, (flushRuns env rounds queue stream flush_bytes).2.1 = stream ++ ms ∧
        rowsOf ms = rowsOf queue ∧
        ∀ m ∈ ms, m.rows ≠ [] ∧ ∃ run, run ≠ [] ∧ m.rows = rowsOf run ∧
          ∀ x ∈ run, x ∈ queue ∧ x.bucket_num = m.bucket_num := by
  intro rounds
  induction rounds with
  | zero =>
    intro queue stream flush_bytes hlen
    have hq : queue = [] := List.length_eq_zero.1 (Nat.le_zero.1 hlen)
    subst hq
    exact ⟨rfl, [], by simp [flushRuns], rfl, by simp⟩
  | succ rounds ih =>
    intro queue stream flush_bytes hlen
    cases queue with
    | nil => exact ⟨rfl, [], by simp [flushRuns], rfl, by simp⟩
    | cons front rest =>
      obtain ⟨run, h1, h2, h3⟩ := takeRun_first front rest
      have hlen2 : (takeRun [] (front :: rest)).2.length ≤ rounds := by
        have := congrArg List.length h2
        simp only [List.length_cons, List.length_append] at this hlen
        omega
      have hunf : flushRuns env (rounds + 1) (front :: rest) stream flush_bytes
          = flushRuns env rounds (takeRun [] (front :: rest)).2
              (if ({ rows := rowsOf (front :: run), bucket_num := front.bucket_num } :
                  Block ρ).rows.length ≠ 0
                then stream ++ [{ rows := rowsOf (front :: run), bucket_num := front.bucket_num }]
                else stream)
              (flush_bytes + env.bytes
                { rows := rowsOf (front :: run), bucket_num := front.bucket_num }) := by
        simp only [flushRuns, List.isEmpty_cons, Bool.false_eq_true, if_false]
        rw [h1]
        rfl
      rw [hunf]
      have hrows : rowsOf (front :: rest)
          = rowsOf (front :: run) ++ rowsOf (takeRun [] (front :: rest)).2 := by
        conv_lhs => rw [h2]
        simp [rowsOf]
      have hmem : ∀ x ∈ (takeRun [] (front :: rest)).2, x ∈ front :: rest := by
        intro x hx
        rw [h2]
        exact List.mem_append_right _ hx
      by_cases hz : ({ rows := rowsOf (front :: run), bucket_num := front.bucket_num } :
          Block ρ).rows.length ≠ 0
      · rw [if_pos hz]
        obtain ⟨ih1, ms, ih2, ih3, ih4⟩ := ih (takeRun [] (front :: rest)).2
          (stream ++ [{ rows := rowsOf (front :: run), bucket_num := front.bucket_num }])
          (flush_bytes + env.bytes
            { rows := rowsOf (front :: run), bucket_num := front.bucket_num }) hlen2
        refine ⟨ih1,
          { rows := rowsOf (front :: run), bucket_num := front.bucket_num } :: ms, ?_, ?_, ?_⟩
        · rw [ih2]
          simp
        · rw [hrows, ← ih3]
          simp [rowsOf]
        · intro m hm
          rcases List.mem_cons.1 hm with hm | hm
          · subst hm
            refine ⟨fun h0 => hz (by rw [h0]; rfl), front :: run, by simp, rfl, ?_⟩
            intro x hx
            refine ⟨?_, h3 x hx⟩
            rw [h2]
            exact List.mem_append_left _ hx
          · obtain ⟨a, run2, b, c, d⟩ := ih4 m hm
            exact ⟨a, run2, b, c, fun x hx => ⟨hmem x (d x hx).1, (d x hx).2⟩⟩
      · rw [if_neg hz]
        obtain ⟨ih1, ms, ih2, ih3, ih4⟩ := ih (takeRun [] (front :: rest)).2 stream
          (flush_bytes + env.bytes
            { rows := rowsOf (front :: run), bucket_num := front.bucket_num }) hlen2
        refine ⟨ih1, ms, ih2, ?_, ?_⟩
        · rw [hrows, ← ih3]
          have hnil : rowsOf (front :: run) = [] := by
            have := not_not.1 hz
            simpa using this
          rw [hnil]
          rfl
        · intro m hm
          obtain ⟨a, run2, b, c, d⟩ := ih4 m hm
          exact ⟨a, run2, b, c, fun x hx => ⟨hmem x (d x hx).1, (d x hx).2⟩⟩

/-- What `flushBucket` leaves in an entry: nothing queued, and a stream extended by
blocks `ms` with the properties of `flushRuns_spec`; an entry with an empty queue is
left as it is. -/
theorem flushedEntry_spec (env : Env ρ σ) (b : BufferFileStream ρ) :
    ∃ ms, storedBlocks (flushedEntry env b) = b.file_stream.getD [] ++ ms ∧
      (flushedEntry env b).blocks = [] ∧
      (b.blocks = [] → flushedEntry env b = b) ∧
      (b.blocks ≠ [] → (flushedEntry env b).file_stream = some (b.file_stream.getD [] ++ ms)) ∧
      rowsOf ms = rowsOf b.blocks ∧
      ∀ m ∈ ms, m.rows ≠ [] ∧ ∃ run, run ≠ [] ∧ m.rows = rowsOf run ∧
        ∀ x ∈ run, x ∈ b.blocks ∧ x.bucket_num = m.bucket_num := by
  by_cases he : b.blocks = []
  · have hemp : b.blocks.isEmpty = true := by simp [he]
    have hdef : flushedEntry env b = b := by
      unfold flushedEntry
      rw [if_pos hemp]
    rw [hdef]
    exact ⟨[], by simp [storedBlocks, he], he, fun _ => by simp, fun h => absurd he h,
      by simp [rowsOf, he], by simp⟩
  · have hemp : ¬ b.blocks.isEmpty = true := by simpa using he
    have hdef : flushedEntry env b =
        { blocks := (flushRuns env b.blocks.length b.blocks (b.file_stream.getD []) 0).1
          file_stream :=
            some (flushRuns env b.blocks.length b.blocks (b.file_stream.getD []) 0).2.1 } := by
      unfold flushedEntry
      rw [if_neg hemp]
    rw [hdef]
    obtain ⟨h1, ms, h2, h3, h4⟩ := flushRuns_spec env b.blocks.length b.blocks
      (b.file_stream.getD []) 0 (Nat.le_refl _)
    refine ⟨ms, ?_, h1, fun h => absurd h he, fun _ => by rw [h2], h3, h4⟩
    simp only [storedBlocks, h1, h2, Option.getD_some, List.append_nil]

theorem bucketAt_of_getElem? {t : Transform ρ σ} {i : Nat} {entry : BufferFileStream ρ}
    (h : t.buckets[i]? = some entry) : bucketAt t i = entry := by
  simp [bucketAt, List.getD_eq_getElem?_getD, h]

theorem toInt32_of_lt {n : Nat} (h : n < 2 ^ 31) : toInt32 n = (n : Int) := by
  have h1 : n % 2 ^ 32 = n := Nat.mod_eq_of_lt (by omega)
  simp only [toInt32, h1, if_pos h]

theorem bucketCountOk_lt_pow {env : Env ρ σ} {t : Transform ρ σ} (h : BucketCountOk env t)
    (hmax : env.max_buckets < 2 ^ 31) : getBucketsNum t < 2 ^ 31 := by
  rcases h.2 with h1 | h1 <;> omega

/-! ### Partitioning by tag -/

theorem partitionSound_of_same {env : Env ρ σ} {t t2 : Transform ρ σ}
    (h : PartitionSound env t) (hb : t2.buckets = t.buckets)
    (hc : t.current_bucket_index ≤ t2.current_bucket_index) : PartitionSound env t2 := by
  intro b entry hlt hget block hblock
  have := h b entry (by omega) (by rw [← hb]; exact hget) block hblock
  simpa [getBucketsNum, hb] using this

theorem soundBlock_mono {env : Env ρ σ} {n m b : Nat} {block : Block ρ}
    (h : SoundBlock env n b block) (hdvd : n ∣ m) : SoundBlock env m b block := by
  obtain ⟨k, h1, h2, h3⟩ := h
  exact ⟨k, h1, Nat.dvd_trans h2 hdvd, h3⟩

/-- Replacing the entry of one bucket keeps the partitioning sound when the blocks of
the new entry are sound for that bucket. -/
theorem partitionSound_setBucket {env : Env ρ σ} {t : Transform ρ σ}
    (h : PartitionSound env t) (i : Nat) (entry : BufferFileStream ρ)
    (hnew : t.current_bucket_index < i → i < getBucketsNum t →
      ∀ block ∈ storedBlocks entry, SoundBlock env (getBucketsNum t) i block) :
    PartitionSound env (setBucket t i entry) := by
  intro b e hlt hget block hblock
  replace hget : (t.buckets.set i entry)[b]? = some e := hget
  replace hlt : t.current_bucket_index < b := hlt
  rw [getBucketsNum_setBucket]
  by_cases hib : i = b
  · subst hib
    by_cases hlen : i < t.buckets.length
    · rw [List.getElem?_eq_getElem (by simpa using hlen)] at hget
      simp only [List.getElem_set_self, Option.some.injEq] at hget
      subst hget
      exact hnew hlt hlen block hblock
    · rw [List.getElem?_eq_none (by simpa using Nat.le_of_not_lt hlen)] at hget
      cases hget
  · rw [List.getElem?_set_ne hib] at hget
    exact h b e hlt hget block hblock

theorem mstep_partitionSound {env : Env ρ σ} (hmax : env.max_buckets < 2 ^ 31)
    {t t2 : Transform ρ σ} (h : MStep env t t2) (hB : BucketCountOk env t)
    (hI : PartitionSound env t) : PartitionSound env t2 := by
  cases h
  case readMemory => exact partitionSound_of_same hI rfl (Nat.le_refl _)
  case note e he => exact partitionSound_of_same hI rfl (Nat.le_refl _)
  case flushBucket i hmem hlo hhi =>
    rw [flushBucket_state]
    split_ifs
    · exact hI
    · apply partitionSound_setBucket hI
      intro _ _ block hblock
      obtain ⟨entry, hentry⟩ : ∃ entry, t.buckets[i]? = some entry :=
        ⟨_, List.getElem?_eq_getElem hhi⟩
      rw [bucketAt_of_getElem? hentry] at hblock
      obtain ⟨ms, h1, -, -, -, -, h6⟩ := flushedEntry_spec env entry
      rw [h1] at hblock
      rcases List.mem_append.1 hblock with hb | hb
      · exact hI i entry hlo hentry block (List.mem_append_left _ hb)
      · obtain ⟨-, run, hne, hrows, hrun⟩ := h6 block hb
        obtain ⟨x, hx⟩ := List.exists_mem_of_ne_nil run hne
        obtain ⟨n, hn1, hn2, -⟩ := hI i entry hlo hentry x
          (List.mem_append_right _ (hrun x hx).1)
        refine ⟨n, by rw [← (hrun x hx).2, hn1], hn2, ?_⟩
        intro r hr
        rw [hrows] at hr
        simp only [rowsOf, List.mem_flatten, List.mem_map] at hr
        obtain ⟨rs, ⟨y, hy, rfl⟩, hr⟩ := hr
        obtain ⟨k, hk1, -, hk3⟩ := hI i entry hlo hentry y
          (List.mem_append_right _ (hrun y hy).1)
        have hkn : k = n := by
          have := (hrun y hy).2.trans (hrun x hx).2.symm
          rw [hk1, hn1] at this
          exact_mod_cast this
        rw [← hkn]
        exact hk3 r hr
  case spilled n hmem => exact partitionSound_of_same hI rfl (Nat.le_refl _)
  case flushLogged a b c hmem => exact partitionSound_of_same hI rfl (Nat.le_refl _)
  case extend hmem hle =>
    intro b entry hlt hget block hblock
    have hnum : getBucketsNum ({ t with
        log := t.log ++ [.extendBuckets (getBucketsNum t) (getBucketsNum t * 2)]
        buckets := t.buckets ++
          (List.range' (getBucketsNum t) (getBucketsNum t * 2 - getBucketsNum t)).map
            fun _ => {} } : Transform ρ σ) = getBucketsNum t * 2 := by
      simp only [getBucketsNum, List.length_append, List.length_map, List.length_range']
      omega
    rw [hnum]
    simp only [] at hget
    by_cases hb : b < t.buckets.length
    · rw [List.getElem?_append_left hb] at hget
      exact soundBlock_mono (hI b entry hlt hget block hblock) (Dvd.intro _ rfl)
    · rw [List.getElem?_append_right (Nat.le_of_not_lt hb)] at hget
      simp only [List.getElem?_map, Option.map_eq_some'] at hget
      obtain ⟨_, _, rfl⟩ := hget
      simp [storedBlocks] at hblock
  case perKey q hmem => exact partitionSound_of_same hI rfl (Nat.le_refl _)
  case variants v k => exact partitionSound_of_same hI rfl (Nat.le_refl _)
  case addBlock i block hlo hhi =>
    unfold addBlockIntoFileBucket
    split_ifs
    · exact hI
    · apply partitionSound_setBucket hI
      intro _ _ blk hblk
      obtain ⟨entry, hentry⟩ : ∃ entry, t.buckets[i]? = some entry :=
        ⟨_, List.getElem?_eq_getElem hhi⟩
      rw [bucketAt_of_getElem? hentry] at hblk
      simp only [storedBlocks] at hblk
      rw [← List.append_assoc] at hblk
      rcases List.mem_append.1 hblk with hb | hb
      · exact hI i entry hlo hentry blk hb
      · rw [List.mem_singleton.1 hb]
        refine ⟨getBucketsNum t, toInt32_of_lt (bucketCountOk_lt_pow hB hmax), Nat.dvd_refl _, ?_⟩
        intro r hr
        simp only [List.mem_filter, beq_iff_eq] at hr
        exact hr.2

theorem dstep_partitionSound {env : Env ρ σ} (hmax : env.max_buckets < 2 ^ 31)
    {t t2 : Transform ρ σ} (h : DStep env t t2) (hB : BucketCountOk env t)
    (hI : PartitionSound env t) : PartitionSound env t2 := by
  cases h
  case inner hm => exact mstep_partitionSound hmax hm hB hI
  case releaseStream =>
    apply partitionSound_setBucket hI
    intro hlt
    exact absurd hlt (Nat.lt_irrefl _)
  case blankBlock =>
    apply partitionSound_setBucket hI
    intro hlt
    exact absurd hlt (Nat.lt_irrefl _)

theorem tstep_partitionSound {env : Env ρ σ} (hmax : env.max_buckets < 2 ^ 31)
    {t t2 : Transform ρ σ} (h : TStep env t t2) (hB : BucketCountOk env t)
    (hI : PartitionSound env t) : PartitionSound env t2 := by
  cases h
  case inner hd => exact dstep_partitionSound hmax hd hB hI
  case takeInput => exact partitionSound_of_same hI rfl (Nat.le_refl _)
  case doneInput => exact partitionSound_of_same hI rfl (Nat.le_refl _)
  case finalize v rb rr hlt => exact partitionSound_of_same hI rfl (Nat.le_succ _)
  case pop =>
    obtain ⟨h1, _, h3⟩ := popFrom_frame t t.current_final_blocks
    exact partitionSound_of_same hI (by rw [popOneChunk, h1]) (by rw [popOneChunk, h3])
  case prepare input output =>
    obtain ⟨h1, _, h3⟩ := prepare_frame t input output
    exact partitionSound_of_same hI h1 (by rw [h3])

theorem tsteps_partitionSound {env : Env ρ σ} (hmax : env.max_buckets < 2 ^ 31)
    {t t2 : Transform ρ σ} (h : TSteps env t t2) (hB : BucketCountOk env t)
    (hI : PartitionSound env t) : BucketCountOk env t2 ∧ PartitionSound env t2 := by
  induction h with
  | refl => exact ⟨hB, hI⟩
  | tail _ hstep ih => exact ⟨tstep_bucketCountOk hstep ih.1, tstep_partitionSound hmax hstep ih.1 ih.2⟩

theorem init_partitionSound (env : Env ρ σ) : PartitionSound env (Transform.init env) := by
  intro b entry hlt hget block hblock
  simp only [Transform.init] at hget hlt
  rw [List.getElem?_eq_none (by simpa using hlt)] at hget
  cases hget

/-- C3, as the code has it. For `max_buckets < 2^31`: in every state reachable by
`prepare()` and `work()` calls, and after every call of `mergeOneBlock` made in a state
where this already holds, every block queued in or written to the stream of a bucket
`b` after the current one carries as tag a bucket count `n` that divides the present
bucket count `B`, and each of its rows hashes to `b` modulo that `n` (the bucket count
at the time the block was scattered), not necessarily modulo `B`. -/
theorem partitioning_sound_by_tag (env : Env ρ σ) (hmax : env.max_buckets < 2 ^ 31) :
    (∀ t, Reachable env t → PartitionSound env t) ∧
    (∀ t block, BucketCountOk env t → PartitionSound env t →
      PartitionSound env (outcome (mergeOneBlock env t block))) := by
  constructor
  · intro t ht
    exact (tsteps_partitionSound hmax (reachable_steps ht) (init_bucketCountOk env)
      (init_partitionSound env)).2
  · intro t block hB hI
    exact (tsteps_partitionSound hmax
      (dsteps_toTSteps (msteps_toDSteps (mergeOneBlock_steps env t block))) hB hI).2

/-- C3, counterexample to the claim as worded. After the second of two ingests under
memory pressure there are 4 buckets, bucket 0 is current, and the stream of bucket 1
holds a block with the key 3, whose hash modulo 4 is 3, not 1 (the block was scattered
when there were 2 buckets and carries the tag 2). -/
theorem partitioning_by_current_count_counterexample :
    (∃ t, staleTagExample = .ok t) ∧
    getBucketsNum (outcome staleTagExample) = 4 ∧
    (outcome staleTagExample).current_bucket_index = 0 ∧
    (bucketAt (outcome staleTagExample) 1).file_stream
      = some [{ rows := [1, 3], bucket_num := 2 }] ∧
    pressedEnv.hash 3 % getBucketsNum (outcome staleTagExample) ≠ 1 := by
  refine ⟨⟨outcome staleTagExample, by decide⟩, by decide, by decide, by decide, by decide⟩

/-- Witness for `partitioning_sound_by_tag`: the state after the two ingests of
`staleTagExample` is sound by tag. -/
theorem partitioning_sound_by_tag_witness :
    PartitionSound pressedEnv
      (outcome (mergeOneBlock pressedEnv (Transform.init pressedEnv) { rows := [1, 3] })) :=
  (partitioning_sound_by_tag pressedEnv (by decide)).2 _ _
    (init_bucketCountOk pressedEnv) (init_partitionSound pressedEnv)

/-! ### Spill round trip -/

theorem bucketAt_setBucket_self (t : Transform ρ σ) (i : Nat) (entry : BufferFileStream ρ)
    (hi : i < getBucketsNum t) : bucketAt (setBucket t i entry) i = entry := by
  simp only [bucketAt, setBucket, List.getD_eq_getElem?_getD]
  rw [List.getElem?_eq_getElem (by simpa [getBucketsNum] using hi)]
  simp

theorem bucketAt_setBucket_ne (t : Transform ρ σ) (i j : Nat) (entry : BufferFileStream ρ)
    (hij : i ≠ j) : bucketAt (setBucket t i entry) j = bucketAt t j := by
  simp only [bucketAt, setBucket, List.getD_eq_getElem?_getD, List.getElem?_set_ne hij]

theorem readStream_of_clean (written : List (Block ρ))
    (h : ∀ block ∈ written, block.rows ≠ []) : readStream written = written := by
  unfold readStream
  rw [List.takeWhile_eq_self_iff]
  intro block hb
  have := h block hb
  simp only [ne_eq, List.length_eq_zero, decide_not, Bool.not_eq_true', decide_eq_false_iff_not]
  exact this

theorem drainedBlocks_of_clean (entry : BufferFileStream ρ) (h : CleanStream entry) :
    drainedBlocks entry = storedBlocks entry := by
  unfold drainedBlocks storedBlocks
  cases hs : entry.file_stream with
  | none => rfl
  | some written =>
    have : readStream written = written := readStream_of_clean written (by
      intro block hb
      exact h block (by rw [hs]; exact hb))
    simp only [this, Option.getD_some]

theorem rowsOf_append (a b : List (Block ρ)) : rowsOf (a ++ b) = rowsOf a ++ rowsOf b := by
  simp [rowsOf]

theorem flushedEntry_rows (env : Env ρ σ) (entry : BufferFileStream ρ) :
    rowsOf (storedBlocks (flushedEntry env entry)) = rowsOf (storedBlocks entry) := by
  obtain ⟨ms, h1, -, -, -, h5, -⟩ := flushedEntry_spec env entry
  rw [h1, rowsOf_append, h5, storedBlocks, rowsOf_append]

theorem flushedEntry_clean (env : Env ρ σ) (entry : BufferFileStream ρ)
    (h : CleanStream entry) : CleanStream (flushedEntry env entry) := by
  obtain ⟨ms, -, -, h3, h4, -, h6⟩ := flushedEntry_spec env entry
  by_cases he : entry.blocks = []
  · rw [h3 he]
    exact h
  · intro block hb
    rw [h4 he] at hb
    rcases List.mem_append.1 hb with hb | hb
    · exact h block hb
    · exact (h6 block hb).1

theorem applySpillOp_entry (env : Env ρ σ) (b : Nat) (t : Transform ρ σ) (op : SpillOp ρ)
    (hb : b < getBucketsNum t) :
    getBucketsNum (applySpillOp env b t op) = getBucketsNum t ∧
    (CleanStream (bucketAt t b) → CleanStream (bucketAt (applySpillOp env b t op) b)) ∧
    rowsOf (storedBlocks (bucketAt (applySpillOp env b t op) b))
      = rowsOf (storedBlocks (bucketAt t b)) ++ appendedRows [op] := by
  cases op with
  | append block =>
    simp only [applySpillOp, appendedRows, List.append_nil]
    unfold addBlockIntoFileBucket
    split_ifs with hz
    · have : block.rows = [] := List.length_eq_zero.1 hz
      exact ⟨rfl, id, by simp [this]⟩
    · rw [bucketAt_setBucket_self t b _ hb]
      refine ⟨by simp, id, ?_⟩
      simp [storedBlocks, rowsOf]
  | flush =>
    simp only [applySpillOp, appendedRows, List.append_nil]
    rw [flushBucket_state]
    split_ifs with hemp
    · exact ⟨rfl, id, rfl⟩
    · rw [bucketAt_setBucket_self t b _ hb]
      exact ⟨by simp, flushedEntry_clean env _, flushedEntry_rows env _⟩

theorem appendedRows_cons (op : SpillOp ρ) (ops : List (SpillOp ρ)) :
    appendedRows (op :: ops) = appendedRows [op] ++ appendedRows ops := by
  cases op <;> simp [appendedRows]

theorem applySpillOps_entry (env : Env ρ σ) (b : Nat) :
    ∀ (ops : List (SpillOp ρ)) (t : Transform ρ σ), b < getBucketsNum t →
      CleanStream (bucketAt t b) →
      CleanStream (bucketAt (ops.foldl (applySpillOp env b) t) b) ∧
      rowsOf (storedBlocks (bucketAt (ops.foldl (applySpillOp env b) t) b))
        = rowsOf (storedBlocks (bucketAt t b)) ++ appendedRows ops := by
  intro ops
  induction ops with
  | nil =>
    intro t _ hc
    exact ⟨hc, by simp [appendedRows]⟩
  | cons op ops ih =>
    intro t hb hc
    obtain ⟨h1, h2, h3⟩ := applySpillOp_entry env b t op hb
    obtain ⟨i1, i2⟩ := ih (applySpillOp env b t op) (by rw [h1]; exact hb) (h2 hc)
    refine ⟨i1, ?_⟩
    rw [List.foldl_cons, i2, h3, appendedRows_cons op ops, List.append_assoc]

/-- `mergeOneBlock` never touches the entry of the current bucket or of a bucket before it. -/
theorem mstep_bucket_le {env : Env ρ σ} {t t2 : Transform ρ σ} (h : MStep env t t2)
    (i : Nat) (hi : i ≤ t.current_bucket_index) : bucketAt t2 i = bucketAt t i := by
  cases h
  case readMemory => rfl
  case note e he => rfl
  case flushBucket j hmem hlo hhi =>
    rw [flushBucket_state]
    split_ifs
    · rfl
    · exact bucketAt_setBucket_ne t j i _ (by omega)
  case spilled n hmem => rfl
  case flushLogged a b c hmem => rfl
  case extend hmem hle =>
    simp only [bucketAt, List.getD_eq_getElem?_getD]
    by_cases hlt : i < t.buckets.length
    · rw [List.getElem?_append_left hlt]
    · rw [List.getElem?_append_right (Nat.le_of_not_lt hlt),
        List.getElem?_eq_none (Nat.le_of_not_lt hlt)]
      simp only [List.getElem?_map]
      cases (List.range' (getBucketsNum t) (getBucketsNum t * 2 - getBucketsNum t))[i
        - t.buckets.length]? <;> rfl
  case perKey q hmem => rfl
  case variants v k => rfl
  case addBlock j block hlo hhi =>
    unfold addBlockIntoFileBucket
    split_ifs
    · rfl
    · exact bucketAt_setBucket_ne t j i _ (by omega)

theorem msteps_bucket_le {env : Env ρ σ} {t t2 : Transform ρ σ} (h : MSteps env t t2)
    (i : Nat) (hi : i ≤ t.current_bucket_index) : bucketAt t2 i = bucketAt t i := by
  induction h with
  | refl => rfl
  | tail hsteps hstep ih =>
    rw [mstep_bucket_le hstep i (by rw [(msteps_sameControl hsteps).1]; exact hi), ih]

/-- The queue that the second replay loop of `prepareBucketOutputBlocks` walks is the
queue the current bucket had before the first loop read the stream. -/
theorem replayStream_keeps_queue (env : Env ρ σ) (t t1 : Transform ρ σ) (rb rr : Nat)
    (h : replayStream env t = .ok (t1, rb, rr)) :
    t1.current_bucket_index = t.current_bucket_index ∧
    (bucketAt t1 t.current_bucket_index).blocks = (bucketAt t t.current_bucket_index).blocks := by
  unfold replayStream at h
  simp only [] at h
  cases hs : (bucketAt t t.current_bucket_index).file_stream with
  | none =>
    rw [hs] at h
    simp only [Except.ok.injEq, Prod.mk.injEq] at h
    rw [← h.1]
    exact ⟨rfl, rfl⟩
  | some written =>
    rw [hs] at h
    simp only [] at h
    have hsteps := forBlocks_steps env (mergeOneBlock env) (mergeOneBlock_steps env)
      (readStream written) t
    cases hf : forBlocks (mergeOneBlock env) (readStream written) t with
    | error e =>
      rw [hf] at h
      cases h
    | ok t2 =>
      rw [hf] at h hsteps
      simp only [Except.ok.injEq, Prod.mk.injEq] at h
      simp only [outcome] at hsteps
      have hq := msteps_bucket_le hsteps t.current_bucket_index (Nat.le_refl _)
      rw [← h.1]
      refine ⟨(msteps_sameControl hsteps).1, ?_⟩
      by_cases hlt : t.current_bucket_index < getBucketsNum t2
      · rw [bucketAt_setBucket_self t2 _ _ hlt, hq]
      · have hnone : ∀ (u : Transform ρ σ), getBucketsNum u = getBucketsNum t2 →
            bucketAt u t.current_bucket_index = {} := by
          intro u hu
          simp only [bucketAt, List.getD_eq_getElem?_getD]
          rw [List.getElem?_eq_none (by
            simp only [getBucketsNum] at hu hlt
            omega)]
          rfl
        rw [hnone _ (getBucketsNum_setBucket _ _ _), ← hq, hnone t2 rfl]

theorem result_ok_bind {α β : Type} (a : α) (fin : α → Result ρ σ β) :
    ((.ok a : Result ρ σ α) >>= fin) = fin a := rfl

theorem forBlocks_eq_foldlM (step : Transform ρ σ → Block ρ → Result ρ σ (Transform ρ σ)) :
    ∀ (blocks : List (Block ρ)) (t : Transform ρ σ),
      forBlocks step blocks t = blocks.foldlM step t := by
  intro blocks
  induction blocks with
  | nil => exact fun t => rfl
  | cons block blocks ih =>
    intro t
    rw [List.foldlM_cons]
    simp only [forBlocks]
    cases step t block with
    | error e => rfl
    | ok t2 => exact ih t2

theorem replayBlocks_eq_foldlM (env : Env ρ σ) (index : Nat) :
    ∀ (blocks : List (Block ρ)) (i : Nat) (t : Transform ρ σ),
      replayBlocks env index i blocks t =
        (blocks.enumFrom i).foldlM
          (fun s entry => (mergeOneBlock env s entry.2).map fun s2 => blankBlock s2 index entry.1)
          t := by
  intro blocks
  induction blocks with
  | nil => exact fun i t => rfl
  | cons block blocks ih =>
    intro i t
    rw [List.enumFrom_cons, List.foldlM_cons]
    simp only [replayBlocks]
    cases mergeOneBlock env t block with
    | error e => rfl
    | ok t2 => exact ih (i + 1) (blankBlock t2 index i)

/-- What `prepareBucketOutputBlocks` merges.  With `drained` the blocks that draining the
entry of the current bucket yields (the stream read until the first block without rows,
then the queue) and `n` the number of them that come from the stream: the call hands
the first `n` blocks of `drained` to `mergeOneBlock`, one after the other; releases the
stream if there was one; hands the other blocks of `drained` to `mergeOneBlock`, one
after the other, resetting each queued block once it is merged; and converts the
aggregation state.  It throws where a `mergeOneBlock` call throws. -/
theorem prepareBucketOutputBlocks_merges (env : Env ρ σ) (t : Transform ρ σ) :
    prepareBucketOutputBlocks env t =
      (((drainedBlocks (bucketAt t t.current_bucket_index)).take
          ((drainedBlocks (bucketAt t t.current_bucket_index)).length -
            (bucketAt t t.current_bucket_index).blocks.length)).foldlM
        (mergeOneBlock env) (ensureVariants env t) >>= fun t1 =>
      (((drainedBlocks (bucketAt t t.current_bucket_index)).drop
          ((drainedBlocks (bucketAt t t.current_bucket_index)).length -
            (bucketAt t t.current_bucket_index).blocks.length)).enum.foldlM
        (fun s entry => (mergeOneBlock env s entry.2).map fun s2 =>
          blankBlock s2 t.current_bucket_index entry.1)
        (if (bucketAt t t.current_bucket_index).file_stream.isSome then
          setBucket t1 t.current_bucket_index
            { bucketAt t1 t.current_bucket_index with file_stream := none }
        else t1)) >>= fun t2 =>
      match t2.current_data_variants with
      | none => .error (.nullPointer, t2)
      | some variants =>
        .ok { t2 with
          current_final_blocks := env.convertToBlocks variants true
          log := t2.log ++ [.prepareOutput t2.current_bucket_index
            ((((drainedBlocks (bucketAt t t.current_bucket_index)).take
              ((drainedBlocks (bucketAt t t.current_bucket_index)).length -
                (bucketAt t t.current_bucket_index).blocks.length)).map env.bytes).sum)
            ((((drainedBlocks (bucketAt t t.current_bucket_index)).take
              ((drainedBlocks (bucketAt t t.current_bucket_index)).length -
                (bucketAt t t.current_bucket_index).blocks.length)).map
                  fun block => block.rows.length).sum)] }) := by
  have hens : prepareBucketOutputBlocks env t =
      match replayStream env (ensureVariants env t) with
      | .error e => .error e
      | .ok (t, read_bytes, read_rows) =>
        match replayQueue env t with
        | .error e => .error e
        | .ok t =>
          match t.current_data_variants with
          | none => .error (.nullPointer, t)
          | some variants =>
            .ok { t with
              current_final_blocks := env.convertToBlocks variants true
              log := t.log ++ [.prepareOutput t.current_bucket_index read_bytes read_rows] } :=
    rfl
  have hidx : (ensureVariants env t).current_bucket_index = t.current_bucket_index := by
    unfold ensureVariants
    split_ifs <;> rfl
  have hentry : ∀ j, bucketAt (ensureVariants env t) j = bucketAt t j := by
    intro j
    unfold ensureVariants
    split_ifs <;> rfl
  rw [hens]
  cases hs : (bucketAt t t.current_bucket_index).file_stream with
  | none =>
    have hd : drainedBlocks (bucketAt t t.current_bucket_index) =
        (bucketAt t t.current_bucket_index).blocks := by
      simp only [drainedBlocks, hs, List.nil_append]
    have hrs : replayStream env (ensureVariants env t) = .ok (ensureVariants env t, 0, 0) := by
      simp only [replayStream, hidx, hentry, hs]
    rw [hrs, hd, Nat.sub_self, List.take_zero, List.drop_zero]
    simp only [replayQueue, hidx, hentry, replayBlocks_eq_foldlM, List.enum, List.foldlM_nil,
      pure_bind, Option.isSome_none, Bool.false_eq_true, if_false, List.map_nil, List.sum_nil]
    cases List.foldlM (fun s (entry : Nat × Block ρ) =>
        Except.map (fun s2 => blankBlock s2 t.current_bucket_index entry.1)
          (mergeOneBlock env s entry.2))
      (ensureVariants env t) (List.enumFrom 0 (bucketAt t t.current_bucket_index).blocks) with
    | error e => rfl
    | ok t2 => rfl
  | some written =>
    have hd : drainedBlocks (bucketAt t t.current_bucket_index) =
        readStream written ++ (bucketAt t t.current_bucket_index).blocks := by
      simp only [drainedBlocks, hs]
    have hn : (readStream written ++ (bucketAt t t.current_bucket_index).blocks).length -
        (bucketAt t t.current_bucket_index).blocks.length = (readStream written).length := by
      rw [List.length_append]
      omega
    rw [hd, hn, List.take_left, List.drop_left, ← forBlocks_eq_foldlM]
    cases hf : forBlocks (mergeOneBlock env) (readStream written) (ensureVariants env t) with
    | error e =>
      have hrs : replayStream env (ensureVariants env t) = .error e := by
        simp only [replayStream, hidx, hentry, hs, hf]
      rw [hrs]
      rfl
    | ok t1 =>
      have hrs : replayStream env (ensureVariants env t) =
          .ok (setBucket t1 t.current_bucket_index
            { bucketAt t1 t.current_bucket_index with file_stream := none },
            ((readStream written).map env.bytes).sum,
            ((readStream written).map fun block => block.rows.length).sum) := by
        simp only [replayStream, hidx, hentry, hs, hf]
      obtain ⟨hq1, hq2⟩ := replayStream_keeps_queue env _ _ _ _ hrs
      rw [hidx] at hq1 hq2
      rw [hentry] at hq2
      rw [hrs]
      simp only [replayQueue, hq1, hq2, replayBlocks_eq_foldlM, List.enum, Option.isSome_some,
        if_true]
      rw [result_ok_bind]
      cases List.foldlM (fun s (entry : Nat × Block ρ) =>
          Except.map (fun s2 => blankBlock s2 t.current_bucket_index entry.1)
            (mergeOneBlock env s entry.2))
        (setBucket t1 t.current_bucket_index
          { bucketAt t1 t.current_bucket_index with file_stream := none })
        (List.enumFrom 0 (bucketAt t t.current_bucket_index).blocks) with
      | error e => rfl
      | ok t2 => rfl

/-- C2. Take any bucket `b` below the bucket count whose stream holds no block without
rows (in particular a bucket that has none), and any sequence of
`addBlockIntoFileBucket(b, x)` and `flushBucket(b)` calls, with blocks of any tag and
any number of rows. Afterwards the blocks that draining `b` yields (the stream read
until the first block without rows, then the queue) hold, in order, the rows they held
before followed by the rows of all appended blocks: no row is lost or duplicated, and
the two multisets of rows are equal. The stream still holds no block without rows, so
reading never stops early; and the second replay loop of `prepareBucketOutputBlocks`
walks the queue as it was before the first loop read the stream.  These are the blocks
that `prepareBucketOutputBlocks` merges when `b` is the current bucket: it hands the
blocks that draining the entry yields to `mergeOneBlock`, in order, one call for each
block, first those read from the stream, then, the stream released, those of the
queue, each reset in place once it is merged; then it converts the aggregation state;
it throws where one of these `mergeOneBlock` calls throws. -/
theorem spill_round_trip (env : Env ρ σ) :
    (∀ (t : Transform ρ σ) (b : Nat) (ops : List (SpillOp ρ)),
      b < getBucketsNum t → CleanStream (bucketAt t b) →
      rowsOf (drainedBlocks (bucketAt (ops.foldl (applySpillOp env b) t) b))
        = rowsOf (drainedBlocks (bucketAt t b)) ++ appendedRows ops ∧
      (rowsOf (drainedBlocks (bucketAt (ops.foldl (applySpillOp env b) t) b))).Perm
        (rowsOf (drainedBlocks (bucketAt t b)) ++ appendedRows ops) ∧
      CleanStream (bucketAt (ops.foldl (applySpillOp env b) t) b)) ∧
    (∀ (t : Transform ρ σ) (b : Nat) (ops : List (SpillOp ρ)),
      b < getBucketsNum t → bucketAt t b = {} →
      rowsOf (drainedBlocks (bucketAt (ops.foldl (applySpillOp env b) t) b))
        = appendedRows ops) ∧
    (∀ (t t1 : Transform ρ σ) (rb rr : Nat), replayStream env t = .ok (t1, rb, rr) →
      (bucketAt t1 t.current_bucket_index).blocks
        = (bucketAt t t.current_bucket_index).blocks) ∧
    (∀ (t : Transform ρ σ),
      prepareBucketOutputBlocks env t =
        (((drainedBlocks (bucketAt t t.current_bucket_index)).take
            ((drainedBlocks (bucketAt t t.current_bucket_index)).length -
              (bucketAt t t.current_bucket_index).blocks.length)).foldlM
          (mergeOneBlock env) (ensureVariants env t) >>= fun t1 =>
        (((drainedBlocks (bucketAt t t.current_bucket_index)).drop
            ((drainedBlocks (bucketAt t t.current_bucket_index)).length -
              (bucketAt t t.current_bucket_index).blocks.length)).enum.foldlM
          (fun s entry => (mergeOneBlock env s entry.2).map fun s2 =>
            blankBlock s2 t.current_bucket_index entry.1)
          (if (bucketAt t t.current_bucket_index).file_stream.isSome then
            setBucket t1 t.current_bucket_index
              { bucketAt t1 t.current_bucket_index with file_stream := none }
          else t1)) >>= fun t2 =>
        match t2.current_data_variants with
        | none => .error (.nullPointer, t2)
        | some variants =>
          .ok { t2 with
            current_final_blocks := env.convertToBlocks variants true
            log := t2.log ++ [.prepareOutput t2.current_bucket_index
              ((((drainedBlocks (bucketAt t t.current_bucket_index)).take
                ((drainedBlocks (bucketAt t t.current_bucket_index)).length -
                  (bucketAt t t.current_bucket_index).blocks.length)).map env.bytes).sum)
              ((((drainedBlocks (bucketAt t t.current_bucket_index)).take
                ((drainedBlocks (bucketAt t t.current_bucket_index)).length -
                  (bucketAt t t.current_bucket_index).blocks.length)).map
                    fun block => block.rows.length).sum)] })) := by
  have main : ∀ (t : Transform ρ σ) (b : Nat) (ops : List (SpillOp ρ)),
      b < getBucketsNum t → CleanStream (bucketAt t b) →
      rowsOf (drainedBlocks (bucketAt (ops.foldl (applySpillOp env b) t) b))
        = rowsOf (drainedBlocks (bucketAt t b)) ++ appendedRows ops ∧
      CleanStream (bucketAt (ops.foldl (applySpillOp env b) t) b) := by
    intro t b ops hb hc
    obtain ⟨h1, h2⟩ := applySpillOps_entry env b ops t hb hc
    rw [drainedBlocks_of_clean _ h1, drainedBlocks_of_clean _ hc]
    exact ⟨h2, h1⟩
  refine ⟨fun t b ops hb hc => ?_, fun t b ops hb he => ?_,
    fun t t1 rb rr h => (replayStream_keeps_queue env t t1 rb rr h).2,
    prepareBucketOutputBlocks_merges env⟩
  · obtain ⟨h1, h2⟩ := main t b ops hb hc
    exact ⟨h1, by rw [h1], h2⟩
  · have hc : CleanStream (bucketAt t b) := by
      rw [he]
      intro block hblock
      simp at hblock
    rw [(main t b ops hb hc).1, he]
    simp [drainedBlocks, rowsOf]

/-! ### Interchangeable rows -/

theorem aggEquiv_refl (env : Env ρ σ) (A : List ρ) : AggEquiv env A A :=
  fun _ => List.Perm.refl _

theorem aggEquiv_symm {env : Env ρ σ} {A B : List ρ} (h : AggEquiv env A B) :
    AggEquiv env B A := fun W => (h W).symm

theorem aggEquiv_trans {env : Env ρ σ} {A B C : List ρ} (h1 : AggEquiv env A B)
    (h2 : AggEquiv env B C) : AggEquiv env A C := fun W => (h1 W).trans (h2 W)

theorem aggEquiv_of_perm {env : Env ρ σ} (laws : SoundAggregator env) {A B : List ρ}
    (h : A.Perm B) : AggEquiv env A B :=
  fun W => laws.aggregated_perm _ _ (h.append_right W)

theorem aggEquiv_append_right {env : Env ρ σ} {A B : List ρ} (h : AggEquiv env A B)
    (C : List ρ) : AggEquiv env (A ++ C) (B ++ C) := by
  intro W
  rw [List.append_assoc, List.append_assoc]
  exact h (C ++ W)

theorem aggEquiv_append_left {env : Env ρ σ} (laws : SoundAggregator env) {A B : List ρ}
    (h : AggEquiv env A B) (C : List ρ) : AggEquiv env (C ++ A) (C ++ B) :=
  aggEquiv_trans (aggEquiv_of_perm laws List.perm_append_comm)
    (aggEquiv_trans (aggEquiv_append_right h C) (aggEquiv_of_perm laws List.perm_append_comm))

theorem aggEquiv_partialRows {env : Env ρ σ} (laws : SoundAggregator env) (X : List ρ) :
    AggEquiv env (partialRows env (mergedRows env X env.emptyVariants)) X :=
  fun W => laws.partial_equiv X W

theorem aggregated_nil {env : Env ρ σ} (laws : SoundAggregator env) :
    aggregated env ([] : List ρ) = [] := by
  have h := laws.aggregated_disjoint [] [] (by simp)
  have hlen := h.length_eq
  simp only [List.append_nil, List.length_append] at hlen
  exact List.length_eq_zero.1 (by omega)

/-! ### Splitting rows by hash -/

theorem filter_mem_cons_perm {α : Type} (f : α → Nat) (j : Nat) (js : List Nat)
    (hj : j ∉ js) (l : List α) :
    (l.filter fun x => decide (f x ∈ j :: js)).Perm
      ((l.filter fun x => f x == j) ++ l.filter fun x => decide (f x ∈ js)) := by
  induction l with
  | nil => simp
  | cons x l ih =>
    by_cases h1 : f x = j
    · have h2 : f x ∉ js := by rw [h1]; exact hj
      simp only [List.filter_cons, h1, List.mem_cons, true_or, decide_True, beq_self_eq_true,
        if_true, List.cons_append]
      have h3 : decide (j ∈ js) = false := by simpa using hj
      simp only [h3, Bool.false_eq_true, if_false]
      simpa [h1] using List.Perm.cons x ih
    · by_cases h2 : f x ∈ js
      · have e1 : decide (f x ∈ j :: js) = true := by simp [h2]
        have e2 : (f x == j) = false := by simpa using h1
        have e3 : decide (f x ∈ js) = true := by simp [h2]
        simp only [List.filter_cons, e1, e2, e3, if_true, Bool.false_eq_true, if_false]
        exact (List.Perm.cons x ih).trans List.perm_middle.symm
      · have e1 : decide (f x ∈ j :: js) = false := by simp [h1, h2]
        have e2 : (f x == j) = false := by simpa using h1
        have e3 : decide (f x ∈ js) = false := by simpa using h2
        simp only [List.filter_cons, e1, e2, e3, Bool.false_eq_true, if_false]
        exact ih

/-- The parts of a list for distinct shard numbers, put together, are the elements
whose shard number is one of them. -/
theorem parts_perm {α : Type} (f : α → Nat) (l : List α) :
    ∀ (js : List Nat), js.Nodup →
      ((js.map fun j => l.filter fun x => f x == j).flatten).Perm
        (l.filter fun x => decide (f x ∈ js)) := by
  intro js
  induction js with
  | nil => intro _; simp
  | cons j js ih =>
    intro hnd
    rw [List.nodup_cons] at hnd
    simp only [List.map_cons, List.flatten_cons]
    exact ((ih hnd.2).append_left _).trans (filter_mem_cons_perm f j js hnd.1 l).symm

/-- Concatenating, bucket by bucket, old rows followed by new rows is the same
multiset as all old rows followed by all new rows. -/
theorem flatten_append_perm {α : Type} (a b : Nat → List α) :
    ∀ (js : List Nat),
      ((js.map fun j => a j ++ b j).flatten).Perm
        ((js.map a).flatten ++ (js.map b).flatten) := by
  intro js
  induction js with
  | nil => simp
  | cons j js ih =>
    simp only [List.map_cons, List.flatten_cons]
    have h1 : (a j ++ b j ++ ((js.map a).flatten ++ (js.map b).flatten)).Perm
        (a j ++ (js.map a).flatten ++ (b j ++ (js.map b).flatten)) := by
      rw [List.append_assoc, List.append_assoc]
      refine List.Perm.append_left _ ?_
      rw [← List.append_assoc, ← List.append_assoc]
      exact List.Perm.append_right _ List.perm_append_comm
    exact (ih.append_left _).trans h1

/-! ### Where the rows of a scattered block go -/

theorem toSizeT_neg_one : toSizeT (-1) = 2 ^ 64 - 1 := by decide

theorem toSizeT_natCast {n : Nat} (h : n < 2 ^ 64) : toSizeT (n : Int) = n := by
  unfold toSizeT
  have : ((n : Int) % 2 ^ 64) = (n : Int) := Int.emod_eq_of_lt (by omega) (by exact_mod_cast h)
  rw [this]
  simp

theorem scatterBlock_parts (env : Env ρ σ) (t : Transform ρ σ) (block : Block ρ)
    (hrows : block.rows ≠ []) (htag : toSizeT block.bucket_num ≠ getBucketsNum t)
    (i : Nat) (hi : i < getBucketsNum t) :
    (scatterBlock env t block)[i]? =
      some { rows := block.rows.filter fun r => env.hash r % getBucketsNum t == i
             bucket_num := toInt32 (getBucketsNum t) } := by
  have h1 : ¬ block.rows.length = 0 := by simpa using hrows
  simp only [scatterBlock, if_neg h1, if_neg htag, scatterBlockByHash, List.map_map,
    List.getElem?_map, List.getElem?_range hi, Option.map_some', Function.comp]

theorem bucketRows_addBlock (t : Transform ρ σ) (i : Nat) (block : Block ρ)
    (hi : i < getBucketsNum t) (j : Nat) :
    bucketRows (addBlockIntoFileBucket t i block) j
      = bucketRows t j ++ (if j = i then block.rows else []) := by
  unfold addBlockIntoFileBucket
  by_cases hz : block.rows.length = 0
  · have : block.rows = [] := List.length_eq_zero.1 hz
    simp [hz, this]
  · rw [if_neg hz]
    by_cases hj : j = i
    · subst hj
      simp only [bucketRows, bucketAt_setBucket_self t j _ hi, if_true, storedBlocks]
      simp [rowsOf]
    · simp only [bucketRows, bucketAt_setBucket_ne t i j _ (Ne.symm hj), if_neg hj,
        List.append_nil]

/-- The loop that queues the scattered parts: it does not fail, touches only the
buckets, and bucket `j` gains the part for `j` exactly when `j` is among the indices. -/
theorem addScattered_account (env : Env ρ σ) (t0 : Transform ρ σ) (block : Block ρ)
    (hrows : block.rows ≠ []) (htag : toSizeT block.bucket_num ≠ getBucketsNum t0) :
    ∀ (is : List Nat) (t : Transform ρ σ), is.Nodup →
      getBucketsNum t = getBucketsNum t0 → (∀ i ∈ is, i < getBucketsNum t0) →
      ∃ bs, addScattered (scatterBlock env t0 block) is t = .ok { t with buckets := bs } ∧
        bs.length = t.buckets.length ∧
        ∀ j, bucketRows ({ t with buckets := bs } : Transform ρ σ) j
          = bucketRows t j ++ (if j ∈ is then
              block.rows.filter fun r => env.hash r % getBucketsNum t0 == j else []) := by
  intro is
  induction is with
  | nil =>
    intro t _ _ _
    exact ⟨t.buckets, rfl, rfl, fun j => by simp⟩
  | cons i is ih =>
    intro t hnd hB hlt
    rw [List.nodup_cons] at hnd
    have hi : i < getBucketsNum t0 := hlt i (List.mem_cons_self _ _)
    have hunf : addScattered (scatterBlock env t0 block) (i :: is) t
        = addScattered (scatterBlock env t0 block) is (addBlockIntoFileBucket t i
            { rows := block.rows.filter fun r => env.hash r % getBucketsNum t0 == i
              bucket_num := toInt32 (getBucketsNum t0) }) := by
      simp only [addScattered, scatterBlock_parts env t0 block hrows htag i hi]
    obtain ⟨bs1, hbs1, hlen1⟩ := addBlock_buckets t i
      { rows := block.rows.filter fun r => env.hash r % getBucketsNum t0 == i
        bucket_num := toInt32 (getBucketsNum t0) }
    have hrows1 := bucketRows_addBlock t i
      { rows := block.rows.filter fun r => env.hash r % getBucketsNum t0 == i
        bucket_num := toInt32 (getBucketsNum t0) } (by rw [hB]; exact hi)
    rw [hunf, hbs1]
    rw [hbs1] at hrows1
    obtain ⟨bs, h1, h2, h3⟩ := ih ({ t with buckets := bs1 } : Transform ρ σ) hnd.2
      (by simp only [getBucketsNum] at hB ⊢; rw [hlen1]; exact hB)
      (fun k hk => hlt k (List.mem_cons_of_mem _ hk))
    refine ⟨bs, h1, by rw [h2, hlen1], ?_⟩
    intro j
    have h3j := h3 j
    have h1j := hrows1 j
    simp only [] at h3j h1j ⊢
    rw [h3j, h1j, List.append_assoc]
    congr 1
    by_cases hji : j = i
    · subst hji
      simp [hnd.1]
    · simp [hji]

theorem laterBuckets_nodup (t : Transform ρ σ) : (laterBuckets t).Nodup :=
  List.nodup_range' _ _

theorem holds_merge {env : Env ρ σ} (laws : SoundAggregator env) {t : Transform ρ σ}
    {X : List ρ} (hH : Holds env t X) (block : Block ρ) :
    ∃ t2, mergeIntoVariants env t block = .ok t2 ∧
      t2 = { t with
        current_data_variants := some (mergedRows env (X ++ block.rows) env.emptyVariants)
        no_more_keys := false } := by
  obtain ⟨hv, hk⟩ := hH
  refine ⟨_, ?_, rfl⟩
  unfold mergeIntoVariants
  rw [hv, hk]
  simp only []
  rw [laws.keeps_keys, laws.merge_tag, ← laws.merge_append]

/-- Scattering a block that has rows and does not carry the present bucket count: the
part of the current bucket is merged into the state, the parts of the later buckets
are queued there, nothing else changes and nothing fails. -/
theorem scatteredPart_account {env : Env ρ σ} (laws : SoundAggregator env)
    (t : Transform ρ σ) (X : List ρ) (block : Block ρ) (hH : Holds env t X)
    (hc : t.current_bucket_index < getBucketsNum t) (hrows : block.rows ≠ [])
    (htag : toSizeT block.bucket_num ≠ getBucketsNum t) :
    ∃ t2, ((match addScattered (scatterBlock env t block) (laterBuckets t) t with
        | .error e => .error e
        | .ok t2 =>
          match (scatterBlock env t block)[t2.current_bucket_index]? with
          | none => .error (.outOfBounds, t2)
          | some current => mergeIntoVariants env t2 current) :
        Result ρ σ (Transform ρ σ)) = .ok t2 ∧
      Holds env t2 (X ++ block.rows.filter
        fun r => env.hash r % getBucketsNum t == t.current_bucket_index) ∧
      getBucketsNum t2 = getBucketsNum t ∧
      t2.current_bucket_index = t.current_bucket_index ∧
      (laterRows t2).Perm (laterRows t ++ block.rows.filter
        fun r => decide (t.current_bucket_index < env.hash r % getBucketsNum t)) := by
  obtain ⟨bs, h1, h2, h3⟩ := addScattered_account env t block hrows htag (laterBuckets t) t
    (laterBuckets_nodup t) rfl (fun i hi => ((mem_laterBuckets t i).1 hi).2)
  rw [h1]
  simp only []
  rw [scatterBlock_parts env t block hrows htag _ hc]
  simp only []
  have hH1 : Holds env ({ t with buckets := bs } : Transform ρ σ) X := hH
  obtain ⟨t2, hm, ht2⟩ := holds_merge laws hH1
    { rows := block.rows.filter fun r => env.hash r % getBucketsNum t == t.current_bucket_index
      bucket_num := toInt32 (getBucketsNum t) }
  refine ⟨t2, hm, ?_, ?_, ?_, ?_⟩
  · rw [ht2]
    exact ⟨rfl, rfl⟩
  · rw [ht2]
    simp only [getBucketsNum]
    exact h2
  · rw [ht2]
  · have hlb : laterBuckets t2 = laterBuckets t := by
      rw [ht2]
      simp only [laterBuckets, getBucketsNum, h2]
    have hbr : ∀ j, bucketRows t2 j
        = bucketRows ({ t with buckets := bs } : Transform ρ σ) j := by
      intro j
      rw [ht2]
      rfl
    have hmap : (laterBuckets t).map (bucketRows t2)
        = (laterBuckets t).map fun j => bucketRows t j ++
            block.rows.filter fun r => env.hash r % getBucketsNum t == j := by
      apply List.map_congr_left
      intro j hj
      rw [hbr j, h3 j, if_pos hj]
    unfold laterRows
    rw [hlb, hmap]
    refine (flatten_append_perm (bucketRows t) _ (laterBuckets t)).trans ?_
    refine List.Perm.append_left _ ?_
    refine (parts_perm (fun r => env.hash r % getBucketsNum t) block.rows (laterBuckets t)
      (laterBuckets_nodup t)).trans ?_
    have hfil : (block.rows.filter fun r =>
          decide (env.hash r % getBucketsNum t ∈ laterBuckets t))
        = block.rows.filter fun r =>
          decide (t.current_bucket_index < env.hash r % getBucketsNum t) := by
      apply List.filter_congr
      intro r _
      have hlt : env.hash r % getBucketsNum t < getBucketsNum t :=
        Nat.mod_lt _ (by omega)
      simp only [mem_laterBuckets, hlt, and_true]
    rw [hfil]

/-! ### What each part of `mergeOneBlock` does to the state and to the stored rows -/

theorem isMemoryOverflow_account (env : Env ρ σ) (t : Transform ρ σ) (v : σ)
    (hv : t.current_data_variants = some v) :
    ∃ b t1, isMemoryOverflow env t = .ok (b, t1) ∧ t1.buckets = t.buckets ∧
      t1.current_bucket_index = t.current_bucket_index ∧
      t1.current_data_variants = t.current_data_variants ∧
      t1.no_more_keys = t.no_more_keys := by
  unfold isMemoryOverflow
  rw [hv]
  simp only []
  have hsplit : getMemoryUsage env t =
      ((getMemoryUsage env t).1, { t with mem_queries := t.mem_queries + 1 }) := rfl
  rw [hsplit]
  simp only []
  split_ifs <;> exact ⟨_, _, rfl, rfl, rfl, hv.symm ▸ rfl, rfl⟩

theorem laterRows_congr {t t2 : Transform ρ σ}
    (hc : t2.current_bucket_index = t.current_bucket_index)
    (hB : getBucketsNum t2 = getBucketsNum t) (hrows : ∀ j, bucketRows t2 j = bucketRows t j) :
    laterRows t2 = laterRows t := by
  unfold laterRows laterBuckets
  rw [hc, hB]
  congr 1
  exact List.map_congr_left (fun j _ => hrows j)

theorem bucketRows_flushBucket (env : Env ρ σ) (t : Transform ρ σ) (i : Nat)
    (hi : i < getBucketsNum t) (j : Nat) :
    bucketRows (flushBucket env t i).2 j = bucketRows t j := by
  rw [flushBucket_state]
  split_ifs
  · rfl
  · by_cases hj : i = j
    · subst hj
      simp only [bucketRows, bucketAt_setBucket_self t i _ hi, flushedEntry_rows]
    · simp only [bucketRows, bucketAt_setBucket_ne t i j _ hj]

theorem flushEach_account (env : Env ρ σ) :
    ∀ (is : List Nat) (t : Transform ρ σ) (n : Nat), (∀ i ∈ is, i < getBucketsNum t) →
      ∃ bs, (flushEach env is t n).2 = { t with buckets := bs } ∧
        bs.length = t.buckets.length ∧
        ∀ j, bucketRows ({ t with buckets := bs } : Transform ρ σ) j = bucketRows t j := by
  intro is
  induction is with
  | nil =>
    intro t n _
    exact ⟨t.buckets, rfl, rfl, fun _ => rfl⟩
  | cons i is ih =>
    intro t n hlt
    have hi := hlt i (List.mem_cons_self _ _)
    obtain ⟨bs1, hbs1, hlen1⟩ := flushBucket_buckets env t i
    have hrows1 := bucketRows_flushBucket env t i hi
    have hunf : flushEach env (i :: is) t n
        = flushEach env is (flushBucket env t i).2 (n + (flushBucket env t i).1) := rfl
    rw [hunf, hbs1]
    rw [hbs1] at hrows1
    obtain ⟨bs, h1, h2, h3⟩ := ih ({ t with buckets := bs1 } : Transform ρ σ)
      (n + (flushBucket env t i).1) (fun k hk => by
        have := hlt k (List.mem_cons_of_mem _ hk)
        simp only [getBucketsNum] at this ⊢
        rw [hlen1]
        exact this)
    exact ⟨bs, h1, by rw [h2, hlen1], fun j => by rw [h3 j, hrows1 j]⟩

theorem flushBuckets_account (env : Env ρ σ) (t : Transform ρ σ) :
    (flushBuckets env t).current_bucket_index = t.current_bucket_index ∧
    (flushBuckets env t).current_data_variants = t.current_data_variants ∧
    (flushBuckets env t).no_more_keys = t.no_more_keys ∧
    getBucketsNum (flushBuckets env t) = getBucketsNum t ∧
    laterRows (flushBuckets env t) = laterRows t := by
  obtain ⟨bs, h1, h2, h3⟩ := flushEach_account env (laterBuckets (getMemoryUsage env t).2)
    (getMemoryUsage env t).2 0 (fun i hi => ((mem_laterBuckets _ i).1 hi).2)
  have hshape : flushBuckets env t =
      { (getMemoryUsage env t).2 with
        buckets := bs
        total_spill_disk_bytes := (getMemoryUsage env t).2.total_spill_disk_bytes
          + (flushEach env (laterBuckets (getMemoryUsage env t).2)
              (getMemoryUsage env t).2 0).1
        mem_queries := (getMemoryUsage env t).2.mem_queries + 1
        log := (getMemoryUsage env t).2.log ++ [.flush
          (flushEach env (laterBuckets (getMemoryUsage env t).2) (getMemoryUsage env t).2 0).1
          (getMemoryUsage env t).1
          (getMemoryUsage env { (flushEach env (laterBuckets (getMemoryUsage env t).2)
              (getMemoryUsage env t).2 0).2 with
            total_spill_disk_bytes := (flushEach env (laterBuckets (getMemoryUsage env t).2)
                (getMemoryUsage env t).2 0).2.total_spill_disk_bytes
              + (flushEach env (laterBuckets (getMemoryUsage env t).2)
                (getMemoryUsage env t).2 0).1 }).1] } := by
    simp only [flushBuckets]
    rw [h1]
    rfl
  have hB : getBucketsNum (flushBuckets env t) = getBucketsNum t := by
    rw [hshape]
    simp only [getBucketsNum]
    exact h2
  refine ⟨by rw [hshape]; rfl, by rw [hshape]; rfl, by rw [hshape]; rfl, hB, ?_⟩
  apply laterRows_congr (by rw [hshape]; rfl) hB
  intro j
  have := h3 j
  rw [hshape]
  exact this

theorem extendBuckets_account (env : Env ρ σ) (t t2 : Transform ρ σ)
    (h : extendBuckets env t = .ok t2)
    (hc : t.current_bucket_index < getBucketsNum t) :
    t2.current_bucket_index = t.current_bucket_index ∧
    t2.current_data_variants = t.current_data_variants ∧
    t2.no_more_keys = t.no_more_keys ∧
    getBucketsNum t2 = 2 * getBucketsNum t ∧
    2 * getBucketsNum t ≤ env.max_buckets ∧
    laterRows t2 = laterRows t := by
  simp only [extendBuckets] at h
  split_ifs at h with hgt
  simp only [Except.ok.injEq] at h
  subst h
  have hB : getBucketsNum ({ t with
      log := t.log ++ [.extendBuckets (getBucketsNum t) (getBucketsNum t * 2)]
      buckets := t.buckets ++
        (List.range' (getBucketsNum t) (getBucketsNum t * 2 - getBucketsNum t)).map
          fun _ => {} } : Transform ρ σ) = 2 * getBucketsNum t := by
    simp only [getBucketsNum, List.length_append, List.length_map, List.length_range']
    omega
  refine ⟨rfl, rfl, rfl, hB, by omega, ?_⟩
  have hlb : laterBuckets ({ t with
      log := t.log ++ [.extendBuckets (getBucketsNum t) (getBucketsNum t * 2)]
      buckets := t.buckets ++
        (List.range' (getBucketsNum t) (getBucketsNum t * 2 - getBucketsNum t)).map
          fun _ => {} } : Transform ρ σ)
      = laterBuckets t ++ List.range' (getBucketsNum t) (getBucketsNum t) := by
    unfold laterBuckets
    rw [hB]
    simp only []
    have e1 : 2 * getBucketsNum t - (t.current_bucket_index + 1)
        = getBucketsNum t + (getBucketsNum t - (t.current_bucket_index + 1)) := by omega
    have e3 : t.current_bucket_index + 1 + (getBucketsNum t - (t.current_bucket_index + 1))
        = getBucketsNum t := by omega
    rw [e1, ← List.range'_append_1, e3]
  unfold laterRows
  rw [hlb, List.map_append, List.flatten_append]
  have hnew : ((List.range' (getBucketsNum t) (getBucketsNum t)).map (bucketRows
      ({ t with
        log := t.log ++ [.extendBuckets (getBucketsNum t) (getBucketsNum t * 2)]
        buckets := t.buckets ++
          (List.range' (getBucketsNum t) (getBucketsNum t * 2 - getBucketsNum t)).map
            fun _ => {} } : Transform ρ σ))).flatten = [] := by
    rw [List.flatten_eq_nil_iff]
    intro l hl
    simp only [List.mem_map, List.mem_range'_1] at hl
    obtain ⟨j, ⟨hj1, hj2⟩, rfl⟩ := hl
    simp only [bucketRows, bucketAt, List.getD_eq_getElem?_getD]
    rw [List.getElem?_append_right (by simpa [getBucketsNum] using hj1)]
    simp only [List.getElem?_map]
    cases (List.range' (getBucketsNum t) (getBucketsNum t * 2 - getBucketsNum t))[j
        - t.buckets.length]? <;> rfl
  rw [hnew, List.append_nil]
  congr 1
  apply List.map_congr_left
  intro j hj
  have hjlt := ((mem_laterBuckets t j).1 hj).2
  simp only [bucketRows, bucketAt, List.getD_eq_getElem?_getD]
  rw [List.getElem?_append_left (by simpa [getBucketsNum] using hjlt)]

theorem rowsOf_cons (block : Block ρ) (blocks : List (Block ρ)) :
    rowsOf (block :: blocks) = block.rows ++ rowsOf blocks := by
  simp [rowsOf]

theorem rehashBlocks_account {env : Env ρ σ} (laws : SoundAggregator env) :
    ∀ (blocks : List (Block ρ)) (t : Transform ρ σ) (X : List ρ),
      Holds env t X → t.current_bucket_index < getBucketsNum t →
      getBucketsNum t < 2 ^ 31 →
      (∀ block ∈ blocks, block.rows ≠ [] ∧ toSizeT block.bucket_num ≠ getBucketsNum t) →
      ∃ t2, forBlocks (rehashBlock env) blocks t = .ok t2 ∧
        Holds env t2 (X ++ (rowsOf blocks).filter
          fun r => env.hash r % getBucketsNum t == t.current_bucket_index) ∧
        getBucketsNum t2 = getBucketsNum t ∧
        t2.current_bucket_index = t.current_bucket_index ∧
        (laterRows t2).Perm (laterRows t ++ (rowsOf blocks).filter
          fun r => decide (t.current_bucket_index < env.hash r % getBucketsNum t)) := by
  intro blocks
  induction blocks with
  | nil =>
    intro t X hH _ _ _
    exact ⟨t, rfl, by simpa [rowsOf] using hH, rfl, rfl, by simp [rowsOf]⟩
  | cons block blocks ih =>
    intro t X hH hc hsmall hall
    obtain ⟨hrows, htag2⟩ := hall block (List.mem_cons_self _ _)
    obtain ⟨t1, h1, hH1, hB1, hc1, hp1⟩ := scatteredPart_account laws t X block hH hc hrows htag2
    have hstep : rehashBlock env t block = .ok t1 := h1
    obtain ⟨t2, h2, hH2, hB2, hc2, hp2⟩ := ih t1 _ hH1 (by rw [hc1, hB1]; exact hc)
      (by rw [hB1]; exact hsmall) (fun b hb => by
        rw [hB1]
        exact hall b (List.mem_cons_of_mem _ hb))
    refine ⟨t2, ?_, ?_, hB2.trans hB1, hc2.trans hc1, ?_⟩
    · simp only [forBlocks, hstep]
      exact h2
    · rw [hB1, hc1] at hH2
      rw [rowsOf_cons, List.filter_append, ← List.append_assoc]
      exact hH2
    · rw [hB1, hc1] at hp2
      rw [rowsOf_cons, List.filter_append, ← List.append_assoc]
      exact hp2.trans (hp1.append_right _)

/-- Rows that all hash to the current bucket or a later one split into the part of the
current bucket and the parts of the later ones. -/
theorem split_current_later (env : Env ρ σ) (c n : Nat) (rows : List ρ)
    (h : ∀ r ∈ rows, c ≤ env.hash r % n) :
    ((rows.filter fun r => env.hash r % n == c) ++
      rows.filter fun r => decide (c < env.hash r % n)).Perm rows := by
  have hfil : (rows.filter fun r => decide (c < env.hash r % n))
      = rows.filter fun r => !(env.hash r % n == c) := by
    apply List.filter_congr
    intro r hr
    have := h r hr
    by_cases he : env.hash r % n = c
    · simp [he]
    · have hlt : c < env.hash r % n := by omega
      simp [he, hlt]
  rw [hfil]
  exact List.filter_append_perm _ rows

theorem le_mod_of_mod_eq {h n m c : Nat} (hdvd : n ∣ m) (hc : h % n = c) : c ≤ h % m := by
  have h1 : h % m % n = c := by rw [Nat.mod_mod_of_dvd _ hdvd]; exact hc
  rcases Nat.eq_zero_or_pos n with hn | hn
  · subst hn
    simp only [Nat.mod_zero] at h1
    omega
  · have := Nat.mod_le (h % m) n
    omega

/-- Rehashing the state after the bucket count has grown to a multiple: the new state
holds the partial rows of the current bucket, the others are queued in later buckets,
and to the aggregator the whole is interchangeable with what was there before. -/
theorem rehashDataVariants_account {env : Env ρ σ} (laws : SoundAggregator env)
    (t : Transform ρ σ) (X : List ρ) (hH : Holds env t X)
    (hc : t.current_bucket_index < getBucketsNum t) (hsmall : getBucketsNum t < 2 ^ 31)
    (n : Nat) (hdvd : n ∣ getBucketsNum t)
    (hhome : ∀ x ∈ X, env.hash x % n = t.current_bucket_index)
    (hpow : ∃ k, 1 ≤ k ∧ 2 ^ k ≤ env.max_buckets ∧ getBucketsNum t = 2 ^ k) :
    ∃ t2 X2, rehashDataVariants env t = .ok t2 ∧ BucketInv env t2 X2 ∧
      getBucketsNum t2 = getBucketsNum t ∧
      t2.current_bucket_index = t.current_bucket_index ∧
      AggEquiv env (X2 ++ laterRows t2) (X ++ laterRows t) := by
  obtain ⟨hv, hk⟩ := hH
  obtain ⟨k, hk1, hk2, hk3⟩ := hpow
  have hblocks : ∀ block ∈ env.convertToBlocks (mergedRows env X env.emptyVariants) false,
      block.rows ≠ [] ∧ toSizeT block.bucket_num ≠ getBucketsNum t := by
    intro block hb
    obtain ⟨h1, h2⟩ := laws.partial_blocks (mergedRows env X env.emptyVariants) block hb
    exact ⟨h1, by rw [hk3]; exact h2 k hk1 hk2⟩
  have hP : ∀ r ∈ partialRows env (mergedRows env X env.emptyVariants),
      t.current_bucket_index ≤ env.hash r % getBucketsNum t := by
    intro r hr
    obtain ⟨x, hx, hrx⟩ := laws.partial_hash X r hr
    rw [hrx]
    exact le_mod_of_mod_eq hdvd (hhome x hx)
  have hshape : ∃ q, rehashDataVariants env t
      = forBlocks (rehashBlock env)
          (env.convertToBlocks (mergedRows env X env.emptyVariants) false)
          ({ t with
            per_key_memory_usage := q
            current_data_variants := some env.emptyVariants
            no_more_keys := false } : Transform ρ σ) := by
    unfold rehashDataVariants
    rw [hv]
    simp only []
    split_ifs
    · exact ⟨_, rfl⟩
    · exact ⟨t.per_key_memory_usage, rfl⟩
  obtain ⟨q, hq⟩ := hshape
  rw [hq]
  have hfresh : Holds env ({ t with
      per_key_memory_usage := q
      current_data_variants := some env.emptyVariants
      no_more_keys := false } : Transform ρ σ) [] := ⟨by rw [laws.merge_nil], rfl⟩
  obtain ⟨t2, h1, hH2, hB2, hc2, hp2⟩ := rehashBlocks_account laws
    (env.convertToBlocks (mergedRows env X env.emptyVariants) false)
    ({ t with
      per_key_memory_usage := q
      current_data_variants := some env.emptyVariants
      no_more_keys := false } : Transform ρ σ) [] hfresh hc hsmall hblocks
  have hB2' : getBucketsNum t2 = getBucketsNum t := hB2
  have hc2' : t2.current_bucket_index = t.current_bucket_index := hc2
  replace hp2 : (laterRows t2).Perm (laterRows t ++
      (partialRows env (mergedRows env X env.emptyVariants)).filter
        fun r => decide (t.current_bucket_index < env.hash r % getBucketsNum t)) := hp2
  replace hH2 : Holds env t2 ((partialRows env (mergedRows env X env.emptyVariants)).filter
      fun r => env.hash r % getBucketsNum t == t.current_bucket_index) := by
    simpa using hH2
  refine ⟨t2, _, h1, ⟨hH2, by rw [hc2', hB2']; exact hc, by rw [hB2']; exact hsmall, ?_,
    ⟨k, by rw [hB2']; exact hk3⟩⟩, hB2', hc2', ?_⟩
  · intro x hx
    simp only [List.mem_filter, beq_iff_eq] at hx
    rw [hB2', hc2']
    exact hx.2
  · have hperm : (((partialRows env (mergedRows env X env.emptyVariants)).filter
          fun r => env.hash r % getBucketsNum t == t.current_bucket_index)
          ++ laterRows t2).Perm
        (partialRows env (mergedRows env X env.emptyVariants) ++ laterRows t) := by
      refine (List.Perm.append_left _ hp2).trans ?_
      refine (List.Perm.append_left _ List.perm_append_comm).trans ?_
      rw [← List.append_assoc]
      exact List.Perm.append_right _ (split_current_later env _ _ _ hP)
    exact aggEquiv_trans (aggEquiv_of_perm laws hperm)
      (aggEquiv_append_right (aggEquiv_partialRows laws X) _)

theorem bucketInv_congr {env : Env ρ σ} {t t1 : Transform ρ σ} {X : List ρ}
    (hI : BucketInv env t X) (hb : t1.buckets = t.buckets)
    (hc : t1.current_bucket_index = t.current_bucket_index)
    (hv : t1.current_data_variants = t.current_data_variants)
    (hk : t1.no_more_keys = t.no_more_keys) :
    BucketInv env t1 X ∧ laterRows t1 = laterRows t := by
  have hB : getBucketsNum t1 = getBucketsNum t := by simp only [getBucketsNum, hb]
  refine ⟨⟨⟨by rw [hv]; exact hI.holds.1, by rw [hk]; exact hI.holds.2⟩,
    by rw [hc, hB]; exact hI.index, by rw [hB]; exact hI.small,
    by rw [hc, hB]; exact hI.home, by rw [hB]; exact hI.pow⟩, ?_⟩
  exact laterRows_congr hc hB (fun j => by simp only [bucketRows, bucketAt, hb])

theorem extendAndRehash_account {env : Env ρ σ} (laws : SoundAggregator env)
    (hmax : env.max_buckets < 2 ^ 31) (t : Transform ρ σ) (X : List ρ)
    (hI : BucketInv env t X) :
    (∃ t2, extendAndRehash env t = .error (.tooManyBuckets, t2)) ∨
    ∃ t2 X2, extendAndRehash env t = .ok t2 ∧ BucketInv env t2 X2 ∧
      getBucketsNum t2 = 2 * getBucketsNum t ∧
      t2.current_bucket_index = t.current_bucket_index ∧
      AggEquiv env (X2 ++ laterRows t2) (X ++ laterRows t) := by
  unfold extendAndRehash
  cases he : extendBuckets env t with
  | error e =>
    left
    simp only [extendBuckets] at he
    split_ifs at he
    simp only [Except.error.injEq] at he
    subst he
    exact ⟨t, rfl⟩
  | ok t1 =>
    right
    obtain ⟨h1, h2, h3, h4, h5, h6⟩ := extendBuckets_account env t t1 he hI.index
    have hH1 : Holds env t1 X := ⟨by rw [h2]; exact hI.holds.1, by rw [h3]; exact hI.holds.2⟩
    obtain ⟨j, hj⟩ := hI.pow
    obtain ⟨t2, X2, r1, r2, r3, r4, r5⟩ := rehashDataVariants_account laws t1 X hH1
      (by rw [h1, h4]; have := hI.index; omega) (by rw [h4]; omega) (getBucketsNum t)
      (by rw [h4]; exact Dvd.intro_left 2 rfl) (by rw [h1]; exact hI.home)
      ⟨j + 1, Nat.le_add_left 1 j, by rw [pow_succ, ← hj]; omega, by rw [h4, hj, pow_succ]; omega⟩
    refine ⟨t2, X2, r1, r2, by rw [r3, h4], by rw [r4, h1], ?_⟩
    rw [h6] at r5
    exact r5

theorem routeBlock_account {env : Env ρ σ} (laws : SoundAggregator env)
    (t : Transform ρ σ) (X : List ρ) (block : Block ρ) (hI : BucketInv env t X)
    (hfit : Fits env t block) (hrows : block.rows ≠ []) :
    ∃ t2 X2, routeBlock env t block = .ok t2 ∧ BucketInv env t2 X2 ∧
      getBucketsNum t2 = getBucketsNum t ∧
      t2.current_bucket_index = t.current_bucket_index ∧
      (X2 ++ laterRows t2).Perm (X ++ laterRows t ++ block.rows) := by
  obtain ⟨n, hdvd, htagn, hhash⟩ := hfit
  have hBpos : 0 < getBucketsNum t := by have := hI.index; omega
  have hcast : toInt32 (getBucketsNum t) = (getBucketsNum t : Int) := toInt32_of_lt hI.small
  unfold routeBlock
  by_cases hwhole : block.bucket_num = toInt32 (getBucketsNum t) ∨ getBucketsNum t = 1
  · rw [if_pos hwhole]
    obtain ⟨t2, hm, ht2⟩ := holds_merge laws hI.holds block
    have hhome : ∀ r ∈ block.rows, env.hash r % getBucketsNum t = t.current_bucket_index := by
      intro r hr
      rcases hwhole with htag | hone
      · rw [hcast] at htag
        rcases htagn with hneg | hn
        · rw [hneg] at htag
          omega
        · have : n = getBucketsNum t := by
            rw [hn] at htag
            exact_mod_cast htag
          rw [← this]
          exact hhash r hr
      · have := hI.index
        rw [hone] at this ⊢
        omega
    refine ⟨t2, X ++ block.rows, hm, ?_, by rw [ht2]; rfl, by rw [ht2], ?_⟩
    · rw [ht2]
      refine ⟨⟨rfl, rfl⟩, hI.index, hI.small, ?_, hI.pow⟩
      intro x hx
      rcases List.mem_append.1 hx with hx | hx
      · exact hI.home x hx
      · exact hhome x hx
    · have hl : laterRows t2 = laterRows t := by
        rw [ht2]
        exact laterRows_congr rfl rfl (fun _ => rfl)
      rw [hl, List.append_assoc, List.append_assoc]
      exact List.Perm.append_left _ List.perm_append_comm
  · rw [if_neg hwhole]
    simp only []
    have htag : toSizeT block.bucket_num ≠ getBucketsNum t := by
      rcases htagn with hneg | hn
      · rw [hneg, toSizeT_neg_one]
        have := hI.small
        omega
      · have hnle : n ≤ getBucketsNum t := Nat.le_of_dvd hBpos hdvd
        rw [hn, toSizeT_natCast (by have := hI.small; omega)]
        intro heq
        apply hwhole
        left
        rw [hn, hcast, heq]
    obtain ⟨t2, h1, hH2, hB2, hc2, hp2⟩ :=
      scatteredPart_account laws t X block hI.holds hI.index hrows htag
    refine ⟨t2, _, h1, ⟨hH2, by rw [hc2, hB2]; exact hI.index, by rw [hB2]; exact hI.small,
      ?_, by rw [hB2]; exact hI.pow⟩, hB2, hc2, ?_⟩
    · intro x hx
      rw [hB2, hc2]
      rcases List.mem_append.1 hx with hx | hx
      · exact hI.home x hx
      · simp only [List.mem_filter, beq_iff_eq] at hx
        exact hx.2
    · have hsplit := split_current_later env t.current_bucket_index (getBucketsNum t)
        block.rows (fun r hr => le_mod_of_mod_eq hdvd (hhash r hr))
      rw [List.append_assoc, List.append_assoc]
      refine List.Perm.append_left _ ?_
      refine (List.Perm.append_left _ hp2).trans ?_
      refine (List.Perm.append_left _ List.perm_append_comm).trans ?_
      rw [← List.append_assoc]
      exact (List.Perm.append_right _ hsplit).trans List.perm_append_comm

theorem fits_of_dvd {env : Env ρ σ} {t t2 : Transform ρ σ} {block : Block ρ}
    (h : Fits env t block) (hc : t2.current_bucket_index = t.current_bucket_index)
    (hdvd : getBucketsNum t ∣ getBucketsNum t2) : Fits env t2 block := by
  obtain ⟨n, h1, h2, h3⟩ := h
  exact ⟨n, Nat.dvd_trans h1 hdvd, h2, by rw [hc]; exact h3⟩

/-- One `mergeOneBlock` call on a block that fits the current bucket either throws the
too-many-buckets exception or returns; when it returns, the state again holds rows of
the current bucket only, the bucket count has stayed or doubled, and to the aggregator
the rows in the state and in the later buckets together are interchangeable with those
held before plus the rows of the block. -/
theorem mergeOneBlock_account {env : Env ρ σ} (laws : SoundAggregator env)
    (hmax : env.max_buckets < 2 ^ 31) (t : Transform ρ σ) (X : List ρ) (block : Block ρ)
    (hI : BucketInv env t X) (hfit : Fits env t block) :
    (∃ t2, mergeOneBlock env t block = .error (.tooManyBuckets, t2)) ∨
    ∃ t2 X2, mergeOneBlock env t block = .ok t2 ∧ BucketInv env t2 X2 ∧
      getBucketsNum t ∣ getBucketsNum t2 ∧
      t2.current_bucket_index = t.current_bucket_index ∧
      AggEquiv env (X2 ++ laterRows t2) (X ++ laterRows t ++ block.rows) := by
  unfold mergeOneBlock
  by_cases hz : block.rows.length = 0
  · rw [if_pos hz]
    have hnil : block.rows = [] := List.length_eq_zero.1 hz
    right
    refine ⟨t, X, rfl, hI, Nat.dvd_refl _, rfl, ?_⟩
    rw [hnil, List.append_nil]
    exact aggEquiv_refl env _
  · rw [if_neg hz]
    have hrows : block.rows ≠ [] := fun h => hz (by rw [h]; rfl)
    -- first evaluation of the memory predicate
    obtain ⟨b1, t1, e1, a1, a2, a3, a4⟩ := isMemoryOverflow_account env t _ hI.holds.1
    rw [e1]
    simp only []
    obtain ⟨hI1, hl1⟩ := bucketInv_congr hI a1 a2 a3 a4
    have hB1 : getBucketsNum t1 = getBucketsNum t := by simp only [getBucketsNum, a1]
    -- the flush
    have hf : BucketInv env (if b1 = true then flushBuckets env t1 else t1) X ∧
        laterRows (if b1 = true then flushBuckets env t1 else t1) = laterRows t ∧
        getBucketsNum (if b1 = true then flushBuckets env t1 else t1) = getBucketsNum t ∧
        (if b1 = true then flushBuckets env t1 else t1).current_bucket_index
          = t.current_bucket_index := by
      split_ifs
      · obtain ⟨f1, f2, f3, f4, f5⟩ := flushBuckets_account env t1
        refine ⟨⟨⟨by rw [f2]; exact hI1.holds.1, by rw [f3]; exact hI1.holds.2⟩,
          by rw [f1, f4]; exact hI1.index, by rw [f4]; exact hI1.small,
          by rw [f1, f4]; exact hI1.home, by rw [f4]; exact hI1.pow⟩,
          by rw [f5, hl1], by rw [f4, hB1], by rw [f1, a2]⟩
      · exact ⟨hI1, hl1, hB1, a2⟩
    generalize (if b1 = true then flushBuckets env t1 else t1) = tf at hf ⊢
    obtain ⟨hIf, hlf, hBf, hcf⟩ := hf
    -- second evaluation of the memory predicate
    obtain ⟨b2, t2, e2, c1, c2, c3, c4⟩ := isMemoryOverflow_account env tf _ hIf.holds.1
    rw [e2]
    simp only []
    obtain ⟨hI2, hl2⟩ := bucketInv_congr hIf c1 c2 c3 c4
    have hB2 : getBucketsNum t2 = getBucketsNum t := by
      simp only [getBucketsNum, c1]
      exact hBf
    -- extension and rehash
    have hx : (∃ t3, (if b2 = true then extendAndRehash env t2
          else (.ok t2 : Result ρ σ (Transform ρ σ))) = .error (.tooManyBuckets, t3)) ∨
        ∃ t3 X3, (if b2 = true then extendAndRehash env t2
          else (.ok t2 : Result ρ σ (Transform ρ σ))) = .ok t3 ∧ BucketInv env t3 X3 ∧
          getBucketsNum t ∣ getBucketsNum t3 ∧
          t3.current_bucket_index = t.current_bucket_index ∧
          AggEquiv env (X3 ++ laterRows t3) (X ++ laterRows t) := by
      split_ifs
      · rcases extendAndRehash_account laws hmax t2 X hI2 with ⟨t3, h3⟩ | ⟨t3, X3, h3, h4, h5, h6, h7⟩
        · exact Or.inl ⟨t3, h3⟩
        · refine Or.inr ⟨t3, X3, h3, h4, ?_, by rw [h6, c2, hcf], ?_⟩
          · rw [h5, hB2]
            exact Dvd.intro_left 2 rfl
          · rw [hl2, hlf] at h7
            exact h7
      · exact Or.inr ⟨t2, X, rfl, hI2, by rw [hB2], by rw [c2, hcf],
          by rw [hl2, hlf]; exact aggEquiv_refl env _⟩
    rcases hx with ⟨t3, h3⟩ | ⟨t3, X3, h3, hI3, hd3, hc3, hq3⟩
    · left
      rw [h3]
      exact ⟨t3, rfl⟩
    · right
      rw [h3]
      simp only []
      have hsplit : getMemoryUsage env t3 =
          ((getMemoryUsage env t3).1, { t3 with mem_queries := t3.mem_queries + 1 }) := rfl
      rw [hsplit]
      simp only []
      have h4 : BucketInv env ({ t3 with
          mem_queries := t3.mem_queries + 1
          log := t3.log ++ [.mergeOnBlock block.rows.length (env.bytes block) block.bucket_num
            t3.current_bucket_index (getBucketsNum t3) (getMemoryUsage env t3).1] } :
          Transform ρ σ) X3 ∧
          laterRows ({ t3 with
            mem_queries := t3.mem_queries + 1
            log := t3.log ++ [.mergeOnBlock block.rows.length (env.bytes block)
              block.bucket_num t3.current_bucket_index (getBucketsNum t3)
              (getMemoryUsage env t3).1] } : Transform ρ σ) = laterRows t3 :=
        bucketInv_congr hI3 rfl rfl rfl rfl
      obtain ⟨hI4, hl4⟩ := h4
      have hfit4 : Fits env ({ t3 with
          mem_queries := t3.mem_queries + 1
          log := t3.log ++ [.mergeOnBlock block.rows.length (env.bytes block) block.bucket_num
            t3.current_bucket_index (getBucketsNum t3) (getMemoryUsage env t3).1] } :
          Transform ρ σ) block := fits_of_dvd hfit hc3 hd3
      obtain ⟨t5, X5, r1, r2, r3, r4, r5⟩ := routeBlock_account laws _ X3 block hI4 hfit4 hrows
      refine ⟨t5, X5, r1, r2, ?_, ?_, ?_⟩
      · rw [r3]
        exact hd3
      · rw [r4]
        exact hc3
      · rw [hl4] at r5
        exact aggEquiv_trans (aggEquiv_of_perm laws r5) (aggEquiv_append_right hq3 _)

/-! ### Streams never hold a block without rows -/

theorem allClean_setBucket {t : Transform ρ σ} (h : AllClean t) (i : Nat)
    (entry : BufferFileStream ρ) (he : CleanStream entry) : AllClean (setBucket t i entry) := by
  intro e hmem
  rcases List.mem_or_eq_of_mem_set hmem with hm | hm
  · exact h e hm
  · rw [hm]
    exact he

theorem cleanStream_bucketAt {t : Transform ρ σ} (h : AllClean t) (i : Nat) :
    CleanStream (bucketAt t i) := by
  simp only [bucketAt, List.getD_eq_getElem?_getD]
  cases hget : t.buckets[i]? with
  | none =>
    intro block hb
    simp at hb
  | some entry => exact h entry (List.getElem?_mem hget)

theorem mstep_allClean {env : Env ρ σ} {t t2 : Transform ρ σ} (h : MStep env t t2)
    (hI : AllClean t) : AllClean t2 := by
  cases h
  case readMemory => exact hI
  case note e he => exact hI
  case flushBucket i hmem hlo hhi =>
    rw [flushBucket_state]
    split_ifs
    · exact hI
    · exact allClean_setBucket hI i _ (flushedEntry_clean env _ (cleanStream_bucketAt hI i))
  case spilled n hmem => exact hI
  case flushLogged a b c hmem => exact hI
  case extend hmem hle =>
    intro e hmem2
    rcases List.mem_append.1 hmem2 with hm | hm
    · exact hI e hm
    · simp only [List.mem_map] at hm
      obtain ⟨_, _, rfl⟩ := hm
      intro block hb
      simp at hb
  case perKey q hmem => exact hI
  case variants v k => exact hI
  case addBlock i block hlo hhi =>
    unfold addBlockIntoFileBucket
    split_ifs
    · exact hI
    · exact allClean_setBucket hI i _ (cleanStream_bucketAt hI i)

theorem dstep_allClean {env : Env ρ σ} {t t2 : Transform ρ σ} (h : DStep env t t2)
    (hI : AllClean t) : AllClean t2 := by
  cases h
  case inner hm => exact mstep_allClean hm hI
  case releaseStream =>
    apply allClean_setBucket hI
    intro block hb
    simp at hb
  case blankBlock =>
    exact allClean_setBucket hI _ _ (cleanStream_bucketAt hI _)

/-- The three invariants of the stored blocks survive the merge and replay code. -/
theorem dsteps_invariants {env : Env ρ σ} (hmax : env.max_buckets < 2 ^ 31)
    {t t2 : Transform ρ σ} (h : DSteps env t t2) (h1 : BucketCountOk env t)
    (h2 : PartitionSound env t) (h3 : AllClean t) :
    BucketCountOk env t2 ∧ PartitionSound env t2 ∧ AllClean t2 := by
  induction h with
  | refl => exact ⟨h1, h2, h3⟩
  | tail _ hstep ih =>
    exact ⟨dstep_bucketCountOk hstep ih.1, dstep_partitionSound hmax hstep ih.1 ih.2.1,
      dstep_allClean hstep ih.2.2⟩

/-! ### Replaying the blocks of a bucket -/

theorem mergeBlocks_account {env : Env ρ σ} (laws : SoundAggregator env)
    (hmax : env.max_buckets < 2 ^ 31) :
    ∀ (blocks : List (Block ρ)) (t : Transform ρ σ) (X : List ρ),
      BucketInv env t X → (∀ block ∈ blocks, Fits env t block) →
      (∃ t2, forBlocks (mergeOneBlock env) blocks t = .error (.tooManyBuckets, t2)) ∨
      ∃ t2 X2, forBlocks (mergeOneBlock env) blocks t = .ok t2 ∧ BucketInv env t2 X2 ∧
        getBucketsNum t ∣ getBucketsNum t2 ∧
        t2.current_bucket_index = t.current_bucket_index ∧
        AggEquiv env (X2 ++ laterRows t2) (X ++ laterRows t ++ rowsOf blocks) := by
  intro blocks
  induction blocks with
  | nil =>
    intro t X hI _
    exact Or.inr ⟨t, X, rfl, hI, Nat.dvd_refl _, rfl, by
      simpa [rowsOf] using aggEquiv_refl env (X ++ laterRows t)⟩
  | cons block blocks ih =>
    intro t X hI hfit
    rcases mergeOneBlock_account laws hmax t X block hI (hfit block (List.mem_cons_self _ _))
      with ⟨t1, h1⟩ | ⟨t1, X1, h1, hI1, hd1, hc1, hq1⟩
    · left
      exact ⟨t1, by simp only [forBlocks, h1]⟩
    · have hfit1 : ∀ b ∈ blocks, Fits env t1 b := fun b hb =>
        fits_of_dvd (hfit b (List.mem_cons_of_mem _ hb)) hc1 hd1
      rcases ih t1 X1 hI1 hfit1 with ⟨t2, h2⟩ | ⟨t2, X2, h2, hI2, hd2, hc2, hq2⟩
      · left
        exact ⟨t2, by simp only [forBlocks, h1]; exact h2⟩
      · right
        refine ⟨t2, X2, by simp only [forBlocks, h1]; exact h2, hI2, Nat.dvd_trans hd1 hd2,
          hc2.trans hc1, ?_⟩
        rw [rowsOf_cons, ← List.append_assoc]
        exact aggEquiv_trans hq2 (aggEquiv_append_right hq1 _)

theorem bucketInv_setBucket_current {env : Env ρ σ} {t : Transform ρ σ} {X : List ρ}
    (hI : BucketInv env t X) (entry : BufferFileStream ρ) :
    BucketInv env (setBucket t t.current_bucket_index entry) X ∧
    laterRows (setBucket t t.current_bucket_index entry) = laterRows t := by
  refine ⟨⟨hI.holds, by rw [getBucketsNum_setBucket]; exact hI.index,
    by rw [getBucketsNum_setBucket]; exact hI.small,
    by rw [getBucketsNum_setBucket]; exact hI.home,
    by rw [getBucketsNum_setBucket]; exact hI.pow⟩, ?_⟩
  unfold laterRows
  have hlb : laterBuckets (setBucket t t.current_bucket_index entry) = laterBuckets t := by
    simp only [laterBuckets, getBucketsNum_setBucket]
    rfl
  rw [hlb]
  congr 1
  apply List.map_congr_left
  intro j hj
  have hlt := ((mem_laterBuckets t j).1 hj).1
  simp only [bucketRows, bucketAt_setBucket_ne t _ j _ (Nat.ne_of_lt hlt)]

theorem replayStream_account {env : Env ρ σ} (laws : SoundAggregator env)
    (hmax : env.max_buckets < 2 ^ 31) (t : Transform ρ σ) (X : List ρ)
    (hI : BucketInv env t X) (hclean : CleanStream (bucketAt t t.current_bucket_index))
    (hfit : ∀ block ∈ (bucketAt t t.current_bucket_index).file_stream.getD [],
      Fits env t block) :
    (∃ t2, replayStream env t = .error (.tooManyBuckets, t2)) ∨
    ∃ t1 X1 rb rr, replayStream env t = .ok (t1, rb, rr) ∧ BucketInv env t1 X1 ∧
      DSteps env t t1 ∧ getBucketsNum t ∣ getBucketsNum t1 ∧
      AggEquiv env (X1 ++ laterRows t1)
        (X ++ laterRows t ++ rowsOf ((bucketAt t t.current_bucket_index).file_stream.getD [])) := by
  unfold replayStream
  simp only []
  cases hs : (bucketAt t t.current_bucket_index).file_stream with
  | none =>
    right
    refine ⟨t, X, 0, 0, rfl, hI, Relation.ReflTransGen.refl, Nat.dvd_refl _, ?_⟩
    simpa [rowsOf] using aggEquiv_refl env (X ++ laterRows t)
  | some written =>
    simp only []
    rw [hs] at hfit
    have hread : readStream written = written :=
      readStream_of_clean written (fun block hb => hclean block (by rw [hs]; exact hb))
    rw [hread]
    have hsteps := forBlocks_steps env (mergeOneBlock env) (mergeOneBlock_steps env) written t
    rcases mergeBlocks_account laws hmax written t X hI hfit
      with ⟨t1, h1⟩ | ⟨t1, X1, h1, hI1, hd1, hc1, hq1⟩
    · left
      rw [h1]
      exact ⟨t1, rfl⟩
    · right
      rw [h1] at hsteps ⊢
      simp only [outcome] at hsteps
      simp only []
      obtain ⟨hI2, hl2⟩ := bucketInv_setBucket_current hI1
        { bucketAt t1 t1.current_bucket_index with file_stream := none }
      rw [hc1] at hI2 hl2
      refine ⟨_, X1, _, _, rfl, hI2, ?_, by rw [getBucketsNum_setBucket]; exact hd1, ?_⟩
      · have := Relation.ReflTransGen.tail (msteps_toDSteps hsteps) (DStep.releaseStream t1)
        rw [hc1] at this
        exact this
      · rw [hl2]
        exact hq1

theorem replayBlocks_account {env : Env ρ σ} (laws : SoundAggregator env)
    (hmax : env.max_buckets < 2 ^ 31) (index : Nat) :
    ∀ (blocks : List (Block ρ)) (i : Nat) (t : Transform ρ σ) (X : List ρ),
      t.current_bucket_index = index →
      BucketInv env t X → (∀ block ∈ blocks, Fits env t block) →
      (∃ t2, replayBlocks env index i blocks t = .error (.tooManyBuckets, t2)) ∨
      ∃ t2 X2, replayBlocks env index i blocks t = .ok t2 ∧ BucketInv env t2 X2 ∧
        getBucketsNum t ∣ getBucketsNum t2 ∧
        t2.current_bucket_index = t.current_bucket_index ∧
        AggEquiv env (X2 ++ laterRows t2) (X ++ laterRows t ++ rowsOf blocks) := by
  intro blocks
  induction blocks with
  | nil =>
    intro i t X _ hI _
    exact Or.inr ⟨t, X, rfl, hI, Nat.dvd_refl _, rfl, by
      simpa [rowsOf] using aggEquiv_refl env (X ++ laterRows t)⟩
  | cons block blocks ih =>
    intro i t X hidx hI hfit
    rcases mergeOneBlock_account laws hmax t X block hI (hfit block (List.mem_cons_self _ _))
      with ⟨t1, h1⟩ | ⟨t1, X1, h1, hI1, hd1, hc1, hq1⟩
    · left
      exact ⟨t1, by simp only [replayBlocks, h1]⟩
    · have hidx1 : t1.current_bucket_index = index := hc1.trans hidx
      obtain ⟨hIb, hlb⟩ := bucketInv_setBucket_current hI1
        { bucketAt t1 t1.current_bucket_index with
          blocks := (bucketAt t1 t1.current_bucket_index).blocks.set i { rows := [] } }
      rw [hidx1] at hIb hlb
      have hIb2 : BucketInv env (blankBlock t1 index i) X1 := hIb
      have hlb2 : laterRows (blankBlock t1 index i) = laterRows t1 := hlb
      have hBb : getBucketsNum (blankBlock t1 index i) = getBucketsNum t1 :=
        getBucketsNum_setBucket _ _ _
      have hcb : (blankBlock t1 index i).current_bucket_index = t1.current_bucket_index := rfl
      have hfit1 : ∀ b ∈ blocks, Fits env (blankBlock t1 index i) b := fun b hb =>
        fits_of_dvd (hfit b (List.mem_cons_of_mem _ hb)) (hcb.trans hc1) (by rw [hBb]; exact hd1)
      rcases ih (i + 1) (blankBlock t1 index i) X1 hidx1 hIb2 hfit1
        with ⟨t2, h2⟩ | ⟨t2, X2, h2, hI2, hd2, hc2, hq2⟩
      · left
        exact ⟨t2, by simp only [replayBlocks, h1]; exact h2⟩
      · right
        rw [hBb] at hd2
        rw [hlb2] at hq2
        refine ⟨t2, X2, by simp only [replayBlocks, h1]; exact h2, hI2, Nat.dvd_trans hd1 hd2,
          hc2.trans (hcb.trans hc1), ?_⟩
        rw [rowsOf_cons, ← List.append_assoc]
        exact aggEquiv_trans hq2 (aggEquiv_append_right hq1 _)

theorem replayQueue_account {env : Env ρ σ} (laws : SoundAggregator env)
    (hmax : env.max_buckets < 2 ^ 31) (t : Transform ρ σ) (X : List ρ)
    (hI : BucketInv env t X)
    (hfit : ∀ block ∈ (bucketAt t t.current_bucket_index).blocks, Fits env t block) :
    (∃ t2, replayQueue env t = .error (.tooManyBuckets, t2)) ∨
    ∃ t1 X1, replayQueue env t = .ok t1 ∧ BucketInv env t1 X1 ∧ DSteps env t t1 ∧
      AggEquiv env (X1 ++ laterRows t1)
        (X ++ laterRows t ++ rowsOf (bucketAt t t.current_bucket_index).blocks) := by
  have hsteps := replayQueue_steps env t
  rcases replayBlocks_account laws hmax t.current_bucket_index
      (bucketAt t t.current_bucket_index).blocks 0 t X rfl hI hfit
    with ⟨t1, h1⟩ | ⟨t1, X1, h1, hI1, -, -, hq1⟩
  · exact Or.inl ⟨t1, h1⟩
  · right
    have h2 : replayQueue env t = .ok t1 := h1
    rw [h2] at hsteps
    exact ⟨t1, X1, h2, hI1, hsteps, hq1⟩

/-- What `prepareBucketOutputBlocks` does for a bucket whose stored blocks fit it: it
throws the too-many-buckets exception, or it ends with the final conversion of a state
that holds rows of this bucket only, and to the aggregator these rows together with the
rows of the later buckets are interchangeable with what the state, the bucket and the
later buckets held before. -/
theorem prepareBucketOutputBlocks_account {env : Env ρ σ} (laws : SoundAggregator env)
    (hmax : env.max_buckets < 2 ^ 31) (t : Transform ρ σ) (X : List ρ)
    (hst : (t.current_data_variants = none ∧ X = []) ∨ Holds env t X)
    (hc : t.current_bucket_index < getBucketsNum t) (hsmall : getBucketsNum t < 2 ^ 31)
    (hhome : ∀ x ∈ X, env.hash x % getBucketsNum t = t.current_bucket_index)
    (hpow : ∃ k, getBucketsNum t = 2 ^ k)
    (hclean : CleanStream (bucketAt t t.current_bucket_index))
    (hfit : ∀ block ∈ storedBlocks (bucketAt t t.current_bucket_index), Fits env t block) :
    (∃ t2, prepareBucketOutputBlocks env t = .error (.tooManyBuckets, t2)) ∨
    ∃ tm X2 rb rr, prepareBucketOutputBlocks env t = .ok { tm with
        current_final_blocks := env.convertToBlocks (mergedRows env X2 env.emptyVariants) true
        log := tm.log ++ [.prepareOutput tm.current_bucket_index rb rr] } ∧
      DSteps env t tm ∧ BucketInv env tm X2 ∧
      AggEquiv env (X2 ++ laterRows tm)
        (X ++ bucketRows t t.current_bucket_index ++ laterRows t) := by
  have h0 : ∃ t0, (if t.current_data_variants.isNone then
        { t with current_data_variants := some env.emptyVariants, no_more_keys := false }
      else t) = t0 ∧ BucketInv env t0 X ∧ t0.buckets = t.buckets ∧
      t0.current_bucket_index = t.current_bucket_index ∧ MSteps env t t0 := by
    rcases hst with ⟨hnone, hX⟩ | hholds
    · refine ⟨{ t with current_data_variants := some env.emptyVariants, no_more_keys := false },
        ?_, ⟨⟨?_, rfl⟩, hc, hsmall, hhome, hpow⟩, rfl, rfl,
        Relation.ReflTransGen.single (MStep.variants t env.emptyVariants false)⟩
      · rw [hnone]
        rfl
      · rw [hX, laws.merge_nil]
    · refine ⟨t, ?_, ⟨hholds, hc, hsmall, hhome, hpow⟩, rfl, rfl, Relation.ReflTransGen.refl⟩
      rw [hholds.1]
      simp
  obtain ⟨t0, ht0, hI0, hb0, hc0, hs0⟩ := h0
  have hB0 : getBucketsNum t0 = getBucketsNum t := by simp only [getBucketsNum, hb0]
  have hat0 : ∀ j, bucketAt t0 j = bucketAt t j := fun j => by simp only [bucketAt, hb0]
  have hl0 : laterRows t0 = laterRows t :=
    laterRows_congr hc0 hB0 (fun j => by simp only [bucketRows, hat0])
  unfold prepareBucketOutputBlocks
  simp only []
  rw [ht0]
  have hfit0 : ∀ block ∈ storedBlocks (bucketAt t t.current_bucket_index), Fits env t0 block :=
    fun block hb => fits_of_dvd (hfit block hb) hc0 (by rw [hB0])
  rcases replayStream_account laws hmax t0 X hI0 (by rw [hc0, hat0]; exact hclean)
      (fun block hb => hfit0 block (by
        rw [hc0, hat0] at hb
        exact List.mem_append_left _ hb))
    with ⟨t1, h1⟩ | ⟨t1, X1, rb, rr, h1, hI1, hs1, hd1, hq1⟩
  · left
    rw [h1]
    exact ⟨t1, rfl⟩
  obtain ⟨hc1, hqueue⟩ := replayStream_keeps_queue env t0 t1 rb rr h1
  rw [h1]
  simp only []
  rcases replayQueue_account laws hmax t1 X1 hI1 (fun block hb => by
      rw [hc1, hqueue, hc0, hat0] at hb
      exact fits_of_dvd (hfit0 block (List.mem_append_right _ hb)) hc1 hd1)
    with ⟨t2, h2⟩ | ⟨t2, X2, h2, hI2, hs2, hq2⟩
  · left
    rw [h2]
    exact ⟨t2, rfl⟩
  right
  rw [h2]
  simp only []
  refine ⟨t2, X2, rb, rr, by rw [hI2.holds.1],
    Relation.ReflTransGen.trans (msteps_toDSteps hs0) (Relation.ReflTransGen.trans hs1 hs2),
    hI2, ?_⟩
  refine aggEquiv_trans hq2 ?_
  rw [hc1, hqueue, hc0, hat0]
  refine aggEquiv_trans (aggEquiv_append_right hq1 _) ?_
  rw [hc0, hat0, hl0]
  apply aggEquiv_of_perm laws
  simp only [bucketRows, storedBlocks, rowsOf_append, List.append_assoc]
  refine List.Perm.append_left X ?_
  refine List.Perm.trans List.perm_append_comm ?_
  simp only [List.append_assoc]
  exact List.Perm.refl _

/-! ### The rounds of the executor -/

theorem prepare_push (t : Transform ρ σ) (input : InputPort ρ) (output : OutputPort ρ)
    (hfin : output.finished = false) (hout : t.has_output = true)
    (hcan : output.can_push = true) :
    prepare t input output = (.PortFull,
      { t with
        total_output_rows := t.total_output_rows + t.output_chunk.length
        total_output_blocks := t.total_output_blocks + 1
        output_chunk := []
        has_output := false },
      input,
      { output with pushed := output.pushed ++ [t.output_chunk], can_push := false }) := by
  simp [prepare, hfin, hout, hcan]

theorem prepare_finish (t : Transform ρ σ) (input : InputPort ρ) (output : OutputPort ρ)
    (hfin : output.finished = false) (hout : t.has_output = false)
    (hin : t.has_input = false) (hdone : t.input_finished = true)
    (hc : getBucketsNum t ≤ t.current_bucket_index) (hf : t.current_final_blocks = []) :
    prepare t input output = (.Finished, t, input, { output with finished := true }) := by
  simp [prepare, hfin, hout, hin, hdone, hc, hf]

theorem prepare_take (t : Transform ρ σ) (input : InputPort ρ) (output : OutputPort ρ)
    (chunk : List ρ)
    (hfin : output.finished = false) (hout : t.has_output = false)
    (hin : t.has_input = false) (hdone : t.input_finished = false)
    (hopen : input.finished = false) (hdata : input.data = some chunk) :
    prepare t input output = (.Ready,
      { t with
        input_chunk := chunk
        total_input_rows := t.total_input_rows + chunk.length
        total_input_blocks := t.total_input_blocks + 1
        has_input := true },
      { input with needed := false, data := none },
      output) := by
  simp [prepare, hfin, hout, hin, hdone, hopen, hdata]

theorem prepare_ready (t : Transform ρ σ) (input : InputPort ρ) (output : OutputPort ρ)
    (hfin : output.finished = false) (hout : t.has_output = false)
    (hin : t.has_input = false) (hclosed : input.finished = true)
    (hmore : t.current_bucket_index < getBucketsNum t ∨ t.current_final_blocks ≠ []) :
    prepare t input output = (.Ready, { t with input_finished := true }, input, output) := by
  have hcond : ¬ (t.current_bucket_index ≥ getBucketsNum t ∧
      t.current_final_blocks.isEmpty = true) := by
    rintro ⟨h1, h2⟩
    rcases hmore with h | h
    · omega
    · exact h (List.isEmpty_iff.1 h2)
  cases hd : t.input_finished with
  | false => simp [prepare, hfin, hout, hin, hd, hclosed]
  | true =>
    have ht : ({ t with input_finished := true } : Transform ρ σ) = t := by
      cases t
      simp only [Transform.mk.injEq, true_and, and_true] at hd ⊢
      simp_all
    rw [ht]
    simp only [prepare, hfin, hout, hin, hd]
    simp only [if_neg hcond]
    simp

theorem work_ingest (env : Env ρ σ) (t : Transform ρ σ) (hin : t.has_input = true)
    (hdone : t.input_finished = false) :
    work env t =
      match mergeOneBlock env { t with input_chunk := [] } { rows := t.input_chunk } with
      | .error e => .error e
      | .ok t => .ok { t with has_input := false } := by
  simp [work, hin, hdone]

theorem work_finalize (env : Env ρ σ) (t : Transform ρ σ) (hin : t.has_input = false)
    (hdone : t.input_finished = true) (hf : t.current_final_blocks = [])
    (hc : t.current_bucket_index < getBucketsNum t) :
    work env t =
      match prepareBucketOutputBlocks env t with
      | .error e => .error e
      | .ok t =>
        .ok (popOneChunk { t with
          current_bucket_index := t.current_bucket_index + 1
          current_data_variants := none }) := by
  simp [work, hin, hdone, hf, hc]

theorem work_pop (env : Env ρ σ) (t : Transform ρ σ) (hin : t.has_input = false)
    (hdone : t.input_finished = true) (hf : t.current_final_blocks ≠ []) :
    work env t = .ok (popOneChunk t) := by
  have hne : t.current_final_blocks.isEmpty = false := by
    cases hl : t.current_final_blocks with
    | nil => exact absurd hl hf
    | cons a l => rfl
  simp [work, hin, hdone, hne]

theorem run_succ (env : Env ρ σ) (rounds : Nat) (pending : List (List ρ))
    (t : Transform ρ σ) (input : InputPort ρ) (output : OutputPort ρ) :
    run env (rounds + 1) pending t input output =
      (let fed : List (List ρ) × InputPort ρ :=
        match input.data, pending with
        | some _, _ => (pending, input)
        | none, chunk :: rest => (rest, { input with data := some chunk })
        | none, [] => ([], { input with finished := true })
      let (status, t, input, output) := prepare t fed.2 { output with can_push := true }
      match status with
      | .Finished => .ok (some output.pushed)
      | .Ready =>
        match work env t with
        | .error e => .error e
        | .ok t => run env rounds fed.1 t input output
      | _ => run env rounds fed.1 t input output) := rfl

theorem run_ingest (env : Env ρ σ) (n : Nat) (chunk : List ρ) (rest : List (List ρ))
    (t : Transform ρ σ) (input : InputPort ρ) (output : OutputPort ρ)
    (hdata : input.data = none) (hopen : input.finished = false)
    (hfin : output.finished = false) (hout : t.has_output = false)
    (hin : t.has_input = false) (hdone : t.input_finished = false) :
    run env (n + 1) (chunk :: rest) t input output =
      match mergeOneBlock env (takeChunk t chunk) { rows := chunk } with
      | .error e => .error e
      | .ok t2 => run env n rest { t2 with has_input := false }
          { input with needed := false, data := none } { output with can_push := true } := by
  rw [run_succ]
  simp only [hdata]
  rw [prepare_take t { input with data := some chunk } { output with can_push := true } chunk
    hfin hout hin hdone hopen rfl]
  simp only []
  have hw := work_ingest env
    { t with
      input_chunk := chunk
      total_input_rows := t.total_input_rows + chunk.length
      total_input_blocks := t.total_input_blocks + 1
      has_input := true } rfl hdone
  rw [hw]
  simp only [takeChunk]
  cases mergeOneBlock env
    { t with
      input_chunk := []
      total_input_rows := t.total_input_rows + chunk.length
      total_input_blocks := t.total_input_blocks + 1
      has_input := true } { rows := chunk } <;> rfl

/-- One round of the executor with a chunk pending: the chunk is merged. -/
theorem ingest_round {env : Env ρ σ} (laws : SoundAggregator env)
    (hmax : env.max_buckets < 2 ^ 31) (t : Transform ρ σ) (input : InputPort ρ)
    (output : OutputPort ρ) (X : List ρ) (chunk : List ρ) (rest : List (List ρ))
    (hI : IngestInv env t input output X) :
    (∃ t2, ∀ n, run env (n + 1) (chunk :: rest) t input output =
      .error (.tooManyBuckets, t2)) ∨
    ∃ t2 input2 output2 X2,
      (∀ n, run env (n + 1) (chunk :: rest) t input output =
        run env n rest t2 input2 output2) ∧
      IngestInv env t2 input2 output2 X2 ∧
      AggEquiv env (X2 ++ laterRows t2) (X ++ laterRows t ++ chunk) := by
  obtain ⟨hin, hout, hdone, hfinal⟩ := hI.flags
  obtain ⟨hdata, hopen, hfin, hpushed⟩ := hI.port
  have hrun := fun n => run_ingest env n chunk rest t input output hdata hopen hfin hout hin hdone
  have h1 : BucketInv env (takeChunk t chunk) X ∧ laterRows (takeChunk t chunk) = laterRows t :=
    bucketInv_congr hI.inv rfl rfl rfl rfl
  have hfit : Fits env (takeChunk t chunk) { rows := chunk } :=
    ⟨1, Nat.one_dvd _, Or.inl rfl, fun r _ => by
      rw [Nat.mod_one]
      exact hI.first.symm⟩
  have hsteps := mergeOneBlock_steps env (takeChunk t chunk) { rows := chunk }
  rcases mergeOneBlock_account laws hmax (takeChunk t chunk) X { rows := chunk } h1.1 hfit
    with ⟨t2, h2⟩ | ⟨t2, X2, h2, hI2, hd2, hc2, hq2⟩
  · left
    exact ⟨t2, fun n => by rw [hrun n, h2]⟩
  · right
    rw [h2] at hsteps
    simp only [outcome] at hsteps
    have hinv := dsteps_invariants hmax (msteps_toDSteps hsteps)
      (bucketCountOk_of_same hI.count rfl rfl) (partitionSound_of_same hI.sound rfl (Nat.le_refl _))
      (fun e he => hI.clean e he)
    have hsc := msteps_sameControl hsteps
    have hb0 := msteps_bucket_le hsteps 0 (Nat.zero_le _)
    refine ⟨{ t2 with has_input := false }, { input with needed := false, data := none },
      { output with can_push := true }, X2, fun n => by rw [hrun n, h2], ?_, ?_⟩
    · exact {
        count := bucketCountOk_of_same hinv.1 rfl rfl
        clean := hinv.2.2
        sound := partitionSound_of_same hinv.2.1 rfl (Nat.le_refl _)
        inv := ⟨hI2.holds, hI2.index, hI2.small, hI2.home, hI2.pow⟩
        first := hc2.trans hI.first
        empty := by
          have : bucketAt t2 0 = bucketAt t 0 := hb0
          exact this ▸ hI.empty
        flags := ⟨rfl, hsc.2.2.1.trans hout, hsc.2.2.2.1.trans hdone,
          hsc.2.2.2.2.2.2.1.trans hfinal⟩
        port := ⟨rfl, hopen, hfin, hpushed⟩ }
    · have hl : laterRows { t2 with has_input := false } = laterRows t2 := rfl
      rw [hl, ← h1.2]
      exact hq2

/-! ### Draining: what `pop_one_chunk` keeps and which rows are left -/

theorem popFrom_fields (t : Transform ρ σ) (blocks : List (Block ρ)) :
    (popFrom t blocks).current_data_variants = t.current_data_variants ∧
    (popFrom t blocks).no_more_keys = t.no_more_keys ∧
    (popFrom t blocks).has_input = t.has_input ∧
    (popFrom t blocks).input_finished = t.input_finished := by
  induction blocks with
  | nil => exact ⟨rfl, rfl, rfl, rfl⟩
  | cons block rest ih =>
    simp only [popFrom]
    split_ifs
    · exact ih
    · exact ⟨rfl, rfl, rfl, rfl⟩

theorem popFrom_emitted (t : Transform ρ σ) (blocks : List (Block ρ))
    (hout : t.has_output = false) :
    (if (popFrom t blocks).has_output then (popFrom t blocks).output_chunk else []) ++
      rowsOf (popFrom t blocks).current_final_blocks = rowsOf blocks := by
  induction blocks with
  | nil => simp [popFrom, hout, rowsOf]
  | cons block rest ih =>
    by_cases h0 : block.rows.length = 0
    · simp only [popFrom, if_pos h0]
      rw [ih, rowsOf_cons, List.length_eq_zero.1 h0]
      rfl
    · simp only [popFrom, if_neg h0]
      simp [rowsOf_cons]

theorem popFrom_drainSteps (t : Transform ρ σ) (blocks : List (Block ρ))
    (hout : t.has_output = false) :
    drainSteps (popFrom t blocks) ≤ 2 * blocks.length - 1 := by
  induction blocks with
  | nil => simp [popFrom, drainSteps, hout]
  | cons block rest ih =>
    by_cases h0 : block.rows.length = 0
    · simp only [popFrom, if_pos h0, List.length_cons]
      omega
    · simp only [popFrom, if_neg h0, drainSteps, List.length_cons, if_true]
      omega

theorem soundFrom_of_same {env : Env ρ σ} {t t2 : Transform ρ σ}
    (h : SoundFrom env t) (hb : t2.buckets = t.buckets)
    (hc : t.current_bucket_index ≤ t2.current_bucket_index) : SoundFrom env t2 := by
  intro b entry hle hget block hblock
  have := h b entry (by omega) (by rw [← hb]; exact hget) block hblock
  simpa [getBucketsNum, hb] using this

theorem soundFrom_next {env : Env ρ σ} {t t2 : Transform ρ σ}
    (h : PartitionSound env t) (hb : t2.buckets = t.buckets)
    (hc : t2.current_bucket_index = t.current_bucket_index + 1) : SoundFrom env t2 := by
  intro b entry hle hget block hblock
  have := h b entry (by omega) (by rw [← hb]; exact hget) block hblock
  simpa [getBucketsNum, hb] using this

theorem partitionSound_of_soundFrom {env : Env ρ σ} {t : Transform ρ σ}
    (h : SoundFrom env t) : PartitionSound env t :=
  fun b entry hlt hget block hblock => h b entry (Nat.le_of_lt hlt) hget block hblock

theorem bucketRows_of_ge (t : Transform ρ σ) (j : Nat) (h : getBucketsNum t ≤ j) :
    bucketRows t j = [] := by
  have hnone : t.buckets[j]? = none := List.getElem?_eq_none (by simpa [getBucketsNum] using h)
  simp [bucketRows, bucketAt, List.getD_eq_getElem?_getD, hnone, storedBlocks, rowsOf]

theorem laterRows_of_ge (t : Transform ρ σ)
    (h : getBucketsNum t ≤ t.current_bucket_index + 1) : laterRows t = [] := by
  have h0 : getBucketsNum t - (t.current_bucket_index + 1) = 0 := by omega
  simp [laterRows, laterBuckets, h0]

theorem rowsLeft_congr {t t2 : Transform ρ σ} (hb : t2.buckets = t.buckets)
    (hc : t2.current_bucket_index = t.current_bucket_index) : rowsLeft t2 = rowsLeft t := by
  have hB : getBucketsNum t2 = getBucketsNum t := by simp only [getBucketsNum, hb]
  have hrows : ∀ j, bucketRows t2 j = bucketRows t j := fun j => by
    simp only [bucketRows, bucketAt, hb]
  simp only [rowsLeft, laterRows_congr hc hB hrows, hrows, hc]

/-- Moving on to the next bucket: what is left are the rows of the later buckets. -/
theorem rowsLeft_next {t t2 : Transform ρ σ} (hb : t2.buckets = t.buckets)
    (hc : t2.current_bucket_index = t.current_bucket_index + 1) :
    rowsLeft t2 = laterRows t := by
  have hB : getBucketsNum t2 = getBucketsNum t := by simp only [getBucketsNum, hb]
  have hrows : ∀ j, bucketRows t2 j = bucketRows t j := fun j => by
    simp only [bucketRows, bucketAt, hb]
  by_cases hlt : t.current_bucket_index + 1 < getBucketsNum t
  · have e1 : getBucketsNum t - (t.current_bucket_index + 1) =
        (getBucketsNum t - (t.current_bucket_index + 1 + 1)) + 1 := by omega
    simp only [rowsLeft, laterRows, laterBuckets, hc, hB, hrows]
    rw [e1, List.range'_succ]
    have hfun : bucketRows t2 = bucketRows t := funext hrows
    simp [hfun]
  · rw [laterRows_of_ge t (by omega)]
    simp only [rowsLeft]
    rw [laterRows_of_ge t2 (by rw [hB, hc]; omega), hc, hrows,
      bucketRows_of_ge t _ (by omega)]
    rfl

theorem laterRows_hash {env : Env ρ σ} {t : Transform ρ σ} (h : PartitionSound env t)
    (y : ρ) (hy : y ∈ laterRows t) :
    ∃ j n, t.current_bucket_index < j ∧ n ∣ getBucketsNum t ∧ env.hash y % n = j := by
  simp only [laterRows, List.mem_flatten, List.mem_map] at hy
  obtain ⟨rows, ⟨j, hj, hrows⟩, hmem⟩ := hy
  obtain ⟨hlo, hhi⟩ := (mem_laterBuckets t j).1 hj
  rw [← hrows] at hmem
  simp only [bucketRows, rowsOf, List.mem_flatten, List.mem_map] at hmem
  obtain ⟨rs, ⟨block, hblock, hrs⟩, hmem⟩ := hmem
  have hget : t.buckets[j]? = some (t.buckets[j]) :=
    List.getElem?_eq_getElem (by simpa [getBucketsNum] using hhi)
  rw [bucketAt_of_getElem? hget] at hblock
  obtain ⟨n, _, hdvd, hall⟩ := h j _ hlo hget block hblock
  exact ⟨j, n, hlo, hdvd, hall y (by rw [hrs]; exact hmem)⟩

/-! ### One round of the executor after the last chunk -/

theorem run_drain (env : Env ρ σ) (n : Nat) (t : Transform ρ σ) (input : InputPort ρ)
    (output : OutputPort ρ) (hdata : input.data = none) :
    run env (n + 1) [] t input output =
      (let (status, t, input, output) :=
        prepare t { input with finished := true } { output with can_push := true }
      match status with
      | .Finished => .ok (some output.pushed)
      | .Ready =>
        match work env t with
        | .error e => .error e
        | .ok t => run env n [] t input output
      | _ => run env n [] t input output) := by
  rw [run_succ]
  simp only [hdata]

/-- A round in which `prepare()` pushes the waiting chunk. -/
theorem drain_push {env : Env ρ σ} (t : Transform ρ σ) (input : InputPort ρ)
    (output : OutputPort ρ) (X : List ρ) (hI : DrainInv env t input output X)
    (hout : t.has_output = true) :
    ∃ t2 input2 output2 X2,
      (∀ n, run env (n + 1) [] t input output = run env n [] t2 input2 output2) ∧
      DrainInv env t2 input2 output2 X2 ∧
      (emitted t2 output2 ++ aggregated env (X2 ++ rowsLeft t2)).Perm
        (emitted t output ++ aggregated env (X ++ rowsLeft t)) ∧
      ((t2.current_bucket_index = t.current_bucket_index + 1 ∧
          t.current_bucket_index < getBucketsNum t) ∨
        (t2.current_bucket_index = t.current_bucket_index ∧ drainSteps t2 < drainSteps t)) := by
  obtain ⟨hdata, hfin⟩ := hI.port
  have hdone : t.input_finished = true := by
    rcases hI.phase with h | h
    · exact h
    · rw [h.1] at hout
      cases hout
  refine ⟨{ t with
      total_output_rows := t.total_output_rows + t.output_chunk.length
      total_output_blocks := t.total_output_blocks + 1
      output_chunk := []
      has_output := false }, { input with finished := true },
    { output with pushed := output.pushed ++ [t.output_chunk], can_push := false }, X, ?_, ?_, ?_, ?_⟩
  · intro n
    rw [run_drain env n t input output hdata,
      prepare_push t { input with finished := true } { output with can_push := true } hfin hout rfl]
  · exact {
      count := bucketCountOk_of_same hI.count rfl rfl
      clean := fun e he => hI.clean e he
      sound := soundFrom_of_same hI.sound rfl (Nat.le_refl _)
      state := hI.state.imp (fun h => h) (fun h => ⟨h.holds, h.index, h.small, h.home, h.pow⟩)
      idle := hI.idle
      phase := Or.inl hdone
      port := ⟨hdata, hfin⟩ }
  · have h1 : rowsLeft { t with
        total_output_rows := t.total_output_rows + t.output_chunk.length
        total_output_blocks := t.total_output_blocks + 1
        output_chunk := []
        has_output := false } = rowsLeft t := rfl
    rw [h1]
    simp [emitted, hout]
  · right
    refine ⟨rfl, ?_⟩
    simp [drainSteps, hout]

/-- A round in which `prepare()` finds nothing left and finishes. -/
theorem drain_finish {env : Env ρ σ} (laws : SoundAggregator env) (t : Transform ρ σ)
    (input : InputPort ρ) (output : OutputPort ρ) (X : List ρ)
    (hI : DrainInv env t input output X) (hout : t.has_output = false)
    (hc : getBucketsNum t ≤ t.current_bucket_index) (hf : t.current_final_blocks = []) :
    (∀ n, run env (n + 1) [] t input output = .ok (some output.pushed)) ∧
    output.pushed.flatten.Perm (emitted t output ++ aggregated env (X ++ rowsLeft t)) := by
  obtain ⟨hdata, hfin⟩ := hI.port
  have hdone : t.input_finished = true := by
    rcases hI.phase with h | h
    · exact h
    · omega
  have hX : X = [] := by
    rcases hI.state with h | h
    · exact h.2
    · have := h.index
      omega
  constructor
  · intro n
    rw [run_drain env n t input output hdata,
      prepare_finish t { input with finished := true } { output with can_push := true } hfin hout
        hI.idle hdone hc hf]
  · rw [hX]
    simp only [rowsLeft, bucketRows_of_ge t _ hc, laterRows_of_ge t (by omega), List.append_nil,
      aggregated_nil laws, emitted, hout, hf, rowsOf]
    simp

/-- A round in which `work()` pops the next final block. -/
theorem drain_pop {env : Env ρ σ} (t : Transform ρ σ) (input : InputPort ρ)
    (output : OutputPort ρ) (X : List ρ) (hI : DrainInv env t input output X)
    (hout : t.has_output = false) (hf : t.current_final_blocks ≠ []) :
    ∃ t2 input2 output2 X2,
      (∀ n, run env (n + 1) [] t input output = run env n [] t2 input2 output2) ∧
      DrainInv env t2 input2 output2 X2 ∧
      (emitted t2 output2 ++ aggregated env (X2 ++ rowsLeft t2)).Perm
        (emitted t output ++ aggregated env (X ++ rowsLeft t)) ∧
      ((t2.current_bucket_index = t.current_bucket_index + 1 ∧
          t.current_bucket_index < getBucketsNum t) ∨
        (t2.current_bucket_index = t.current_bucket_index ∧ drainSteps t2 < drainSteps t)) := by
  obtain ⟨hdata, hfin⟩ := hI.port
  have hframe := popFrom_frame { t with input_finished := true } t.current_final_blocks
  have hfields := popFrom_fields { t with input_finished := true } t.current_final_blocks
  have hem := popFrom_emitted { t with input_finished := true } t.current_final_blocks hout
  have hms := popFrom_drainSteps { t with input_finished := true } t.current_final_blocks hout
  have hlen : 0 < t.current_final_blocks.length := List.length_pos.2 hf
  refine ⟨popFrom { t with input_finished := true } t.current_final_blocks,
    { input with finished := true }, { output with can_push := true }, X, ?_, ?_, ?_, ?_⟩
  · intro n
    rw [run_drain env n t input output hdata,
      prepare_ready t { input with finished := true } { output with can_push := true } hfin hout
        hI.idle rfl (Or.inr hf)]
    simp only []
    rw [work_pop env { t with input_finished := true } hI.idle rfl hf]
    rfl
  · exact {
      count := bucketCountOk_of_same hI.count (by rw [hframe.1]) (by rw [hframe.2.1])
      clean := fun e he => hI.clean e (by rw [hframe.1] at he; exact he)
      sound := soundFrom_of_same hI.sound hframe.1 (by rw [hframe.2.2])
      state := by
        rcases hI.state with h | h
        · exact Or.inl ⟨by rw [hfields.1]; exact h.1, h.2⟩
        · exact Or.inr (bucketInv_congr h hframe.1 hframe.2.2 hfields.1 hfields.2.1).1
      idle := by rw [hfields.2.2.1]; exact hI.idle
      phase := Or.inl (by rw [hfields.2.2.2])
      port := ⟨hdata, hfin⟩ }
  · rw [rowsLeft_congr hframe.1 hframe.2.2]
    have h1 : rowsLeft { t with input_finished := true } = rowsLeft t := rfl
    rw [h1]
    have he : emitted (popFrom { t with input_finished := true } t.current_final_blocks)
        { output with can_push := true } = emitted t output := by
      unfold emitted
      rw [List.append_assoc, hem]
      simp [hout]
    rw [he]
  · right
    refine ⟨hframe.2.2, ?_⟩
    simp only [drainSteps, hout] at hms ⊢
    simp only [Bool.false_eq_true, if_false]
    omega

theorem disjoint_later {env : Env ρ σ} {t : Transform ρ σ} {X : List ρ}
    (hI : BucketInv env t X) (hs : PartitionSound env t) :
    ∀ x ∈ X, ∀ y ∈ laterRows t, env.hash x ≠ env.hash y := by
  intro x hx y hy heq
  obtain ⟨j, n, hlt, hdvd, hmod⟩ := laterRows_hash hs y hy
  have hxc := hI.home x hx
  rw [heq] at hxc
  have h1 : env.hash y % getBucketsNum t % n = env.hash y % n := Nat.mod_mod_of_dvd _ hdvd
  rw [hxc, hmod] at h1
  have h2 : t.current_bucket_index % n ≤ t.current_bucket_index := Nat.mod_le _ _
  omega

/-- A round in which `work()` finishes the current bucket: it replays the bucket,
converts the state, moves to the next bucket and pops the first final block. -/
theorem drain_finalize {env : Env ρ σ} (laws : SoundAggregator env)
    (hmax : env.max_buckets < 2 ^ 31) (t : Transform ρ σ) (input : InputPort ρ)
    (output : OutputPort ρ) (X : List ρ) (hI : DrainInv env t input output X)
    (hout : t.has_output = false) (hf : t.current_final_blocks = [])
    (hc : t.current_bucket_index < getBucketsNum t) :
    (∃ t2, ∀ n, run env (n + 1) [] t input output = .error (.tooManyBuckets, t2)) ∨
    ∃ t2 input2 output2 X2,
      (∀ n, run env (n + 1) [] t input output = run env n [] t2 input2 output2) ∧
      DrainInv env t2 input2 output2 X2 ∧
      (emitted t2 output2 ++ aggregated env (X2 ++ rowsLeft t2)).Perm
        (emitted t output ++ aggregated env (X ++ rowsLeft t)) ∧
      ((t2.current_bucket_index = t.current_bucket_index + 1 ∧
          t.current_bucket_index < getBucketsNum t) ∨
        (t2.current_bucket_index = t.current_bucket_index ∧ drainSteps t2 < drainSteps t)) := by
  obtain ⟨hdata, hfin⟩ := hI.port
  have hrun : ∀ n, run env (n + 1) [] t input output =
      match prepareBucketOutputBlocks env { t with input_finished := true } with
      | .error e => .error e
      | .ok t1 =>
        run env n [] (popOneChunk { t1 with
            current_bucket_index := t1.current_bucket_index + 1
            current_data_variants := none })
          { input with finished := true } { output with can_push := true } := by
    intro n
    rw [run_drain env n t input output hdata,
      prepare_ready t { input with finished := true } { output with can_push := true } hfin hout
        hI.idle rfl (Or.inl hc)]
    simp only []
    rw [work_finalize env { t with input_finished := true } hI.idle rfl hf hc]
    cases prepareBucketOutputBlocks env { t with input_finished := true } <;> rfl
  have hst : (({ t with input_finished := true } : Transform ρ σ).current_data_variants = none ∧
      X = []) ∨ Holds env { t with input_finished := true } X :=
    hI.state.imp (fun h => h) (fun h => h.holds)
  have hhome : ∀ x ∈ X, env.hash x % getBucketsNum t = t.current_bucket_index := by
    rcases hI.state with h | h
    · rw [h.2]
      intro x hx
      cases hx
    · exact h.home
  have hget : t.buckets[t.current_bucket_index]? = some (t.buckets[t.current_bucket_index]) :=
    List.getElem?_eq_getElem (by simpa [getBucketsNum] using hc)
  have hfit : ∀ block ∈ storedBlocks (bucketAt t t.current_bucket_index),
      Fits env { t with input_finished := true } block := by
    intro block hb
    rw [bucketAt_of_getElem? hget] at hb
    obtain ⟨n, htag, hdvd, hrows⟩ := hI.sound _ _ (Nat.le_refl _) hget block hb
    exact ⟨n, hdvd, Or.inr htag, hrows⟩
  rcases prepareBucketOutputBlocks_account laws hmax { t with input_finished := true } X hst hc
      (bucketCountOk_lt_pow hI.count hmax) hhome ⟨_, hI.count.1⟩
      (cleanStream_bucketAt hI.clean _) hfit
    with ⟨t2, h2⟩ | ⟨tm, X2, rb, rr, h2, hsteps, hI2, hq⟩
  · left
    exact ⟨t2, fun n => by rw [hrun n, h2]⟩
  right
  have hinv := dsteps_invariants hmax hsteps (bucketCountOk_of_same hI.count rfl rfl)
    (partitionSound_of_same (partitionSound_of_soundFrom hI.sound) rfl (Nat.le_refl _))
    (fun e he => hI.clean e he)
  have hsc := dsteps_sameControl hsteps
  obtain ⟨u, hu⟩ : ∃ u : Transform ρ σ, u = { tm with
      current_final_blocks := env.convertToBlocks (mergedRows env X2 env.emptyVariants) true
      log := tm.log ++ [.prepareOutput tm.current_bucket_index rb rr]
      current_bucket_index := tm.current_bucket_index + 1
      current_data_variants := none } := ⟨_, rfl⟩
  have hub : u.buckets = tm.buckets := by rw [hu]
  have hul : extendCount u.log = extendCount tm.log := by
    rw [hu]
    simp [extendCount]
  have huc : u.current_bucket_index = tm.current_bucket_index + 1 := by rw [hu]
  have huv : u.current_data_variants = none := by rw [hu]
  have huo : u.has_output = false := by
    rw [hu]
    exact hsc.2.2.1.trans hout
  have hui : u.has_input = false := by
    rw [hu]
    exact hsc.2.1.trans hI.idle
  have hud : u.input_finished = true := by
    rw [hu]
    exact hsc.2.2.2.1
  have huf : u.current_final_blocks =
      env.convertToBlocks (mergedRows env X2 env.emptyVariants) true := by rw [hu]
  have hframe := popFrom_frame u u.current_final_blocks
  have hfields := popFrom_fields u u.current_final_blocks
  have hem := popFrom_emitted u u.current_final_blocks huo
  refine ⟨popOneChunk u, { input with finished := true }, { output with can_push := true }, [],
    fun n => by rw [hrun n, h2, hu], ?_, ?_, ?_⟩
  · exact {
      count := bucketCountOk_of_same hinv.1 (by rw [popOneChunk, hframe.1, hub])
        (by rw [popOneChunk, hframe.2.1, hul])
      clean := fun e he => hinv.2.2 e (by rw [popOneChunk, hframe.1, hub] at he; exact he)
      sound := soundFrom_next hinv.2.1 (by rw [popOneChunk, hframe.1, hub])
        (by rw [popOneChunk, hframe.2.2, huc])
      state := Or.inl ⟨by rw [popOneChunk, hfields.1, huv], rfl⟩
      idle := by rw [popOneChunk, hfields.2.2.1, hui]
      phase := Or.inl (by rw [popOneChunk, hfields.2.2.2, hud])
      port := ⟨hdata, hfin⟩ }
  · have hleft : rowsLeft (popOneChunk u) = laterRows tm :=
      rowsLeft_next (by rw [popOneChunk, hframe.1, hub]) (by rw [popOneChunk, hframe.2.2, huc])
    have he : emitted (popOneChunk u) { output with can_push := true } =
        output.pushed.flatten ++ aggregated env X2 := by
      unfold emitted
      rw [List.append_assoc]
      unfold popOneChunk
      rw [hem, huf]
      rfl
    have he0 : emitted t output = output.pushed.flatten := by
      simp [emitted, hout, hf, rowsOf]
    have hW := hq []
    simp only [List.append_nil] at hW
    have hdis := laws.aggregated_disjoint X2 (laterRows tm) (disjoint_later hI2 hinv.2.1)
    have hrows : X ++ bucketRows { t with input_finished := true } t.current_bucket_index ++
        laterRows { t with input_finished := true } = X ++ rowsLeft t := by
      rw [List.append_assoc]
      rfl
    rw [hrows] at hW
    rw [hleft, he, he0, List.nil_append, List.append_assoc]
    exact List.Perm.append_left _ (hdis.symm.trans hW)
  · left
    exact ⟨by rw [popOneChunk, hframe.2.2, huc, hsc.1], hc⟩

/-! ### The whole run -/

theorem bucketsNum_le_max {env : Env ρ σ} {t : Transform ρ σ} (h : BucketCountOk env t) :
    getBucketsNum t ≤ max 1 env.max_buckets := by
  rcases h.2 with h1 | h1 <;> omega

/-- Once no input is pending, the executor reaches the end of the run or the
too-many-buckets exception after finitely many rounds; at the end the rows pushed are,
as a multiset, the rows already produced together with the aggregation of what the state
and the buckets still hold. -/
theorem drain_account {env : Env ρ σ} (laws : SoundAggregator env)
    (hmax : env.max_buckets < 2 ^ 31) :
    ∀ (k j : Nat) (t : Transform ρ σ) (input : InputPort ρ) (output : OutputPort ρ)
      (X : List ρ), DrainInv env t input output X →
      max 1 env.max_buckets - t.current_bucket_index ≤ k → drainSteps t ≤ j →
      ∃ rounds, (∃ t2, run env rounds [] t input output = .error (.tooManyBuckets, t2)) ∨
        ∃ out, run env rounds [] t input output = .ok (some out) ∧
          out.flatten.Perm (emitted t output ++ aggregated env (X ++ rowsLeft t)) := by
  intro k
  induction k using Nat.strong_induction_on with
  | _ k ihk =>
    intro j
    induction j using Nat.strong_induction_on with
    | _ j ihj =>
      intro t input output X hI hk hj
      have hB := bucketsNum_le_max hI.count
      have hcont : ∀ (t2 : Transform ρ σ) (input2 : InputPort ρ) (output2 : OutputPort ρ)
          (X2 : List ρ),
          (∀ n, run env (n + 1) [] t input output = run env n [] t2 input2 output2) →
          DrainInv env t2 input2 output2 X2 →
          (emitted t2 output2 ++ aggregated env (X2 ++ rowsLeft t2)).Perm
            (emitted t output ++ aggregated env (X ++ rowsLeft t)) →
          ((t2.current_bucket_index = t.current_bucket_index + 1 ∧
              t.current_bucket_index < getBucketsNum t) ∨
            (t2.current_bucket_index = t.current_bucket_index ∧
              drainSteps t2 < drainSteps t)) →
          ∃ rounds, (∃ t3, run env rounds [] t input output = .error (.tooManyBuckets, t3)) ∨
            ∃ out, run env rounds [] t input output = .ok (some out) ∧
              out.flatten.Perm (emitted t output ++ aggregated env (X ++ rowsLeft t)) := by
        intro t2 input2 output2 X2 hrun hI2 hperm hmeas
        have hnext : ∃ rounds,
            (∃ t3, run env rounds [] t2 input2 output2 = .error (.tooManyBuckets, t3)) ∨
            ∃ out, run env rounds [] t2 input2 output2 = .ok (some out) ∧
              out.flatten.Perm (emitted t2 output2 ++ aggregated env (X2 ++ rowsLeft t2)) := by
          rcases hmeas with ⟨hc2, hlt⟩ | ⟨hc2, hlt⟩
          · exact ihk (max 1 env.max_buckets - t2.current_bucket_index) (by omega)
              (drainSteps t2) t2 input2 output2 X2 hI2 (Nat.le_refl _) (Nat.le_refl _)
          · exact ihj (drainSteps t2) (by omega) t2 input2 output2 X2 hI2
              (by rw [hc2]; exact hk) (Nat.le_refl _)
        obtain ⟨rounds, hres⟩ := hnext
        refine ⟨rounds + 1, ?_⟩
        rw [hrun rounds]
        rcases hres with ⟨t3, h3⟩ | ⟨out, h3, hp⟩
        · exact Or.inl ⟨t3, h3⟩
        · exact Or.inr ⟨out, h3, hp.trans hperm⟩
      cases hout : t.has_output with
      | true =>
        obtain ⟨t2, input2, output2, X2, hrun, hI2, hperm, hmeas⟩ :=
          drain_push t input output X hI hout
        exact hcont t2 input2 output2 X2 hrun hI2 hperm hmeas
      | false =>
        by_cases hf : t.current_final_blocks = []
        · by_cases hc : t.current_bucket_index < getBucketsNum t
          · rcases drain_finalize laws hmax t input output X hI hout hf hc
              with ⟨t2, h2⟩ | ⟨t2, input2, output2, X2, hrun, hI2, hperm, hmeas⟩
            · exact ⟨1, Or.inl ⟨t2, h2 0⟩⟩
            · exact hcont t2 input2 output2 X2 hrun hI2 hperm hmeas
          · obtain ⟨hrun, hperm⟩ :=
              drain_finish laws t input output X hI hout (by omega) hf
            exact ⟨1, Or.inr ⟨output.pushed, hrun 0, hperm⟩⟩
        · obtain ⟨t2, input2, output2, X2, hrun, hI2, hperm, hmeas⟩ :=
            drain_pop t input output X hI hout hf
          exact hcont t2 input2 output2 X2 hrun hI2 hperm hmeas

theorem drainInv_of_ingestInv {env : Env ρ σ} {t : Transform ρ σ} {input : InputPort ρ}
    {output : OutputPort ρ} {X : List ρ} (hI : IngestInv env t input output X) :
    DrainInv env t input output X ∧ emitted t output = [] ∧ rowsLeft t = laterRows t := by
  obtain ⟨hin, hout, hdone, hfinal⟩ := hI.flags
  obtain ⟨hdata, hopen, hfin, hpushed⟩ := hI.port
  refine ⟨?_, ?_, ?_⟩
  · exact {
      count := hI.count
      clean := hI.clean
      sound := by
        intro b entry hle hget block hblock
        by_cases hb : t.current_bucket_index < b
        · exact hI.sound b entry hb hget block hblock
        · have hb0 : b = 0 := by
            have := hI.first
            omega
          rw [hb0] at hget
          rw [← bucketAt_of_getElem? hget, hI.empty] at hblock
          cases hblock
      state := Or.inr hI.inv
      idle := hin
      phase := Or.inr ⟨hout, hfinal, hI.inv.index⟩
      port := ⟨hdata, hfin⟩ }
  · simp [emitted, hpushed, hout, hfinal, rowsOf]
  · simp [rowsLeft, bucketRows, hI.first, hI.empty, rowsOf]

/-- From any state between two rounds while input is arriving, the executor reaches the
end of the run or the too-many-buckets exception after finitely many rounds; at the end
the rows pushed are, as a multiset, the aggregation of the rows in the state, the rows
stored in the buckets and the rows still pending. -/
theorem ingest_account {env : Env ρ σ} (laws : SoundAggregator env)
    (hmax : env.max_buckets < 2 ^ 31) :
    ∀ (pending : List (List ρ)) (t : Transform ρ σ) (input : InputPort ρ)
      (output : OutputPort ρ) (X : List ρ), IngestInv env t input output X →
      ∃ rounds,
        (∃ t2, run env rounds pending t input output = .error (.tooManyBuckets, t2)) ∨
        ∃ out, run env rounds pending t input output = .ok (some out) ∧
          out.flatten.Perm (aggregated env (X ++ laterRows t ++ pending.flatten)) := by
  intro pending
  induction pending with
  | nil =>
    intro t input output X hI
    obtain ⟨hD, hem, hleft⟩ := drainInv_of_ingestInv hI
    obtain ⟨rounds, hres⟩ := drain_account laws hmax _ _ t input output X hD
      (Nat.le_refl _) (Nat.le_refl _)
    refine ⟨rounds, ?_⟩
    rcases hres with h | ⟨out, h, hp⟩
    · exact Or.inl h
    · refine Or.inr ⟨out, h, ?_⟩
      rw [hem, hleft, List.nil_append] at hp
      simpa using hp
  | cons chunk rest ih =>
    intro t input output X hI
    rcases ingest_round laws hmax t input output X chunk rest hI
      with ⟨t2, h2⟩ | ⟨t2, input2, output2, X2, hrun, hI2, hq⟩
    · exact ⟨1, Or.inl ⟨t2, h2 0⟩⟩
    · obtain ⟨rounds, hres⟩ := ih t2 input2 output2 X2 hI2
      refine ⟨rounds + 1, ?_⟩
      rw [hrun rounds]
      rcases hres with h | ⟨out, h, hp⟩
      · exact Or.inl h
      · refine Or.inr ⟨out, h, hp.trans ?_⟩
        have := hq rest.flatten
        simpa [List.append_assoc] using this

theorem init_ingestInv {env : Env ρ σ} (laws : SoundAggregator env) :
    IngestInv env (Transform.init env) InputPort.start OutputPort.start [] where
  count := init_bucketCountOk env
  clean := by
    intro entry he
    simp only [Transform.init, List.mem_singleton] at he
    rw [he]
    intro block hb
    cases hb
  sound := init_partitionSound env
  inv := ⟨⟨by rw [laws.merge_nil]; rfl, rfl⟩, Nat.zero_lt_one,
    by simp [getBucketsNum, Transform.init], (fun x hx => nomatch hx), ⟨0, rfl⟩⟩
  first := rfl
  empty := rfl
  flags := ⟨rfl, rfl, rfl, rfl⟩
  port := ⟨rfl, rfl, rfl, rfl⟩

/-- More rounds do not change the outcome of a run that has ended. -/
theorem run_more (env : Env ρ σ) : ∀ (n : Nat) (pending : List (List ρ)) (t : Transform ρ σ)
    (input : InputPort ρ) (output : OutputPort ρ) (r : RunResult ρ σ),
    run env n pending t input output = r → r ≠ .ok none →
    run env (n + 1) pending t input output = r := by
  intro n
  induction n with
  | zero =>
    intro pending t input output r h hne
    exact absurd h.symm hne
  | succ n ih =>
    intro pending t input output r h hne
    rw [run_succ] at h ⊢
    rcases hd : input.data with _ | d <;> rcases pending with _ | ⟨chunk, rest⟩ <;>
      simp only [hd] at h ⊢
    all_goals
      revert h
      generalize prepare t _ _ = pr
      obtain ⟨status, t1, i1, o1⟩ := pr
      intro h
      cases status <;> simp only [] at h ⊢
      · exact ih _ _ _ _ _ h hne
      · exact ih _ _ _ _ _ h hne
      · cases hw : work env t1 with
        | error e =>
          rw [hw] at h
          exact h
        | ok t2 =>
          rw [hw] at h
          exact ih _ _ _ _ _ h hne
      · exact h

theorem run_stable (env : Env ρ σ) (n m : Nat) (pending : List (List ρ)) (t : Transform ρ σ)
    (input : InputPort ρ) (output : OutputPort ρ) (r : RunResult ρ σ)
    (h : run env n pending t input output = r) (hne : r ≠ .ok none) (hle : n ≤ m) :
    run env m pending t input output = r := by
  induction m with
  | zero =>
    have h0 : n = 0 := by omega
    rw [h0] at h
    exact h
  | succ m ih =>
    by_cases hn : n = m + 1
    · rw [← hn]
      exact h
    · exact run_more env m pending t input output r (ih (by omega)) hne

/-! ### The distinct-keys aggregator keeps the contract -/

theorem distinct_mem (rows : List Nat) : ∀ (v : List Nat) (x : Nat),
    x ∈ rows.foldl (fun keys r => if r ∈ keys then keys else keys ++ [r]) v ↔
      x ∈ v ∨ x ∈ rows := by
  induction rows with
  | nil => simp
  | cons r rest ih =>
    intro v x
    simp only [List.foldl_cons, ih, List.mem_cons]
    by_cases hr : r ∈ v
    · simp only [if_pos hr]
      constructor
      · rintro (h | h)
        · exact Or.inl h
        · exact Or.inr (Or.inr h)
      · rintro (h | h | h)
        · exact Or.inl h
        · exact Or.inl (h ▸ hr)
        · exact Or.inr h
    · simp only [if_neg hr, List.mem_append, List.mem_singleton]
      tauto

theorem distinct_nodup (rows : List Nat) : ∀ (v : List Nat), v.Nodup →
    (rows.foldl (fun keys r => if r ∈ keys then keys else keys ++ [r]) v).Nodup := by
  induction rows with
  | nil => exact fun v h => h
  | cons r rest ih =>
    intro v hv
    simp only [List.foldl_cons]
    apply ih
    by_cases hr : r ∈ v
    · simp only [if_pos hr]
      exact hv
    · simp only [if_neg hr]
      exact List.Nodup.append hv (List.nodup_singleton r) (by simpa using hr)

theorem distinct_aggregated (memory : Nat → Int) (a b : Nat) (X : List Nat) :
    aggregated (distinctEnv memory a b) X =
      X.foldl (fun keys r => if r ∈ keys then keys else keys ++ [r]) [] := by
  simp only [aggregated, finalRows, mergedRows, distinctEnv]
  split_ifs with h
  · rw [List.isEmpty_iff.1 h]
    rfl
  · simp [rowsOf]

theorem distinct_partialRows (memory : Nat → Int) (a b : Nat) (X : List Nat) :
    partialRows (distinctEnv memory a b)
        (mergedRows (distinctEnv memory a b) X (distinctEnv memory a b).emptyVariants) =
      X.foldl (fun keys r => if r ∈ keys then keys else keys ++ [r]) [] := by
  simp only [partialRows, mergedRows, distinctEnv]
  split_ifs with h
  · rw [List.isEmpty_iff.1 h]
    rfl
  · simp [rowsOf]

/-- The distinct-keys aggregator satisfies the aggregator contract. -/
theorem distinctEnv_lawful (memory : Nat → Int) (a b : Nat) :
    LawfulAggregator (distinctEnv memory a b) where
  keeps_keys := fun _ _ => rfl
  merge_tag := fun _ _ => rfl
  merge_nil := fun _ => rfl
  merge_append := fun X Y v => by
    simp only [mergedRows, distinctEnv, List.foldl_append]
  aggregated_perm := fun X Y h => by
    rw [distinct_aggregated, distinct_aggregated]
    refine (List.perm_ext_iff_of_nodup (distinct_nodup X [] List.nodup_nil)
      (distinct_nodup Y [] List.nodup_nil)).2 fun x => ?_
    simp only [distinct_mem, h.mem_iff]
  partial_equiv := fun X Y => by
    rw [distinct_partialRows, distinct_aggregated, distinct_aggregated]
    refine (List.perm_ext_iff_of_nodup (distinct_nodup _ [] List.nodup_nil)
      (distinct_nodup _ [] List.nodup_nil)).2 fun x => ?_
    simp only [distinct_mem, List.mem_append, List.not_mem_nil, false_or]
  aggregated_disjoint := fun X Y h => by
    rw [distinct_aggregated, distinct_aggregated, distinct_aggregated]
    have hd : ((X.foldl (fun keys r => if r ∈ keys then keys else keys ++ [r]) []) ++
        (Y.foldl (fun keys r => if r ∈ keys then keys else keys ++ [r]) [])).Nodup := by
      refine List.Nodup.append (distinct_nodup X [] List.nodup_nil)
        (distinct_nodup Y [] List.nodup_nil) ?_
      intro x hx hy
      simp only [distinct_mem, List.not_mem_nil, false_or] at hx hy
      exact h x hx x hy rfl
    refine (List.perm_ext_iff_of_nodup (distinct_nodup _ [] List.nodup_nil) hd).2 fun x => ?_
    simp only [distinct_mem, List.mem_append, List.not_mem_nil, false_or]
  partial_hash := fun X r hr => by
    rw [distinct_partialRows] at hr
    simp only [distinct_mem, List.not_mem_nil, false_or] at hr
    exact ⟨r, hr, rfl⟩

theorem toSizeT_neg_one_ne_pow (k : Nat) (hk : 1 ≤ k) : toSizeT (-1) ≠ 2 ^ k := by
  intro heq
  rw [toSizeT_neg_one] at heq
  obtain ⟨m, hm⟩ : 2 ∣ 2 ^ k := dvd_pow_self 2 (by omega)
  rw [hm] at heq
  omega

/-- The non-final conversion of the distinct-keys aggregator returns no block for an
empty state and one untagged block otherwise. -/
theorem distinctEnv_scatterable (memory : Nat → Int) (a b : Nat) :
    ScatterableConversion (distinctEnv memory a b) := by
  intro v block hb
  simp only [distinctEnv] at hb
  split_ifs at hb with h
  · cases hb
  · simp only [List.mem_singleton] at hb
    rw [hb]
    refine ⟨fun hv => h ?_, fun k hk _ => toSizeT_neg_one_ne_pow k hk⟩
    simp only [] at hv
    rw [hv]
    rfl

/-- The outcome of a run that has ended is the outcome for every number of rounds that
lets the run end. -/
theorem run_agree (env : Env ρ σ) (inputs : List (List ρ)) (N : Nat)
    (hN : runOperator env N inputs ≠ .ok none) (rounds : Nat) :
    runOperator env rounds inputs = .ok none ∨
      runOperator env rounds inputs = runOperator env N inputs := by
  rcases Nat.le_total rounds N with hle | hle
  · by_cases h0 : runOperator env rounds inputs = .ok none
    · exact Or.inl h0
    · exact Or.inr (run_stable env rounds N inputs _ _ _ _ rfl h0 hle).symm
  · exact Or.inr (run_stable env N rounds inputs _ _ _ _ rfl hN hle)

/-- An aggregator that differs from a lawful one only in how a conversion cuts its rows
into blocks and tags them keeps the contract. -/
theorem lawful_of_rows {env env2 : Env ρ σ} (h : LawfulAggregator env)
    (hm : env2.mergeOnBlock = env.mergeOnBlock) (he : env2.emptyVariants = env.emptyVariants)
    (hh : env2.hash = env.hash)
    (hr : ∀ v f, rowsOf (env2.convertToBlocks v f) = rowsOf (env.convertToBlocks v f)) :
    LawfulAggregator env2 := by
  have hmr : ∀ X v, mergedRows env2 X v = mergedRows env X v := fun X v => by
    simp only [mergedRows, hm]
  have hagg : ∀ X, aggregated env2 X = aggregated env X := fun X => by
    simp only [aggregated, finalRows, hmr, he, hr]
  have hpr : ∀ v, partialRows env2 v = partialRows env v := fun v => hr v false
  exact {
    keeps_keys := fun block v => by rw [hm]; exact h.keeps_keys block v
    merge_tag := fun block v => by rw [hm, hmr]; exact h.merge_tag block v
    merge_nil := fun v => by rw [hmr]; exact h.merge_nil v
    merge_append := fun X Y v => by rw [hmr, hmr, hmr]; exact h.merge_append X Y v
    aggregated_perm := fun X Y hp => by rw [hagg, hagg]; exact h.aggregated_perm X Y hp
    partial_equiv := fun X Y => by
      rw [hagg, hagg, hpr, hmr, he]
      exact h.partial_equiv X Y
    aggregated_disjoint := fun X Y hd => by
      rw [hagg, hagg, hagg]
      exact h.aggregated_disjoint X Y (by rw [← hh]; exact hd)
    partial_hash := fun X r hrm => by
      rw [hpr, hmr, he] at hrm
      rw [hh]
      exact h.partial_hash X r hrm }

theorem rowsOf_singletons (keys : List Nat) (tag : Nat → Int) :
    rowsOf (keys.map fun k => ({ rows := [k], bucket_num := tag k } : Block Nat)) = keys := by
  induction keys with
  | nil => rfl
  | cons k keys ih =>
    simp only [List.map_cons, rowsOf_cons, ih]
    rfl

theorem distinct_rowsOf (memory : Nat → Int) (a b : Nat) (v : List Nat) (f : Bool) :
    rowsOf ((distinctEnv memory a b).convertToBlocks v f) = v := by
  simp only [distinctEnv]
  split_ifs with h
  · rw [List.isEmpty_iff.1 h]
    rfl
  · simp [rowsOf]

/-- The two-level variant of the distinct-keys aggregator keeps the contract. -/
theorem twoLevelEnv_lawful : LawfulAggregator twoLevelEnv :=
  lawful_of_rows (distinctEnv_lawful (fun n => if n < 3 then 0 else 100) 100 8) rfl rfl rfl
    (fun v f => by
      rw [distinct_rowsOf]
      exact rowsOf_singletons v _)

/-- The variant of the distinct-keys aggregator that returns a block without rows keeps
the contract. -/
theorem hollowEnv_lawful : LawfulAggregator hollowEnv :=
  lawful_of_rows (distinctEnv_lawful (fun n => if n < 3 then 0 else 100) 100 8) rfl rfl rfl
    (fun v f => by
      rw [distinct_rowsOf]
      simp [hollowEnv, rowsOf])

theorem fraction_toRat_zero (q : Fraction) : q.toRat = 0 ↔ ¬ (0 < q.num ∧ 0 < q.den) := by
  constructor
  · intro h hpos
    have := (fraction_toRat_pos q).2 hpos
    rw [h] at this
    exact lt_irrefl _ this
  · intro h
    unfold Fraction.toRat
    by_cases hn : q.num = 0
    · simp [hn]
    · by_cases hd : q.den = 0
      · simp [hd]
      · exact absurd ⟨Nat.pos_of_ne_zero hn, Nat.pos_of_ne_zero hd⟩ h

/-- C11. Cold-start memory predicate.  With `max_memory_usage > 0`, a live aggregation
state and `per_key_memory_usage = 0`, `isMemoryOverflow` returns a value, and it returns
true exactly when `2 * M ≥ max_memory_usage`, where `M` is the tracker reading, taken as
0 when it is negative, and `2 * M` stays below `2^64`. -/
theorem isMemoryOverflow_cold_start (env : Env ρ σ) (t : Transform ρ σ) (variants : σ)
    (hmax : 0 < env.max_memory_usage)
    (hv : t.current_data_variants = some variants)
    (hzero : t.per_key_memory_usage.toRat = 0)
    (hwrap : 2 * max (env.memory t.mem_queries) 0 < 2 ^ 64) :
    (∃ b t2, isMemoryOverflow env t = .ok (b, t2)) ∧
    ((∃ t2, isMemoryOverflow env t = .ok (true, t2)) ↔
      2 * max (env.memory t.mem_queries) 0 ≥ (env.max_memory_usage : Int)) := by
  have hq := (fraction_toRat_zero _).1 hzero
  have hne : env.max_memory_usage ≠ 0 := Nat.pos_iff_ne_zero.1 hmax
  have hM : ∃ M : Nat, (getMemoryUsage env t).1 = M ∧
      (M : Int) = max (env.memory t.mem_queries) 0 := by
    refine ⟨_, rfl, ?_⟩
    simp only [getMemoryUsage]
    split_ifs with hneg
    · rw [max_eq_right (le_of_lt hneg)]
      rfl
    · rw [max_eq_left (not_lt.1 hneg)]
      exact Int.toNat_of_nonneg (not_lt.1 hneg)
  obtain ⟨M, hM1, hM2⟩ := hM
  have hsplit : getMemoryUsage env t = (M, { t with mem_queries := t.mem_queries + 1 }) := by
    rw [← hM1]
    rfl
  rw [← hM2] at hwrap ⊢
  have hlt : M * 2 < 2 ^ 64 := by
    have : ((2 * M : Nat) : Int) < ((2 ^ 64 : Nat) : Int) := by
      push_cast
      exact hwrap
    have := Int.ofNat_lt.1 this
    omega
  have hmod : M * 2 % 2 ^ 64 = M * 2 := Nat.mod_eq_of_lt hlt
  have hcmp : (2 * (M : Int) ≥ (env.max_memory_usage : Int)) ↔ M * 2 ≥ env.max_memory_usage := by
    constructor
    · intro h
      have : ((env.max_memory_usage : Nat) : Int) ≤ ((2 * M : Nat) : Int) := by
        push_cast
        exact h
      have := Int.ofNat_le.1 this
      omega
    · intro h
      have : ((env.max_memory_usage : Nat) : Int) ≤ ((M * 2 : Nat) : Int) := Int.ofNat_le.2 h
      push_cast at this
      omega
  rw [hcmp]
  refine ⟨?_, ?_⟩
  · simp only [isMemoryOverflow, if_neg hne, hv]
    rw [hsplit]
    simp only [if_neg hq, hmod]
    split_ifs <;> exact ⟨_, _, rfl⟩
  · simp only [isMemoryOverflow, if_neg hne, hv]
    rw [hsplit]
    simp only [if_neg hq, hmod]
    split_ifs with h
    · exact ⟨fun _ => h, fun _ => ⟨_, rfl⟩⟩
    · constructor
      · rintro ⟨t2, ht2⟩
        simp at ht2
      · intro h2
        exact absurd h2 h

/-- Witness for `isMemoryOverflow_cold_start`: a fresh operator with a limit of 1 byte
whose tracker reads 0. -/
theorem isMemoryOverflow_cold_start_witness :
    ∃ b t2, isMemoryOverflow capExampleEnv (Transform.init capExampleEnv) = .ok (b, t2) :=
  (isMemoryOverflow_cold_start capExampleEnv (Transform.init capExampleEnv) []
    (by decide) rfl (by norm_num [Transform.init, Fraction.toRat]) (by decide)).1

/-! ### Routing of a block when memory is not short -/

theorem bucketAt_addBlock (t : Transform ρ σ) (i : Nat) (block : Block ρ)
    (hi : i < getBucketsNum t) (j : Nat) :
    bucketAt (addBlockIntoFileBucket t i block) j =
      if j = i ∧ block.rows.length ≠ 0 then
        { bucketAt t j with blocks := (bucketAt t j).blocks ++ [block] }
      else bucketAt t j := by
  unfold addBlockIntoFileBucket
  by_cases hz : block.rows.length = 0
  · simp [hz]
  · rw [if_neg hz]
    by_cases hj : j = i
    · subst hj
      rw [bucketAt_setBucket_self t j _ hi, if_pos ⟨rfl, hz⟩]
    · rw [bucketAt_setBucket_ne t i j _ (Ne.symm hj), if_neg (fun h => hj h.1)]

/-- The loop that queues the scattered parts, entry by entry: bucket `j` gets the part
for `j` at the back of its queue when `j` is among the indices and the part has rows;
nothing else changes. -/
theorem addScattered_entries (env : Env ρ σ) (t0 : Transform ρ σ) (block : Block ρ)
    (hrows : block.rows ≠ []) (htag : toSizeT block.bucket_num ≠ getBucketsNum t0) :
    ∀ (is : List Nat) (t : Transform ρ σ), is.Nodup →
      getBucketsNum t = getBucketsNum t0 → (∀ i ∈ is, i < getBucketsNum t0) →
      ∃ bs, addScattered (scatterBlock env t0 block) is t = .ok { t with buckets := bs } ∧
        bs.length = t.buckets.length ∧
        ∀ j, bucketAt ({ t with buckets := bs } : Transform ρ σ) j =
          if j ∈ is ∧ (block.rows.filter fun r => env.hash r % getBucketsNum t0 == j).length ≠ 0
          then { bucketAt t j with blocks := (bucketAt t j).blocks ++
            [{ rows := block.rows.filter fun r => env.hash r % getBucketsNum t0 == j
               bucket_num := toInt32 (getBucketsNum t0) }] }
          else bucketAt t j := by
  intro is
  induction is with
  | nil =>
    intro t _ _ _
    exact ⟨t.buckets, rfl, rfl, fun j => by simp⟩
  | cons i is ih =>
    intro t hnd hB hlt
    rw [List.nodup_cons] at hnd
    have hi : i < getBucketsNum t0 := hlt i (List.mem_cons_self _ _)
    have hunf : addScattered (scatterBlock env t0 block) (i :: is) t
        = addScattered (scatterBlock env t0 block) is (addBlockIntoFileBucket t i
            { rows := block.rows.filter fun r => env.hash r % getBucketsNum t0 == i
              bucket_num := toInt32 (getBucketsNum t0) }) := by
      simp only [addScattered, scatterBlock_parts env t0 block hrows htag i hi]
    obtain ⟨bs1, hbs1, hlen1⟩ := addBlock_buckets t i
      { rows := block.rows.filter fun r => env.hash r % getBucketsNum t0 == i
        bucket_num := toInt32 (getBucketsNum t0) }
    have hat1 := bucketAt_addBlock t i
      { rows := block.rows.filter fun r => env.hash r % getBucketsNum t0 == i
        bucket_num := toInt32 (getBucketsNum t0) } (by rw [hB]; exact hi)
    rw [hunf, hbs1]
    rw [hbs1] at hat1
    obtain ⟨bs, h1, h2, h3⟩ := ih ({ t with buckets := bs1 } : Transform ρ σ) hnd.2
      (by simp only [getBucketsNum] at hB ⊢; rw [hlen1]; exact hB)
      (fun k hk => hlt k (List.mem_cons_of_mem _ hk))
    refine ⟨bs, h1, by rw [h2, hlen1], ?_⟩
    intro j
    have h3j := h3 j
    have h1j := hat1 j
    simp only [] at h3j h1j ⊢
    rw [h3j, h1j]
    by_cases hji : j = i
    · subst hji
      have hnot : ¬ (j ∈ is ∧
          (block.rows.filter fun r => env.hash r % getBucketsNum t0 == j).length ≠ 0) :=
        fun h => hnd.1 h.1
      rw [if_neg hnot]
      simp only [List.mem_cons, true_or, true_and]
    · simp only [hji, false_and, if_false, List.mem_cons, false_or, ite_false]

theorem toSizeT_ne_of_int32 {tag : Int} {n : Nat} (hlo : -2 ^ 31 ≤ tag) (hhi : tag < 2 ^ 31)
    (hn : n < 2 ^ 31) (hne : tag ≠ (n : Int)) : toSizeT tag ≠ n := by
  unfold toSizeT
  intro h
  by_cases hneg : tag < 0
  · have h1 : tag % 2 ^ 64 = tag + 2 ^ 64 := by
      rw [← Int.add_emod_self]
      exact Int.emod_eq_of_lt (by omega) (by omega)
    rw [h1] at h
    have h2 : ((tag + 2 ^ 64).toNat : Int) = tag + 2 ^ 64 := Int.toNat_of_nonneg (by omega)
    rw [h] at h2
    have h3 : (n : Int) < 2 ^ 31 := by exact_mod_cast hn
    omega
  · have h1 : tag % 2 ^ 64 = tag := Int.emod_eq_of_lt (by omega) (by omega)
    rw [h1] at h
    have h2 : (tag.toNat : Int) = tag := Int.toNat_of_nonneg (by omega)
    rw [h] at h2
    exact hne h2.symm

theorem isMemoryOverflow_frame (env : Env ρ σ) (t t1 : Transform ρ σ) (v : σ) (b : Bool)
    (hv : t.current_data_variants = some v) (h : isMemoryOverflow env t = .ok (b, t1)) :
    t1.buckets = t.buckets ∧ t1.current_bucket_index = t.current_bucket_index ∧
    t1.current_data_variants = some v ∧ t1.no_more_keys = t.no_more_keys := by
  obtain ⟨b2, t2, he, h1, h2, h3, h4⟩ := isMemoryOverflow_account env t v hv
  rw [h] at he
  simp only [Except.ok.injEq, Prod.mk.injEq] at he
  rw [he.2]
  exact ⟨h1, h2, h3.trans hv, h4⟩

/-- With both evaluations of the memory predicate false, `mergeOneBlock` on a block that
has rows is its last statement run on a state with the same buckets, index and
aggregation state. -/
theorem mergeOneBlock_calm (env : Env ρ σ) (t t1 t2 : Transform ρ σ) (block : Block ρ)
    (v : σ) (hrows : block.rows ≠ []) (hv : t.current_data_variants = some v)
    (h1 : isMemoryOverflow env t = .ok (false, t1))
    (h2 : isMemoryOverflow env t1 = .ok (false, t2)) :
    ∃ t3, mergeOneBlock env t block = routeBlock env t3 block ∧ t3.buckets = t.buckets ∧
      t3.current_bucket_index = t.current_bucket_index ∧
      t3.current_data_variants = some v ∧ t3.no_more_keys = t.no_more_keys := by
  obtain ⟨a1, a2, a3, a4⟩ := isMemoryOverflow_frame env t t1 v false hv h1
  obtain ⟨b1, b2, b3, b4⟩ := isMemoryOverflow_frame env t1 t2 v false a3 h2
  have hne : ¬ block.rows.length = 0 := by simpa using hrows
  refine ⟨{ (getMemoryUsage env t2).2 with
      log := (getMemoryUsage env t2).2.log ++ [.mergeOnBlock block.rows.length (env.bytes block)
        block.bucket_num t2.current_bucket_index (getBucketsNum t2) (getMemoryUsage env t2).1] },
    ?_, ?_, ?_, ?_, ?_⟩
  · simp only [mergeOneBlock, if_neg hne, h1, h2, Bool.false_eq_true, if_false]
    rfl
  · exact b1.trans a1
  · exact b2.trans a2
  · exact b3
  · exact b4.trans a4

/-- The last statement of `mergeOneBlock`, bucket entry by bucket entry. -/
theorem routeBlock_entries (env : Env ρ σ) (t : Transform ρ σ) (block : Block ρ) (v : σ)
    (hrows : block.rows ≠ []) (hv : t.current_data_variants = some v)
    (hc : t.current_bucket_index < getBucketsNum t) (hsmall : getBucketsNum t < 2 ^ 31)
    (htag : -2 ^ 31 ≤ block.bucket_num ∧ block.bucket_num < 2 ^ 31) :
    ∃ t3, routeBlock env t block = .ok t3 ∧ getBucketsNum t3 = getBucketsNum t ∧
      t3.current_bucket_index = t.current_bucket_index ∧
      ((block.bucket_num = (getBucketsNum t : Int) ∨ getBucketsNum t = 1) →
        t3.buckets = t.buckets ∧
        t3.current_data_variants = some (env.mergeOnBlock block v t.no_more_keys).1 ∧
        t3.no_more_keys = (env.mergeOnBlock block v t.no_more_keys).2) ∧
      (¬ (block.bucket_num = (getBucketsNum t : Int) ∨ getBucketsNum t = 1) →
        t3.current_data_variants = some (env.mergeOnBlock
          (subBatch env block (getBucketsNum t) t.current_bucket_index) v t.no_more_keys).1 ∧
        t3.no_more_keys = (env.mergeOnBlock
          (subBatch env block (getBucketsNum t) t.current_bucket_index) v t.no_more_keys).2 ∧
        (∀ b, t.current_bucket_index < b → b < getBucketsNum t →
          (bucketAt t3 b).file_stream = (bucketAt t b).file_stream ∧
          (bucketAt t3 b).blocks = (bucketAt t b).blocks ++
            (if (subBatch env block (getBucketsNum t) b).rows.length = 0 then []
              else [subBatch env block (getBucketsNum t) b])) ∧
        (∀ b, ¬ (t.current_bucket_index < b ∧ b < getBucketsNum t) →
          bucketAt t3 b = bucketAt t b)) := by
  have h32 := toInt32_of_lt hsmall
  unfold routeBlock
  rw [h32]
  by_cases hd : block.bucket_num = (getBucketsNum t : Int) ∨ getBucketsNum t = 1
  · rw [if_pos hd]
    refine ⟨{ t with
        current_data_variants := some (env.mergeOnBlock block v t.no_more_keys).1
        no_more_keys := (env.mergeOnBlock block v t.no_more_keys).2 },
      by simp only [mergeIntoVariants, hv], rfl, rfl, fun _ => ⟨rfl, rfl, rfl⟩,
      fun h => absurd hd h⟩
  · rw [if_neg hd]
    have hne : toSizeT block.bucket_num ≠ getBucketsNum t :=
      toSizeT_ne_of_int32 htag.1 htag.2 hsmall (fun h => hd (Or.inl h))
    obtain ⟨bs, h1, h2, h3⟩ := addScattered_entries env t block hrows hne (laterBuckets t) t
      (laterBuckets_nodup t) rfl (fun i hi => ((mem_laterBuckets t i).1 hi).2)
    simp only []
    rw [h1]
    simp only []
    rw [scatterBlock_parts env t block hrows hne _ hc, h32]
    refine ⟨{ ({ t with buckets := bs } : Transform ρ σ) with
        current_data_variants := some (env.mergeOnBlock
          { rows := block.rows.filter
              fun r => env.hash r % getBucketsNum t == t.current_bucket_index
            bucket_num := (getBucketsNum t : Int) } v t.no_more_keys).1
        no_more_keys := (env.mergeOnBlock
          { rows := block.rows.filter
              fun r => env.hash r % getBucketsNum t == t.current_bucket_index
            bucket_num := (getBucketsNum t : Int) } v t.no_more_keys).2 },
      by simp only [mergeIntoVariants, hv], by simp only [getBucketsNum, h2], rfl,
      fun h => absurd h hd, fun _ => ⟨rfl, rfl, ?_, ?_⟩⟩
    · intro b hlo hhi
      have hb := h3 b
      have hmem : b ∈ laterBuckets t := (mem_laterBuckets t b).2 ⟨hlo, hhi⟩
      have hat : bucketAt ({ t with buckets := bs } : Transform ρ σ) b = bucketAt
          ({ ({ t with buckets := bs } : Transform ρ σ) with
            current_data_variants := some (env.mergeOnBlock
              { rows := block.rows.filter
                  fun r => env.hash r % getBucketsNum t == t.current_bucket_index
                bucket_num := (getBucketsNum t : Int) } v t.no_more_keys).1
            no_more_keys := (env.mergeOnBlock
              { rows := block.rows.filter
                  fun r => env.hash r % getBucketsNum t == t.current_bucket_index
                bucket_num := (getBucketsNum t : Int) } v t.no_more_keys).2 }) b := rfl
      rw [← hat, hb, h32]
      simp only [subBatch]
      by_cases hz : (block.rows.filter fun r => env.hash r % getBucketsNum t == b).length = 0
      · simp only [hz, ne_eq, not_true_eq_false, and_false, if_false, if_true, List.append_nil,
          and_self]
      · simp only [hmem, hz, ne_eq, not_false_eq_true, and_self, if_true, if_false]
    · intro b hb
      have hnot : b ∉ laterBuckets t := fun h => hb ((mem_laterBuckets t b).1 h)
      have := h3 b
      simp only [hnot, false_and, if_false] at this
      exact this

/-- C12. Ingest routing.  For a block that has rows, in a state with a live aggregation
state whose current index is a bucket and whose bucket count `B` fits the `Int32` tag,
when both evaluations of the memory predicate in `mergeOneBlock` are false: the call
returns and keeps the bucket count; if the tag of the block is `B` or `B = 1`, the whole
block is merged into the state and no bucket changes; otherwise sub-batch
`current_bucket_index` of the scatter by key hash over `B` is merged into the state, every
sub-batch `b` with `current_bucket_index < b < B` that has rows is put at the back of
queue `b`, and no stream and no other queue changes. -/
theorem ingest_routing (env : Env ρ σ) (t t1 t2 : Transform ρ σ) (block : Block ρ)
    (variants : σ) (hrows : block.rows ≠ [])
    (hcalm1 : isMemoryOverflow env t = .ok (false, t1))
    (hcalm2 : isMemoryOverflow env t1 = .ok (false, t2))
    (hv : t.current_data_variants = some variants)
    (hc : t.current_bucket_index < getBucketsNum t) (hsmall : getBucketsNum t < 2 ^ 31)
    (htag : -2 ^ 31 ≤ block.bucket_num ∧ block.bucket_num < 2 ^ 31) :
    ∃ t3, mergeOneBlock env t block = .ok t3 ∧ getBucketsNum t3 = getBucketsNum t ∧
      t3.current_bucket_index = t.current_bucket_index ∧
      ((block.bucket_num = (getBucketsNum t : Int) ∨ getBucketsNum t = 1) →
        t3.buckets = t.buckets ∧
        t3.current_data_variants = some (env.mergeOnBlock block variants t.no_more_keys).1 ∧
        t3.no_more_keys = (env.mergeOnBlock block variants t.no_more_keys).2) ∧
      (¬ (block.bucket_num = (getBucketsNum t : Int) ∨ getBucketsNum t = 1) →
        t3.current_data_variants = some (env.mergeOnBlock
          (subBatch env block (getBucketsNum t) t.current_bucket_index) variants
            t.no_more_keys).1 ∧
        t3.no_more_keys = (env.mergeOnBlock
          (subBatch env block (getBucketsNum t) t.current_bucket_index) variants
            t.no_more_keys).2 ∧
        (∀ b, t.current_bucket_index < b → b < getBucketsNum t →
          (bucketAt t3 b).file_stream = (bucketAt t b).file_stream ∧
          (bucketAt t3 b).blocks = (bucketAt t b).blocks ++
            (if (subBatch env block (getBucketsNum t) b).rows.length = 0 then []
              else [subBatch env block (getBucketsNum t) b])) ∧
        (∀ b, ¬ (t.current_bucket_index < b ∧ b < getBucketsNum t) →
          bucketAt t3 b = bucketAt t b)) := by
  obtain ⟨s, hs, hb, hi, hvs, hk⟩ :=
    mergeOneBlock_calm env t t1 t2 block variants hrows hv hcalm1 hcalm2
  have hB : getBucketsNum s = getBucketsNum t := by simp only [getBucketsNum, hb]
  have hat : ∀ j, bucketAt s j = bucketAt t j := fun j => by simp only [bucketAt, hb]
  obtain ⟨t3, h1, h2, h3, h4, h5⟩ := routeBlock_entries env s block variants hrows hvs
    (by rw [hi, hB]; exact hc) (by rw [hB]; exact hsmall) htag
  rw [hB, hk] at h4
  rw [hB, hi, hk] at h5
  refine ⟨t3, hs.trans h1, h2.trans hB, h3.trans hi, ?_, ?_⟩
  · intro hd
    obtain ⟨a, b, c⟩ := h4 hd
    exact ⟨a.trans hb, b, c⟩
  · intro hd
    obtain ⟨a, b, c, d⟩ := h5 hd
    refine ⟨a, b, fun j hlo hhi => ?_, fun j hj => ?_⟩
    · rw [← hat j]
      exact c j hlo hhi
    · rw [← hat j]
      exact d j hj

/-- Witness for `ingest_routing`: three keys into a two-bucket operator without memory
limit. -/
theorem ingest_routing_witness :
    ∃ t3, mergeOneBlock calmEnv twoBucketState { rows := [1, 2, 3] } = .ok t3 ∧
      getBucketsNum t3 = getBucketsNum twoBucketState := by
  obtain ⟨t3, h1, h2, _⟩ := ingest_routing calmEnv twoBucketState twoBucketState
    twoBucketState { rows := [1, 2, 3] } [] (by decide) rfl rfl rfl (by decide) (by decide)
    (by decide)
  exact ⟨t3, h1, h2⟩

/-! ### `flushBucket` writes one block per maximal run that has rows -/

theorem tagRuns_head (y : Block ρ) (ys : List (Block ρ)) :
    ∃ r rs, tagRuns (y :: ys) = (y :: r) :: rs := by
  simp only [tagRuns]
  cases tagRuns ys with
  | nil => exact ⟨[], [], rfl⟩
  | cons run runs =>
    simp only []
    split_ifs
    · exact ⟨run, runs, rfl⟩
    · exact ⟨[], run :: runs, rfl⟩

theorem tagRuns_cons_run (a : Block ρ) (rem : List (Block ρ))
    (hrem : ∀ y, rem.head? = some y → y.bucket_num ≠ a.bucket_num) :
    ∀ run : List (Block ρ), (∀ x ∈ run, x.bucket_num = a.bucket_num) →
      tagRuns (a :: run ++ rem) = (a :: run) :: tagRuns rem := by
  intro run
  induction run generalizing a with
  | nil =>
    intro _
    cases rem with
    | nil => rfl
    | cons y ys =>
      obtain ⟨r, rs, hr⟩ := tagRuns_head y ys
      have hy := hrem y rfl
      simp only [List.nil_append, List.cons_append, tagRuns] at hr ⊢
      rw [hr]
      simp only [List.head?_cons, Option.map_some', Option.some.injEq]
      rw [if_neg hy]
  | cons b run ih =>
    intro hall
    have hb : b.bucket_num = a.bucket_num := hall b (List.mem_cons_self _ _)
    have hrec := ih b (fun y hy => by rw [hb]; exact hrem y hy)
      (fun x hx => by rw [hb]; exact hall x (List.mem_cons_of_mem _ hx))
    have hunf : tagRuns (a :: (b :: run) ++ rem) =
        match tagRuns (b :: run ++ rem) with
        | [] => [[a]]
        | r :: rs =>
          if (r.head?.map Block.bucket_num) = some a.bucket_num then (a :: r) :: rs
          else [a] :: r :: rs := rfl
    rw [hunf, hrec]
    simp only [List.head?_cons, Option.map_some', hb, if_true]

theorem takeRun_rest (tag : Int) (queue : List (Block ρ)) :
    ∀ acc : List (Block ρ), acc ≠ [] → (∀ x ∈ acc, x.bucket_num = tag) →
      ∀ y, (takeRun acc queue).2.head? = some y → y.bucket_num ≠ tag := by
  induction queue with
  | nil =>
    intro acc _ _ y hy
    simp [takeRun] at hy
  | cons front rest ih =>
    intro acc hne hall y hy
    unfold takeRun at hy
    cases hlast : acc.getLast? with
    | none =>
      rw [List.getLast?_eq_none_iff] at hlast
      exact absurd hlast hne
    | some back =>
      rw [hlast] at hy
      simp only [] at hy
      have hback : back.bucket_num = tag := hall back (List.mem_of_getLast?_eq_some hlast)
      split_ifs at hy with hdiff
      · simp only [List.head?_cons, Option.some.injEq] at hy
        rw [← hy]
        intro h
        exact hdiff (hback.trans h.symm)
      · have hfront : front.bucket_num = tag := by
          have := not_not.1 hdiff
          rw [← this]
          exact hback
        refine ih (acc ++ [front]) (by simp) ?_ y hy
        intro x hx
        rcases List.mem_append.1 hx with hx | hx
        · exact hall x hx
        · rw [List.mem_singleton.1 hx]
          exact hfront

/-- The first run that the inner loop takes off the queue is the first maximal run. -/
theorem tagRuns_takeRun (front : Block ρ) (rest : List (Block ρ)) :
    tagRuns (front :: rest) =
      (takeRun [] (front :: rest)).1 :: tagRuns (takeRun [] (front :: rest)).2 := by
  obtain ⟨run, h1, h2, h3⟩ := takeRun_first front rest
  have hstart : takeRun [] (front :: rest) = takeRun [front] rest := by
    simp [takeRun]
  have hrest := takeRun_rest front.bucket_num rest [front] (by simp) (by simp)
  rw [← hstart] at hrest
  rw [h1]
  conv_lhs => rw [h2]
  exact tagRuns_cons_run front _ hrest run
    (fun x hx => h3 x (List.mem_cons_of_mem _ hx))

/-- The outer loop of `flushBucket`, given enough rounds: the queue ends empty, the
stream gains the merged block of every maximal run that has rows, in order, and the
bytes of the merged blocks of all runs are counted. -/
theorem flushRuns_eq_runs (env : Env ρ σ) :
    ∀ (rounds : Nat) (queue stream : List (Block ρ)) (flush_bytes : Nat),
      queue.length ≤ rounds →
      flushRuns env rounds queue stream flush_bytes =
        ([], stream ++ ((tagRuns queue).map mergedRun).filter (fun m => m.rows.length ≠ 0),
          flush_bytes + ((tagRuns queue).map fun run => env.bytes (mergedRun run)).sum) := by
  intro rounds
  induction rounds with
  | zero =>
    intro queue stream flush_bytes hlen
    have hq : queue = [] := List.length_eq_zero.1 (Nat.le_zero.1 hlen)
    subst hq
    simp [flushRuns, tagRuns]
  | succ rounds ih =>
    intro queue stream flush_bytes hlen
    cases queue with
    | nil => simp [flushRuns, tagRuns]
    | cons front rest =>
      obtain ⟨run, h1, h2, h3⟩ := takeRun_first front rest
      have hlen2 : (takeRun [] (front :: rest)).2.length ≤ rounds := by
        have := congrArg List.length h2
        simp only [List.length_cons, List.length_append] at this hlen
        omega
      have hm : mergedRun (front :: run) =
          { rows := rowsOf (front :: run), bucket_num := front.bucket_num } := rfl
      have hunf : flushRuns env (rounds + 1) (front :: rest) stream flush_bytes
          = flushRuns env rounds (takeRun [] (front :: rest)).2
              (if (mergedRun (front :: run)).rows.length ≠ 0
                then stream ++ [mergedRun (front :: run)] else stream)
              (flush_bytes + env.bytes (mergedRun (front :: run))) := by
        simp only [flushRuns, List.isEmpty_cons, Bool.false_eq_true, if_false]
        rw [h1]
        rfl
      rw [hunf, ih _ _ _ hlen2, tagRuns_takeRun front rest, h1]
      simp only [List.map_cons, List.sum_cons, List.filter_cons]
      by_cases hz : (mergedRun (front :: run)).rows.length ≠ 0
      · rw [if_pos hz, if_pos (decide_eq_true hz)]
        simp only [List.append_assoc, List.singleton_append, Nat.add_assoc]
      · rw [if_neg hz, if_neg (by simpa using hz)]
        simp only [Nat.add_assoc]

/-- C13, as the code has it.  `flushBucket(b)` on an empty queue does nothing and returns
0; it does not create the stream.  On a queue that is not empty it creates the stream
if absent, leaves the queue empty and appends to the stream, in queue order, the merged
block of every maximal run of consecutive equally tagged blocks that has at least one
row (the rows of the run in order, tagged like the run); the rows written are the rows
queued; no other bucket changes; the value returned is the sum of the byte sizes of the
merged blocks of all runs. -/
theorem flushBucket_writes_runs (env : Env ρ σ) (t : Transform ρ σ) (b : Nat)
    (hb : b < getBucketsNum t) :
    ((bucketAt t b).blocks = [] → flushBucket env t b = (0, t)) ∧
    ((bucketAt t b).blocks ≠ [] →
      (flushBucket env t b).1 =
        ((tagRuns (bucketAt t b).blocks).map fun run => env.bytes (mergedRun run)).sum ∧
      bucketAt (flushBucket env t b).2 b =
        { blocks := []
          file_stream := some ((bucketAt t b).file_stream.getD [] ++
            ((tagRuns (bucketAt t b).blocks).map mergedRun).filter
              (fun m => m.rows.length ≠ 0)) } ∧
      (∀ j, j ≠ b → bucketAt (flushBucket env t b).2 j = bucketAt t j) ∧
      rowsOf (((tagRuns (bucketAt t b).blocks).map mergedRun).filter
          (fun m => m.rows.length ≠ 0)) = rowsOf (bucketAt t b).blocks) := by
  constructor
  · intro he
    simp [flushBucket, he]
  · intro hne
    have hemp : (bucketAt t b).blocks.isEmpty = false := by
      cases hq : (bucketAt t b).blocks with
      | nil => exact absurd hq hne
      | cons a l => rfl
    have hruns := flushRuns_eq_runs env (bucketAt t b).blocks.length (bucketAt t b).blocks
      ((bucketAt t b).file_stream.getD []) 0 (Nat.le_refl _)
    have hshape : flushBucket env t b =
        ((flushRuns env (bucketAt t b).blocks.length (bucketAt t b).blocks
            ((bucketAt t b).file_stream.getD []) 0).2.2,
          setBucket t b
            { blocks := (flushRuns env (bucketAt t b).blocks.length (bucketAt t b).blocks
                ((bucketAt t b).file_stream.getD []) 0).1
              file_stream := some (flushRuns env (bucketAt t b).blocks.length
                (bucketAt t b).blocks ((bucketAt t b).file_stream.getD []) 0).2.1 }) := by
      simp only [flushBucket, hemp, Bool.false_eq_true, if_false]
    rw [hshape, hruns]
    refine ⟨by simp, bucketAt_setBucket_self t b _ hb,
      fun j hj => bucketAt_setBucket_ne t b j _ (Ne.symm hj), ?_⟩
    obtain ⟨-, ms, h2, h3, -⟩ := flushRuns_spec env (bucketAt t b).blocks.length
      (bucketAt t b).blocks ((bucketAt t b).file_stream.getD []) 0 (Nat.le_refl _)
    rw [hruns] at h2
    rw [List.append_cancel_left h2]
    exact h3

/-- Witness for `flushBucket_writes_runs`: a queue of two blocks tagged 2 and one tagged
1; two merged blocks of 16 and 8 bytes are written. -/
theorem flushBucket_writes_runs_witness :
    (flushBucket calmEnv queuedState 1).1 = 24 ∧
    bucketAt (flushBucket calmEnv queuedState 1).2 1 =
      { blocks := []
        file_stream := some [{ rows := [1, 3], bucket_num := 2 }, { rows := [5], bucket_num := 1 }] } :=
  ⟨((flushBucket_writes_runs calmEnv queuedState 1 (by decide)).2 (by decide)).1,
    ((flushBucket_writes_runs calmEnv queuedState 1 (by decide)).2 (by decide)).2.1⟩

/-- C13 as stated fails on the code: on an empty queue `flushBucket` does not create
the absent stream, and a run without rows is not written although the stream is created. -/
theorem flushBucket_any_queue_counterexample :
    ((bucketAt twoBucketState 1).blocks = [] ∧
      (bucketAt twoBucketState 1).file_stream = none ∧
      (bucketAt (flushBucket calmEnv twoBucketState 1).2 1).file_stream = none) ∧
    (tagRuns (bucketAt zeroRowQueued 1).blocks = [[{ rows := [], bucket_num := 2 }]] ∧
      (bucketAt (flushBucket calmEnv zeroRowQueued 1).2 1).file_stream = some []) := by
  decide

/-! ### A stale tag is treated like no tag -/

theorem tagRuns_flatten : ∀ queue : List (Block ρ), (tagRuns queue).flatten = queue := by
  intro queue
  induction queue with
  | nil => rfl
  | cons block rest ih =>
    simp only [tagRuns]
    cases h : tagRuns rest with
    | nil =>
      rw [h] at ih
      simp only [List.flatten_nil] at ih
      simp [← ih]
    | cons run runs =>
      rw [h] at ih
      simp only []
      split_ifs
      · simp only [List.flatten_cons, List.cons_append] at ih ⊢
        rw [ih]
      · simp only [List.flatten_cons, List.cons_append, List.nil_append] at ih ⊢
        rw [ih]

theorem mergeOneBlock_eq (env : Env ρ σ) (t : Transform ρ σ) (block : Block ρ) :
    mergeOneBlock env t block =
      if block.rows.length = 0 then .ok t
      else
        match beforeRoute env t with
        | .error e => .error e
        | .ok (mem_used, s) =>
          routeBlock env { s with log := s.log ++ [.mergeOnBlock block.rows.length
            (env.bytes block) block.bucket_num s.current_bucket_index (getBucketsNum s)
            mem_used] } block := by
  unfold mergeOneBlock beforeRoute
  split_ifs
  · rfl
  · cases isMemoryOverflow env t with
    | error e => rfl
    | ok r =>
      obtain ⟨o1, t1⟩ := r
      simp only []
      cases isMemoryOverflow env (if o1 = true then flushBuckets env t1 else t1) with
      | error e => rfl
      | ok r2 =>
        obtain ⟨o2, t2⟩ := r2
        simp only []
        cases (if o2 = true then extendAndRehash env t2 else .ok t2 :
          Result ρ σ (Transform ρ σ)) with
        | error e => rfl
        | ok t3 => rfl

theorem addBlock_withLog (l : List LogEvent) (t : Transform ρ σ) (i : Nat) (block : Block ρ) :
    addBlockIntoFileBucket (withLog l t) i block = withLog l (addBlockIntoFileBucket t i block) := by
  unfold addBlockIntoFileBucket
  split_ifs <;> rfl

theorem addScattered_withLog (l : List LogEvent) (parts : List (Block ρ)) :
    ∀ (is : List Nat) (t : Transform ρ σ),
      addScattered parts is (withLog l t) = onState (withLog l) (addScattered parts is t) := by
  intro is
  induction is with
  | nil => exact fun t => rfl
  | cons i is ih =>
    intro t
    simp only [addScattered]
    cases parts[i]? with
    | none => rfl
    | some part =>
      simp only []
      rw [addBlock_withLog, ih]

theorem mergeIntoVariants_withLog (env : Env ρ σ) (l : List LogEvent) (t : Transform ρ σ)
    (block : Block ρ) :
    mergeIntoVariants env (withLog l t) block =
      onState (withLog l) (mergeIntoVariants env t block) := by
  unfold mergeIntoVariants
  have hv : (withLog l t).current_data_variants = t.current_data_variants := rfl
  rw [hv]
  cases t.current_data_variants with
  | none => rfl
  | some v => rfl

theorem routeBlock_withLog (env : Env ρ σ) (l : List LogEvent) (t : Transform ρ σ)
    (block : Block ρ) :
    routeBlock env (withLog l t) block = onState (withLog l) (routeBlock env t block) := by
  unfold routeBlock
  have hB : getBucketsNum (withLog l t) = getBucketsNum t := rfl
  have hs : scatterBlock env (withLog l t) block = scatterBlock env t block := rfl
  have hl : laterBuckets (withLog l t) = laterBuckets t := rfl
  rw [hB, hs, hl]
  split_ifs
  · exact mergeIntoVariants_withLog env l t block
  · simp only []
    rw [addScattered_withLog]
    cases addScattered (scatterBlock env t block) (laterBuckets t) t with
    | error e => rfl
    | ok t2 =>
      simp only [onState]
      have hc : (withLog l t2).current_bucket_index = t2.current_bucket_index := rfl
      rw [hc]
      cases (scatterBlock env t block)[t2.current_bucket_index]? with
      | none => rfl
      | some part => exact mergeIntoVariants_withLog env l t2 part

theorem scatterBlock_untagged (env : Env ρ σ) (t : Transform ρ σ) (block : Block ρ)
    (hsmall : getBucketsNum t < 2 ^ 31)
    (htag : -2 ^ 31 ≤ block.bucket_num ∧ block.bucket_num < 2 ^ 31)
    (hne : block.bucket_num ≠ (getBucketsNum t : Int)) :
    scatterBlock env t block = scatterBlock env t { block with bucket_num := -1 } := by
  have h1 : toSizeT block.bucket_num ≠ getBucketsNum t :=
    toSizeT_ne_of_int32 htag.1 htag.2 hsmall hne
  have h2 : toSizeT (-1) ≠ getBucketsNum t := by
    rw [toSizeT_neg_one]
    omega
  simp only [scatterBlock, if_neg h1, if_neg h2, scatterBlockByHash, List.map_map]
  rfl

/-- The last statement of `mergeOneBlock` treats a block whose tag is not the bucket
count like the same rows without tag, when there is more than one bucket. -/
theorem routeBlock_stale (env : Env ρ σ) (t : Transform ρ σ) (block : Block ρ)
    (hmany : 1 < getBucketsNum t) (hsmall : getBucketsNum t < 2 ^ 31)
    (htag : -2 ^ 31 ≤ block.bucket_num ∧ block.bucket_num < 2 ^ 31)
    (hne : block.bucket_num ≠ (getBucketsNum t : Int)) :
    routeBlock env t block = routeBlock env t { block with bucket_num := -1 } := by
  have h32 := toInt32_of_lt hsmall
  have hc1 : ¬ (block.bucket_num = toInt32 (getBucketsNum t) ∨ getBucketsNum t = 1) := by
    rw [h32]
    rintro (h | h)
    · exact hne h
    · omega
  have hc2 : ¬ (({ block with bucket_num := -1 } : Block ρ).bucket_num
      = toInt32 (getBucketsNum t) ∨ getBucketsNum t = 1) := by
    rw [h32]
    rintro (h | h)
    · have h0 : (-1 : Int) = (getBucketsNum t : Int) := h
      omega
    · omega
  unfold routeBlock
  rw [if_neg hc1, if_neg hc2, scatterBlock_untagged env t block hsmall htag hne]

theorem addScattered_count (parts : List (Block ρ)) : ∀ (is : List Nat) (t : Transform ρ σ),
    getBucketsNum (outcome (addScattered parts is t)) = getBucketsNum t := by
  intro is
  induction is with
  | nil => exact fun t => rfl
  | cons i is ih =>
    intro t
    simp only [addScattered]
    cases parts[i]? with
    | none => rfl
    | some part =>
      simp only []
      rw [ih, getBucketsNum_addBlock]

theorem mergeIntoVariants_count (env : Env ρ σ) (t : Transform ρ σ) (block : Block ρ) :
    getBucketsNum (outcome (mergeIntoVariants env t block)) = getBucketsNum t := by
  unfold mergeIntoVariants
  cases t.current_data_variants with
  | none => rfl
  | some v => rfl

/-- The last statement of `mergeOneBlock` keeps the bucket count, whether it returns or
throws. -/
theorem routeBlock_count (env : Env ρ σ) (t : Transform ρ σ) (block : Block ρ) :
    getBucketsNum (outcome (routeBlock env t block)) = getBucketsNum t := by
  unfold routeBlock
  split_ifs
  · exact mergeIntoVariants_count env t block
  · simp only []
    have hcount := addScattered_count (scatterBlock env t block) (laterBuckets t) t
    cases hadd : addScattered (scatterBlock env t block) (laterBuckets t) t with
    | error e =>
      rw [hadd] at hcount
      exact hcount
    | ok t2 =>
      rw [hadd] at hcount
      simp only [outcome] at hcount
      simp only []
      cases (scatterBlock env t block)[t2.current_bucket_index]? with
      | none => exact hcount
      | some part => rw [mergeIntoVariants_count, hcount]

theorem onState_withLog_nil (l : List LogEvent) (r : Result ρ σ (Transform ρ σ)) :
    withoutLog (onState (withLog l) r) = withoutLog r := by
  cases r with
  | ok t => rfl
  | error e => rfl

theorem isMemoryOverflow_counts (env : Env ρ σ) (t t1 : Transform ρ σ) (b : Bool)
    (h : isMemoryOverflow env t = .ok (b, t1)) :
    flushCount t1.log = flushCount t.log ∧ extendCount t1.log = extendCount t.log ∧
    getBucketsNum t1 = getBucketsNum t := by
  unfold isMemoryOverflow at h
  by_cases hmax : env.max_memory_usage = 0
  · simp only [if_pos hmax, Except.ok.injEq, Prod.mk.injEq] at h
    rw [← h.2]
    exact ⟨rfl, rfl, rfl⟩
  · simp only [if_neg hmax] at h
    cases hv : t.current_data_variants with
    | none =>
      rw [hv] at h
      cases h
    | some variants =>
      rw [hv] at h
      simp only [] at h
      split_ifs at h <;> simp only [Except.ok.injEq, Prod.mk.injEq] at h <;>
        obtain ⟨-, rfl⟩ := h
      · exact ⟨by simp [flushCount_append, flushCount, getMemoryUsage],
          by simp [extendCount_append, extendCount, getMemoryUsage], rfl⟩
      · exact ⟨rfl, rfl, rfl⟩
      · exact ⟨by simp [flushCount_append, flushCount, getMemoryUsage],
          by simp [extendCount_append, extendCount, getMemoryUsage], rfl⟩
      · exact ⟨rfl, rfl, rfl⟩

theorem flushEach_log (env : Env ρ σ) : ∀ (is : List Nat) (t : Transform ρ σ) (n : Nat),
    SameLog t (flushEach env is t n).2 := by
  intro is
  induction is with
  | nil => exact fun t n => ⟨rfl, rfl⟩
  | cons i is ih =>
    intro t n
    simp only [flushEach]
    obtain ⟨bs, hbs, hlen⟩ := flushBucket_buckets env t i
    have h := ih (flushBucket env t i).2 (n + (flushBucket env t i).1)
    refine ⟨h.1.trans (by rw [hbs]), h.2.trans (by rw [hbs]; simp only [getBucketsNum, hlen])⟩

theorem flushBuckets_counts (env : Env ρ σ) (t : Transform ρ σ) :
    flushCount (flushBuckets env t).log = flushCount t.log + 1 ∧
    extendCount (flushBuckets env t).log = extendCount t.log ∧
    getBucketsNum (flushBuckets env t) = getBucketsNum t := by
  have h := flushEach_log env (laterBuckets (getMemoryUsage env t).2) (getMemoryUsage env t).2 0
  have hlog : (flushBuckets env t).log =
      (flushEach env (laterBuckets (getMemoryUsage env t).2) (getMemoryUsage env t).2 0).2.log ++
        [.flush (flushEach env (laterBuckets (getMemoryUsage env t).2)
            (getMemoryUsage env t).2 0).1 (getMemoryUsage env t).1
          (getMemoryUsage env { (flushEach env (laterBuckets (getMemoryUsage env t).2)
            (getMemoryUsage env t).2 0).2 with
            total_spill_disk_bytes := (flushEach env (laterBuckets (getMemoryUsage env t).2)
              (getMemoryUsage env t).2 0).2.total_spill_disk_bytes +
              (flushEach env (laterBuckets (getMemoryUsage env t).2)
                (getMemoryUsage env t).2 0).1 }).1] := rfl
  have hl : (flushEach env (laterBuckets (getMemoryUsage env t).2)
      (getMemoryUsage env t).2 0).2.log = t.log := h.1
  refine ⟨?_, ?_, (flushBuckets_account env t).2.2.2.1⟩
  · rw [hlog, hl, flushCount_append]
    rfl
  · rw [hlog, hl, extendCount_append]
    rfl

theorem addScattered_sameLog (parts : List (Block ρ)) : ∀ (is : List Nat) (t : Transform ρ σ),
    SameLog t (outcome (addScattered parts is t)) := by
  intro is
  induction is with
  | nil => exact fun t => ⟨rfl, rfl⟩
  | cons i is ih =>
    intro t
    simp only [addScattered]
    cases parts[i]? with
    | none => exact ⟨rfl, rfl⟩
    | some part =>
      simp only []
      obtain ⟨bs, hbs, hlen⟩ := addBlock_buckets t i part
      have h := ih (addBlockIntoFileBucket t i part)
      exact ⟨h.1.trans (by rw [hbs]), h.2.trans (by rw [hbs]; simp only [getBucketsNum, hlen])⟩

theorem mergeIntoVariants_sameLog (env : Env ρ σ) (t : Transform ρ σ) (block : Block ρ) :
    SameLog t (outcome (mergeIntoVariants env t block)) := by
  unfold mergeIntoVariants
  cases t.current_data_variants with
  | none => exact ⟨rfl, rfl⟩
  | some v => exact ⟨rfl, rfl⟩

theorem sameLog_trans {a b c : Transform ρ σ} (h1 : SameLog a b) (h2 : SameLog b c) :
    SameLog a c := ⟨h2.1.trans h1.1, h2.2.trans h1.2⟩

theorem scatterStep_sameLog (env : Env ρ σ) (t : Transform ρ σ) (block : Block ρ) :
    SameLog t (outcome ((match addScattered (scatterBlock env t block) (laterBuckets t) t with
      | .error e => .error e
      | .ok t2 =>
        match (scatterBlock env t block)[t2.current_bucket_index]? with
        | none => .error (.outOfBounds, t2)
        | some current => mergeIntoVariants env t2 current) : Result ρ σ (Transform ρ σ))) := by
  have hadd := addScattered_sameLog (scatterBlock env t block) (laterBuckets t) t
  cases h : addScattered (scatterBlock env t block) (laterBuckets t) t with
  | error e =>
    rw [h] at hadd
    exact hadd
  | ok t2 =>
    rw [h] at hadd
    simp only [outcome] at hadd
    simp only []
    cases (scatterBlock env t block)[t2.current_bucket_index]? with
    | none => exact hadd
    | some part => exact sameLog_trans hadd (mergeIntoVariants_sameLog env t2 part)

theorem routeBlock_sameLog (env : Env ρ σ) (t : Transform ρ σ) (block : Block ρ) :
    SameLog t (outcome (routeBlock env t block)) := by
  unfold routeBlock
  split_ifs
  · exact mergeIntoVariants_sameLog env t block
  · exact scatterStep_sameLog env t block

theorem rehashBlocks_sameLog (env : Env ρ σ) : ∀ (blocks : List (Block ρ)) (t : Transform ρ σ),
    SameLog t (outcome (forBlocks (rehashBlock env) blocks t)) := by
  intro blocks
  induction blocks with
  | nil => exact fun t => ⟨rfl, rfl⟩
  | cons block blocks ih =>
    intro t
    simp only [forBlocks]
    have h1 : SameLog t (outcome (rehashBlock env t block)) := scatterStep_sameLog env t block
    cases h : rehashBlock env t block with
    | error e =>
      rw [h] at h1
      exact h1
    | ok t2 =>
      rw [h] at h1
      exact sameLog_trans h1 (ih t2)

theorem rehashDataVariants_sameLog (env : Env ρ σ) (t : Transform ρ σ) :
    SameLog t (outcome (rehashDataVariants env t)) := by
  unfold rehashDataVariants
  cases t.current_data_variants with
  | none => exact ⟨rfl, rfl⟩
  | some v =>
    simp only []
    refine sameLog_trans ?_ (rehashBlocks_sameLog env _ _)
    split_ifs <;> exact ⟨rfl, rfl⟩

theorem extendAndRehash_counts (env : Env ρ σ) (t : Transform ρ σ) :
    (env.max_buckets < getBucketsNum t * 2 →
      extendAndRehash env t = .error (.tooManyBuckets, t)) ∧
    (getBucketsNum t * 2 ≤ env.max_buckets →
      flushCount (outcome (extendAndRehash env t)).log = flushCount t.log ∧
      extendCount (outcome (extendAndRehash env t)).log = extendCount t.log + 1 ∧
      getBucketsNum (outcome (extendAndRehash env t)) = 2 * getBucketsNum t) := by
  unfold extendAndRehash extendBuckets
  constructor
  · intro h
    simp only [gt_iff_lt, if_pos h]
  · intro h
    simp only [gt_iff_lt, if_neg (Nat.not_lt.2 h)]
    have hs := rehashDataVariants_sameLog env { t with
      log := t.log ++ [.extendBuckets (getBucketsNum t) (getBucketsNum t * 2)]
      buckets := t.buckets ++
        (List.range' (getBucketsNum t) (getBucketsNum t * 2 - getBucketsNum t)).map fun _ => {} }
    rw [hs.1, hs.2]
    refine ⟨?_, ?_, ?_⟩
    · rw [flushCount_append]
      rfl
    · rw [extendCount_append]
      rfl
    · simp only [getBucketsNum, List.length_append, List.length_map, List.length_range']
      omega

theorem traceLine_counts (env : Env ρ σ) (t : Transform ρ σ) (block : Block ρ) :
    flushCount (traceLine env t block).log = flushCount t.log ∧
    extendCount (traceLine env t block).log = extendCount t.log ∧
    getBucketsNum (traceLine env t block) = getBucketsNum t := by
  refine ⟨?_, ?_, rfl⟩
  · simp only [traceLine, flushCount_append]
    rfl
  · simp only [traceLine, extendCount_append]
    rfl

/-- C17, as the code has it.  For a block that has rows, with `o1` the first evaluation
of the memory predicate in `mergeOneBlock` and `o2` the second, which is made in every
call on a fresh memory reading (after the flush when there was one): `flushBuckets()` is
called exactly when `o1` is true, and `extendBuckets(); rehashDataVariants();` exactly
when `o2` is true, whether or not there was a flush.  In the log and the bucket count:
one more flush exactly when `o1`; when `o2` and the doubled count is within
`max_buckets`, one more extension and twice the buckets; when `o2` and it is not, the
too-many-buckets exception; when `o2` is false, no extension. -/
theorem escalation_by_each_check (env : Env ρ σ) (t t1 t2 : Transform ρ σ) (block : Block ρ)
    (o1 o2 : Bool) (hrows : block.rows ≠ [])
    (h1 : isMemoryOverflow env t = .ok (o1, t1))
    (h2 : isMemoryOverflow env (if o1 then flushBuckets env t1 else t1) = .ok (o2, t2)) :
    mergeOneBlock env t block =
      (match (if o2 then extendAndRehash env t2 else .ok t2 : Result ρ σ (Transform ρ σ)) with
        | .error e => .error e
        | .ok t3 => routeBlock env (traceLine env t3 block) block) ∧
    flushCount (outcome (mergeOneBlock env t block)).log =
      flushCount t.log + (if o1 then 1 else 0) ∧
    extendCount (outcome (mergeOneBlock env t block)).log =
      extendCount t.log + (if o2 = true ∧ getBucketsNum t * 2 ≤ env.max_buckets then 1 else 0) ∧
    getBucketsNum (outcome (mergeOneBlock env t block)) =
      (if o2 = true ∧ getBucketsNum t * 2 ≤ env.max_buckets then 2 * getBucketsNum t
        else getBucketsNum t) ∧
    (o2 = true → env.max_buckets < getBucketsNum t * 2 →
      mergeOneBlock env t block = .error (.tooManyBuckets, t2)) := by
  have hlen : ¬ block.rows.length = 0 := by simpa using hrows
  have heq : mergeOneBlock env t block =
      (match (if o2 then extendAndRehash env t2 else .ok t2 : Result ρ σ (Transform ρ σ)) with
        | .error e => .error e
        | .ok t3 => routeBlock env (traceLine env t3 block) block) := by
    simp only [mergeOneBlock, if_neg hlen, h1, h2]
    cases (if o2 = true then extendAndRehash env t2 else .ok t2 :
      Result ρ σ (Transform ρ σ)) <;> rfl
  obtain ⟨a1, a2, a3⟩ := isMemoryOverflow_counts env t t1 o1 h1
  obtain ⟨b1, b2, b3⟩ := isMemoryOverflow_counts env _ t2 o2 h2
  have hmid : flushCount t2.log = flushCount t.log + (if o1 then 1 else 0) ∧
      extendCount t2.log = extendCount t.log ∧ getBucketsNum t2 = getBucketsNum t := by
    cases o1 with
    | false =>
      simp only [Bool.false_eq_true, if_false] at b1 b2 b3 ⊢
      exact ⟨b1.trans a1, b2.trans a2, b3.trans a3⟩
    | true =>
      simp only [if_true] at b1 b2 b3 ⊢
      obtain ⟨c1, c2, c3⟩ := flushBuckets_counts env t1
      exact ⟨by rw [b1, c1, a1], by rw [b2, c2, a2], by rw [b3, c3, a3]⟩
  obtain ⟨m1, m2, m3⟩ := hmid
  have hroute : ∀ t3, flushCount (outcome (routeBlock env (traceLine env t3 block) block)).log
        = flushCount t3.log ∧
      extendCount (outcome (routeBlock env (traceLine env t3 block) block)).log
        = extendCount t3.log ∧
      getBucketsNum (outcome (routeBlock env (traceLine env t3 block) block))
        = getBucketsNum t3 := by
    intro t3
    obtain ⟨r1, r2⟩ := routeBlock_sameLog env (traceLine env t3 block) block
    obtain ⟨s1, s2, s3⟩ := traceLine_counts env t3 block
    exact ⟨by rw [r1, s1], by rw [r1, s2], by rw [r2, s3]⟩
  refine ⟨heq, ?_⟩
  rw [heq]
  cases o2 with
  | false =>
    simp only [Bool.false_eq_true, if_false, false_and]
    obtain ⟨r1, r2, r3⟩ := hroute t2
    exact ⟨by rw [r1, m1], by rw [r2, m2]; rfl, by rw [r3, m3], fun h => nomatch h⟩
  | true =>
    simp only [if_true, true_and]
    obtain ⟨e1, e2⟩ := extendAndRehash_counts env t2
    rw [m3] at e1 e2
    by_cases hfit : getBucketsNum t * 2 ≤ env.max_buckets
    · obtain ⟨x1, x2, x3⟩ := e2 hfit
      simp only [if_pos hfit]
      cases hx : extendAndRehash env t2 with
      | error e =>
        rw [hx] at x1 x2 x3
        obtain ⟨er, s⟩ := e
        simp only [outcome] at x1 x2 x3 ⊢
        exact ⟨by rw [x1, m1], by rw [x2, m2], x3, fun _ h => absurd hfit (Nat.not_le.2 h)⟩
      | ok t3 =>
        rw [hx] at x1 x2 x3
        simp only [outcome] at x1 x2 x3
        simp only []
        obtain ⟨r1, r2, r3⟩ := hroute t3
        exact ⟨by rw [r1, x1, m1], by rw [r2, x2, m2], by rw [r3, x3],
          fun _ h => absurd hfit (Nat.not_le.2 h)⟩
    · have hx := e1 (Nat.not_le.1 hfit)
      simp only [if_neg hfit, hx, outcome]
      exact ⟨m1, m2, m3, fun _ _ => trivial⟩

/-- Witness for `escalation_by_each_check`: the first evaluation is false, the second is
true; the call extends the buckets once. -/
theorem escalation_by_each_check_witness :
    extendCount (outcome (mergeOneBlock risingEnv (Transform.init risingEnv)
        { rows := [1, 2] })).log =
      extendCount (Transform.init risingEnv).log +
        (if true = true ∧ getBucketsNum (Transform.init risingEnv) * 2 ≤ risingEnv.max_buckets
          then 1 else 0) :=
  (escalation_by_each_check risingEnv (Transform.init risingEnv) _ _ { rows := [1, 2] }
    false true (by decide) rfl rfl).2.2.1

/-- C17 as stated fails on the code: with a memory reading that rises between the two
evaluations, the first evaluation is false, no flush happens, and the call still
extends the buckets from 1 to 2. -/
theorem extension_without_flush_counterexample :
    (∃ t1, isMemoryOverflow risingEnv (Transform.init risingEnv) = .ok (false, t1)) ∧
    flushCount (outcome (mergeOneBlock risingEnv (Transform.init risingEnv)
      { rows := [1, 2] })).log = 0 ∧
    extendCount (outcome (mergeOneBlock risingEnv (Transform.init risingEnv)
      { rows := [1, 2] })).log = 1 ∧
    getBucketsNum (outcome (mergeOneBlock risingEnv (Transform.init risingEnv)
      { rows := [1, 2] })) = 2 :=
  ⟨⟨_, rfl⟩, by decide, by decide, by decide⟩

/-! ### `rehashDataVariants` on converted blocks that `scatterBlock` does not split -/

/-- C18 fails on the code.  With two buckets, `scatterBlock` returns one block for a
converted block tagged 2 and no block for a converted block without rows, not two
sub-batches; `rehashDataVariants` then indexes past the end.  This is reached in a run:
two chunks into an operator whose memory reading rises before the second. -/
theorem rehash_scatter_out_of_bounds :
    getBucketsNum rehashState = 2 ∧
    (scatterBlock twoLevelEnv rehashState { rows := [2], bucket_num := 2 }).length = 1 ∧
    (scatterBlock hollowEnv rehashState { rows := [] }).length = 0 ∧
    (∃ s, rehashDataVariants twoLevelEnv rehashState = .error (.outOfBounds, s)) ∧
    (∃ s, rehashDataVariants hollowEnv rehashState = .error (.outOfBounds, s)) ∧
    (∃ s, runOperator twoLevelEnv 2 [[2, 4], [6]] = .error (.outOfBounds, s)) ∧
    (∃ s, runOperator hollowEnv 2 [[2, 4], [6]] = .error (.outOfBounds, s)) :=
  ⟨by decide, by decide, by decide, ⟨_, rfl⟩, ⟨_, rfl⟩, ⟨_, rfl⟩, ⟨_, rfl⟩⟩

/-! ### Stored blocks have rows -/

theorem bucketAt_extend (t : Transform ρ σ) (log : List LogEvent) (n i : Nat) :
    bucketAt ({ t with
      log := log
      buckets := t.buckets ++ (List.range' (getBucketsNum t) n).map fun _ => {} } :
        Transform ρ σ) i = bucketAt t i := by
  simp only [bucketAt, List.getD_eq_getElem?_getD]
  by_cases hlt : i < t.buckets.length
  · rw [List.getElem?_append_left hlt]
  · rw [List.getElem?_append_right (Nat.le_of_not_lt hlt),
      List.getElem?_eq_none (Nat.le_of_not_lt hlt)]
    simp only [List.getElem?_map]
    cases (List.range' (getBucketsNum t) n)[i - t.buckets.length]? <;> rfl

theorem mstep_queueClean {env : Env ρ σ} {t t2 : Transform ρ σ} (h : MStep env t t2)
    (hI : QueueClean t) : QueueClean t2 := by
  cases h
  case readMemory => exact hI
  case note e he => exact hI
  case flushBucket i hmem hlo hhi =>
    intro b hb block hblock
    rw [index_flushBucket] at hb
    rw [flushBucket_state] at hblock
    split_ifs at hblock
    · exact hI b hb block hblock
    · by_cases hbi : b = i
      · subst hbi
        rw [bucketAt_setBucket_self t b _ hhi] at hblock
        obtain ⟨ms, -, h2, -⟩ := flushedEntry_spec env (bucketAt t b)
        rw [h2] at hblock
        cases hblock
      · rw [bucketAt_setBucket_ne t i b _ (Ne.symm hbi)] at hblock
        exact hI b hb block hblock
  case spilled n hmem => exact hI
  case flushLogged a b c hmem => exact hI
  case extend hmem hle =>
    intro b hb block hblock
    rw [bucketAt_extend] at hblock
    exact hI b hb block hblock
  case perKey q hmem => exact hI
  case variants v k => exact hI
  case addBlock i blk hlo hhi =>
    intro b hb block hblock
    rw [index_addBlock] at hb
    rw [bucketAt_addBlock t i _ hhi b] at hblock
    split_ifs at hblock with hc
    · simp only [List.mem_append, List.mem_singleton] at hblock
      rcases hblock with hblock | hblock
      · exact hI b hb block hblock
      · rw [hblock]
        intro h0
        exact hc.2 (by rw [h0]; rfl)
    · exact hI b hb block hblock

theorem dstep_queueClean {env : Env ρ σ} {t t2 : Transform ρ σ} (h : DStep env t t2)
    (hI : QueueClean t) : QueueClean t2 := by
  cases h
  case inner hm => exact mstep_queueClean hm hI
  case releaseStream =>
    intro b hb block hblock
    have hb2 : t.current_bucket_index < b := hb
    rw [bucketAt_setBucket_ne t _ b _ (by omega)] at hblock
    exact hI b hb2 block hblock
  case blankBlock =>
    intro b hb block hblock
    have hb2 : t.current_bucket_index < b := hb
    rw [blankBlock, bucketAt_setBucket_ne t _ b _ (by omega)] at hblock
    exact hI b hb2 block hblock

theorem dsteps_queueClean {env : Env ρ σ} {t t2 : Transform ρ σ} (h : DSteps env t t2)
    (h1 : QueueClean t) (h2 : AllClean t) : QueueClean t2 ∧ AllClean t2 := by
  induction h with
  | refl => exact ⟨h1, h2⟩
  | tail _ hstep ih => exact ⟨dstep_queueClean hstep ih.1, dstep_allClean hstep ih.2⟩

theorem dstep_bucket_lt {env : Env ρ σ} {t t2 : Transform ρ σ} (h : DStep env t t2)
    (i : Nat) (hi : i < t.current_bucket_index) : bucketAt t2 i = bucketAt t i := by
  cases h
  case inner hm => exact mstep_bucket_le hm i (Nat.le_of_lt hi)
  case releaseStream => exact bucketAt_setBucket_ne t _ i _ (by omega)
  case blankBlock => exact bucketAt_setBucket_ne t _ i _ (by omega)

theorem dsteps_bucket_lt {env : Env ρ σ} {t t2 : Transform ρ σ} (h : DSteps env t t2)
    (i : Nat) (hi : i < t.current_bucket_index) : bucketAt t2 i = bucketAt t i := by
  induction h with
  | refl => rfl
  | tail hsteps hstep ih =>
    rw [dstep_bucket_lt hstep i (by rw [(dsteps_sameControl hsteps).1]; exact hi), ih]

theorem replayStream_released (env : Env ρ σ) (t t1 : Transform ρ σ) (rb rr : Nat)
    (h : replayStream env t = .ok (t1, rb, rr))
    (hc : t.current_bucket_index < getBucketsNum t) :
    (bucketAt t1 t.current_bucket_index).file_stream = none ∧
    t1.current_bucket_index = t.current_bucket_index ∧ getBucketsNum t ≤ getBucketsNum t1 := by
  unfold replayStream at h
  simp only [] at h
  cases hs : (bucketAt t t.current_bucket_index).file_stream with
  | none =>
    rw [hs] at h
    simp only [Except.ok.injEq, Prod.mk.injEq] at h
    rw [← h.1]
    exact ⟨hs, rfl, Nat.le_refl _⟩
  | some written =>
    rw [hs] at h
    simp only [] at h
    have hsteps := forBlocks_steps env (mergeOneBlock env) (mergeOneBlock_steps env)
      (readStream written) t
    cases hf : forBlocks (mergeOneBlock env) (readStream written) t with
    | error e =>
      rw [hf] at h
      cases h
    | ok t2 =>
      rw [hf] at h hsteps
      simp only [Except.ok.injEq, Prod.mk.injEq] at h
      simp only [outcome] at hsteps
      have hsc := msteps_sameControl hsteps
      have hlt : t.current_bucket_index < getBucketsNum t2 :=
        Nat.lt_of_lt_of_le hc hsc.2.2.2.2.2.2.2.2
      rw [← h.1]
      refine ⟨?_, hsc.1, by rw [getBucketsNum_setBucket]; exact hsc.2.2.2.2.2.2.2.2⟩
      rw [bucketAt_setBucket_self t2 _ _ hlt]

theorem set_length_append {α : Type} (done : List α) (x y : α) (rest : List α) :
    (done ++ x :: rest).set done.length y = done ++ y :: rest := by
  induction done with
  | nil => rfl
  | cons a done ih => simp [List.set, ih]

/-- The replay loop of the queue leaves the blocks before position `i` alone and every
block from position `i` on reset; it does not touch the stream of the bucket. -/
theorem replayBlocks_queue (env : Env ρ σ) (index : Nat) :
    ∀ (blocks : List (Block ρ)) (i : Nat) (t t1 : Transform ρ σ) (done : List (Block ρ)),
      t.current_bucket_index = index → index < getBucketsNum t →
      (bucketAt t index).blocks = done ++ blocks → done.length = i →
      replayBlocks env index i blocks t = .ok t1 →
      (bucketAt t1 index).blocks = done ++ blocks.map (fun _ => { rows := [] }) ∧
      (bucketAt t1 index).file_stream = (bucketAt t index).file_stream ∧
      t1.current_bucket_index = index := by
  intro blocks
  induction blocks with
  | nil =>
    intro i t t1 done hidx _ hq _ h
    simp only [replayBlocks, Except.ok.injEq] at h
    rw [← h]
    exact ⟨by simpa using hq, rfl, hidx⟩
  | cons block blocks ih =>
    intro i t t1 done hidx hlt hq hlen h
    have hsteps := mergeOneBlock_steps env t block
    simp only [replayBlocks] at h
    cases hm : mergeOneBlock env t block with
    | error e =>
      rw [hm] at h
      cases h
    | ok t2 =>
      rw [hm] at h hsteps
      simp only [outcome] at hsteps
      simp only [] at h
      have hsc := msteps_sameControl hsteps
      have hc2 : t2.current_bucket_index = index := hsc.1.trans hidx
      have hlt2 : index < getBucketsNum t2 := Nat.lt_of_lt_of_le hlt hsc.2.2.2.2.2.2.2.2
      have hsame : bucketAt t2 index = bucketAt t index :=
        msteps_bucket_le hsteps index (by rw [hidx])
      have hat : bucketAt (blankBlock t2 index i) index =
          { bucketAt t2 index with blocks := (bucketAt t2 index).blocks.set i { rows := [] } } :=
        bucketAt_setBucket_self t2 index _ hlt2
      have hq2 : (bucketAt (blankBlock t2 index i) index).blocks
          = (done ++ [{ rows := [] }]) ++ blocks := by
        rw [hat]
        show (bucketAt t2 index).blocks.set i { rows := [] } = _
        rw [hsame, hq, ← hlen, set_length_append]
        simp
      obtain ⟨r1, r2, r3⟩ := ih (i + 1) (blankBlock t2 index i) t1 (done ++ [{ rows := [] }])
        hc2 (by rw [blankBlock, getBucketsNum_setBucket]; exact hlt2) hq2
        (by simp [hlen]) h
      refine ⟨by rw [r1]; simp, ?_, r3⟩
      rw [r2, hat]
      show (bucketAt t2 index).file_stream = _
      rw [hsame]

theorem replayQueue_reset (env : Env ρ σ) (t t1 : Transform ρ σ)
    (h : replayQueue env t = .ok t1) (hc : t.current_bucket_index < getBucketsNum t) :
    (bucketAt t1 t.current_bucket_index).file_stream =
      (bucketAt t t.current_bucket_index).file_stream ∧
    (∀ block ∈ (bucketAt t1 t.current_bucket_index).blocks,
      block.rows = [] ∧ block.bucket_num = -1) ∧
    t1.current_bucket_index = t.current_bucket_index := by
  obtain ⟨r1, r2, r3⟩ := replayBlocks_queue env t.current_bucket_index
    (bucketAt t t.current_bucket_index).blocks 0 t t1 [] rfl hc rfl rfl h
  refine ⟨r2, ?_, r3⟩
  intro block hb
  rw [r1] at hb
  simp only [List.nil_append, List.mem_map] at hb
  obtain ⟨_, _, rfl⟩ := hb
  exact ⟨rfl, rfl⟩

/-- When `prepareBucketOutputBlocks` returns, the current bucket is drained: its stream
is released and its queue holds only emptied blocks; the rest is a sequence of state
changes of the merge and replay code followed by the final conversion. -/
theorem prepareBucketOutputBlocks_drains (env : Env ρ σ) (t t1 : Transform ρ σ)
    (h : prepareBucketOutputBlocks env t = .ok t1)
    (hc : t.current_bucket_index < getBucketsNum t) :
    ∃ tm, DSteps env t tm ∧ t1.buckets = tm.buckets ∧
      t1.current_bucket_index = t.current_bucket_index ∧
      extendCount t1.log = extendCount tm.log ∧
      (bucketAt t1 t.current_bucket_index).file_stream = none ∧
      ∀ block ∈ (bucketAt t1 t.current_bucket_index).blocks,
        block.rows = [] ∧ block.bucket_num = -1 := by
  obtain ⟨tm, hsteps, hr⟩ := prepareBucketOutputBlocks_steps env t
  rcases hr with ⟨e, he⟩ | ⟨v, rb, rr, hok⟩
  · rw [h] at he
    cases he
  rw [h] at hok
  simp only [Except.ok.injEq] at hok
  have hsc := dsteps_sameControl hsteps
  have hshape : (bucketAt t1 t.current_bucket_index).file_stream = none ∧
      ∀ block ∈ (bucketAt t1 t.current_bucket_index).blocks,
        block.rows = [] ∧ block.bucket_num = -1 := by
    unfold prepareBucketOutputBlocks at h
    simp only [] at h
    have h0 : ∃ t0 : Transform ρ σ, (if t.current_data_variants.isNone then
        { t with current_data_variants := some env.emptyVariants, no_more_keys := false }
      else t) = t0 ∧ t0.current_bucket_index = t.current_bucket_index ∧
        getBucketsNum t0 = getBucketsNum t := by
      refine ⟨_, rfl, ?_, ?_⟩ <;> split_ifs <;> rfl
    obtain ⟨t0, ht0, hc0, hB0⟩ := h0
    rw [ht0] at h
    cases hrs : replayStream env t0 with
    | error e =>
      rw [hrs] at h
      cases h
    | ok r =>
      obtain ⟨t2, rb2, rr2⟩ := r
      rw [hrs] at h
      simp only [] at h
      obtain ⟨a1, a2, a3⟩ := replayStream_released env t0 t2 rb2 rr2 hrs (by rw [hc0, hB0]; exact hc)
      cases hrq : replayQueue env t2 with
      | error e =>
        rw [hrq] at h
        cases h
      | ok t3 =>
        rw [hrq] at h
        simp only [] at h
        obtain ⟨b1, b2, b3⟩ := replayQueue_reset env t2 t3 hrq (by rw [a2, hc0]; omega)
        rw [a2, hc0] at b1 b2
        rw [hc0] at a1
        have hat : bucketAt t1 t.current_bucket_index = bucketAt t3 t.current_bucket_index := by
          split at h
          · cases h
          · simp only [Except.ok.injEq] at h
            rw [← h]
            rfl
        rw [hat]
        exact ⟨b1.trans a1, b2⟩
  refine ⟨tm, hsteps, by rw [hok], by rw [hok]; exact hsc.1, ?_, hshape⟩
  rw [hok]
  simp only [extendCount_append]
  rfl

theorem rowsInv_of_same {t t2 : Transform ρ σ} (h : RowsInv t)
    (hb : t2.buckets = t.buckets)
    (hc : t2.current_bucket_index = t.current_bucket_index) : RowsInv t2 := by
  have hat : ∀ j, bucketAt t2 j = bucketAt t j := fun j => by simp only [bucketAt, hb]
  refine ⟨?_, ?_, ?_, ?_⟩
  · rw [hc]
    simp only [getBucketsNum, hb]
    exact h.index
  · intro e he
    rw [hb] at he
    exact h.clean e he
  · intro b hle block hblock
    rw [hat] at hblock
    exact h.queues b (by rw [← hc]; exact hle) block hblock
  · intro b hlt
    rw [hat]
    exact h.drained b (by rw [← hc]; exact hlt)

theorem init_rowsInv (env : Env ρ σ) : RowsInv (Transform.init env) := by
  have hat : ∀ b, (bucketAt (Transform.init env) b).blocks = [] := by
    intro b
    cases b with
    | zero => rfl
    | succ n => rfl
  refine ⟨Nat.zero_le _, ?_, ?_, ?_⟩
  · intro entry he
    simp only [Transform.init, List.mem_singleton] at he
    rw [he]
    intro block hb
    cases hb
  · intro b _ block hblock
    rw [hat] at hblock
    cases hblock
  · intro b hb
    exact absurd hb (Nat.not_lt_zero _)

/-- A `work()` call that returns keeps the invariant of the stored blocks. -/
theorem work_rowsInv (env : Env ρ σ) (t t2 : Transform ρ σ) (hI : RowsInv t)
    (hw : work env t = .ok t2) : RowsInv t2 := by
  unfold work at hw
  by_cases hin : t.has_input = true
  · simp only [if_pos hin] at hw
    split_ifs at hw
    have hsteps := mergeOneBlock_steps env { t with input_chunk := [] } { rows := t.input_chunk }
    cases hm : mergeOneBlock env { t with input_chunk := [] } { rows := t.input_chunk } with
    | error e =>
      rw [hm] at hw
      cases hw
    | ok tm =>
      rw [hm] at hw hsteps
      simp only [Except.ok.injEq] at hw
      simp only [outcome] at hsteps
      have hsc := msteps_sameControl hsteps
      have hq := dsteps_queueClean (msteps_toDSteps hsteps)
        (fun b hb block hblock => hI.queues b (Nat.le_of_lt hb) block hblock)
        (fun e he => hI.clean e he)
      have hkeep : ∀ i, i ≤ t.current_bucket_index → bucketAt tm i = bucketAt t i :=
        fun i hi => msteps_bucket_le hsteps i hi
      have hc : tm.current_bucket_index = t.current_bucket_index := hsc.1
      have hmid : RowsInv tm := by
        refine ⟨?_, hq.2, ?_, ?_⟩
        · rw [hc]
          exact Nat.le_trans hI.index hsc.2.2.2.2.2.2.2.2
        · intro b hle block hblock
          rw [hc] at hle
          by_cases hbc : b = t.current_bucket_index
          · rw [hbc, hkeep _ (Nat.le_refl _)] at hblock
            exact hI.queues _ (Nat.le_refl _) block hblock
          · exact hq.1 b (by rw [hc]; omega) block hblock
        · intro b hlt
          rw [hc] at hlt
          rw [hkeep b (Nat.le_of_lt hlt)]
          exact hI.drained b hlt
      rw [← hw]
      exact rowsInv_of_same hmid rfl rfl
  · simp only [if_neg hin] at hw
    split_ifs at hw with h1 h2 h3
    · simp only [Except.ok.injEq] at hw
      rw [← hw]
      exact hI
    · have hc : t.current_bucket_index < getBucketsNum t := Nat.not_le.1 h3
      cases hp : prepareBucketOutputBlocks env t with
      | error e =>
        rw [hp] at hw
        cases hw
      | ok t1 =>
        rw [hp] at hw
        simp only [Except.ok.injEq] at hw
        obtain ⟨tm, hsteps, hb, hi, -, hnone, hreset⟩ :=
          prepareBucketOutputBlocks_drains env t t1 hp hc
        have hsc := dsteps_sameControl hsteps
        have hq := dsteps_queueClean hsteps
          (fun b hb block hblock => hI.queues b (Nat.le_of_lt hb) block hblock)
          (fun e he => hI.clean e he)
        have hat : ∀ j, bucketAt t1 j = bucketAt tm j := fun j => by simp only [bucketAt, hb]
        have hframe := popFrom_frame ({ t1 with
          current_bucket_index := t1.current_bucket_index + 1
          current_data_variants := none } : Transform ρ σ) t1.current_final_blocks
        have hnext : RowsInv ({ t1 with
            current_bucket_index := t1.current_bucket_index + 1
            current_data_variants := none } : Transform ρ σ) := by
          refine ⟨?_, ?_, ?_, ?_⟩
          · have h1 : t1.current_bucket_index + 1 ≤ getBucketsNum t1 := by
              rw [hi]
              simp only [getBucketsNum, hb]
              exact Nat.lt_of_lt_of_le hc hsc.2.2.2.2.2.2.2.2
            exact h1
          · intro e he
            have he2 : e ∈ t1.buckets := he
            rw [hb] at he2
            exact hq.2 e he2
          · intro b hle block hblock
            have hle2 : t1.current_bucket_index + 1 ≤ b := hle
            have hblock2 : block ∈ (bucketAt t1 b).blocks := hblock
            rw [hat] at hblock2
            exact hq.1 b (by rw [hsc.1, ← hi]; omega) block hblock2
          · intro b hlt
            have hlt2 : b < t1.current_bucket_index + 1 := hlt
            have hgoal : (bucketAt t1 b).file_stream = none ∧
                ∀ block ∈ (bucketAt t1 b).blocks, block.rows = [] ∧ block.bucket_num = -1 := by
              by_cases hbc : b = t.current_bucket_index
              · rw [hbc]
                exact ⟨hnone, hreset⟩
              · have hlt3 : b < t.current_bucket_index := by
                  rw [hi] at hlt2
                  omega
                rw [hat, dsteps_bucket_lt hsteps b hlt3]
                exact hI.drained b hlt3
            exact hgoal
        rw [← hw]
        exact rowsInv_of_same hnext hframe.1 hframe.2.2
    · simp only [Except.ok.injEq] at hw
      have hframe := popFrom_frame t t.current_final_blocks
      rw [← hw]
      exact rowsInv_of_same hI hframe.1 hframe.2.2

theorem live_rowsInv {env : Env ρ σ} {t : Transform ρ σ} (h : Live env t) : RowsInv t := by
  induction h with
  | init => exact init_rowsInv env
  | prepare t input output _ ih =>
    exact rowsInv_of_same ih (prepare_frame t input output).1 (prepare_frame t input output).2.2
  | work t t2 _ hw ih => exact work_rowsInv env t t2 ih hw

theorem drainedExample_live : Live risingEnv drainedExample :=
  Live.work risingPushed drainedExample
    (Live.prepare risingFirstDone finishedInput { OutputPort.start with can_push := true }
      (Live.work risingEnded risingFirstDone
        (Live.prepare risingMerged finishedInput OutputPort.start
          (Live.work risingTaken risingMerged
            (Live.prepare (Transform.init risingEnv)
              { finished := false, data := some [1, 2], needed := false, closed := false }
              OutputPort.start Live.init)
            rfl))
        rfl))
    rfl

/-- C19, as the code has it.  In every state reachable by `prepare()` and by `work()`
calls that return: every block queued for the current bucket or a later one has rows;
every block written to the stream of any bucket has rows, so reading a stream until the
first block without rows reads all that was written; and every bucket before the
current one is drained, its stream released and its queue holding only the emptied
blocks that the replay loop leaves in place. -/
theorem stored_batches_have_rows (env : Env ρ σ) (t : Transform ρ σ) (h : Live env t) :
    (∀ b, t.current_bucket_index ≤ b → ∀ block ∈ (bucketAt t b).blocks, block.rows ≠ []) ∧
    (∀ b, ∀ block ∈ (bucketAt t b).file_stream.getD [], block.rows ≠ []) ∧
    (∀ b written, (bucketAt t b).file_stream = some written → readStream written = written) ∧
    (∀ b, b < t.current_bucket_index → (bucketAt t b).file_stream = none ∧
      ∀ block ∈ (bucketAt t b).blocks, block.rows = []) := by
  have hI := live_rowsInv h
  refine ⟨hI.queues, fun b => cleanStream_bucketAt hI.clean b, ?_, ?_⟩
  · intro b written hs
    apply readStream_of_clean
    intro block hb
    exact cleanStream_bucketAt hI.clean b block (by rw [hs]; exact hb)
  · intro b hb
    exact ⟨(hI.drained b hb).1, fun block hblock => ((hI.drained b hb).2 block hblock).1⟩

set_option maxRecDepth 16384 in
/-- Witness for `stored_batches_have_rows`: the state after bucket 1 of the run of
`risingEnv` was finished. -/
theorem stored_batches_have_rows_witness :
    (bucketAt drainedExample 1).file_stream = none ∧
      ∀ block ∈ (bucketAt drainedExample 1).blocks, block.rows = [] :=
  (stored_batches_have_rows risingEnv drainedExample drainedExample_live).2.2.2 1 (by decide)

set_option maxRecDepth 16384 in
/-- C19 as stated fails on the code: after bucket 1 was finished, its queue still holds
the block that was replayed, emptied by `block = {}`. -/
theorem drained_queue_holds_empty_block :
    Live risingEnv drainedExample ∧
    (bucketAt risingPushed 1).blocks = [{ rows := [1], bucket_num := 2 }] ∧
    (bucketAt drainedExample 1).blocks = [{ rows := [] }] :=
  ⟨drainedExample_live, rfl, rfl⟩

/-! ### The tags of the stored blocks -/

theorem storedBlocks_default (b : Nat) (t : Transform ρ σ) (h : getBucketsNum t ≤ b) :
    storedBlocks (bucketAt t b) = [] := by
  have hnone : t.buckets[b]? = none := List.getElem?_eq_none (by simpa [getBucketsNum] using h)
  simp [bucketAt, List.getD_eq_getElem?_getD, hnone, storedBlocks]

theorem sound_bucketAt {env : Env ρ σ} {t : Transform ρ σ} (h : PartitionSound env t)
    (b : Nat) (hb : t.current_bucket_index < b) :
    ∀ block ∈ storedBlocks (bucketAt t b), SoundBlock env (getBucketsNum t) b block := by
  intro block hblock
  by_cases hlt : b < getBucketsNum t
  · have hget : t.buckets[b]? = some (t.buckets[b]) :=
      List.getElem?_eq_getElem (by simpa [getBucketsNum] using hlt)
    rw [bucketAt_of_getElem? hget] at hblock
    exact h b _ hb hget block hblock
  · rw [storedBlocks_default b t (Nat.le_of_not_lt hlt)] at hblock
    cases hblock

theorem partitionSound_of_tagInv {env : Env ρ σ} {t : Transform ρ σ} (h : TagInv env t) :
    PartitionSound env t := by
  intro b entry hb hget block hblock
  rw [← bucketAt_of_getElem? hget] at hblock
  exact h.sound b (Nat.le_of_lt hb) block hblock

theorem bucketsNum_dvd {env : Env ρ σ} {t t2 : Transform ρ σ} (h1 : BucketCountOk env t)
    (h2 : BucketCountOk env t2) (hle : getBucketsNum t ≤ getBucketsNum t2) :
    getBucketsNum t ∣ getBucketsNum t2 := by
  rw [h1.1, h2.1] at hle ⊢
  exact Nat.pow_dvd_pow 2 ((Nat.pow_le_pow_iff_right (by decide)).1 hle)

theorem tagInv_of_same {env : Env ρ σ} {t t2 : Transform ρ σ} (h : TagInv env t)
    (hb : t2.buckets = t.buckets)
    (hc : t2.current_bucket_index = t.current_bucket_index)
    (hl : extendCount t2.log = extendCount t.log) : TagInv env t2 := by
  have hat : ∀ j, bucketAt t2 j = bucketAt t j := fun j => by simp only [bucketAt, hb]
  have hB : getBucketsNum t2 = getBucketsNum t := by simp only [getBucketsNum, hb]
  refine ⟨bucketCountOk_of_same h.count (by rw [hb]) hl, ?_⟩
  intro b hle block hblock
  rw [hat] at hblock
  rw [hB]
  exact h.sound b (by rw [← hc]; exact hle) block hblock

theorem init_tagInv (env : Env ρ σ) : TagInv env (Transform.init env) := by
  refine ⟨init_bucketCountOk env, ?_⟩
  intro b _ block hblock
  have hat : storedBlocks (bucketAt (Transform.init env) b) = [] := by
    cases b with
    | zero => rfl
    | succ n => rfl
  rw [hat] at hblock
  cases hblock

/-- A `work()` call that returns keeps the invariant of the tags. -/
theorem work_tagInv {env : Env ρ σ} (hmax : env.max_buckets < 2 ^ 31) (t t2 : Transform ρ σ)
    (hI : TagInv env t) (hR : RowsInv t) (hw : work env t = .ok t2) : TagInv env t2 := by
  unfold work at hw
  by_cases hin : t.has_input = true
  · simp only [if_pos hin] at hw
    split_ifs at hw
    have hsteps := mergeOneBlock_steps env { t with input_chunk := [] } { rows := t.input_chunk }
    cases hm : mergeOneBlock env { t with input_chunk := [] } { rows := t.input_chunk } with
    | error e =>
      rw [hm] at hw
      cases hw
    | ok tm =>
      rw [hm] at hw hsteps
      simp only [Except.ok.injEq] at hw
      simp only [outcome] at hsteps
      have hsc := msteps_sameControl hsteps
      have hinv := dsteps_invariants hmax (msteps_toDSteps hsteps)
        (bucketCountOk_of_same hI.count rfl rfl)
        (partitionSound_of_same (partitionSound_of_tagInv hI) rfl (Nat.le_refl _))
        (fun e he => hR.clean e he)
      have hc : tm.current_bucket_index = t.current_bucket_index := hsc.1
      have hdvd : getBucketsNum t ∣ getBucketsNum tm :=
        bucketsNum_dvd hI.count hinv.1 hsc.2.2.2.2.2.2.2.2
      have hmid : TagInv env tm := by
        refine ⟨hinv.1, ?_⟩
        intro b hle block hblock
        rw [hc] at hle
        by_cases hbc : b = t.current_bucket_index
        · rw [hbc, msteps_bucket_le hsteps _ (Nat.le_refl _)] at hblock
          rw [hbc]
          exact soundBlock_mono (hI.sound _ (Nat.le_refl _) block hblock) hdvd
        · exact sound_bucketAt hinv.2.1 b (by rw [hc]; omega) block hblock
      rw [← hw]
      exact tagInv_of_same hmid rfl rfl rfl
  · simp only [if_neg hin] at hw
    split_ifs at hw with h1 h2 h3
    · simp only [Except.ok.injEq] at hw
      rw [← hw]
      exact hI
    · have hc : t.current_bucket_index < getBucketsNum t := Nat.not_le.1 h3
      cases hp : prepareBucketOutputBlocks env t with
      | error e =>
        rw [hp] at hw
        cases hw
      | ok t1 =>
        rw [hp] at hw
        simp only [Except.ok.injEq] at hw
        obtain ⟨tm, hsteps, hb, hi, hl, -, -⟩ :=
          prepareBucketOutputBlocks_drains env t t1 hp hc
        have hsc := dsteps_sameControl hsteps
        have hinv := dsteps_invariants hmax hsteps hI.count (partitionSound_of_tagInv hI)
          hR.clean
        have hat : ∀ j, bucketAt t1 j = bucketAt tm j := fun j => by simp only [bucketAt, hb]
        have hB : getBucketsNum t1 = getBucketsNum tm := by simp only [getBucketsNum, hb]
        have hframe := popFrom_frame ({ t1 with
          current_bucket_index := t1.current_bucket_index + 1
          current_data_variants := none } : Transform ρ σ) t1.current_final_blocks
        have hnext : TagInv env ({ t1 with
            current_bucket_index := t1.current_bucket_index + 1
            current_data_variants := none } : Transform ρ σ) := by
          refine ⟨bucketCountOk_of_same hinv.1 (by rw [← hb]) hl, ?_⟩
          intro b hle block hblock
          have hle2 : t1.current_bucket_index + 1 ≤ b := hle
          have hblock2 : block ∈ storedBlocks (bucketAt t1 b) := hblock
          rw [hat] at hblock2
          have hs := sound_bucketAt hinv.2.1 b (by rw [hsc.1, ← hi]; omega) block hblock2
          rw [← hB] at hs
          exact hs
        rw [← hw]
        exact tagInv_of_same hnext hframe.1 hframe.2.2 (by rw [popOneChunk, hframe.2.1])
    · simp only [Except.ok.injEq] at hw
      have hframe := popFrom_frame t t.current_final_blocks
      rw [← hw]
      exact tagInv_of_same hI hframe.1 hframe.2.2 (by rw [popOneChunk, hframe.2.1])

theorem live_tagInv {env : Env ρ σ} (hmax : env.max_buckets < 2 ^ 31) {t : Transform ρ σ}
    (h : Live env t) : TagInv env t := by
  induction h with
  | init => exact init_tagInv env
  | prepare t input output _ ih =>
    exact tagInv_of_same ih (prepare_frame t input output).1 (prepare_frame t input output).2.2
      (by rw [(prepare_frame t input output).2.1])
  | work t t2 hl hw ih => exact work_tagInv hmax t t2 ih (live_rowsInv hl) hw

theorem tagRuns_uniform : ∀ (queue : List (Block ρ)) (run : List (Block ρ)),
    run ∈ tagRuns queue → run ≠ [] ∧ ∀ x ∈ run, x.bucket_num = (mergedRun run).bucket_num := by
  intro queue
  induction queue with
  | nil =>
    intro run hrun
    simp [tagRuns] at hrun
  | cons block rest ih =>
    intro run hrun
    simp only [tagRuns] at hrun
    cases hrest : tagRuns rest with
    | nil =>
      rw [hrest] at hrun
      simp only [List.mem_singleton] at hrun
      rw [hrun]
      exact ⟨by simp, fun x hx => by rw [List.mem_singleton.1 hx]; rfl⟩
    | cons r rs =>
      rw [hrest] at hrun ih
      simp only [] at hrun
      obtain ⟨hr1, hr2⟩ := ih r (List.mem_cons_self _ _)
      split_ifs at hrun with htag
      · rcases List.mem_cons.1 hrun with h | h
        · rw [h]
          refine ⟨by simp, ?_⟩
          intro x hx
          rcases List.mem_cons.1 hx with hx | hx
          · rw [hx]
            rfl
          · rw [hr2 x hx]
            cases r with
            | nil => exact absurd rfl hr1
            | cons a l =>
              simp only [List.head?_cons, Option.map_some', Option.some.injEq] at htag
              simpa [mergedRun] using htag
        · exact ih run (List.mem_cons_of_mem _ h)
      · rcases List.mem_cons.1 hrun with h | h
        · rw [h]
          exact ⟨by simp, fun x hx => by rw [List.mem_singleton.1 hx]; rfl⟩
        · exact ih run h

theorem live_steps {env : Env ρ σ} {t : Transform ρ σ} (h : Live env t) :
    TSteps env (Transform.init env) t := by
  induction h with
  | init => exact Relation.ReflTransGen.refl
  | prepare t input output _ ih => exact ih.tail (TStep.prepare t input output)
  | work t t2 _ hw ih =>
    have := work_steps env t
    rw [hw] at this
    exact ih.trans this

theorem popFrom_length (t : Transform ρ σ) (blocks : List (Block ρ)) (hne : blocks ≠ []) :
    (popFrom t blocks).current_final_blocks.length < blocks.length := by
  induction blocks with
  | nil => exact absurd rfl hne
  | cons block rest ih =>
    by_cases h0 : block.rows.length = 0
    · simp only [popFrom, if_pos h0, List.length_cons]
      cases rest with
      | nil => simp [popFrom]
      | cons a l =>
        have := ih (by simp)
        omega
    · simp only [popFrom, if_neg h0, List.length_cons]
      omega

theorem prepare_closed (t : Transform ρ σ) (input : InputPort ρ) (output : OutputPort ρ)
    (hfin : output.finished = true) :
    prepare t input output = (.Finished, t, { input with closed := true }, output) := by
  simp [prepare, hfin]

theorem prepare_ready_drain (t : Transform ρ σ) (input : InputPort ρ) (output : OutputPort ρ)
    (hfin : output.finished = false) (hout : t.has_output = false)
    (hin : t.has_input = false) (hdone : t.input_finished = true)
    (hmore : t.current_bucket_index < getBucketsNum t ∨ t.current_final_blocks ≠ []) :
    prepare t input output = (.Ready, t, input, output) := by
  have hcond : ¬ (t.current_bucket_index ≥ getBucketsNum t ∧
      t.current_final_blocks.isEmpty = true) := by
    rintro ⟨h1, h2⟩
    rcases hmore with h | h
    · omega
    · exact h (List.isEmpty_iff.1 h2)
  simp only [prepare, hfin, hout, hin, hdone]
  simp only [if_neg hcond]
  simp

/-- In the drain phase, a `prepare()` that returns `Ready` has left the state as it was,
nothing waits to be pushed, and a bucket or a final block is left. -/
theorem prepare_ready_inv (t : Transform ρ σ) (input : InputPort ρ) (output : OutputPort ρ)
    (hin : t.has_input = false) (hdone : t.input_finished = true)
    (hready : (prepare t input output).1 = .Ready) :
    (prepare t input output).2.1 = t ∧ t.has_output = false ∧
    (t.current_bucket_index < getBucketsNum t ∨ t.current_final_blocks ≠ []) := by
  by_cases hfin : output.finished = true
  · rw [prepare_closed t input output hfin] at hready
    cases hready
  · have hfin2 : output.finished = false := by simpa using hfin
    cases hout : t.has_output with
    | true =>
      exfalso
      simp only [prepare, hfin2, hout] at hready
      split_ifs at hready
    | false =>
      by_cases hmore : t.current_bucket_index < getBucketsNum t ∨ t.current_final_blocks ≠ []
      · rw [prepare_ready_drain t input output hfin2 hout hin hdone hmore]
        exact ⟨rfl, rfl, hmore⟩
      · exfalso
        have h1 : getBucketsNum t ≤ t.current_bucket_index := by
          by_contra h
          exact hmore (Or.inl (Nat.not_le.1 h))
        have h2 : t.current_final_blocks = [] := by
          by_contra h
          exact hmore (Or.inr h)
        rw [prepare_finish t input output hfin2 hout hin hdone h1 h2] at hready
        cases hready

/-- A `work()` call in the drain phase keeps the phase. -/
theorem work_drain_flags (env : Env ρ σ) (t t2 : Transform ρ σ) (hin : t.has_input = false)
    (hw : work env t = .ok t2) :
    t2.has_input = false ∧ t2.input_finished = t.input_finished := by
  unfold work at hw
  have hin2 : ¬ t.has_input = true := by simp [hin]
  simp only [if_neg hin2] at hw
  split_ifs at hw with h1 h2 h3
  · simp only [Except.ok.injEq] at hw
    rw [← hw]
    exact ⟨hin, rfl⟩
  · obtain ⟨tm, hsteps, hr⟩ := prepareBucketOutputBlocks_steps env t
    have hsc := dsteps_sameControl hsteps
    rcases hr with ⟨e, he⟩ | ⟨v, rb, rr, hok⟩
    · rw [he] at hw
      cases hw
    · rw [hok] at hw
      simp only [Except.ok.injEq] at hw
      rw [← hw, popOneChunk]
      have hf := popFrom_fields ({ ({ tm with
          current_final_blocks := env.convertToBlocks v true
          log := tm.log ++ [.prepareOutput tm.current_bucket_index rb rr] } : Transform ρ σ) with
        current_bucket_index := tm.current_bucket_index + 1
        current_data_variants := none } : Transform ρ σ) (env.convertToBlocks v true)
      exact ⟨hf.2.2.1.trans (hsc.2.1.trans hin), hf.2.2.2.trans hsc.2.2.2.1⟩
  · simp only [Except.ok.injEq] at hw
    rw [← hw, popOneChunk]
    have hf := popFrom_fields t t.current_final_blocks
    exact ⟨hf.2.2.1.trans hin, hf.2.2.2⟩

/-- A `work()` call that returns, made in the drain phase while a bucket or a final block
is left, either finishes the current bucket or pops a final block. -/
theorem work_drain_progress (env : Env ρ σ) (t t2 : Transform ρ σ)
    (hin : t.has_input = false) (hdone : t.input_finished = true)
    (hmore : t.current_bucket_index < getBucketsNum t ∨ t.current_final_blocks ≠ [])
    (hw : work env t = .ok t2) :
    (t2.current_bucket_index = t.current_bucket_index + 1 ∧
      t.current_bucket_index < getBucketsNum t) ∨
    (t2.current_bucket_index = t.current_bucket_index ∧
      t2.current_final_blocks.length < t.current_final_blocks.length ∧
      (t.has_output = false → drainSteps t2 < drainSteps t)) := by
  rcases (work_index env t).1 t2 hw with ⟨hs, hc, -⟩ | ⟨hs, hc, -⟩
  · exact Or.inl ⟨hc, hs.2.2⟩
  · right
    have hne : t.current_final_blocks ≠ [] := by
      intro he
      rcases hmore with h | h
      · exact hs ⟨hin, by rw [he]; rfl, h⟩
      · exact h he
    rw [work_pop env t hin hdone hne] at hw
    simp only [Except.ok.injEq] at hw
    rw [← hw, popOneChunk]
    refine ⟨(popFrom_frame t _).2.2, popFrom_length t _ hne, fun hout => ?_⟩
    have h1 := popFrom_drainSteps t t.current_final_blocks hout
    have h2 : 0 < t.current_final_blocks.length := List.length_pos.2 hne
    simp only [drainSteps, hout] at h1 ⊢
    simp only [Bool.false_eq_true, if_false] at h1 ⊢
    omega

/-- With no input pending, a round of the executor calls `prepare()` on some input port
and on the output port made pushable. -/
theorem run_drain_any (env : Env ρ σ) (t : Transform ρ σ) (input : InputPort ρ)
    (output : OutputPort ρ) :
    ∃ fed : InputPort ρ, ∀ n, run env (n + 1) [] t input output =
      (let (status, t, input, output) := prepare t fed { output with can_push := true }
      match status with
      | .Finished => .ok (some output.pushed)
      | .Ready =>
        match work env t with
        | .error e => .error e
        | .ok t => run env n [] t input output
      | _ => run env n [] t input output) := by
  cases hd : input.data with
  | none => exact ⟨{ input with finished := true }, fun n => run_drain env n t input output hd⟩
  | some d =>
    refine ⟨input, fun n => ?_⟩
    rw [run_succ]
    simp only [hd]

/-- One round of the executor in the drain phase: the run ends, or it goes on from a
drain-phase state that is nearer to the end. -/
theorem drain_round (env : Env ρ σ) (t : Transform ρ σ) (input : InputPort ρ)
    (output : OutputPort ρ) (hcount : BucketCountOk env t) (hin : t.has_input = false)
    (hdone : t.input_finished = true) :
    (∃ r : RunResult ρ σ, r ≠ .ok none ∧ ∀ n, run env (n + 1) [] t input output = r) ∨
    ∃ t2 input2 output2,
      (∀ n, run env (n + 1) [] t input output = run env n [] t2 input2 output2) ∧
      BucketCountOk env t2 ∧ t2.has_input = false ∧ t2.input_finished = true ∧
      ((t2.current_bucket_index = t.current_bucket_index + 1 ∧
          t.current_bucket_index < getBucketsNum t) ∨
        (t2.current_bucket_index = t.current_bucket_index ∧ drainSteps t2 < drainSteps t)) := by
  obtain ⟨fed, hrun⟩ := run_drain_any env t input output
  by_cases hfin : output.finished = true
  · refine Or.inl ⟨.ok (some output.pushed), (fun h => nomatch h), fun n => ?_⟩
    rw [hrun n, prepare_closed t fed { output with can_push := true } hfin]
  · have hfin2 : output.finished = false := by simpa using hfin
    cases hout : t.has_output with
    | true =>
      refine Or.inr ⟨{ t with
          total_output_rows := t.total_output_rows + t.output_chunk.length
          total_output_blocks := t.total_output_blocks + 1
          output_chunk := []
          has_output := false }, fed,
        { output with pushed := output.pushed ++ [t.output_chunk], can_push := false },
        fun n => ?_, bucketCountOk_of_same hcount rfl rfl, hin, hdone, Or.inr ⟨rfl, ?_⟩⟩
      · rw [hrun n, prepare_push t fed { output with can_push := true } hfin2 hout rfl]
      · simp [drainSteps, hout]
    | false =>
      by_cases hmore : t.current_bucket_index < getBucketsNum t ∨ t.current_final_blocks ≠ []
      · have hp := prepare_ready_drain t fed { output with can_push := true } hfin2 hout hin
          hdone hmore
        cases hw : work env t with
        | error e =>
          refine Or.inl ⟨.error e, (fun h => nomatch h), fun n => ?_⟩
          rw [hrun n, hp]
          simp only [hw]
        | ok t2 =>
          have hsteps := work_steps env t
          rw [hw] at hsteps
          have hflags := work_drain_flags env t t2 hin hw
          refine Or.inr ⟨t2, fed, { output with can_push := true }, fun n => ?_,
            tsteps_bucketCountOk hsteps hcount, hflags.1, hflags.2.trans hdone, ?_⟩
          · rw [hrun n, hp]
            simp only [hw]
          · rcases work_drain_progress env t t2 hin hdone hmore hw with h | ⟨h1, -, h3⟩
            · exact Or.inl h
            · exact Or.inr ⟨h1, h3 hout⟩
      · have h1 : getBucketsNum t ≤ t.current_bucket_index := by
          by_contra h
          exact hmore (Or.inl (Nat.not_le.1 h))
        have h2 : t.current_final_blocks = [] := by
          by_contra h
          exact hmore (Or.inr h)
        refine Or.inl ⟨.ok (some output.pushed), (fun h => nomatch h), fun n => ?_⟩
        rw [hrun n, prepare_finish t fed { output with can_push := true } hfin2 hout hin hdone
          h1 h2]

/-- From any drain-phase state whose bucket count is in order, the executor ends the run
after finitely many rounds. -/
theorem drain_ends (env : Env ρ σ) :
    ∀ (k j : Nat) (t : Transform ρ σ) (input : InputPort ρ) (output : OutputPort ρ),
      BucketCountOk env t → t.has_input = false → t.input_finished = true →
      max 1 env.max_buckets - t.current_bucket_index ≤ k → drainSteps t ≤ j →
      ∃ rounds, run env rounds [] t input output ≠ .ok none := by
  intro k
  induction k using Nat.strong_induction_on with
  | _ k ihk =>
    intro j
    induction j using Nat.strong_induction_on with
    | _ j ihj =>
      intro t input output hcount hin hdone hk hj
      have hB := bucketsNum_le_max hcount
      rcases drain_round env t input output hcount hin hdone
        with ⟨r, hr, hrun⟩ | ⟨t2, input2, output2, hrun, hcount2, hin2, hdone2, hmeas⟩
      · exact ⟨1, by rw [hrun 0]; exact hr⟩
      · have hnext : ∃ rounds, run env rounds [] t2 input2 output2 ≠ .ok none := by
          rcases hmeas with ⟨hc2, hlt⟩ | ⟨hc2, hlt⟩
          · exact ihk (max 1 env.max_buckets - t2.current_bucket_index) (by omega)
              (drainSteps t2) t2 input2 output2 hcount2 hin2 hdone2 (Nat.le_refl _)
              (Nat.le_refl _)
          · exact ihj (drainSteps t2) (by omega) t2 input2 output2 hcount2 hin2 hdone2
              (by rw [hc2]; exact hk) (Nat.le_refl _)
        obtain ⟨rounds, hres⟩ := hnext
        exact ⟨rounds + 1, by rw [hrun rounds]; exact hres⟩

theorem risingEnded_live : Live risingEnv risingEnded :=
  Live.prepare risingMerged finishedInput OutputPort.start
    (Live.work risingTaken risingMerged
      (Live.prepare (Transform.init risingEnv)
        { finished := false, data := some [1, 2], needed := false, closed := false }
        OutputPort.start Live.init)
      rfl)

theorem rehashDataVariants_start (env : Env ρ σ) (t : Transform ρ σ) (variants : σ)
    (hv : t.current_data_variants = some variants) :
    rehashDataVariants env t =
      forBlocks (rehashBlock env) (env.convertToBlocks variants false)
        (rehashStart env t variants) := by
  unfold rehashDataVariants rehashStart
  rw [hv]

theorem prepareBucketOutputBlocks_ensure (env : Env ρ σ) (t : Transform ρ σ) :
    prepareBucketOutputBlocks env t =
      match replayStream env (ensureVariants env t) with
      | .error e => .error e
      | .ok (t, read_bytes, read_rows) =>
        match replayQueue env t with
        | .error e => .error e
        | .ok t =>
          match t.current_data_variants with
          | none => .error (.nullPointer, t)
          | some variants =>
            .ok { t with
              current_final_blocks := env.convertToBlocks variants true
              log := t.log ++ [.prepareOutput t.current_bucket_index read_bytes read_rows] } :=
  rfl

theorem rehashStart_frame (env : Env ρ σ) (t : Transform ρ σ) (variants : σ) :
    (rehashStart env t variants).buckets = t.buckets ∧
    (rehashStart env t variants).current_bucket_index = t.current_bucket_index ∧
    (rehashStart env t variants).current_data_variants = some env.emptyVariants ∧
    (rehashStart env t variants).no_more_keys = false := by
  unfold rehashStart
  by_cases h : ((env.convertToBlocks variants false).map fun block => block.rows.length).sum ≠ 0
  · simp only [if_pos h]
    exact ⟨trivial, trivial, trivial, trivial⟩
  · simp only [if_neg h]
    exact ⟨trivial, trivial, trivial, trivial⟩

/-- A block whose rows all hash to the current bucket modulo a divisor of the bucket
count is scattered into sub-batches of which those before the current bucket are
without rows. -/
theorem scatterBlock_below (env : Env ρ σ) (s : Transform ρ σ) (blk : Block ρ) (n : Nat)
    (hdvd : n ∣ getBucketsNum s)
    (hhash : ∀ r ∈ blk.rows, env.hash r % n = s.current_bucket_index)
    (htag : toSizeT blk.bucket_num ≠ getBucketsNum s) : NoBackwardRows env s blk := by
  intro b sub hb hsub
  by_cases hrows : blk.rows = []
  · simp [scatterBlock, hrows] at hsub
  · by_cases hlt : b < getBucketsNum s
    · rw [scatterBlock_parts env s blk hrows htag b hlt] at hsub
      simp only [Option.some.injEq] at hsub
      rw [← hsub]
      simp only [List.filter_eq_nil_iff, beq_iff_eq]
      intro r hr heq
      have := le_mod_of_mod_eq hdvd (hhash r hr)
      omega
    · exfalso
      have h1 : ¬ blk.rows.length = 0 := by simpa using hrows
      simp only [scatterBlock, if_neg h1, if_neg htag, scatterBlockByHash, List.map_map,
        List.getElem?_map] at hsub
      rw [List.getElem?_eq_none (by simpa using Nat.le_of_not_lt hlt)] at hsub
      cases hsub

/-- The scatter calls of `rehashDataVariants`, made for a state that holds rows of the
current bucket under a divisor of the bucket count: the loop keeps the bucket count and
the current index, and no converted block has rows for an earlier bucket. -/
theorem rehashScatters_below {env : Env ρ σ} (laws : SoundAggregator env)
    (t : Transform ρ σ) (X : List ρ) (hH : Holds env t X)
    (hc : t.current_bucket_index < getBucketsNum t) (hsmall : getBucketsNum t < 2 ^ 31)
    (n : Nat) (hdvd : n ∣ getBucketsNum t)
    (hhome : ∀ x ∈ X, env.hash x % n = t.current_bucket_index)
    (hpow : ∃ k, 1 ≤ k ∧ 2 ^ k ≤ env.max_buckets ∧ getBucketsNum t = 2 ^ k)
    (s : Transform ρ σ) (blk : Block ρ) (h : RehashScatters env t s blk) :
    NoBackwardRows env s blk ∧ s.current_bucket_index = t.current_bucket_index := by
  obtain ⟨v, pre, post, hv, hconv, hfor⟩ := h
  have hvX : v = mergedRows env X env.emptyVariants := by
    have := hH.1
    rw [hv] at this
    exact Option.some.inj this
  subst hvX
  obtain ⟨k, hk1, hk2, hk3⟩ := hpow
  have hblocks : ∀ block ∈ env.convertToBlocks (mergedRows env X env.emptyVariants) false,
      block.rows ≠ [] ∧ toSizeT block.bucket_num ≠ getBucketsNum t := by
    intro block hb
    obtain ⟨h1, h2⟩ := laws.partial_blocks (mergedRows env X env.emptyVariants) block hb
    exact ⟨h1, by rw [hk3]; exact h2 k hk1 hk2⟩
  obtain ⟨hf1, hf2, hf3, hf4⟩ := rehashStart_frame env t (mergedRows env X env.emptyVariants)
  have hB0 : getBucketsNum (rehashStart env t (mergedRows env X env.emptyVariants))
      = getBucketsNum t := by simp only [getBucketsNum, hf1]
  have hfresh : Holds env (rehashStart env t (mergedRows env X env.emptyVariants)) [] :=
    ⟨by rw [hf3, laws.merge_nil], hf4⟩
  obtain ⟨t2, h1, -, hB2, hc2, -⟩ := rehashBlocks_account laws pre
    (rehashStart env t (mergedRows env X env.emptyVariants)) [] hfresh
    (by rw [hf2, hB0]; exact hc) (by rw [hB0]; exact hsmall)
    (fun b hb => by
      rw [hB0]
      exact hblocks b (by rw [hconv]; exact List.mem_append_left _ hb))
  rw [hfor] at h1
  simp only [Except.ok.injEq] at h1
  subst h1
  have hBs : getBucketsNum s = getBucketsNum t := hB2.trans hB0
  have hcs : s.current_bucket_index = t.current_bucket_index := hc2.trans hf2
  obtain ⟨-, htag⟩ := hblocks blk (by rw [hconv]; simp)
  refine ⟨scatterBlock_below env s blk n (by rw [hBs]; exact hdvd) ?_ ?_, hcs⟩
  · intro r hr
    have hmem : r ∈ partialRows env (mergedRows env X env.emptyVariants) := by
      simp only [partialRows, rowsOf, hconv, List.mem_flatten, List.mem_map]
      exact ⟨blk.rows, ⟨blk, by simp, rfl⟩, hr⟩
    obtain ⟨x, hx, hrx⟩ := laws.partial_hash X r hmem
    rw [hrx, hcs]
    exact hhome x hx
  · rw [hBs]
    exact htag

/-- The two evaluations of the memory predicate in `mergeOneBlock`, with the flush
between them, keep what the aggregation state holds, the bucket count and the index. -/
theorem memoryChecks_account {env : Env ρ σ} (t : Transform ρ σ) (X : List ρ)
    (hI : BucketInv env t X) (o1 o2 : Bool) (t1 t2 : Transform ρ σ)
    (h1 : isMemoryOverflow env t = .ok (o1, t1))
    (h2 : isMemoryOverflow env (if o1 then flushBuckets env t1 else t1) = .ok (o2, t2)) :
    BucketInv env t2 X ∧ getBucketsNum t2 = getBucketsNum t ∧
    t2.current_bucket_index = t.current_bucket_index := by
  obtain ⟨b1, s1, e1, a1, a2, a3, a4⟩ := isMemoryOverflow_account env t _ hI.holds.1
  rw [h1] at e1
  simp only [Except.ok.injEq, Prod.mk.injEq] at e1
  obtain ⟨rfl, rfl⟩ := e1
  obtain ⟨hI1, -⟩ := bucketInv_congr hI a1 a2 a3 a4
  have hB1 : getBucketsNum t1 = getBucketsNum t := by simp only [getBucketsNum, a1]
  have hf : BucketInv env (if o1 = true then flushBuckets env t1 else t1) X ∧
      getBucketsNum (if o1 = true then flushBuckets env t1 else t1) = getBucketsNum t ∧
      (if o1 = true then flushBuckets env t1 else t1).current_bucket_index
        = t.current_bucket_index := by
    split_ifs
    · obtain ⟨f1, f2, f3, f4, -⟩ := flushBuckets_account env t1
      exact ⟨⟨⟨by rw [f2]; exact hI1.holds.1, by rw [f3]; exact hI1.holds.2⟩,
        by rw [f1, f4]; exact hI1.index, by rw [f4]; exact hI1.small,
        by rw [f1, f4]; exact hI1.home, by rw [f4]; exact hI1.pow⟩,
        by rw [f4, hB1], by rw [f1, a2]⟩
    · exact ⟨hI1, hB1, a2⟩
  generalize (if o1 = true then flushBuckets env t1 else t1) = tf at hf h2
  obtain ⟨hIf, hBf, hcf⟩ := hf
  obtain ⟨b2, s2, e2, c1, c2, c3, c4⟩ := isMemoryOverflow_account env tf _ hIf.holds.1
  rw [h2] at e2
  simp only [Except.ok.injEq, Prod.mk.injEq] at e2
  obtain ⟨rfl, rfl⟩ := e2
  obtain ⟨hI2, -⟩ := bucketInv_congr hIf c1 c2 c3 c4
  exact ⟨hI2, by simp only [getBucketsNum, c1]; exact hBf, by rw [c2, hcf]⟩

/-- What `mergeOneBlock` has done when it reaches its last statement: the state holds
rows of the current bucket only, the bucket count has stayed or doubled. -/
theorem beforeRoute_account {env : Env ρ σ} (laws : SoundAggregator env)
    (hmax : env.max_buckets < 2 ^ 31) (t : Transform ρ σ) (X : List ρ)
    (hI : BucketInv env t X) (mem_used : Nat) (s : Transform ρ σ)
    (h : beforeRoute env t = .ok (mem_used, s)) :
    ∃ X2, BucketInv env s X2 ∧ getBucketsNum t ∣ getBucketsNum s ∧
      s.current_bucket_index = t.current_bucket_index := by
  unfold beforeRoute at h
  cases e1 : isMemoryOverflow env t with
  | error e =>
    rw [e1] at h
    cases h
  | ok r1 =>
    obtain ⟨o1, t1⟩ := r1
    rw [e1] at h
    simp only [] at h
    cases e2 : isMemoryOverflow env (if o1 = true then flushBuckets env t1 else t1) with
    | error e =>
      rw [e2] at h
      cases h
    | ok r2 =>
      obtain ⟨o2, t2⟩ := r2
      rw [e2] at h
      simp only [] at h
      obtain ⟨hI2, hB2, hc2⟩ := memoryChecks_account t X hI o1 o2 t1 t2 e1 e2
      have hx : ∃ t3 X3, (if o2 = true then extendAndRehash env t2
            else (.ok t2 : Result ρ σ (Transform ρ σ))) = .ok t3 ∧ BucketInv env t3 X3 ∧
            getBucketsNum t ∣ getBucketsNum t3 ∧
            t3.current_bucket_index = t.current_bucket_index := by
        by_cases ho : o2 = true
        · rw [if_pos ho] at h ⊢
          rcases extendAndRehash_account laws hmax t2 X hI2
            with ⟨t3, h3⟩ | ⟨t3, X3, h3, h4, h5, h6, -⟩
          · rw [h3] at h
            cases h
          · exact ⟨t3, X3, h3, h4, by rw [h5, hB2]; exact Dvd.intro_left 2 rfl,
              by rw [h6, hc2]⟩
        · rw [if_neg ho]
          exact ⟨t2, X, rfl, hI2, by rw [hB2], hc2⟩
      obtain ⟨t3, X3, h3, hI3, hd3, hc3⟩ := hx
      rw [h3] at h
      simp only [Except.ok.injEq] at h
      have hs : s = (getMemoryUsage env t3).2 := by rw [h]
      have hsplit : (getMemoryUsage env t3).2 = { t3 with mem_queries := t3.mem_queries + 1 } :=
        rfl
      rw [hs, hsplit]
      exact ⟨X3, ⟨hI3.holds, hI3.index, hI3.small, hI3.home, hI3.pow⟩, hd3, hc3⟩

/-- The scatter calls of one `mergeOneBlock` call, made for a block that fits the
current bucket while the aggregation state holds rows of the current bucket only: each
is made under the current index of the call, and none of the scattered blocks has rows
for an earlier bucket. -/
theorem mergeScatters_below {env : Env ρ σ} (laws : SoundAggregator env)
    (hmax : env.max_buckets < 2 ^ 31) (t : Transform ρ σ) (X : List ρ) (block : Block ρ)
    (hI : BucketInv env t X) (hfit : Fits env t block) (s : Transform ρ σ) (blk : Block ρ)
    (h : MergeScatters env t block s blk) :
    NoBackwardRows env s blk ∧ s.current_bucket_index = t.current_bucket_index := by
  cases h with
  | rehash o1 t1 t2 t3 _ _ hrows h1 h2 h3 h4 =>
    obtain ⟨hI2, hB2, hc2⟩ := memoryChecks_account t X hI o1 true t1 t2 h1 h2
    obtain ⟨e1, e2, e3, e4, e5, -⟩ := extendBuckets_account env t2 t3 h3 hI2.index
    have hH3 : Holds env t3 X :=
      ⟨by rw [e2]; exact hI2.holds.1, by rw [e3]; exact hI2.holds.2⟩
    obtain ⟨j, hj⟩ := hI2.pow
    obtain ⟨hnb, hcs⟩ := rehashScatters_below laws t3 X hH3
      (by rw [e1, e4]; have := hI2.index; omega) (by rw [e4]; omega) (getBucketsNum t2)
      (by rw [e4]; exact Dvd.intro_left 2 rfl) (by rw [e1]; exact hI2.home)
      ⟨j + 1, Nat.le_add_left 1 j, by rw [pow_succ, ← hj]; omega, by rw [e4, hj, pow_succ]; omega⟩
      s blk h4
    exact ⟨hnb, by rw [hcs, e1, hc2]⟩
  | route mem_used t1 _ hrows h1 h2 h3 =>
    obtain ⟨X2, hI1, hd, hc⟩ := beforeRoute_account laws hmax t X hI mem_used t1 h1
    subst h2
    obtain ⟨n, hn1, hn2, hn3⟩ := hfit
    have hB : getBucketsNum ({ t1 with log := t1.log ++ [.mergeOnBlock block.rows.length
        (env.bytes block) block.bucket_num t1.current_bucket_index (getBucketsNum t1)
        mem_used] } : Transform ρ σ) = getBucketsNum t1 := rfl
    rw [hB] at h3
    refine ⟨scatterBlock_below env _ block n (Nat.dvd_trans hn1 hd) ?_ ?_, hc⟩
    · intro r hr
      exact (hn3 r hr).trans hc.symm
    · rw [hB]
      have hsmall := hI1.small
      rcases hn2 with hneg | hn
      · rw [hneg, toSizeT_neg_one]
        omega
      · have hpos : 0 < getBucketsNum t1 := by
          have := hI1.index
          omega
        have hle : n ≤ getBucketsNum t1 := Nat.le_of_dvd hpos (Nat.dvd_trans hn1 hd)
        rw [hn, toSizeT_natCast (by omega)]
        intro heq
        apply h3
        left
        rw [hn, toInt32_of_lt hsmall, heq]

theorem mem_of_mem_readStream {written : List (Block ρ)} {block : Block ρ}
    (h : block ∈ readStream written) : block ∈ written :=
  (List.takeWhile_prefix _).subset h

/-- The scatter calls of one `prepareBucketOutputBlocks` call, made for a bucket whose
stored blocks fit it: each is made under the index of that bucket, and none of the
scattered blocks has rows for an earlier bucket. -/
theorem prepareScatters_below {env : Env ρ σ} (laws : SoundAggregator env)
    (hmax : env.max_buckets < 2 ^ 31) (t : Transform ρ σ) (X : List ρ)
    (hst : (t.current_data_variants = none ∧ X = []) ∨ Holds env t X)
    (hc : t.current_bucket_index < getBucketsNum t) (hsmall : getBucketsNum t < 2 ^ 31)
    (hhome : ∀ x ∈ X, env.hash x % getBucketsNum t = t.current_bucket_index)
    (hpow : ∃ k, getBucketsNum t = 2 ^ k)
    (hclean : CleanStream (bucketAt t t.current_bucket_index))
    (hfit : ∀ block ∈ storedBlocks (bucketAt t t.current_bucket_index), Fits env t block)
    (s : Transform ρ σ) (blk : Block ρ) (h : PrepareScatters env t s blk) :
    NoBackwardRows env s blk ∧ s.current_bucket_index = t.current_bucket_index := by
  have h0 : ∃ t0, ensureVariants env t = t0 ∧ BucketInv env t0 X ∧ t0.buckets = t.buckets ∧
      t0.current_bucket_index = t.current_bucket_index := by
    rcases hst with ⟨hnone, hX⟩ | hholds
    · refine ⟨{ t with current_data_variants := some env.emptyVariants, no_more_keys := false },
        ?_, ⟨⟨?_, rfl⟩, hc, hsmall, hhome, hpow⟩, rfl, rfl⟩
      · unfold ensureVariants
        rw [hnone]
        rfl
      · rw [hX, laws.merge_nil]
    · refine ⟨t, ?_, ⟨hholds, hc, hsmall, hhome, hpow⟩, rfl, rfl⟩
      unfold ensureVariants
      rw [hholds.1]
      simp
  obtain ⟨t0, ht0, hI0, hb0, hc0⟩ := h0
  have hB0 : getBucketsNum t0 = getBucketsNum t := by simp only [getBucketsNum, hb0]
  have hat0 : ∀ j, bucketAt t0 j = bucketAt t j := fun j => by simp only [bucketAt, hb0]
  have hfit0 : ∀ block ∈ storedBlocks (bucketAt t t.current_bucket_index), Fits env t0 block :=
    fun block hb => fits_of_dvd (hfit block hb) hc0 (by rw [hB0])
  cases h with
  | stream written pre post block tk _ _ h1 h2 h3 h4 =>
    rw [ht0] at h1 h3
    rw [hc0, hat0] at h1
    have hin : ∀ b ∈ readStream written, Fits env t0 b := by
      intro b hb
      apply hfit0
      simp only [storedBlocks, h1, Option.getD_some]
      exact List.mem_append_left _ (mem_of_mem_readStream hb)
    rcases mergeBlocks_account laws hmax pre t0 X hI0
        (fun b hb => hin b (by rw [h2]; exact List.mem_append_left _ hb))
      with ⟨t2, e⟩ | ⟨t2, X2, e, hI2, hd2, hc2, -⟩
    · rw [h3] at e
      cases e
    · rw [h3] at e
      simp only [Except.ok.injEq] at e
      subst e
      have hfitk : Fits env tk block := fits_of_dvd (hin block (by rw [h2]; simp)) hc2 hd2
      obtain ⟨hnb, hcs⟩ := mergeScatters_below laws hmax tk X2 block hI2 hfitk s blk h4
      exact ⟨hnb, by rw [hcs, hc2, hc0]⟩
  | queue t1 rb rr pre post block tk _ _ h1 h2 h3 h4 =>
    rw [ht0] at h1
    rcases replayStream_account laws hmax t0 X hI0 (by rw [hc0, hat0]; exact hclean)
        (fun b hb => hfit0 b (by
          rw [hc0, hat0] at hb
          exact List.mem_append_left _ hb))
      with ⟨t2, e⟩ | ⟨t2, X1, rb2, rr2, e, hI1, -, hd1, -⟩
    · rw [h1] at e
      cases e
    · rw [h1] at e
      simp only [Except.ok.injEq, Prod.mk.injEq] at e
      obtain ⟨rfl, -, -⟩ := e
      obtain ⟨hc1, hqueue⟩ := replayStream_keeps_queue env t0 t1 rb rr h1
      rw [hc1, hqueue, hc0, hat0] at h2
      have hin : ∀ b ∈ pre ++ block :: post, Fits env t1 b := by
        intro b hb
        rw [← h2] at hb
        exact fits_of_dvd (hfit0 b (List.mem_append_right _ hb)) hc1 hd1
      rw [hc1] at h3
      rcases replayBlocks_account laws hmax t0.current_bucket_index pre 0 t1 X1 hc1 hI1
          (fun b hb => hin b (List.mem_append_left _ hb))
        with ⟨t2, e⟩ | ⟨t2, X2, e, hI2, hd2, hc2, -⟩
      · rw [h3] at e
        cases e
      · rw [h3] at e
        simp only [Except.ok.injEq] at e
        subst e
        have hfitk : Fits env tk block := fits_of_dvd (hin block (by simp)) hc2 hd2
        obtain ⟨hnb, hcs⟩ := mergeScatters_below laws hmax tk X2 block hI2 hfitk s blk h4
        exact ⟨hnb, by rw [hcs, hc2, hc1, hc0]⟩

/-- The scatter calls of one `work()` call, made in a state in which the stored blocks
are sound for their buckets, an input chunk is held only while bucket 0 is the current
one, and the aggregation state, when there is one, holds rows of the current bucket
only. -/
theorem workScatters_below {env : Env ρ σ} (laws : SoundAggregator env)
    (hmax : env.max_buckets < 2 ^ 31) (t : Transform ρ σ) (htag : TagInv env t)
    (hrows : RowsInv t)
    (hingest : t.has_input = true → t.current_bucket_index = 0 ∧ ∃ X, BucketInv env t X)
    (hdrain : t.has_input = false →
      t.current_data_variants = none ∨ ∃ X, BucketInv env t X)
    (s : Transform ρ σ) (blk : Block ρ) (h : WorkScatters env t s blk) :
    NoBackwardRows env s blk ∧ s.current_bucket_index = t.current_bucket_index := by
  cases h with
  | ingest h1 h2 h3 =>
    obtain ⟨hc, X, hI⟩ := hingest h1
    have hI2 : BucketInv env ({ t with input_chunk := [] } : Transform ρ σ) X :=
      ⟨hI.holds, hI.index, hI.small, hI.home, hI.pow⟩
    have hfit : Fits env ({ t with input_chunk := [] } : Transform ρ σ)
        { rows := t.input_chunk } :=
      ⟨1, Nat.one_dvd _, Or.inl rfl, fun r _ => by
        show env.hash r % 1 = t.current_bucket_index
        rw [hc, Nat.mod_one]⟩
    exact mergeScatters_below laws hmax _ X _ hI2 hfit s blk h3
  | drain h1 h2 h3 h4 h5 =>
    have hc : t.current_bucket_index < getBucketsNum t := Nat.lt_of_not_le h4
    have hsmall := bucketCountOk_lt_pow htag.count hmax
    have hclean := cleanStream_bucketAt hrows.clean t.current_bucket_index
    have hfit : ∀ block ∈ storedBlocks (bucketAt t t.current_bucket_index),
        Fits env t block := by
      intro block hb
      obtain ⟨n, hn1, hn2, hn3⟩ := htag.sound t.current_bucket_index (Nat.le_refl _) block hb
      exact ⟨n, hn2, Or.inr hn1, hn3⟩
    rcases hdrain h1 with hnone | ⟨X, hI⟩
    · exact prepareScatters_below laws hmax t [] (Or.inl ⟨hnone, rfl⟩) hc hsmall
        (fun x hx => nomatch hx) ⟨_, htag.count.1⟩ hclean hfit s blk h5
    · exact prepareScatters_below laws hmax t X (Or.inr hI.holds) hc hsmall hI.home
        ⟨_, htag.count.1⟩ hclean hfit s blk h5

theorem running_live {env : Env ρ σ} {t : Transform ρ σ} (h : Running env t) : Live env t := by
  induction h with
  | init => exact Live.init
  | idle t input output _ _ ih => exact Live.prepare t input output ih
  | round t t2 input output _ _ hw ih =>
    exact Live.work _ t2 (Live.prepare t input output ih) hw

/-- A `prepare()` call leaves the buckets, the current index and the aggregation state
alone. -/
theorem prepare_core (t : Transform ρ σ) (input : InputPort ρ) (output : OutputPort ρ) :
    (prepare t input output).2.1.buckets = t.buckets ∧
    (prepare t input output).2.1.current_bucket_index = t.current_bucket_index ∧
    (prepare t input output).2.1.current_data_variants = t.current_data_variants ∧
    (prepare t input output).2.1.no_more_keys = t.no_more_keys := by
  unfold prepare
  split_ifs <;> first | exact ⟨rfl, rfl, rfl, rfl⟩ | (split <;> exact ⟨rfl, rfl, rfl, rfl⟩)

/-- What a `prepare()` call made while no input chunk is held does to the control
flags: unless it returns `Ready` no chunk is held afterwards and `input_finished` is as
before; when it returns `Ready` it has taken a chunk before the end of the input, or the
input has finished. -/
theorem prepare_control (t : Transform ρ σ) (input : InputPort ρ) (output : OutputPort ρ)
    (hin : t.has_input = false) :
    ((prepare t input output).1 ≠ .Ready →
      (prepare t input output).2.1.has_input = false ∧
      (prepare t input output).2.1.input_finished = t.input_finished) ∧
    ((prepare t input output).1 = .Ready →
      ((prepare t input output).2.1.has_input = true ∧ t.input_finished = false) ∨
      ((prepare t input output).2.1.has_input = false ∧
        (prepare t input output).2.1.input_finished = true)) := by
  cases h1 : output.finished <;> cases h2 : t.has_output <;> cases h3 : output.can_push <;>
    cases h5 : t.input_finished <;> cases h6 : input.finished <;>
    cases h7 : input.data <;>
    simp [prepare, h1, h2, h3, hin, h5, h6, h7] <;> split_ifs <;> simp_all

/-- What a returning `work()` call made while no input chunk is held does to the
aggregation state: it is null afterwards, or it is as before, with the buckets and the
current index. -/
theorem work_drain_state (env : Env ρ σ) (t t2 : Transform ρ σ) (hin : t.has_input = false)
    (hw : work env t = .ok t2) :
    t2.current_data_variants = none ∨
    (t2.buckets = t.buckets ∧ t2.current_bucket_index = t.current_bucket_index ∧
      t2.current_data_variants = t.current_data_variants ∧
      t2.no_more_keys = t.no_more_keys) := by
  unfold work at hw
  have hin2 : ¬ t.has_input = true := by simp [hin]
  simp only [if_neg hin2] at hw
  split_ifs at hw with h1 h2 h3
  · simp only [Except.ok.injEq] at hw
    rw [← hw]
    exact Or.inr ⟨rfl, rfl, rfl, rfl⟩
  · left
    cases hp : prepareBucketOutputBlocks env t with
    | error e =>
      rw [hp] at hw
      cases hw
    | ok tm =>
      rw [hp] at hw
      simp only [Except.ok.injEq] at hw
      rw [← hw, popOneChunk]
      exact (popFrom_fields _ _).1
  · right
    simp only [Except.ok.injEq] at hw
    rw [← hw, popOneChunk]
    have hf := popFrom_fields t t.current_final_blocks
    have hg := popFrom_frame t t.current_final_blocks
    exact ⟨hg.1, hg.2.2, hf.1, hf.2.1⟩

theorem runInv_of_same {env : Env ρ σ} {t t2 : Transform ρ σ} (h : RunInv env t)
    (hin : t2.has_input = false) (hb : t2.buckets = t.buckets)
    (hc : t2.current_bucket_index = t.current_bucket_index)
    (hv : t2.current_data_variants = t.current_data_variants)
    (hk : t2.no_more_keys = t.no_more_keys)
    (hd : t.input_finished = true → t2.input_finished = true) : RunInv env t2 where
  idle := hin
  state := by
    rcases h.state with hnone | ⟨X, hI⟩
    · exact Or.inl (hv.trans hnone)
    · exact Or.inr ⟨X, (bucketInv_congr hI hb hc hv hk).1⟩
  phase := by
    rcases h.phase with hdone | ⟨h0, X, hI⟩
    · exact Or.inl (hd hdone)
    · exact Or.inr ⟨hc.trans h0, X, (bucketInv_congr hI hb hc hv hk).1⟩

/-- The invariant of the rounds holds in every state of an operator driven by the
protocol. -/
theorem running_runInv {env : Env ρ σ} (laws : SoundAggregator env)
    (hmax : env.max_buckets < 2 ^ 31) {t : Transform ρ σ} (h : Running env t) :
    RunInv env t := by
  induction h with
  | init =>
    have hI : BucketInv env (Transform.init env) [] := (init_ingestInv laws).inv
    exact ⟨rfl, Or.inr ⟨[], hI⟩, Or.inr ⟨rfl, [], hI⟩⟩
  | idle t input output _ hs ih =>
    obtain ⟨c1, c2, c3, c4⟩ := prepare_core t input output
    obtain ⟨k1, k2⟩ := (prepare_control t input output ih.idle).1 hs
    exact runInv_of_same ih k1 c1 c2 c3 c4 (fun hd => by rw [k2]; exact hd)
  | round t t2 input output _ hs hw ih =>
    obtain ⟨c1, c2, c3, c4⟩ := prepare_core t input output
    rcases (prepare_control t input output ih.idle).2 hs with ⟨k1, k2⟩ | ⟨k1, k2⟩
    · have hph : t.current_bucket_index = 0 ∧ ∃ X, BucketInv env t X := by
        rcases ih.phase with hdone | hph
        · rw [k2] at hdone
          cases hdone
        · exact hph
      obtain ⟨h0, X, hI⟩ := hph
      have hI1 := (bucketInv_congr hI c1 c2 c3 c4).1
      have hI2 : BucketInv env
          ({ (prepare t input output).2.1 with input_chunk := [] } : Transform ρ σ) X :=
        ⟨hI1.holds, hI1.index, hI1.small, hI1.home, hI1.pow⟩
      have hfit : Fits env
          ({ (prepare t input output).2.1 with input_chunk := [] } : Transform ρ σ)
          { rows := (prepare t input output).2.1.input_chunk } :=
        ⟨1, Nat.one_dvd _, Or.inl rfl, fun r _ => by
          show env.hash r % 1 = (prepare t input output).2.1.current_bucket_index
          rw [c2, h0, Nat.mod_one]⟩
      unfold work at hw
      simp only [if_pos k1] at hw
      split_ifs at hw
      rcases mergeOneBlock_account laws hmax _ X _ hI2 hfit
        with ⟨tm, e⟩ | ⟨tm, X2, e, hIm, -, hcm, -⟩
      · rw [e] at hw
        cases hw
      · rw [e] at hw
        simp only [Except.ok.injEq] at hw
        rw [← hw]
        have hIm2 : BucketInv env ({ tm with has_input := false } : Transform ρ σ) X2 :=
          ⟨hIm.holds, hIm.index, hIm.small, hIm.home, hIm.pow⟩
        exact ⟨rfl, Or.inr ⟨X2, hIm2⟩, Or.inr ⟨hcm.trans (c2.trans h0), X2, hIm2⟩⟩
    · have hflags := work_drain_flags env _ t2 k1 hw
      have hdone : t2.input_finished = true := hflags.2.trans k2
      refine ⟨hflags.1, ?_, Or.inl hdone⟩
      rcases work_drain_state env _ t2 k1 hw with hnone | ⟨d1, d2, d3, d4⟩
      · exact Or.inl hnone
      · rcases ih.state with hn | ⟨X, hI⟩
        · exact Or.inl (d3.trans (c3.trans hn))
        · exact Or.inr ⟨X, (bucketInv_congr hI (d1.trans c1) (d2.trans c2) (d3.trans c3)
            (d4.trans c4)).1⟩

/-- No state change touches a bucket before the current one, and the current index does
not go down. -/
theorem tstep_bucket_lt {env : Env ρ σ} {t t2 : Transform ρ σ} (h : TStep env t t2) :
    t.current_bucket_index ≤ t2.current_bucket_index ∧
    ∀ i, i < t.current_bucket_index → bucketAt t2 i = bucketAt t i := by
  cases h
  case inner hstep =>
    exact ⟨Nat.le_of_eq (dsteps_sameControl (Relation.ReflTransGen.single hstep)).1.symm,
      fun i hi => dstep_bucket_lt hstep i hi⟩
  case takeInput => exact ⟨Nat.le_refl _, fun _ _ => rfl⟩
  case doneInput => exact ⟨Nat.le_refl _, fun _ _ => rfl⟩
  case finalize => exact ⟨Nat.le_succ _, fun _ _ => rfl⟩
  case pop =>
    have hf := popFrom_frame t t.current_final_blocks
    exact ⟨Nat.le_of_eq hf.2.2.symm, fun i _ => by simp only [bucketAt, popOneChunk, hf.1]⟩
  case prepare input output =>
    have hf := prepare_frame t input output
    exact ⟨Nat.le_of_eq hf.2.2.symm, fun i _ => by simp only [bucketAt, hf.1]⟩

theorem tsteps_bucket_lt {env : Env ρ σ} {t t2 : Transform ρ σ} (h : TSteps env t t2) :
    t.current_bucket_index ≤ t2.current_bucket_index ∧
    ∀ i, i < t.current_bucket_index → bucketAt t2 i = bucketAt t i := by
  induction h with
  | refl => exact ⟨Nat.le_refl _, fun _ _ => rfl⟩
  | tail _ hstep ih =>
    obtain ⟨h1, h2⟩ := tstep_bucket_lt hstep
    exact ⟨ih.1.trans h1, fun i hi => (h2 i (Nat.lt_of_lt_of_le hi ih.1)).trans (ih.2 i hi)⟩

set_option maxRecDepth 16384 in
theorem risingPushed_running : Running risingEnv risingPushed :=
  Running.idle risingFirstDone finishedInput { OutputPort.start with can_push := true }
    (Running.round risingMerged risingFirstDone finishedInput OutputPort.start
      (Running.round (Transform.init risingEnv) risingMerged
        { finished := false, data := some [1, 2], needed := false, closed := false }
        OutputPort.start Running.init rfl rfl)
      rfl rfl)
    (by decide)

set_option maxRecDepth 16384 in
/-- In the example run the `work()` call that drains bucket 1 scatters the block queued
there, which carries the former bucket count 2. -/
theorem risingPushed_scatters :
    WorkScatters risingEnv (prepare risingPushed finishedInput OutputPort.start).2.1
      risingScatter { rows := [1], bucket_num := 2 } :=
  WorkScatters.drain _ _ rfl (by decide) rfl (by decide)
    (PrepareScatters.queue risingReplay 0 0 [] [] { rows := [1], bucket_num := 2 }
      risingReplay _ _ rfl rfl rfl
      (MergeScatters.route risingRouted.1 risingRouted.2 _ (by decide) rfl rfl (by decide)))

set_option maxRecDepth 16384 in
/-- That scatter is over four buckets, and key 1 goes to bucket 1. -/
theorem risingScatter_parts :
    (prepare risingPushed finishedInput OutputPort.start).1 = .Ready ∧
    risingScatter.current_bucket_index = 1 ∧
    (scatterBlock risingEnv risingScatter { rows := [1], bucket_num := 2 }).map Block.rows
      = [[], [1], [], []] :=
  ⟨rfl, rfl, rfl⟩

/-- The aggregator of the example keeps the contract. -/
theorem taggingEnv_lawful : LawfulAggregator taggingEnv :=
  lawful_of_rows
    (distinctEnv_lawful (fun n => if n = 1 ∨ 10 ≤ n then 100 else 0) 100 8) rfl rfl rfl
    (fun v f => by
      rw [distinct_rowsOf]
      simp only [taggingEnv]
      split_ifs with h
      · rw [List.isEmpty_iff.1 h]
        rfl
      · simp [rowsOf])

set_option maxRecDepth 100000 in
theorem taggedPushed_running : Running taggingEnv taggedPushed :=
  Running.idle taggedFirstDone finishedInput { OutputPort.start with can_push := true }
    (Running.round taggedSecond taggedFirstDone finishedInput OutputPort.start
      (Running.round taggedMerged taggedSecond
        { finished := false, data := some [3], needed := false, closed := false }
        OutputPort.start
        (Running.round (Transform.init taggingEnv) taggedMerged
          { finished := false, data := some [1, 2], needed := false, closed := false }
          OutputPort.start Running.init rfl rfl)
        rfl rfl)
      rfl rfl)
    (by decide)

set_option maxRecDepth 100000 in
/-- In the example run the `work()` call that drains bucket 1 extends the buckets to
four while it replays the second queued block, and `rehashDataVariants` scatters the
block converted from the aggregation state, which carries the tag 4. -/
theorem taggedPushed_scatters :
    WorkScatters taggingEnv (prepare taggedPushed finishedInput OutputPort.start).2.1
      taggedRehash { rows := [1], bucket_num := 4 } :=
  WorkScatters.drain _ _ rfl (by decide) rfl (by decide)
    (PrepareScatters.queue (ensureVariants taggingEnv taggedPushed) 0 0
      [{ rows := [1], bucket_num := 2 }] [] { rows := [3], bucket_num := 2 }
      taggedReplayed _ _ rfl rfl rfl
      (MergeScatters.rehash false taggedChecked taggedOverflow
        (outcome (extendBuckets taggingEnv taggedOverflow)) _ _ (by decide) rfl rfl rfl
        ⟨[1], [], [], rfl, rfl, rfl⟩))

end Theorems

end GraceMerging
